import Mathlib

/-!
# boot2dump: the crash-time storage write pipeline

A shallow embedding of the ext4 read path (`fs/ext4.c`), the dump writer
(`drivers/virtio_blk.c`) and the part of `main.c` that joins them.

Conventions of the embedding.

* A byte is a `Nat`; multi-byte fields are decoded little-endian with every
  byte reduced modulo 256.
* `uint64_t` / `size_t` arithmetic that can wrap carries an explicit
  `% U64`; the `uint32_t` descriptor length of a block request carries `% U32`.
* A disk is a function from absolute byte offset to byte; a memory region is a
  function from byte offset (relative to the region's base pointer) to byte.
* Code paths that halt the machine (`PANIC`, `ASSERT`) or leave the C abstract
  machine (out-of-bounds copy, division by zero, a loop that never exits) end
  in an explicit `Halt` value.
-/

namespace Boot2dump

/-! ## Constants (`types.h`, `arch_types.h`, `ext4.h`) -/

/-- The constant `SECTOR_SIZE` of `types.h`. -/
def SECTOR_SIZE : Nat := 512

/-- The constant `PAGE_SIZE` of `arch_types.h`. -/
def PAGE_SIZE : Nat := 4096

/-- Modulus of `uint64_t` and `size_t` arithmetic. -/
def U64 : Nat := 18446744073709551616

/-- Modulus of `uint32_t` arithmetic. -/
def U32 : Nat := 4294967296

/-- The constant `EXT4_INODE_FLAG_EXTENTS` of `ext4.h`. -/
def EXT4_INODE_FLAG_EXTENTS : Nat := 0x80000

/-- The constant `INODE_ROOT_DIR` of `ext4.h`. -/
def INODE_ROOT_DIR : Nat := 2

/-- The constant `NUM_ROOT_DIRENTS_MAX` of `ext4.h`. -/
def NUM_ROOT_DIRENTS_MAX : Nat := 128

/-- The macro `ALIGN_UP(value, align)` of `types.h`, for `align` a power of two:
`(value + align - 1) & ~(align - 1)`. -/
def ALIGN_UP (value align : Nat) : Nat := (value + align - 1) / align * align

/-! ## Disk, memory and the sector list (`disk.h`) -/

/-- A disk image: the byte stored at each absolute byte offset. -/
abbrev Disk := Nat → Nat

/-- A memory region: the byte stored at each offset from the region's base. -/
abbrev Mem := Nat → Nat

/-- The payload of `struct sector_list_entry` (`disk.h`). -/
structure sector_list_entry where
  lba : Nat
  num_sectors : Nat
deriving DecidableEq

/-- Ways in which the payload stops without returning to its caller. -/
inductive Halt where
  /-- A `PANIC(...)`: diagnostic, then `arch_halt()`. -/
  | panic
  /-- A failed `ASSERT` / `DEBUG_ASSERT`: diagnostic, then `arch_halt()`. -/
  | assertion
  /-- Undefined behaviour of the C program: a copy past the end of an object
  or a division by zero. -/
  | fault
  /-- A loop whose exit condition can never become true. -/
  | hang
deriving DecidableEq

/-! ## The block device seen from its callers (`drivers/virtio_blk.c`)

`disk_read_sectors` and `disk_write_sectors` submit one request and poll it to
completion.  The device is taken to complete every request with status OK; the
data descriptor's length field is a `uint32_t` (`struct virtio_chain_entry`),
so the device transfers `num_sectors * SECTOR_SIZE % U32` bytes. -/

/-- The effect of `disk_read_sectors(lba, buf + off, num_sectors)` on the
memory region `buf`. -/
def disk_read_sectors (d : Disk) (lba : Nat) (buf : Mem) (off : Nat)
    (num_sectors : Nat) : Mem :=
  fun i =>
    if off ≤ i ∧ i < off + num_sectors * SECTOR_SIZE % U32 then
      d (lba * SECTOR_SIZE + (i - off))
    else buf i

/-- One call `disk_write_sectors(lba, buf, num_sectors)`; `data` is the content
of the `num_sectors * SECTOR_SIZE` bytes at `buf` (as far as `buf` is
readable). -/
structure WriteCall where
  lba : Nat
  data : List Nat
  num_sectors : Nat
deriving DecidableEq

/-- The effect of one `disk_write_sectors` call on the disk. -/
def disk_write_sectors (d : Disk) (w : WriteCall) : Disk :=
  fun a =>
    if w.lba * SECTOR_SIZE ≤ a ∧
        a < w.lba * SECTOR_SIZE + w.num_sectors * SECTOR_SIZE % U32 then
      w.data.getD (a - w.lba * SECTOR_SIZE) 0
    else d a

/-- The disk after a sequence of `disk_write_sectors` calls. -/
def apply_writes (d : Disk) (ws : List WriteCall) : Disk :=
  ws.foldl disk_write_sectors d

/-- How `disk_write_to_sector_list` ended. -/
inductive Exit where
  /-- The function returned to its caller. -/
  | returned
  /-- The function left the C abstract machine: `memcpy(tmp, buf, len)` with
  `len > SECTOR_SIZE` writes past `uint8_t tmp[SECTOR_SIZE]`, and the following
  `memset(tmp + len, 0, SECTOR_SIZE - len)` has a wrapped-around length. -/
  | fault
deriving DecidableEq

/-- The `disk_write_sectors` calls issued by a run of
`disk_write_to_sector_list`, in order, and how the run ended. -/
structure WriteTrace where
  writes : List WriteCall
  exit : Exit
deriving DecidableEq

/-- The function `disk_write_to_sector_list(sector_list, buf, len)` of
`drivers/virtio_blk.c`.  `buf` is the memory readable at the pointer `buf`;
advancing the pointer drops bytes from the front. -/
def disk_write_to_sector_list :
    List sector_list_entry → List Nat → Nat → WriteTrace
  | [], _, _ => ⟨[], Exit.returned⟩
  | e :: rest, buf, len =>
    if len < e.num_sectors * SECTOR_SIZE % U64 then
      if len ≤ SECTOR_SIZE then
        ⟨[⟨e.lba, buf.take len ++ List.replicate (SECTOR_SIZE - len) 0, 1⟩],
          Exit.returned⟩
      else ⟨[], Exit.fault⟩
    else
      let t := disk_write_to_sector_list rest
        (buf.drop (e.num_sectors * SECTOR_SIZE % U64))
        (len - e.num_sectors * SECTOR_SIZE % U64)
      ⟨⟨e.lba, buf.take (e.num_sectors * SECTOR_SIZE), e.num_sectors⟩ :: t.writes,
        t.exit⟩

/-- Total number of bytes covered by a sector list. -/
def total_bytes (l : List sector_list_entry) : Nat :=
  (l.map fun e => e.num_sectors * SECTOR_SIZE).sum


/-! ## The ext4 reader (`fs/ext4.c`, `fs/ext4.h`) -/

/-- A little-endian `uint16_t` stored at offset `off`. -/
def le16 (m : Mem) (off : Nat) : Nat := m off % 256 + 256 * (m (off + 1) % 256)

/-- A little-endian `uint32_t` stored at offset `off`. -/
def le32 (m : Mem) (off : Nat) : Nat := le16 m off + 65536 * le16 m (off + 2)

/-- The file-scope variables of `fs/ext4.c` that `fs_init` sets. -/
structure Fs where
  part_lba : Nat
  bytes_per_block : Nat
  sectors_per_block : Nat
  groups_count : Nat
  inodes_per_group : Nat
  bytes_per_inode : Nat

/-- Contents of the memory that the reader may read without having written it:
`block_buf` past the block last read into it, the stack past the local
`struct ext4_inode inode`, and the page that `page_alloc(..., false)` hands to
`ext4_get_inode_by_filename` without zeroing it. -/
structure Uninit where
  block_buf : Mem
  stack : Mem
  page : Mem

/-- The in/out arguments `uint8_t **buf`, `size_t *len` and the list pointer
that the read functions pass along: the memory of the caller's buffer, the
distance `*buf` has advanced, the remaining capacity `*len`, and the sector list
(`none` for a `NULL` list pointer). -/
structure ReadCursor where
  buf : Mem
  off : Nat
  len : Nat
  list : Option (List sector_list_entry)

/-- The LBA `part_lba + block * sectors_per_block` of a file-system block, in
`uint64_t` arithmetic. -/
def block_lba (fs : Fs) (block : Nat) : Nat :=
  (fs.part_lba + block * fs.sectors_per_block) % U64

/-- The function `ext4_read_block(block, buf + off, block_list)`: reads
`sectors_per_block` sectors into the buffer and, for a non-`NULL` list, appends
one entry `(lba, sectors_per_block)`.  (`malloc` is taken to succeed.) -/
def ext4_read_block (fs : Fs) (d : Disk) (block : Nat) (buf : Mem) (off : Nat)
    (block_list : Option (List sector_list_entry)) :
    Mem × Option (List sector_list_entry) :=
  (disk_read_sectors d (block_lba fs block) buf off fs.sectors_per_block,
   block_list.map fun l => l ++ [⟨block_lba fs block, fs.sectors_per_block⟩])

/-- The payload of `struct ext4_group_desc` (`ext4.h`). -/
structure ext4_group_desc where
  block_bitmap_block : Nat
  inode_bitmap_block : Nat
  inode_table : Nat
  free_blocks_count : Nat
  free_inodes_count : Nat
  used_dirs_count : Nat

/-- The function `ext4_read_group_desc_for_inode(inode, desc)`; also returns
the content of `block_buf` it leaves behind. -/
def ext4_read_group_desc_for_inode (fs : Fs) (d : Disk) (u : Uninit) (inode : Nat) :
    Except Halt (ext4_group_desc × Mem) :=
  if inode < 2 then Except.error Halt.assertion
  else if fs.inodes_per_group = 0 then Except.error Halt.fault
  else
    let group_desc_offset := if fs.bytes_per_block > 1024 then 1 else 2
    let group_index := (inode - 1) / fs.inodes_per_group
    let block_buf := (ext4_read_block fs d group_desc_offset u.block_buf 0 none).1
    let o := 32 * group_index % U64
    if o < fs.bytes_per_block then
      Except.ok (⟨le32 block_buf o, le32 block_buf (o + 4), le32 block_buf (o + 8),
        le16 block_buf (o + 12), le16 block_buf (o + 14), le16 block_buf (o + 16)⟩,
        block_buf)
    else Except.error Halt.assertion

/-- The function `ext4_read_inode(inode_no, inode)`.  The result is the memory
of the local `struct ext4_inode`: its 128 bytes are copied from `block_buf`,
what lies behind them is the caller's stack. -/
def ext4_read_inode (fs : Fs) (d : Disk) (u : Uninit) (inode_no : Nat) :
    Except Halt Mem :=
  if inode_no < 2 then Except.error Halt.assertion
  else
    match ext4_read_group_desc_for_inode fs d u inode_no with
    | Except.error h => Except.error h
    | Except.ok (desc, block_buf0) =>
      let index_in_group := (inode_no - 1) % fs.inodes_per_group
      if fs.bytes_per_inode = 0 then Except.error Halt.fault
      else
        let inodes_per_block := fs.bytes_per_block / fs.bytes_per_inode
        if inodes_per_block = 0 then Except.error Halt.fault
        else
          let block_offset := index_in_group / inodes_per_block
          let index_in_block := index_in_group % inodes_per_block
          let block_buf :=
            (ext4_read_block fs d (desc.inode_table + block_offset) block_buf0 0 none).1
          Except.ok fun i =>
            if i < 128 then block_buf (index_in_block * fs.bytes_per_inode + i)
            else u.stack i

/-- The field `flags` of `struct ext4_inode` (byte offset 32). -/
def inode_flags (inode : Mem) : Nat := le32 inode 32

/-- The field `extent_header.entries_count` of `struct ext4_inode` (the extent
header starts at byte offset 40). -/
def extent_entries_count (inode : Mem) : Nat := le16 inode 42

/-- The field `extent_header.depth` of `struct ext4_inode`. -/
def extent_depth (inode : Mem) : Nat := le16 inode 46

/-- The payload of `struct ext4_extent` (`ext4.h`). -/
structure ext4_extent where
  blocks_base : Nat
  blocks_count : Nat
  block_start_hi : Nat
  block_start_lo : Nat
deriving DecidableEq

/-- The entry `extent_header.entries[i]` of `struct ext4_inode`: 12 bytes at
byte offset `52 + 12 * i`. -/
def extent_entry (inode : Mem) (i : Nat) : ext4_extent :=
  ⟨le32 inode (52 + 12 * i), le16 inode (52 + 12 * i + 4),
   le16 inode (52 + 12 * i + 6), le32 inode (52 + 12 * i + 8)⟩

/-- The `while` loop of `ext4_read_inode_extent`.  `remaining` is tested but
never changed by the loop body.  `none` when the fuel runs out. -/
def ext4_read_inode_extent_loop (fs : Fs) (d : Disk) (remaining : Nat) :
    Nat → Nat → ReadCursor → Nat → Option (ReadCursor × Nat)
  | 0, _, _, _ => none
  | fuel + 1, block, c, read_len =>
    if c.len ≥ fs.bytes_per_block ∧ remaining > 0 then
      let r := ext4_read_block fs d block c.buf c.off c.list
      ext4_read_inode_extent_loop fs d remaining fuel ((block + 1) % U64)
        ⟨r.1, c.off + fs.bytes_per_block, c.len - fs.bytes_per_block, r.2⟩
        ((read_len + fs.bytes_per_block) % U64)
    else some (c, read_len)

/-- The function `ext4_read_inode_extent(e, buf, len, read_blocks_list)`.  The
loop gets `*len + 1` units of fuel: each iteration lowers `*len` by
`bytes_per_block`, so the fuel runs out only when `bytes_per_block` is 0 and the
loop can never exit. -/
def ext4_read_inode_extent (fs : Fs) (d : Disk) (e : ext4_extent) (c : ReadCursor) :
    Except Halt (ReadCursor × Nat) :=
  let block := ((e.block_start_hi <<< 32) % U64 + e.block_start_lo) % U64
  match ext4_read_inode_extent_loop fs d e.blocks_count (c.len + 1) block c 0 with
  | some r => Except.ok r
  | none => Except.error Halt.hang

/-- The `for` loop of `ext4_read_inode_data` over the entry indices. -/
def ext4_read_inode_data_loop (fs : Fs) (d : Disk) (inode : Mem) :
    List Nat → ReadCursor → Nat → Except Halt (ReadCursor × Nat)
  | [], c, read_len => Except.ok (c, read_len)
  | i :: rest, c, read_len =>
    match ext4_read_inode_extent fs d (extent_entry inode i) c with
    | Except.error h => Except.error h
    | Except.ok (c1, n) =>
      ext4_read_inode_data_loop fs d inode rest c1 ((read_len + n) % U64)

/-- The function `ext4_read_inode_data(inode_no, buf, len, read_blocks_list)`:
the cursor after the call and the returned `read_len`. -/
def ext4_read_inode_data (fs : Fs) (d : Disk) (u : Uninit) (inode_no : Nat)
    (c : ReadCursor) : Except Halt (ReadCursor × Nat) :=
  match ext4_read_inode fs d u inode_no with
  | Except.error h => Except.error h
  | Except.ok inode =>
    if inode_flags inode &&& EXT4_INODE_FLAG_EXTENTS ≠ 0 then
      if extent_depth inode = 0 then
        ext4_read_inode_data_loop fs d inode (List.range (extent_entries_count inode)) c 0
      else Except.error Halt.assertion
    else Except.ok (c, 0)

/-- A `char` (signed on x86-64) as an integer. -/
def schar (c : Nat) : Int := if c % 256 < 128 then (c % 256 : Nat) else (c % 256 : Nat) - 256

/-- The function `strcmp` of `string.c` on C strings given as the list of their
bytes; the first NUL byte, or the end of the list, ends the string. -/
def strcmp : List Nat → List Nat → Int
  | [], [] => 0
  | [], c2 :: _ => 0 - schar c2
  | c1 :: _, [] => schar c1
  | c1 :: s1, c2 :: s2 =>
    if schar c1 = schar c2 ∧ schar c1 ≠ 0 ∧ schar c2 ≠ 0 then strcmp s1 s2
    else schar c1 - schar c2

/-- The directory walk of `ext4_get_inode_by_filename` over the buffer `buf`,
of which `read_len` bytes were read.  `off` grows by `entry_len >= 1` per
iteration, so `read_len + 1` units of fuel are never used up. -/
def ext4_get_inode_by_filename_loop (buf : Mem) (read_len : Nat) (filename : List Nat) :
    Nat → Nat → Except Halt Nat
  | 0, _ => Except.error Halt.hang
  | fuel + 1, off =>
    if off < read_len then
      if le16 buf (off + 4) = 0 then Except.error Halt.assertion
      else
        let name := (List.range (buf (off + 6) % 256)).map fun i => buf (off + 8 + i)
        if strcmp name filename = 0 then Except.ok (le32 buf off)
        else ext4_get_inode_by_filename_loop buf read_len filename fuel
          (off + le16 buf (off + 4))
    else Except.error Halt.panic

/-- The function `ext4_get_inode_by_filename(filename)`.  (`page_alloc` is
taken to succeed.) -/
def ext4_get_inode_by_filename (fs : Fs) (d : Disk) (u : Uninit) (filename : List Nat) :
    Except Halt Nat :=
  let dirents_len := ALIGN_UP (8 * NUM_ROOT_DIRENTS_MAX) PAGE_SIZE
  match ext4_read_inode_data fs d u INODE_ROOT_DIR ⟨u.page, 0, dirents_len, none⟩ with
  | Except.error h => Except.error h
  | Except.ok (c, read_len) =>
    ext4_get_inode_by_filename_loop c.buf read_len filename (read_len + 1) 0

/-- The function `fs_read(filename, buf, len, sector_list)`: the cursor after
the call (buffer content and sector list) and the returned length. -/
def fs_read (fs : Fs) (d : Disk) (u : Uninit) (filename : List Nat) (buf : Mem)
    (len : Nat) (sector_list : Option (List sector_list_entry)) :
    Except Halt (ReadCursor × Nat) :=
  match ext4_get_inode_by_filename fs d u filename with
  | Except.error h => Except.error h
  | Except.ok inode => ext4_read_inode_data fs d u inode ⟨buf, 0, len, sector_list⟩

/-! ## The orchestrator (`main.c`) -/

/-- The part of `main` after `malloc_init(); disk_init(); fs_init();`, with `fs`
the state `fs_init` left: `fs_read` into a 64 KiB staging buffer with a fresh
sector list, then `disk_write_to_sector_list` on that list. -/
def main_after_init (fs : Fs) (d : Disk) (u : Uninit) (staging : Mem)
    (path : List Nat) (dump : List Nat) (dump_len : Nat) : Except Halt WriteTrace :=
  match fs_read fs d u path staging (64 * 1024) (some []) with
  | Except.error h => Except.error h
  | Except.ok (c, _) =>
    Except.ok (disk_write_to_sector_list (c.list.getD []) dump dump_len)

/-! ## Test images

A GPT disk whose Linux partition starts at LBA 2048 and holds an ext4 file
system with 4096-byte blocks and 256-byte inodes: group descriptors in block 1,
inode table in block 5, root directory data in block 50, and the file
`dump.bin` as inode 12. -/

/-- The disk `d` with `bytes` stored from byte offset `off` on. -/
def patch (d : Disk) (off : Nat) (bytes : List Nat) : Disk :=
  fun a => if off ≤ a ∧ a < off + bytes.length then bytes.getD (a - off) 0 else d a

/-- The state `fs_init` derives for the test images. -/
def test_fs : Fs :=
  { part_lba := 2048, bytes_per_block := 4096, sectors_per_block := 8,
    groups_count := 1, inodes_per_group := 8192, bytes_per_inode := 256 }

/-- The test image; `extent_area` is the content of the extent header and
entries of inode 12 (from byte 40 of the inode on). -/
def test_image (extent_area : List Nat) : Disk :=
  -- group descriptor 0: inode_table = 5
  patch (
  -- inode 2 (root directory): flags = EXTENTS, one extent (start 50, count 1)
  patch (patch (
  -- inode 12 (dump.bin): flags = EXTENTS
  patch (patch (
  -- root directory block: ".", "..", "dump.bin" -> inode 12
  patch (fun _ => 0) (2448 * 512)
    [2, 0, 0, 0, 12, 0, 1, 2, 46, 0, 0, 0,
     2, 0, 0, 0, 12, 0, 2, 2, 46, 46, 0, 0,
     12, 0, 0, 0, 0xE8, 0x0F, 8, 1, 100, 117, 109, 112, 46, 98, 105, 110])
    (2088 * 512 + 11 * 256 + 40) extent_area)
    (2088 * 512 + 11 * 256 + 32) [0, 0, 8, 0])
    (2088 * 512 + 256 + 40)
    [0x0A, 0xF3, 1, 0, 4, 0, 0, 0, 0, 0, 0, 0, 0, 0, 0, 0, 1, 0, 0, 0, 50, 0, 0, 0])
    (2088 * 512 + 256 + 32) [0, 0, 8, 0])
    (2056 * 512 + 8) [5, 0, 0, 0]

/-- The file name `dump.bin`. -/
def dump_bin : List Nat := [100, 117, 109, 112, 46, 98, 105, 110]

/-- Extent area of a file with the single extent `(start 100, count 8)`. -/
def extents_100_8 : List Nat :=
  [0x0A, 0xF3, 1, 0, 4, 0, 0, 0, 0, 0, 0, 0, 0, 0, 0, 0, 8, 0, 0, 0, 100, 0, 0, 0]

/-- Extent area of a file with the single extent `(start 100, count 16)`. -/
def extents_100_16 : List Nat :=
  [0x0A, 0xF3, 1, 0, 4, 0, 0, 0, 0, 0, 0, 0, 0, 0, 0, 0, 16, 0, 0, 0, 100, 0, 0, 0]

/-- Extent area of a file with the extents `(100, 4)` and `(200, 4)`. -/
def extents_100_4_200_4 : List Nat :=
  [0x0A, 0xF3, 2, 0, 4, 0, 0, 0, 0, 0, 0, 0, 0, 0, 0, 0, 4, 0, 0, 0, 100, 0, 0, 0,
   4, 0, 0, 0, 4, 0, 0, 0, 200, 0, 0, 0]

/-- Unwritten memory filled with zero bytes. -/
def zero_uninit : Uninit := ⟨fun _ => 0, fun _ => 0, fun _ => 0⟩


/-! ## Descriptions used to state the theorems -/

/-- One sector-list entry per file-system block for the `q` consecutive blocks
from `block` on: `(block_lba (block + t), sectors_per_block)` for `t < q`. -/
def block_entries (fs : Fs) (block q : Nat) : List sector_list_entry :=
  (List.range q).map fun t => ⟨block_lba fs (block + t), fs.sectors_per_block⟩

/-- The starting file-system block `(hi << 32) | lo` of an extent. -/
def extent_start (e : ext4_extent) : Nat := e.block_start_hi * 4294967296 + e.block_start_lo

/-- The inode memory that `ext4_read_inode` produces (all zero when it halts). -/
def inode_mem (fs : Fs) (d : Disk) (u : Uninit) (inode_no : Nat) : Mem :=
  match ext4_read_inode fs d u inode_no with
  | Except.ok m => m
  | Except.error _ => fun _ => 0

/-- The sector-list entries as `(lba, num_sectors)` pairs. -/
def list_pairs (l : List sector_list_entry) : List (Nat × Nat) :=
  l.map fun e => (e.lba, e.num_sectors)

/-- The `disk_write_sectors` calls as `(lba, num_sectors)` pairs. -/
def write_pairs (t : WriteTrace) : List (Nat × Nat) :=
  t.writes.map fun w => (w.lba, w.num_sectors)

/-- The writes for a run of entries `pre` that are all written in full: entry
`i` is written once, at its `lba`, with its `num_sectors`, from the dump
advanced by the total size of the entries before it. -/
def full_run_writes (pre : List sector_list_entry) (buf : List Nat) : List WriteCall :=
  (List.range pre.length).map fun i =>
    ⟨(pre.getD i ⟨0, 0⟩).lba,
     (buf.drop (total_bytes (pre.take i))).take ((pre.getD i ⟨0, 0⟩).num_sectors * SECTOR_SIZE),
     (pre.getD i ⟨0, 0⟩).num_sectors⟩

/-- Sector `s` lies inside one of the extents `exts` of a file: in
`[part_lba + start * sectors_per_block,
  part_lba + (start + blocks_count) * sectors_per_block)` for some extent. -/
def in_file_extents (fs : Fs) (exts : List ext4_extent) (s : Nat) : Prop :=
  ∃ e ∈ exts, fs.part_lba + extent_start e * fs.sectors_per_block ≤ s ∧
    s < fs.part_lba + (extent_start e + e.blocks_count) * fs.sectors_per_block

/-- A dump of 8492 bytes `0xAA`: two 4096-byte blocks and 300 bytes. -/
def test_dump_8492 : List Nat := List.replicate 8492 170

/-- The test image with the single extent `(100, 8)` whose inode 12 has
`flags = 0`: the EXTENTS flag is not set. -/
def test_image_no_extents_flag : Disk :=
  patch (test_image extents_100_8) (2088 * 512 + 11 * 256 + 32) [0, 0, 0, 0]

/-- Extent area with an extent header of depth 1 and one index entry. -/
def extents_depth_1 : List Nat :=
  [0x0A, 0xF3, 1, 0, 4, 0, 1, 0, 0, 0, 0, 0, 0, 0, 0, 0, 100, 0, 0, 0, 0, 0, 0, 0]

/-- The field `entry_len` of the directory record at offset `off`. -/
def dirent_entry_len (buf : Mem) (off : Nat) : Nat := le16 buf (off + 4)

/-- The field `inode` of the directory record at offset `off`. -/
def dirent_inode (buf : Mem) (off : Nat) : Nat := le32 buf off

/-- The `name_len` name bytes of the directory record at offset `off`. -/
def dirent_name (buf : Mem) (off : Nat) : List Nat :=
  (List.range (buf (off + 6) % 256)).map fun i => buf (off + 8 + i)

/-- The offset of record `k` of the walk that starts at `off` and advances by
`entry_len`. -/
def walk_off (buf : Mem) : Nat → Nat → Nat
  | off, 0 => off
  | off, k + 1 => walk_off buf (off + dirent_entry_len buf off) k

/-- The C string held by a sequence of bytes: the bytes before the first NUL. -/
def cstr (s : List Nat) : List Nat := (s.map fun c => c % 256).takeWhile fun c => c ≠ 0

/-- Record `k` of the walk from `off` is the first one whose name, read as a C
string, is `filename`, and the walk gets to it: the records `0 .. k` lie at
offsets below `read_len` and have a non-zero `entry_len`, and none of the
records before `k` has that name. -/
def first_match (buf : Mem) (read_len : Nat) (filename : List Nat) (off k : Nat) : Prop :=
  (∀ i, i ≤ k → walk_off buf off i < read_len ∧
    dirent_entry_len buf (walk_off buf off i) ≠ 0) ∧
  (∀ i, i < k → cstr (dirent_name buf (walk_off buf off i)) ≠ cstr filename) ∧
  cstr (dirent_name buf (walk_off buf off k)) = cstr filename

/-- What `ext4_get_inode_by_filename` reads of the root directory: the buffer
and the returned `read_len` (an untouched page and 0 when the read halts). -/
def root_dir (fs : Fs) (d : Disk) (u : Uninit) : ReadCursor × Nat :=
  match ext4_read_inode_data fs d u INODE_ROOT_DIR
      ⟨u.page, 0, ALIGN_UP (8 * NUM_ROOT_DIRENTS_MAX) PAGE_SIZE, none⟩ with
  | Except.ok r => r
  | Except.error _ => (⟨u.page, 0, 0, none⟩, 0)

/-- The test image whose third root-directory record has the 8 name bytes
`d u m p NUL NUL NUL NUL`. -/
def test_image_nul_name : Disk :=
  patch (test_image extents_100_8) (2448 * 512 + 32) [100, 117, 109, 112, 0, 0, 0, 0]

/-- The file name `dump`. -/
def dump_name : List Nat := [100, 117, 109, 112]

/-- The test image whose root directory holds `.`, `..` and `other` only. -/
def test_image_other : Disk :=
  patch (test_image extents_100_8) (2448 * 512 + 24)
    [12, 0, 0, 0, 0xE8, 0x0F, 5, 1, 111, 116, 104, 101, 114, 0, 0, 0]

/-- The test image whose third root-directory record has `entry_len = 0`. -/
def test_image_zero_entry_len : Disk :=
  patch (test_image extents_100_8) (2448 * 512 + 28) [0, 0]

/-! ## Partition table and superblock (`fs/ext4.c`, `fs/ext4.h`, `string.c`) -/

/-- The constant `SUPERBLOCK_SECTOR_BASE` of `ext4.h`. -/
def SUPERBLOCK_SECTOR_BASE : Nat := 1024 / 512

/-- The constant `EXT4_MAGIC` of `ext4.h`. -/
def EXT4_MAGIC : Nat := 0xef53

/-- The string literal `"EFI PART"`. -/
def EFI_PART : List Nat := [69, 70, 73, 32, 80, 65, 82, 84]

/-- The macro `GPT_LINUX_FILESYSTEM_GUID` of `ext4.h`. -/
def GPT_LINUX_FILESYSTEM_GUID : List Nat :=
  [0xaf, 0x3d, 0xc6, 0x0f, 0x83, 0x84, 0x72, 0x47, 0x8e, 0x79, 0x3d, 0x69, 0xd8, 0x47,
   0x7d, 0xe4]

/-- A little-endian `uint64_t` stored at offset `off`. -/
def le64 (m : Mem) (off : Nat) : Nat := le32 m off + 4294967296 * le32 m (off + 4)

/-- The `n` bytes of a memory region from offset `off` on. -/
def mem_bytes (m : Mem) (off n : Nat) : List Nat := (List.range n).map fun i => m (off + i)

/-- The function `strncmp` of `string.c`; the arguments give the bytes at `s1`
and `s2`, and the end of a list reads as the terminating NUL. -/
def strncmp : List Nat → List Nat → Nat → Int
  | _, _, 0 => 0
  | s1, s2, len + 1 =>
    if schar (s1.headD 0) ≠ schar (s2.headD 0) then
      schar (s1.headD 0) - schar (s2.headD 0)
    else if schar (s1.headD 0) = 0 then 0
    else strncmp s1.tail s2.tail len

/-- The function `memcmp` of `string.c` on the bytes at `p1` and `p2`. -/
def memcmp : List Nat → List Nat → Nat → Int
  | _, _, 0 => 0
  | s1, s2, len + 1 =>
    if s1.headD 0 % 256 = s2.headD 0 % 256 then memcmp s1.tail s2.tail len
    else ((s1.headD 0 % 256 : Nat) : Int) - ((s2.headD 0 % 256 : Nat) : Int)

/-- The sectors `locate_linux_partition` has read, in order, and its outcome. -/
structure Located where
  reads : List Nat
  result : Except Halt Nat

/-- The `for` loop of `locate_linux_partition` over the entry indices: entry
`i` is the 128 bytes at offset `128 * i`, with `type_guid` at offset 0 and
`first_lba` at offset 32. -/
def locate_linux_partition_scan (buf : Mem) : List Nat → Except Halt Nat
  | [] => Except.error Halt.panic
  | i :: rest =>
    if memcmp (mem_bytes buf (128 * i) 16) GPT_LINUX_FILESYSTEM_GUID 16 = 0 then
      Except.ok (le64 buf (128 * i + 32))
    else locate_linux_partition_scan buf rest

/-- The function `locate_linux_partition()`; `stack` is the initial content of
its local `buf[SECTOR_SIZE]`.  The header field `partition_table_lba` is at
byte offset 72. -/
def locate_linux_partition (d : Disk) (stack : Mem) : Located :=
  let buf := disk_read_sectors d 1 stack 0 1
  if strncmp (mem_bytes buf 0 8) EFI_PART 8 ≠ 0 then ⟨[1], Except.error Halt.panic⟩
  else
    ⟨[1, le64 buf 72],
      locate_linux_partition_scan (disk_read_sectors d (le64 buf 72) buf 0 1) [0, 1, 2, 3]⟩

/-- The function `fs_init()`; `stack` is the initial content of the local
sector buffers.  Superblock fields: `blocks_count` at byte offset 4,
`log2_block_size` at 24, `blocks_per_group` at 32, `inodes_per_group` at 40,
`magic` at 56, `major_revision_level` at 76, `bytes_per_inode` at 88.
`1024 << log2_block_size` is an `int` shift, undefined from a shift count of 21
on; the division by `blocks_per_group` is undefined for 0.  (`page_alloc` is
taken to succeed.) -/
def fs_init (d : Disk) (stack : Mem) : Except Halt Fs :=
  match (locate_linux_partition d stack).result with
  | Except.error h => Except.error h
  | Except.ok part_lba =>
    let buf := disk_read_sectors d ((part_lba + SUPERBLOCK_SECTOR_BASE) % U64) stack 0 1
    if le16 buf 56 ≠ EXT4_MAGIC then Except.error Halt.panic
    else if le32 buf 24 > 20 then Except.error Halt.fault
    else if le32 buf 32 = 0 then Except.error Halt.fault
    else
      Except.ok
        { part_lba := part_lba
          bytes_per_block := 1024 <<< le32 buf 24
          sectors_per_block := (1024 <<< le32 buf 24) / SECTOR_SIZE
          groups_count := (1 + (le32 buf 4 + U32 - 1) % U32 / le32 buf 32) % U32
          inodes_per_group := le32 buf 40
          bytes_per_inode := if le32 buf 76 < 1 then 128 else le16 buf 88 }

/-- The 16-byte `type_guid` of entry `i` in the sector at LBA `lba`. -/
def gpt_entry_type_guid (d : Disk) (lba i : Nat) : List Nat :=
  (List.range 16).map fun j => d (lba * SECTOR_SIZE + (128 * i + j)) % 256

/-- The field `first_lba` of entry `i` in the sector at LBA `lba`. -/
def gpt_entry_first_lba (d : Disk) (lba i : Nat) : Nat :=
  le64 (fun k => d (lba * SECTOR_SIZE + k)) (128 * i + 32)

/-- The field `partition_table_lba` of the GPT header in the sector at LBA 1. -/
def gpt_partition_table_lba (d : Disk) : Nat :=
  le64 (fun k => d (SECTOR_SIZE + k)) 72

/-- The 8 signature bytes at the start of the sector at LBA 1. -/
def gpt_signature (d : Disk) : List Nat :=
  (List.range 8).map fun j => d (SECTOR_SIZE + j) % 256

/-- The mixed-endian GPT serialisation of a GUID `d1-d2-d3-d4`: the first
three fields little-endian, the last eight bytes in order. -/
def guid_mixed_endian (d1 d2 d3 : Nat) (d4 : List Nat) : List Nat :=
  [d1 % 256, d1 / 256 % 256, d1 / 65536 % 256, d1 / 16777216 % 256,
   d2 % 256, d2 / 256 % 256, d3 % 256, d3 / 256 % 256] ++ d4

/-- The test image completed to a whole disk: GPT header in sector 1 with the
partition entries in sector 2 (entry 0 an EFI system partition at LBA 34, entry
1 a Linux partition at LBA 2048), and the ext4 superblock in sector 2050. -/
def test_gpt_image : Disk :=
  -- superblock: blocks_count, log2_block_size, blocks_per_group, inodes_per_group,
  -- magic, major_revision_level, bytes_per_inode
  patch (patch (patch (patch (patch (patch (patch (
  -- partition entries 0 and 1: type_guid and first_lba
  patch (patch (patch (patch (
  -- GPT header: signature and partition_table_lba
  patch (patch (test_image extents_100_8) 512 [69, 70, 73, 32, 80, 65, 82, 84])
    (512 + 72) [2, 0, 0, 0, 0, 0, 0, 0])
    1024 [0x28, 0x73, 0x2a, 0xc1, 0x1f, 0xf8, 0xd2, 0x11, 0xba, 0x4b, 0x00, 0xa0, 0xc9,
      0x3e, 0xc9, 0x3b])
    (1024 + 32) [34, 0, 0, 0, 0, 0, 0, 0])
    (1024 + 128) [0xaf, 0x3d, 0xc6, 0x0f, 0x83, 0x84, 0x72, 0x47, 0x8e, 0x79, 0x3d, 0x69,
      0xd8, 0x47, 0x7d, 0xe4])
    (1024 + 128 + 32) [0, 8, 0, 0, 0, 0, 0, 0])
    (2050 * 512 + 4) [0, 0x80, 0, 0])
    (2050 * 512 + 24) [2, 0, 0, 0])
    (2050 * 512 + 32) [0, 0x80, 0, 0])
    (2050 * 512 + 40) [0, 0x20, 0, 0])
    (2050 * 512 + 56) [0x53, 0xef])
    (2050 * 512 + 76) [1, 0, 0, 0])
    (2050 * 512 + 88) [0, 1]

/-- The caller's buffer after `q` consecutive file-system blocks from `block`
on have been read to the offsets `off`, `off + bytes_per_block`, ...: byte
`off + j` comes from block `block + j / bytes_per_block`. -/
def read_blocks_mem (fs : Fs) (d : Disk) (block q off : Nat) (buf : Mem) : Mem :=
  fun i =>
    if off ≤ i ∧ i < off + q * fs.bytes_per_block then
      d (block_lba fs (block + (i - off) / fs.bytes_per_block) * SECTOR_SIZE +
        (i - off) % fs.bytes_per_block)
    else buf i

/-- The first extent with a non-zero `blocks_count` among the entries with the
given indices. -/
def first_extent (inode : Mem) : List Nat → Option ext4_extent
  | [] => none
  | i :: rest =>
    if (extent_entry inode i).blocks_count = 0 then first_extent inode rest
    else some (extent_entry inode i)

/-- The first block that the extent loop of `ext4_read_inode_data` reads. -/
def data_block (inode : Mem) (idx : List Nat) : Nat :=
  match first_extent inode idx with
  | some e => extent_start e
  | none => 0

/-- The number of blocks that the extent loop of `ext4_read_inode_data` reads
for a capacity of `len` bytes. -/
def data_blocks (fs : Fs) (inode : Mem) (idx : List Nat) (len : Nat) : Nat :=
  match first_extent inode idx with
  | some _ => len / fs.bytes_per_block
  | none => 0

/-- Every record of the directory walk from `off` that starts below `read_len`
has its header and its `name_len` name bytes below `read_len`. -/
def records_inside (buf : Mem) (read_len off : Nat) : Prop :=
  ∀ k, walk_off buf off k < read_len →
    walk_off buf off k + 8 + buf (walk_off buf off k + 6) % 256 ≤ read_len

/-- Unwritten memory with other content than `zero_uninit`: a stale `block_buf`
and non-zero stack and page bytes. -/
def stale_uninit : Uninit := ⟨fun i => if i < 4096 then 7 else 0, fun _ => 9, fun _ => 9⟩

/-! ## The virtqueue (`drivers/virtio.h`, `drivers/virtio_legacy.h`,
`drivers/virtio_legacy.c`) -/

/-- The descriptor flag `VIRTQ_DESC_F_NEXT`. -/
def VIRTQ_DESC_F_NEXT : Nat := 1

/-- The descriptor flag `VIRTQ_DESC_F_WRITE`. -/
def VIRTQ_DESC_F_WRITE : Nat := 2

/-- The largest value of an `int`. -/
def INT_MAX : Nat := 2147483647

/-- The descriptor `struct virtq_desc`. -/
structure virtq_desc where
  addr : Nat
  len : Nat
  flags : Nat
  next : Nat
deriving DecidableEq

/-- The used-ring element `struct virtq_used_elem`. -/
structure virtq_used_elem where
  id : Nat
  len : Nat
deriving DecidableEq

/-- The chain entry `struct virtio_chain_entry`. -/
structure virtio_chain_entry where
  addr : Nat
  len : Nat
  device_writable : Bool
deriving DecidableEq

/-- A virtqueue: `struct virtio_virtq` with its `legacy` part and the three
areas `descs`, `avail` and `used` it points to.  The `int` fields hold
non-negative values; where the code can overflow one, the model faults. -/
structure virtio_virtq where
  index : Nat
  num_descs : Nat
  next_avail_index : Nat
  last_used_index : Nat
  free_head : Nat
  num_free_descs : Nat
  descs : Nat → virtq_desc
  avail_index : Nat
  avail_ring : Nat → Nat
  used_index : Nat
  used_ring : Nat → virtq_used_elem

/-- The virtqueue that `virtq_init(index)` builds for a queue of `num_descs`
descriptors: zeroed memory with the free list threaded through `next`. -/
def virtq_init_state (index num_descs : Nat) : virtio_virtq :=
  { index := index
    num_descs := num_descs
    next_avail_index := 0
    last_used_index := 0
    free_head := 0
    num_free_descs := num_descs
    descs := fun i => ⟨0, 0, 0, if i < num_descs then (if i + 1 = num_descs then 0 else i + 1)
      else 0⟩
    avail_index := 0
    avail_ring := fun _ => 0
    used_index := 0
    used_ring := fun _ => ⟨0, 0⟩ }

/-- The function `virtq_init(index)`; `num_descs` is the queue size the device
reports.  (`page_alloc` is taken to succeed; it returns zeroed, page-aligned
memory.) -/
def virtq_init (index num_descs : Nat) : Except Halt virtio_virtq :=
  if num_descs ≤ 4096 then Except.ok (virtq_init_state index num_descs)
  else Except.error Halt.assertion

/-- The inner `while (true)` loop of the reclaim loop in `virtq_push`: follows
`next` from `next_desc_index` while `VIRTQ_DESC_F_NEXT` is set; returns the last
descriptor of the chain and `num_freed`.  An index outside the descriptor table
is a fault.  The walk only reads, so it gets `num_descs + 1` units of fuel: a
walk that has not ended by then is in a cycle. -/
def virtq_chain_last (vq : virtio_virtq) : Nat → Nat → Nat → Except Halt (Nat × Nat)
  | 0, _, _ => Except.error Halt.hang
  | fuel + 1, next_desc_index, num_freed =>
    if next_desc_index < vq.num_descs then
      if (vq.descs next_desc_index).flags &&& VIRTQ_DESC_F_NEXT = 0 then
        Except.ok (next_desc_index, num_freed + 1)
      else virtq_chain_last vq fuel (vq.descs next_desc_index).next (num_freed + 1)
    else Except.error Halt.fault

/-- One iteration of the reclaim loop of `virtq_push`: the chain named by the
used element at `last_used_index % num_descs` goes back to the head of the free
list. -/
def virtq_reclaim_one (vq : virtio_virtq) : Except Halt virtio_virtq :=
  if vq.num_descs = 0 then Except.error Halt.fault
  else
    let used_elem := vq.used_ring (vq.last_used_index % vq.num_descs)
    match virtq_chain_last vq (vq.num_descs + 1) used_elem.id 0 with
    | Except.error h => Except.error h
    | Except.ok (last, num_freed) =>
      if vq.num_free_descs + num_freed > INT_MAX ∨ vq.last_used_index + 1 > INT_MAX then
        Except.error Halt.fault
      else
        Except.ok
          { vq with
            descs := Function.update vq.descs last
              { vq.descs last with next := vq.free_head % 65536 }
            free_head := used_elem.id
            num_free_descs := vq.num_free_descs + num_freed
            last_used_index := vq.last_used_index + 1 }

/-- The reclaim loop `while (last_used_index != used->index)` of `virtq_push`;
`used->index` is a `uint16_t`, `last_used_index` an `int`. -/
def virtq_reclaim : Nat → virtio_virtq → Except Halt virtio_virtq
  | 0, _ => Except.error Halt.hang
  | fuel + 1, vq =>
    if vq.last_used_index ≠ vq.used_index then
      match virtq_reclaim_one vq with
      | Except.error h => Except.error h
      | Except.ok vq1 => virtq_reclaim fuel vq1
    else Except.ok vq

/-- The `for` loop of `virtq_push` that fills the descriptors: the descriptor
table, `desc_index` and the index of `desc` after the loop. -/
def virtq_push_fill (num_descs : Nat) :
    List virtio_chain_entry → (Nat → virtq_desc) → Nat → Nat →
      Except Halt ((Nat → virtq_desc) × Nat × Nat)
  | [], descs, desc_index, desc => Except.ok (descs, desc_index, desc)
  | e :: rest, descs, desc_index, _ =>
    if desc_index < num_descs then
      virtq_push_fill num_descs rest
        (Function.update descs desc_index
          ⟨e.addr, e.len,
            (if e.device_writable then VIRTQ_DESC_F_WRITE else 0) ||| VIRTQ_DESC_F_NEXT,
            (descs desc_index).next⟩)
        (descs desc_index).next desc_index
    else Except.error Halt.fault

/-- The function `virtq_push(vq, chain, n)` with `n = chain.length`.  Every
iteration of the reclaim loop increments `last_used_index`, which overflows
after at most `INT_MAX + 1` iterations, so the `INT_MAX + 2` units of fuel are
never used up. -/
def virtq_push (vq : virtio_virtq) (chain : List virtio_chain_entry) :
    Except Halt virtio_virtq :=
  if chain.length = 0 then Except.error Halt.assertion
  else
    match (if chain.length > vq.num_free_descs then virtq_reclaim (INT_MAX + 2) vq
        else Except.ok vq) with
    | Except.error h => Except.error h
    | Except.ok vq1 =>
      if chain.length > vq1.num_free_descs then Except.error Halt.panic
      else
        match virtq_push_fill vq1.num_descs chain vq1.descs vq1.free_head vq1.free_head with
        | Except.error h => Except.error h
        | Except.ok (descs, _, desc) =>
          Except.ok
            { vq1 with
              descs := Function.update descs desc
                { descs desc with next := 0, flags := (descs desc).flags &&& 65534 }
              free_head := (descs desc).next
              num_free_descs := vq1.num_free_descs - chain.length
              avail_ring := Function.update vq1.avail_ring
                (vq1.avail_index % vq1.num_descs) (vq1.free_head % 65536)
              avail_index := (vq1.avail_index + 1) % 65536 }

/-- The device's part of a completion, as the virtio legacy interface has it
(this is the device, not code of the payload): it stores the head index `id` of
a chain and the length written at `used.ring[used.index % num_descs]` and
increments the 16-bit `used.index`. -/
def device_complete (vq : virtio_virtq) (id len : Nat) : virtio_virtq :=
  { vq with
    used_ring := Function.update vq.used_ring (vq.used_index % vq.num_descs) ⟨id, len⟩
    used_index := (vq.used_index + 1) % 65536 }

/-! ## Block requests (`drivers/virtio_blk.c`, `drivers/virtio_blk.h`,
`arch/x64/arch_types.h`) -/

/-- The request type `VIRTIO_BLK_T_IN`. -/
def VIRTIO_BLK_T_IN : Nat := 0

/-- The request type `VIRTIO_BLK_T_OUT`. -/
def VIRTIO_BLK_T_OUT : Nat := 1

/-- The status value `IN_PROGRESS_STATUS`. -/
def IN_PROGRESS_STATUS : Nat := 0xff

/-- The constant `STRAIGHT_MAPPING_BASE`. -/
def STRAIGHT_MAPPING_BASE : Nat := 0xffff800000000000

/-- The function `vaddr2paddr`: `vaddr & ~STRAIGHT_MAPPING_BASE` on 64 bits. -/
def vaddr2paddr (vaddr : Nat) : Nat := vaddr &&& (U64 - 1 - STRAIGHT_MAPPING_BASE)

/-- The function `ptr2paddr`. -/
def ptr2paddr (ptr : Nat) : Nat := vaddr2paddr ptr

/-- The request header `struct virtio_blk_req_header` (16 bytes, packed). -/
structure virtio_blk_req_header where
  type : Nat
  reserved : Nat
  sector : Nat
deriving DecidableEq

/-- What `disk_read_sectors` / `disk_write_sectors` have set up when
`virtq_notify` is called: the virtqueue after `virtq_push`, the locals `header`
and `status`, the array `chain`, and the queue index written to the
`QUEUE_NOTIFY` port. -/
structure Submission where
  vq : virtio_virtq
  header : virtio_blk_req_header
  status : Nat
  chain : List virtio_chain_entry
  notify : Nat

/-- The first part of `disk_read_sectors(lba, buf, num_sectors)`, up to and
including `virtq_notify`.  `header_ptr` and `status_ptr` are the addresses of
the locals `header` and `status`, `reserved` is the content of the header field
that is never assigned. -/
def disk_read_sectors_submit (vq : virtio_virtq) (lba buf num_sectors : Nat)
    (header_ptr status_ptr reserved : Nat) : Except Halt Submission :=
  let header : virtio_blk_req_header := ⟨VIRTIO_BLK_T_IN, reserved, lba⟩
  let status := IN_PROGRESS_STATUS
  let chain : List virtio_chain_entry :=
    [⟨ptr2paddr header_ptr, 16, false⟩,
     ⟨ptr2paddr buf, num_sectors * SECTOR_SIZE % U32, true⟩,
     ⟨ptr2paddr status_ptr, 1, true⟩]
  match virtq_push vq chain with
  | Except.error h => Except.error h
  | Except.ok vq1 => Except.ok ⟨vq1, header, status, chain, vq1.index⟩

/-- The first part of `disk_write_sectors(lba, buf, num_sectors)`, up to and
including `virtq_notify`. -/
def disk_write_sectors_submit (vq : virtio_virtq) (lba buf num_sectors : Nat)
    (header_ptr status_ptr reserved : Nat) : Except Halt Submission :=
  let header : virtio_blk_req_header := ⟨VIRTIO_BLK_T_OUT, reserved, lba⟩
  let status := IN_PROGRESS_STATUS
  let chain : List virtio_chain_entry :=
    [⟨ptr2paddr header_ptr, 16, false⟩,
     ⟨ptr2paddr buf, num_sectors * SECTOR_SIZE % U32, false⟩,
     ⟨ptr2paddr status_ptr, 1, true⟩]
  match virtq_push vq chain with
  | Except.error h => Except.error h
  | Except.ok vq1 => Except.ok ⟨vq1, header, status, chain, vq1.index⟩

/-- The shape of a submitted block request: `s` results from `vq` by one
chain of exactly the three descriptors `a`, `b`, `c` (the first three nodes of
the free list of `vq`), made available at `avail.ring[avail.index % num_descs]`:
`a` the 16-byte header at `header_paddr`, device-readable, `b` the data buffer
of `data_len` bytes with the flags `data_flags`, `c` the status byte,
device-writable; the header holds `type` and `sector`, the status byte holds
0xFF, and no other descriptor has changed. -/
def request_shape (vq : virtio_virtq) (s : Submission) (type sector : Nat)
    (header_paddr data_paddr data_len data_flags status_paddr : Nat) : Prop :=
  s.header.type = type ∧ s.header.sector = sector ∧ s.status = 0xff ∧
  s.chain.length = 3 ∧
  s.vq.descs vq.free_head =
    ⟨header_paddr, 16, VIRTQ_DESC_F_NEXT, (vq.descs vq.free_head).next⟩ ∧
  s.vq.descs (vq.descs vq.free_head).next =
    ⟨data_paddr, data_len, data_flags, (vq.descs (vq.descs vq.free_head).next).next⟩ ∧
  s.vq.descs (vq.descs (vq.descs vq.free_head).next).next =
    ⟨status_paddr, 1, VIRTQ_DESC_F_WRITE, 0⟩ ∧
  (∀ j, j ≠ vq.free_head → j ≠ (vq.descs vq.free_head).next →
    j ≠ (vq.descs (vq.descs vq.free_head).next).next → s.vq.descs j = vq.descs j) ∧
  s.vq.num_free_descs + 3 = vq.num_free_descs ∧
  s.vq.avail_ring (vq.avail_index % vq.num_descs) = vq.free_head ∧
  (∀ j, j ≠ vq.avail_index % vq.num_descs → s.vq.avail_ring j = vq.avail_ring j) ∧
  s.vq.avail_index = (vq.avail_index + 1) % 65536 ∧
  s.notify = vq.index

/-! ## The free list and the chains of a virtqueue -/

/-- The free list: the `k` nodes reached from `head` through `next`. -/
def free_list (descs : Nat → virtq_desc) : Nat → Nat → List Nat
  | _, 0 => []
  | head, k + 1 => head :: free_list descs (descs head).next k

/-- The descriptors of the chain that starts at descriptor `i`: `i` and, while
`VIRTQ_DESC_F_NEXT` is set, the descriptors reached through `next` (at most
`fuel` of them). -/
def chain_nodes (descs : Nat → virtq_desc) : Nat → Nat → List Nat
  | 0, _ => []
  | fuel + 1, i =>
    if (descs i).flags &&& VIRTQ_DESC_F_NEXT = 0 then [i]
    else i :: chain_nodes descs fuel (descs i).next

/-- The list `l` is threaded through `next` from `head`: `head` is its first
node and `next` of every node but the last is the following node. -/
def Linked (descs : Nat → virtq_desc) : Nat → List Nat → Prop
  | _, [] => True
  | head, a :: rest => head = a ∧ Linked descs (descs a).next rest

/-- The non-empty list `c` is a descriptor chain: every node but the last has
`VIRTQ_DESC_F_NEXT` set and `next` pointing at the following node, the last
node has `VIRTQ_DESC_F_NEXT` clear. -/
def ChainLinked (descs : Nat → virtq_desc) : List Nat → Prop
  | [] => False
  | [a] => (descs a).flags &&& VIRTQ_DESC_F_NEXT = 0
  | a :: b :: rest =>
    (descs a).flags &&& VIRTQ_DESC_F_NEXT ≠ 0 ∧ (descs a).next = b ∧
      ChainLinked descs (b :: rest)

/-- The bookkeeping of a virtqueue described by lists: `fl` is the free list,
`done` the chains the device has completed and the driver has not reclaimed (in
the order of completion), `flight` the chains the device has not completed.
Together they hold every descriptor index below `N` exactly once; the used ring
names the heads of the `done` chains from `last_used_index` on, as long as the
count of completions has not passed 65535. -/
structure VqInv (N : Nat) (vq : virtio_virtq) (fl : List Nat)
    (done flight : List (List Nat)) : Prop where
  hN : vq.num_descs = N
  hmax : N ≤ 4096
  perm : (fl ++ (done ++ flight).flatten).Perm (List.range N)
  len : fl.length = vq.num_free_descs
  linked : Linked vq.descs vq.free_head fl
  chains : ∀ c, c ∈ done ++ flight → ChainLinked vq.descs c
  used : vq.used_index = (vq.last_used_index + done.length) % 65536
  ring : vq.last_used_index + done.length < 65536 → ∀ j, j < done.length →
    (vq.used_ring ((vq.last_used_index + j) % N)).id = (done.getD j []).headD 0

/-- The states of a virtqueue of `N` descriptors that are reached from the
state `virtq_init` builds by calls of `virtq_push` that return and by
completions of the device, together with the heads of the chains in flight:
`done` for the chains that are completed and not yet reclaimed, in the order of
completion, `flight` for the chains the device has not completed.  The device
completes a chain in `flight`; a push that had to reclaim has reclaimed every
completed chain. -/
inductive Reach (N : Nat) : virtio_virtq → List Nat → List Nat → Prop
  | init (index : Nat) (vq : virtio_virtq) :
      virtq_init index N = Except.ok vq → Reach N vq [] []
  | push (vq vq1 : virtio_virtq) (done flight : List Nat)
      (chain : List virtio_chain_entry) :
      Reach N vq done flight → virtq_push vq chain = Except.ok vq1 →
      Reach N vq1 (if chain.length > vq.num_free_descs then [] else done)
        (flight ++ [vq1.avail_ring (vq.avail_index % vq.num_descs)])
  | complete (vq : virtio_virtq) (done pre post : List Nat) (id len : Nat) :
      Reach N vq done (pre ++ id :: post) →
      Reach N (device_complete vq id len) (done ++ [id]) (pre ++ post)

/-- The virtqueue after `virtq_push(vq, chain, n)` (the unchanged virtqueue when
the call halts). -/
def pushed (vq : virtio_virtq) (chain : List virtio_chain_entry) : virtio_virtq :=
  match virtq_push vq chain with
  | Except.ok vq1 => vq1
  | Except.error _ => vq

/-- The chain of a one-sector read request used in the examples. -/
def test_chain : List virtio_chain_entry :=
  [⟨0x2ffe00, 16, false⟩, ⟨0x300000, 512, true⟩, ⟨0x2ffe10, 1, true⟩]

/-- The queue of 8 descriptors after a push, the completion of that chain, a
second push and a third push, which has to reclaim the first chain. -/
def test_vq3 : virtio_virtq :=
  pushed (pushed (device_complete (pushed (virtq_init_state 0 8) test_chain) 0 1) test_chain)
    test_chain

/-- The bytes of the sector that holds the ext4 superblock of the partition
that starts at `part_lba`. -/
def superblock (d : Disk) (part_lba : Nat) : Mem :=
  fun k => d ((part_lba + SUPERBLOCK_SECTOR_BASE) % U64 * SECTOR_SIZE + k)

/-- The bytes of the file-system block that holds the block-group descriptors:
block 1 for `bytes_per_block > 1024`, block 2 otherwise. -/
def group_desc_block (fs : Fs) (d : Disk) : Mem :=
  fun k => d (block_lba fs (if fs.bytes_per_block > 1024 then 1 else 2) * SECTOR_SIZE + k)

/-- The first statements of `main`: `memcpy(path, path_unterminated, path_len);
path[path_len] = '\0';` on the local `char path[256]`, whose initial content is
`stack`.  The result is the content of `path`; with `path_len >= 256` a store
goes past the end of `path`. -/
def main_path (path_unterminated : Mem) (path_len : Nat) (stack : Mem) :
    Except Halt (List Nat) :=
  if path_len < 256 then
    Except.ok ((List.range 256).map fun i =>
      if i < path_len then path_unterminated i else if i = path_len then 0 else stack i)
  else Except.error Halt.fault

/-- The bytes of the string literal `"boot.dump!!!!!!!!"` that `test_main`
passes as the path (with its terminating NUL). -/
def test_path : List Nat :=
  [98, 111, 111, 116, 46, 100, 117, 109, 112, 33, 33, 33, 33, 33, 33, 33, 33, 0]

/-- The bytes of `boot.dump`. -/
def boot_dump : List Nat := [98, 111, 111, 116, 46, 100, 117, 109, 112]

/-! ## Completion of a block request (`drivers/virtio_blk.c`) -/

/-- The status value `VIRTIO_BLK_S_OK`. -/
def VIRTIO_BLK_S_OK : Nat := 0

/-- The status value `VIRTIO_BLK_S_IOERR`. -/
def VIRTIO_BLK_S_IOERR : Nat := 1

/-- The status value `VIRTIO_BLK_S_UNSUPP`. -/
def VIRTIO_BLK_S_UNSUPP : Nat := 2

/-- The function `wait_for_completion(header, status)`.  `status k` is what the
`k`-th read of the volatile `*status` yields; the polling loop takes one read
per iteration, the `switch` one more.  The loop has no bound of its own: it
hangs when the fuel runs out. -/
def wait_for_completion (status : Nat → Nat) : Nat → Nat → Except Halt Unit
  | 0, _ => Except.error Halt.hang
  | fuel + 1, k =>
    if status k % 256 = IN_PROGRESS_STATUS then wait_for_completion status fuel (k + 1)
    else if status (k + 1) % 256 = VIRTIO_BLK_S_OK then Except.ok ()
    else if status (k + 1) % 256 = VIRTIO_BLK_S_IOERR then Except.error Halt.panic
    else if status (k + 1) % 256 = VIRTIO_BLK_S_UNSUPP then Except.error Halt.panic
    else Except.error Halt.panic

/-- The function `disk_read_sectors(lba, buf, num_sectors)` as far as the
virtqueue and the status byte go: submission, then `wait_for_completion`. -/
def disk_read_sectors_call (vq : virtio_virtq) (lba buf num_sectors : Nat)
    (header_ptr status_ptr reserved : Nat) (status : Nat → Nat) (fuel : Nat) :
    Except Halt virtio_virtq :=
  match disk_read_sectors_submit vq lba buf num_sectors header_ptr status_ptr reserved with
  | Except.error h => Except.error h
  | Except.ok s =>
    match wait_for_completion status fuel 0 with
    | Except.error h => Except.error h
    | Except.ok _ => Except.ok s.vq

/-- The function `disk_write_sectors(lba, buf, num_sectors)` as far as the
virtqueue and the status byte go: submission, then `wait_for_completion`. -/
def disk_write_sectors_call (vq : virtio_virtq) (lba buf num_sectors : Nat)
    (header_ptr status_ptr reserved : Nat) (status : Nat → Nat) (fuel : Nat) :
    Except Halt virtio_virtq :=
  match disk_write_sectors_submit vq lba buf num_sectors header_ptr status_ptr reserved with
  | Except.error h => Except.error h
  | Except.ok s =>
    match wait_for_completion status fuel 0 with
    | Except.error h => Except.error h
    | Except.ok _ => Except.ok s.vq

/-- The reads of a status byte that holds the pre-set `IN_PROGRESS_STATUS` for
the first `t` reads and the value `st` the device has written from then on. -/
def status_reads (t st : Nat) : Nat → Nat :=
  fun k => if k < t then IN_PROGRESS_STATUS else st

/-! ## PCI configuration space (`pci.c`, `pci.h`, `types.h`) -/

/-- The offset `PCI_CONFIG_VENDOR_ID`. -/
def PCI_CONFIG_VENDOR_ID : Nat := 0x00

/-- The offset `PCI_CONFIG_DEVICE_ID`. -/
def PCI_CONFIG_DEVICE_ID : Nat := 0x02

/-- The offset `PCI_CONFIG_COMMAND`. -/
def PCI_CONFIG_COMMAND : Nat := 0x04

/-- The offset `PCI_CONFIG_BAR0`. -/
def PCI_CONFIG_BAR0 : Nat := 0x10

/-- The value `OK` of `error_t`. -/
def OK : Int := 0

/-- The value `ERR_NOT_FOUND` of `error_t`. -/
def ERR_NOT_FOUND : Int := -3

/-- The structure `struct pci_device`. -/
structure pci_device where
  bus : Nat
  slot : Nat
deriving DecidableEq

/-- The address that `read32` and `write32` write to `PCI_IOPORT_ADDR`:
`(1UL << 31) | (bus << 16) | (slot << 11) | offset`, with `uint8_t bus`,
`uint8_t slot` and `uint16_t offset`, stored in a `uint32_t`. -/
def pci_addr (bus slot offset : Nat) : Nat :=
  (2 ^ 31 ||| ((bus % 256) <<< 16) ||| ((slot % 256) <<< 11) ||| (offset % 65536)) % U32

/-- The function `read32(bus, slot, offset)`.  The configuration space `cfg`
gives the value read from `PCI_IOPORT_DATA` as a function of the address
written to `PCI_IOPORT_ADDR` just before. -/
def read32 (cfg : Nat → Nat) (bus slot offset : Nat) : Except Halt Nat :=
  if (offset % 65536) &&& (4 - 1) = 0 then Except.ok (cfg (pci_addr bus slot offset) % U32)
  else Except.error Halt.assertion

/-- The function `read16(bus, slot, offset)`. -/
def read16 (cfg : Nat → Nat) (bus slot offset : Nat) : Except Halt Nat :=
  match read32 cfg bus slot ((offset % 65536) &&& 0xfffc) with
  | Except.error h => Except.error h
  | Except.ok value => Except.ok ((value >>> (((offset % 65536) &&& 0x03) * 8)) &&& 0xffff)

/-- The callback `pci_find(vendor, device)` of `drivers/virtio_blk.c`. -/
def pci_find (vendor device : Nat) : Bool := vendor == 0x1af4 && device == 0x1001

/-- The inner loop `for (int slot = 0; slot < 32; slot++)` of `pci_find_device`
over the slots that are left: the slot of the first match, if any. -/
def pci_find_slots (callback : Nat → Nat → Bool) (cfg : Nat → Nat) (bus : Nat) :
    List Nat → Except Halt (Option Nat)
  | [] => Except.ok none
  | slot :: rest =>
    match read16 cfg bus slot PCI_CONFIG_VENDOR_ID with
    | Except.error h => Except.error h
    | Except.ok vendor =>
      match read16 cfg bus slot PCI_CONFIG_DEVICE_ID with
      | Except.error h => Except.error h
      | Except.ok device =>
        if vendor = 0xffff then pci_find_slots callback cfg bus rest
        else if callback vendor device then Except.ok (some slot)
        else pci_find_slots callback cfg bus rest

/-- The outer loop `for (int bus = 0; bus <= 255; bus++)` of `pci_find_device`
over the buses that are left. -/
def pci_find_buses (callback : Nat → Nat → Bool) (cfg : Nat → Nat) :
    List Nat → Except Halt (Option pci_device)
  | [] => Except.ok none
  | bus :: rest =>
    match pci_find_slots callback cfg bus (List.range 32) with
    | Except.error h => Except.error h
    | Except.ok (some slot) => Except.ok (some ⟨bus, slot⟩)
    | Except.ok none => pci_find_buses callback cfg rest

/-- The function `pci_find_device(callback, dev)`: the value returned and the
content of `*dev`, which is written on a match only. -/
def pci_find_device (callback : Nat → Nat → Bool) (cfg : Nat → Nat) (dev : pci_device) :
    Except Halt (Int × pci_device) :=
  match pci_find_buses callback cfg (List.range 256) with
  | Except.error h => Except.error h
  | Except.ok (some found) => Except.ok (OK, found)
  | Except.ok none => Except.ok (ERR_NOT_FOUND, dev)

/-- The vendor ID of the function at `(bus, slot)`: the low half of the first
configuration dword. -/
def vendor_id (cfg : Nat → Nat) (bus slot : Nat) : Nat :=
  cfg (pci_addr bus slot 0) % 65536

/-- The device ID of the function at `(bus, slot)`: the high half of the first
configuration dword. -/
def device_id (cfg : Nat → Nat) (bus slot : Nat) : Nat :=
  cfg (pci_addr bus slot 0) / 65536 % 65536

/-- The function at `(bus, slot)` is a legacy virtio block device. -/
def is_virtio_blk (cfg : Nat → Nat) (bus slot : Nat) : Prop :=
  vendor_id cfg bus slot = 0x1af4 ∧ device_id cfg bus slot = 0x1001

instance (cfg : Nat → Nat) (bus slot : Nat) : Decidable (is_virtio_blk cfg bus slot) :=
  inferInstanceAs (Decidable (_ ∧ _))

/-! ## Setup of the legacy virtio device (`drivers/virtio_legacy.c`,
`drivers/virtio_legacy.h`, `drivers/virtio.h`, `drivers/virtio_blk.c`,
`page_alloc.c`) -/

/-- The register offset `VIRTIO_REG_DEVICE_FEATS`. -/
def VIRTIO_REG_DEVICE_FEATS : Nat := 0x00

/-- The register offset `VIRTIO_REG_DRIVER_FEATS`. -/
def VIRTIO_REG_DRIVER_FEATS : Nat := 0x04

/-- The register offset `VIRTIO_REG_QUEUE_ADDR_PFN`. -/
def VIRTIO_REG_QUEUE_ADDR_PFN : Nat := 0x08

/-- The register offset `VIRTIO_REG_NUM_DESCS`. -/
def VIRTIO_REG_NUM_DESCS : Nat := 0x0c

/-- The register offset `VIRTIO_REG_QUEUE_SELECT`. -/
def VIRTIO_REG_QUEUE_SELECT : Nat := 0x0e

/-- The register offset `VIRTIO_REG_DEVICE_STATUS`. -/
def VIRTIO_REG_DEVICE_STATUS : Nat := 0x12

/-- The status bit `VIRTIO_STATUS_ACK` of `virtio.h`. -/
def VIRTIO_STATUS_ACK : Nat := 1

/-- The status bit `VIRTIO_STATUS_DRIVER` of `virtio.h`. -/
def VIRTIO_STATUS_DRIVER : Nat := 2

/-- The status bit `VIRTIO_STATUS_DRIVER_OK` of `virtio.h`. -/
def VIRTIO_STATUS_DRIVER_OK : Nat := 4

/-- The value `VIRTIO_STATUS_FEAT_OK` of `virtio.h`. -/
def VIRTIO_STATUS_FEAT_OK : Nat := 82

/-- The status bit `DEVICE_STATUS_FEATURES_OK` of `virtio_legacy.h`. -/
def DEVICE_STATUS_FEATURES_OK : Nat := 8

/-- The status bit `DEVICE_STATUS_DEVICE_NEEDS_RESET` of `virtio_legacy.h`. -/
def DEVICE_STATUS_DEVICE_NEEDS_RESET : Nat := 64

/-- The queue index `VIRTIO_BLK_REQUEST_QUEUE`. -/
def VIRTIO_BLK_REQUEST_QUEUE : Nat := 0

/-- A write of the driver to the hardware: `write32` to the PCI configuration
space (the address written to `PCI_IOPORT_ADDR` and the value written to
`PCI_IOPORT_DATA`), or `ioport_write8/16/32(port_base + reg, value)` to a
register of the virtio device. -/
inductive IoWrite where
  | config (addr value : Nat)
  | reg (reg value : Nat)
deriving DecidableEq

/-- The machine the driver runs on: the PCI configuration space, the feature
bits and the queue sizes (by selected queue) that the virtio device reports,
and the end `__free_pages_end` of the page pool. -/
structure Hardware where
  cfg : Nat → Nat
  device_features : Nat
  queue_size : Nat → Nat
  free_pages_end : Nat

/-- The state the setup works on: `port_base`, the device status register
(it reads back the value written last), the selected queue, `current` of
`page_alloc.c`, and the writes made so far, in order. -/
structure DriverState where
  port_base : Nat
  status : Nat
  queue_select : Nat
  current : Nat
  writes : List IoWrite

/-- The function `read_device_status()`. -/
def read_device_status (s : DriverState) : Nat := s.status % 256

/-- The function `write_device_status(value)`. -/
def write_device_status (s : DriverState) (value : Nat) : DriverState :=
  { s with
    status := value % 256
    writes := s.writes ++ [IoWrite.reg VIRTIO_REG_DEVICE_STATUS (value % 256)] }

/-- The function `read_device_features()`. -/
def read_device_features (hw : Hardware) : Nat := hw.device_features % U32

/-- The function `write32(bus, slot, offset, value)`. -/
def write32 (s : DriverState) (bus slot offset value : Nat) : Except Halt DriverState :=
  if (offset % 65536) &&& (4 - 1) = 0 then
    Except.ok { s with
      writes := s.writes ++ [IoWrite.config (pci_addr bus slot offset) (value % U32)] }
  else Except.error Halt.assertion

/-- The function `pci_enable_bus_master(dev)`. -/
def pci_enable_bus_master (hw : Hardware) (s : DriverState) (dev : pci_device) :
    Except Halt DriverState :=
  match read32 hw.cfg dev.bus dev.slot PCI_CONFIG_COMMAND with
  | Except.error h => Except.error h
  | Except.ok value => write32 s dev.bus dev.slot PCI_CONFIG_COMMAND (value ||| (1 <<< 2))

/-- The function `virtio_legacy_find_device(pci_find, ops)`: the value returned
and the state.  The local `pci_dev` is read only after a match has written
it. -/
def virtio_legacy_find_device (callback : Nat → Nat → Bool) (hw : Hardware)
    (s : DriverState) : Except Halt (Int × DriverState) :=
  match pci_find_device callback hw.cfg ⟨0, 0⟩ with
  | Except.error h => Except.error h
  | Except.ok (err, pci_dev) =>
    if err ≠ OK then Except.ok (err, s)
    else
      match read32 hw.cfg pci_dev.bus pci_dev.slot PCI_CONFIG_BAR0 with
      | Except.error h => Except.error h
      | Except.ok bar0 =>
        if bar0 &&& 1 = 1 then
          match pci_enable_bus_master hw
              { s with port_base := (bar0 &&& (U32 - 1 - 3)) % 65536 } pci_dev with
          | Except.error h => Except.error h
          | Except.ok s2 =>
            let s3 := write_device_status s2 0
            let s4 := write_device_status s3 (read_device_status s3 ||| VIRTIO_STATUS_ACK)
            let s5 := write_device_status s4 (read_device_status s4 ||| VIRTIO_STATUS_DRIVER)
            Except.ok (OK, s5)
        else Except.error Halt.assertion

/-- The function `negotiate_feature(features)`. -/
def negotiate_feature (hw : Hardware) (s : DriverState) (features : Nat) :
    Except Halt DriverState :=
  if read_device_features hw &&& (features % U64) = features % U64 then
    let s1 := { s with
      writes := s.writes ++ [IoWrite.reg VIRTIO_REG_DRIVER_FEATS (features % U32)] }
    let s2 := write_device_status s1 (read_device_status s1 ||| VIRTIO_STATUS_FEAT_OK)
    if read_device_status s2 &&& VIRTIO_STATUS_FEAT_OK ≠ 0 then Except.ok s2
    else Except.error Halt.assertion
  else Except.error Halt.assertion

/-- The function `activate()`.  No function of the program calls it. -/
def activate (s : DriverState) : DriverState :=
  write_device_status s (read_device_status s ||| VIRTIO_STATUS_DRIVER_OK)

/-- The function `page_alloc(n, zeroed)` with `int n`: the pointer returned and
the state. -/
def page_alloc (hw : Hardware) (s : DriverState) (n : Nat) :
    Except Halt (Nat × DriverState) :=
  if s.current &&& (PAGE_SIZE - 1) ≠ 0 then Except.error Halt.assertion
  else if n = 0 ∨ n > INT_MAX then Except.error Halt.panic
  else if s.current + n * PAGE_SIZE > hw.free_pages_end then Except.error Halt.panic
  else Except.ok (s.current, { s with current := s.current + n * PAGE_SIZE })

/-- The function `virtq_init(index)` with its port accesses and its page
allocation; the virtqueue it leaves in `virtqs[index]` is `virtq_init_state`. -/
def virtq_init_ports (hw : Hardware) (s : DriverState) (index : Nat) :
    Except Halt (virtio_virtq × DriverState) :=
  let s1 := { s with
    queue_select := index % 65536
    writes := s.writes ++ [IoWrite.reg VIRTIO_REG_QUEUE_SELECT (index % 65536)] }
  let num_descs := hw.queue_size s1.queue_select % 65536
  if num_descs ≤ 4096 then
    let avail_ring_off := 16 * num_descs
    let avail_ring_size := 2 * (3 + num_descs)
    let used_ring_off := ALIGN_UP (avail_ring_off + avail_ring_size) PAGE_SIZE
    let used_ring_size := 2 * 3 + 8 * num_descs
    let virtq_size := used_ring_off + ALIGN_UP used_ring_size PAGE_SIZE
    match page_alloc hw s1 (ALIGN_UP virtq_size PAGE_SIZE / PAGE_SIZE) with
    | Except.error h => Except.error h
    | Except.ok (virtq_base, s2) =>
      if vaddr2paddr virtq_base &&& (PAGE_SIZE - 1) = 0 then
        Except.ok (virtq_init_state index num_descs,
          { s2 with
            writes := s2.writes ++
              [IoWrite.reg VIRTIO_REG_QUEUE_ADDR_PFN
                (vaddr2paddr virtq_base / PAGE_SIZE % U32)] })
      else Except.error Halt.assertion
  else Except.error Halt.assertion

/-- The function `disk_init()`: the request virtqueue and the state. -/
def disk_init (hw : Hardware) (s : DriverState) : Except Halt (virtio_virtq × DriverState) :=
  match virtio_legacy_find_device pci_find hw s with
  | Except.error h => Except.error h
  | Except.ok (err, s1) =>
    if err ≠ OK then Except.error Halt.panic
    else
      match negotiate_feature hw s1 0 with
      | Except.error h => Except.error h
      | Except.ok s2 =>
        match virtq_init_ports hw s2 VIRTIO_BLK_REQUEST_QUEUE with
        | Except.error h => Except.error h
        | Except.ok (virtq, s3) =>
          match page_alloc hw s3 (ALIGN_UP (16 * virtq.num_descs) PAGE_SIZE / PAGE_SIZE) with
          | Except.error h => Except.error h
          | Except.ok (_, s4) =>
            match page_alloc hw s4 (ALIGN_UP (1 * virtq.num_descs) PAGE_SIZE / PAGE_SIZE) with
            | Except.error h => Except.error h
            | Except.ok (_, s5) =>
              match page_alloc hw s5
                  (ALIGN_UP (1 * virtq.num_descs) PAGE_SIZE / PAGE_SIZE) with
              | Except.error h => Except.error h
              | Except.ok (_, s6) => Except.ok (virtq, s6)

/-- The machine of the examples: one virtio block device at bus 0, slot 4 with
the I/O BAR `0xc001`, a request queue of 128 descriptors, and a page pool of
1 MiB above `0xffff800000300000`. -/
def test_hw : Hardware :=
  { cfg := fun addr =>
      if addr = pci_addr 0 4 0 then 0x10011af4
      else if addr = pci_addr 0 4 PCI_CONFIG_BAR0 then 0xc001
      else if addr = pci_addr 0 4 PCI_CONFIG_COMMAND then 0x00100003
      else 0xffffffff
    device_features := 0x79000e54
    queue_size := fun q => if q = 0 then 128 else 0
    free_pages_end := 0xffff800000400000 }

/-- The state of the examples before `disk_init`. -/
def test_driver : DriverState :=
  { port_base := 0, status := 0, queue_select := 0, current := 0xffff800000300000,
    writes := [] }

/-- The number of records that the directory walk of
`ext4_get_inode_by_filename` visits: the iterations of its `while` loop whose
body runs, counted along the loop `ext4_get_inode_by_filename_loop`. -/
def ext4_get_inode_by_filename_visits (buf : Mem) (read_len : Nat) (filename : List Nat) :
    Nat → Nat → Nat
  | 0, _ => 0
  | fuel + 1, off =>
    if off < read_len then
      if le16 buf (off + 4) = 0 then 1
      else
        let name := (List.range (buf (off + 6) % 256)).map fun i => buf (off + 8 + i)
        if strcmp name filename = 0 then 1
        else 1 + ext4_get_inode_by_filename_visits buf read_len filename fuel
          (off + le16 buf (off + 4))
    else 0

/-- The lengths that the short-write branch of `disk_write_to_sector_list`
passes to `memcpy(tmp, buf, len)` and to `memset(tmp + len, 0, SECTOR_SIZE -
len)` (a `size_t` subtraction), for a run on the given list with `len` dump
bytes; `none` when the run never takes the branch.  `tmp` has `SECTOR_SIZE`
bytes. -/
def short_write_lengths : List sector_list_entry → Nat → Option (Nat × Nat)
  | [], _ => none
  | e :: rest, len =>
    if len < e.num_sectors * SECTOR_SIZE % U64 then
      some (len, (SECTOR_SIZE + U64 - len) % U64)
    else short_write_lengths rest (len - e.num_sectors * SECTOR_SIZE % U64)

/-- The test disk with the superblock field `blocks_per_group` set to 0. -/
def test_image_no_blocks_per_group : Disk :=
  patch test_gpt_image (2050 * 512 + 32) [0, 0, 0, 0]

/-- The test disk with the superblock field `inodes_per_group` set to 0. -/
def test_image_no_inodes_per_group : Disk :=
  patch test_gpt_image (2050 * 512 + 40) [0, 0, 0, 0]

/-- The test disk with the superblock field `bytes_per_inode` set to 0. -/
def test_image_no_bytes_per_inode : Disk :=
  patch test_gpt_image (2050 * 512 + 88) [0, 0]

/-- The test disk with the superblock field `bytes_per_inode` set to 8192, more
than the 4096 bytes of a block. -/
def test_image_large_inode : Disk :=
  patch test_gpt_image (2050 * 512 + 88) [0, 32]

/-- Extent area of a file whose header has `entries_count = 5`: the entries 0
to 3, which fill the 60-byte `i_block` area, have `blocks_count = 0`; the 12
bytes behind them (the inode fields `generation`, `file_acl` and `size_hi`)
read as an extent `(start 300, count 1)`. -/
def extents_five : List Nat :=
  [0x0A, 0xF3, 5, 0, 4, 0, 0, 0, 0, 0, 0, 0] ++ List.replicate 48 0 ++
    [0, 0, 0, 0, 1, 0, 0, 0, 0x2C, 0x01, 0, 0]

/-- Extent area of a file whose header has `entries_count = 7` and whose bytes
up to the end of the 128-byte inode are 0. -/
def extents_seven : List Nat :=
  [0x0A, 0xF3, 7, 0, 4, 0, 0, 0, 0, 0, 0, 0] ++ List.replicate 76 0

/-- The virtqueue of 4 descriptors after `k` request cycles: in each cycle the
driver pushes the three-descriptor chain `test_chain` and the device completes
the chain whose head was just published (with used length 0). -/
def cycled : Nat → virtio_virtq
  | 0 => virtq_init_state 0 4
  | k + 1 =>
    device_complete (pushed (cycled k) test_chain)
      ((pushed (cycled k) test_chain).avail_ring
        ((cycled k).avail_index % (cycled k).num_descs)) 0

/-! ## The heap (`malloc.c`, `malloc.h`) -/

/-- The constant `HEAP_SIZE`. -/
def HEAP_SIZE : Nat := 64 * 1024

/-- The magic `MALLOC_FREE`. -/
def MALLOC_FREE : Nat := 0x0a110ced0a110ced

/-- The magic `MALLOC_IN_USE`. -/
def MALLOC_IN_USE : Nat := 0xdea110cddea110cd

/-- The constant `MALLOC_REDZONE_LEN`. -/
def MALLOC_REDZONE_LEN : Nat := 16

/-- The size `sizeof(struct malloc_chunk)` of a chunk header; `data` starts
that many bytes behind the chunk's address. -/
def MALLOC_HEADER_LEN : Nat := 48

/-- The constant `MALLOC_FRAME_LEN`. -/
def MALLOC_FRAME_LEN : Nat := MALLOC_HEADER_LEN + MALLOC_REDZONE_LEN

/-- The constant `NUM_BINS`. -/
def NUM_BINS : Nat := 16

/-- The header fields of `struct malloc_chunk`; the pointer `next` is an
address, 0 for `NULL`. -/
structure malloc_chunk where
  next : Nat
  capacity : Nat
  size : Nat
  magic : Nat
deriving DecidableEq

/-- The heap: the chunk header stored at each address and the array `bins`
(0 for `NULL`).  The program is taken to write only inside
`data[0 .. capacity)` of the chunks it holds, so the redzones keep their
markers and `check_buffer_overflow` returns. -/
structure Heap where
  chunks : Nat → malloc_chunk
  bins : Nat → Nat

/-- The function `get_bin_idx_from_size(size)`: `none` for the result -1. -/
def get_bin_idx_from_size (size : Nat) : Option Nat :=
  (List.range (NUM_BINS - 1)).find? fun i => decide (size ≤ 1 <<< i)

/-- The loop of `insert` that walks the list of `bins[NUM_BINS - 1]` to its
end: the address of the last chunk, or 0 when the list is empty. -/
def insert_walk (h : Heap) : Nat → Nat → Nat → Except Halt Nat
  | 0, _, _ => Except.error Halt.hang
  | fuel + 1, last, chunk =>
    if chunk = 0 then Except.ok last
    else insert_walk h fuel chunk (h.chunks chunk).next

/-- The function `insert(ptr, len)`; the walk gets `fuel` steps. -/
def insert (fuel : Nat) (h : Heap) (ptr len : Nat) : Except Halt Heap :=
  if len > MALLOC_FRAME_LEN then
    let h1 : Heap :=
      { h with chunks := Function.update h.chunks ptr ⟨0, len - MALLOC_FRAME_LEN, 0, MALLOC_FREE⟩ }
    match insert_walk h1 fuel 0 (h1.bins (NUM_BINS - 1)) with
    | Except.error e => Except.error e
    | Except.ok last =>
      if last = 0 then
        Except.ok { h1 with bins := Function.update h1.bins (NUM_BINS - 1) ptr }
      else
        Except.ok { h1 with
          chunks := Function.update h1.chunks last { h1.chunks last with next := ptr } }
  else Except.error Halt.assertion

/-- The function `malloc_init()`: `bins` is zero-initialised, `heap` is the
address `page_alloc` returns, `mem` the content of the memory before. -/
def malloc_init (mem : Nat → malloc_chunk) (heap : Nat) : Except Halt Heap :=
  insert 1 ⟨mem, fun _ => 0⟩ heap HEAP_SIZE

/-- The function `split(chunk, len)`: the heap and the address of the new
chunk. -/
def split (h : Heap) (chunk len : Nat) : Except Halt (Heap × Nat) :=
  let new_chunk_len := (MALLOC_FRAME_LEN + len) % U64
  if (h.chunks chunk).capacity ≥ new_chunk_len then
    let new_chunk_ptr := chunk + MALLOC_HEADER_LEN +
      ((h.chunks chunk).capacity + MALLOC_REDZONE_LEN - new_chunk_len)
    let chunks1 := Function.update h.chunks chunk
      { h.chunks chunk with capacity := (h.chunks chunk).capacity - new_chunk_len }
    if new_chunk_len > MALLOC_FRAME_LEN then
      Except.ok ({ h with
        chunks := Function.update chunks1 new_chunk_ptr ⟨0, len, 0, MALLOC_FREE⟩ },
        new_chunk_ptr)
    else Except.error Halt.assertion
  else Except.error Halt.assertion

/-- The statements of `malloc` that hand out the chunk `allocated`: the
pointer `allocated->data` and the heap. -/
def malloc_take (h : Heap) (allocated size : Nat) : Nat × Heap :=
  (allocated + MALLOC_HEADER_LEN,
    { h with
      chunks := Function.update h.chunks allocated
        { h.chunks allocated with magic := MALLOC_IN_USE, size := size, next := 0 } })

/-- The `for` loop of `malloc` over the list of `bins[NUM_BINS - 1]`; `prev`
and `chunk` are addresses, 0 for `NULL`. -/
def malloc_scan (size : Nat) (bin_idx : Option Nat) :
    Nat → Heap → Nat → Nat → Except Halt (Nat × Heap)
  | 0, _, _, _ => Except.error Halt.hang
  | fuel + 1, h, prev, chunk =>
    if chunk = 0 then Except.error Halt.panic
    else if (h.chunks chunk).magic ≠ MALLOC_FREE then Except.error Halt.assertion
    else
      let chunk_size := match bin_idx with
        | none => size
        | some i => 1 <<< i
      if (h.chunks chunk).capacity > (chunk_size + MALLOC_FRAME_LEN) % U64 then
        match split h chunk chunk_size with
        | Except.error e => Except.error e
        | Except.ok (h1, allocated) => Except.ok (malloc_take h1 allocated size)
      else if (h.chunks chunk).capacity ≥ chunk_size then
        let h1 : Heap :=
          if prev ≠ 0 then
            { h with
              chunks := Function.update h.chunks prev
                { h.chunks prev with next := (h.chunks chunk).next } }
          else
            { h with
              bins := Function.update h.bins (NUM_BINS - 1)
                (h.chunks (h.bins (NUM_BINS - 1))).next }
        Except.ok (malloc_take h1 chunk size)
      else malloc_scan size bin_idx fuel h chunk (h.chunks chunk).next

/-- The function `malloc(size)`: the pointer returned and the heap.  The scan
of the last bin gets `fuel` steps. -/
def malloc (fuel : Nat) (h : Heap) (size : Nat) : Except Halt (Nat × Heap) :=
  let size1 := if size = 0 then 1 else size
  let size2 := (size1 + 16 - 1) % U64 / 16 * 16
  let bin_idx := get_bin_idx_from_size size2
  match bin_idx with
  | some i =>
    if h.bins i ≠ 0 then
      let allocated := h.bins i
      if (h.chunks allocated).magic = MALLOC_FREE then
        Except.ok (allocated + MALLOC_HEADER_LEN,
          { chunks := Function.update h.chunks allocated
              { h.chunks allocated with magic := MALLOC_IN_USE, size := size2, next := 0 }
            bins := Function.update h.bins i (h.chunks allocated).next })
      else Except.error Halt.assertion
    else malloc_scan size2 bin_idx fuel h 0 (h.bins (NUM_BINS - 1))
  | none => malloc_scan size2 bin_idx fuel h 0 (h.bins (NUM_BINS - 1))

/-- The function `free(ptr)`. -/
def free (h : Heap) (ptr : Nat) : Except Halt Heap :=
  if ptr = 0 then Except.ok h
  else
    let chunk := ptr - MALLOC_HEADER_LEN
    if (h.chunks chunk).magic ≠ MALLOC_IN_USE then Except.error Halt.assertion
    else
      let bin_idx := match get_bin_idx_from_size (h.chunks chunk).capacity with
        | none => NUM_BINS - 1
        | some i => i
      let head := h.bins bin_idx
      Except.ok
        { chunks := Function.update h.chunks chunk
            { h.chunks chunk with
              magic := MALLOC_FREE
              next := if head ≠ 0 then head else (h.chunks chunk).next }
          bins := Function.update h.bins bin_idx chunk }

/-- The heap after a call that returns (the heap before, when it halts). -/
def heap_after (h : Heap) (r : Except Halt (Nat × Heap)) : Heap :=
  match r with
  | Except.ok (_, h1) => h1
  | Except.error _ => h

/-- The pointer a `malloc` call returns with the capacity and the size of the
chunk behind it. -/
def malloc_result (r : Except Halt (Nat × Heap)) : Option (Nat × Nat × Nat) :=
  match r with
  | Except.ok (p, h) =>
    some (p, (h.chunks (p - MALLOC_HEADER_LEN)).capacity,
      (h.chunks (p - MALLOC_HEADER_LEN)).size)
  | Except.error _ => none

/-- The heap of the examples after `malloc_init()`, at address `0x100000`. -/
def test_heap_0 : Heap :=
  match malloc_init (fun _ => ⟨0, 0, 0, 0⟩) 0x100000 with
  | Except.ok h => h
  | Except.error _ => ⟨fun _ => ⟨0, 0, 0, 0⟩, fun _ => 0⟩

/-- The heap of the examples after `malloc(65216)`. -/
def test_heap_1 : Heap := heap_after test_heap_0 (malloc 16 test_heap_0 65216)

/-- The heap of the examples after `p = malloc(128)`. -/
def test_heap_2 : Heap := heap_after test_heap_1 (malloc 16 test_heap_1 128)

/-- The heap of the examples after `free(p)`. -/
def test_heap_3 : Heap :=
  match free test_heap_2 (0x100000 + 48) with
  | Except.ok h => h
  | Except.error _ => test_heap_2

/-! ## The order of the stores of a submission (`drivers/virtio_legacy.c`,
`arch/x64/arch_types.h`)

The stores of `virtq_push` and `virtq_notify` to the memory the device shares
with the driver (descriptor table, `avail.ring`, `avail.index`), the fences
`mb()` and the port write, in the order of the statements of the source. -/

/-- The register offset `VIRTIO_REG_QUEUE_NOTIFY`. -/
def VIRTIO_REG_QUEUE_NOTIFY : Nat := 0x10

/-- One step of a submission that the device can tell: the stores to one
descriptor by one loop iteration (or by the update of the last descriptor), the
store to a slot of `avail.ring`, the store to `avail.index`, the fence `mb()`
(`mfence`), and `ioport_write16(port_base + reg, value)`. -/
inductive SubmitEvent where
  | store_desc (i : Nat) (d : virtq_desc)
  | store_avail_ring (slot value : Nat)
  | store_avail_index (value : Nat)
  | mb
  | port_write (reg value : Nat)
deriving DecidableEq

/-- The event is a store to the descriptor table. -/
def SubmitEvent.is_desc : SubmitEvent → Bool
  | SubmitEvent.store_desc _ _ => true
  | _ => false

/-- The shared memory of the virtqueue after one event. -/
def SubmitEvent.apply (vq : virtio_virtq) : SubmitEvent → virtio_virtq
  | SubmitEvent.store_desc i d => { vq with descs := Function.update vq.descs i d }
  | SubmitEvent.store_avail_ring slot value =>
    { vq with avail_ring := Function.update vq.avail_ring slot value }
  | SubmitEvent.store_avail_index value => { vq with avail_index := value }
  | SubmitEvent.mb => vq
  | SubmitEvent.port_write _ _ => vq

/-- The shared memory of the virtqueue after a sequence of events. -/
def replay (vq : virtio_virtq) (events : List SubmitEvent) : virtio_virtq :=
  events.foldl SubmitEvent.apply vq

/-- The store of one iteration of the reclaim loop of `virtq_push`:
`desc->next = prev_free_head` on the last descriptor of the chain. -/
def virtq_reclaim_one_events (vq : virtio_virtq) : List SubmitEvent :=
  match virtq_chain_last vq (vq.num_descs + 1)
      (vq.used_ring (vq.last_used_index % vq.num_descs)).id 0 with
  | Except.error _ => []
  | Except.ok (last, _) =>
    [SubmitEvent.store_desc last { vq.descs last with next := vq.free_head % 65536 }]

/-- The stores of the reclaim loop of `virtq_push`, along `virtq_reclaim`. -/
def virtq_reclaim_events : Nat → virtio_virtq → List SubmitEvent
  | 0, _ => []
  | fuel + 1, vq =>
    if vq.last_used_index ≠ vq.used_index then
      match virtq_reclaim_one vq with
      | Except.error _ => []
      | Except.ok vq1 => virtq_reclaim_one_events vq ++ virtq_reclaim_events fuel vq1
    else []

/-- The stores of the `for` loop of `virtq_push` that fills the descriptors,
along `virtq_push_fill`. -/
def virtq_push_fill_events (num_descs : Nat) :
    List virtio_chain_entry → (Nat → virtq_desc) → Nat → List SubmitEvent
  | [], _, _ => []
  | e :: rest, descs, desc_index =>
    if desc_index < num_descs then
      SubmitEvent.store_desc desc_index
          ⟨e.addr, e.len,
            (if e.device_writable then VIRTQ_DESC_F_WRITE else 0) ||| VIRTQ_DESC_F_NEXT,
            (descs desc_index).next⟩ ::
        virtq_push_fill_events num_descs rest
          (Function.update descs desc_index
            ⟨e.addr, e.len,
              (if e.device_writable then VIRTQ_DESC_F_WRITE else 0) ||| VIRTQ_DESC_F_NEXT,
              (descs desc_index).next⟩)
          (descs desc_index).next
    else []

/-- The events of `virtq_push(vq, chain, n)`, in the order of its statements:
the reclaim loop, the fill loop, the update of the last descriptor, then
`avail->ring[avail->index % num_descs] = head_index; mb(); avail->index++;`. -/
def virtq_push_events (vq : virtio_virtq) (chain : List virtio_chain_entry) :
    Except Halt (List SubmitEvent) :=
  if chain.length = 0 then Except.error Halt.assertion
  else
    match (if chain.length > vq.num_free_descs then virtq_reclaim (INT_MAX + 2) vq
        else Except.ok vq) with
    | Except.error h => Except.error h
    | Except.ok vq1 =>
      if chain.length > vq1.num_free_descs then Except.error Halt.panic
      else
        match virtq_push_fill vq1.num_descs chain vq1.descs vq1.free_head vq1.free_head with
        | Except.error h => Except.error h
        | Except.ok (descs, _, desc) =>
          Except.ok
            ((if chain.length > vq.num_free_descs then virtq_reclaim_events (INT_MAX + 2) vq
                else []) ++
              virtq_push_fill_events vq1.num_descs chain vq1.descs vq1.free_head ++
              [SubmitEvent.store_desc desc
                  { descs desc with next := 0, flags := (descs desc).flags &&& 65534 },
                SubmitEvent.store_avail_ring (vq1.avail_index % vq1.num_descs)
                  (vq1.free_head % 65536),
                SubmitEvent.mb,
                SubmitEvent.store_avail_index ((vq1.avail_index + 1) % 65536)])

/-- The events of `virtq_notify(vq)`: `mb();` then
`ioport_write16(port_base + VIRTIO_REG_QUEUE_NOTIFY, vq->index)`. -/
def virtq_notify_events (vq : virtio_virtq) : List SubmitEvent :=
  [SubmitEvent.mb, SubmitEvent.port_write VIRTIO_REG_QUEUE_NOTIFY (vq.index % 65536)]

/-- The events of a request submission: `virtio->virtq_push(virtq, chain, 3);
virtio->virtq_notify(virtq);` of `disk_read_sectors` and
`disk_write_sectors`. -/
def submit_events (vq : virtio_virtq) (chain : List virtio_chain_entry) :
    Except Halt (List SubmitEvent) :=
  match virtq_push_events vq chain with
  | Except.error h => Except.error h
  | Except.ok events => Except.ok (events ++ virtq_notify_events vq)

/-! ## Theorems -/

theorem total_bytes_nil : total_bytes [] = 0 := rfl

theorem total_bytes_cons (e : sector_list_entry) (l : List sector_list_entry) :
    total_bytes (e :: l) = e.num_sectors * SECTOR_SIZE + total_bytes l := by
  simp [total_bytes]

theorem total_bytes_append (l1 l2 : List sector_list_entry) :
    total_bytes (l1 ++ l2) = total_bytes l1 + total_bytes l2 := by
  simp [total_bytes]

theorem writer_nil (buf : List Nat) (len : Nat) :
    disk_write_to_sector_list [] buf len = ⟨[], Exit.returned⟩ := rfl

theorem writer_cons_full (e : sector_list_entry) (rest : List sector_list_entry)
    (buf : List Nat) (len : Nat) (h : ¬ len < e.num_sectors * SECTOR_SIZE % U64) :
    disk_write_to_sector_list (e :: rest) buf len =
      ⟨⟨e.lba, buf.take (e.num_sectors * SECTOR_SIZE), e.num_sectors⟩ ::
        (disk_write_to_sector_list rest (buf.drop (e.num_sectors * SECTOR_SIZE % U64))
          (len - e.num_sectors * SECTOR_SIZE % U64)).writes,
       (disk_write_to_sector_list rest (buf.drop (e.num_sectors * SECTOR_SIZE % U64))
          (len - e.num_sectors * SECTOR_SIZE % U64)).exit⟩ := by
  simp [disk_write_to_sector_list, h]

theorem writer_cons_short (e : sector_list_entry) (rest : List sector_list_entry)
    (buf : List Nat) (len : Nat) (h : len < e.num_sectors * SECTOR_SIZE % U64)
    (hs : len ≤ SECTOR_SIZE) :
    disk_write_to_sector_list (e :: rest) buf len =
      ⟨[⟨e.lba, buf.take len ++ List.replicate (SECTOR_SIZE - len) 0, 1⟩],
        Exit.returned⟩ := by
  simp [disk_write_to_sector_list, h, hs]

theorem writer_cons_fault (e : sector_list_entry) (rest : List sector_list_entry)
    (buf : List Nat) (len : Nat) (h : len < e.num_sectors * SECTOR_SIZE % U64)
    (hs : SECTOR_SIZE < len) :
    disk_write_to_sector_list (e :: rest) buf len = ⟨[], Exit.fault⟩ := by
  simp [disk_write_to_sector_list, h, Nat.not_le.mpr hs]

theorem writer_full_runs (pre rest : List sector_list_entry) (buf : List Nat)
    (len : Nat) (hlen : len < U64) (hfit : total_bytes pre ≤ len) :
    disk_write_to_sector_list (pre ++ rest) buf len =
      ⟨full_run_writes pre buf ++
        (disk_write_to_sector_list rest (buf.drop (total_bytes pre))
          (len - total_bytes pre)).writes,
       (disk_write_to_sector_list rest (buf.drop (total_bytes pre))
          (len - total_bytes pre)).exit⟩ := by
  unfold full_run_writes
  induction pre generalizing buf len with
  | nil => simp [total_bytes_nil]
  | cons e pre ih =>
    rw [total_bytes_cons] at hfit
    have hmod : e.num_sectors * SECTOR_SIZE % U64 = e.num_sectors * SECTOR_SIZE :=
      Nat.mod_eq_of_lt (by omega)
    have hnot : ¬ len < e.num_sectors * SECTOR_SIZE := by omega
    rw [List.cons_append, writer_cons_full _ _ _ _ (by omega), hmod]
    rw [ih (buf.drop (e.num_sectors * SECTOR_SIZE)) (len - e.num_sectors * SECTOR_SIZE)
      (by omega) (by omega)]
    simp only [List.length_cons, List.range_succ_eq_map, List.map_cons, List.map_map,
      List.cons_append, total_bytes_cons, List.drop_drop]
    have h1 : len - e.num_sectors * SECTOR_SIZE - total_bytes pre =
        len - (e.num_sectors * SECTOR_SIZE + total_bytes pre) := by omega
    rw [h1]
    simp [Function.comp_def, total_bytes_cons, total_bytes_nil]


/-! ### The extent reader -/

theorem block_lba_congr (fs : Fs) (a b : Nat) (h : a % U64 = b % U64) :
    block_lba fs a = block_lba fs b := by
  unfold block_lba
  rw [Nat.add_mod, Nat.mul_mod, h, ← Nat.mul_mod, ← Nat.add_mod]

theorem block_entries_zero (fs : Fs) (block : Nat) : block_entries fs block 0 = [] := rfl

theorem block_entries_succ_left (fs : Fs) (block q : Nat) :
    block_entries fs block (q + 1) =
      ⟨block_lba fs block, fs.sectors_per_block⟩ :: block_entries fs (block + 1) q := by
  simp only [block_entries, List.range_succ_eq_map, List.map_cons, List.map_map,
    Nat.add_zero]
  congr 1
  apply List.map_congr_left
  intro t _
  simp [Function.comp_def, Nat.add_assoc, Nat.add_comm 1 t]

theorem block_entries_congr (fs : Fs) (a b q : Nat) (h : a % U64 = b % U64) :
    block_entries fs a q = block_entries fs b q := by
  unfold block_entries
  apply List.map_congr_left
  intro t _
  rw [block_lba_congr fs (a + t) (b + t) (by rw [Nat.add_mod, h, ← Nat.add_mod])]

theorem block_entries_length (fs : Fs) (block q : Nat) :
    (block_entries fs block q).length = q := by
  simp [block_entries]

theorem extent_loop_exit (fs : Fs) (d : Disk) (remaining fuel block : Nat)
    (c : ReadCursor) (rl : Nat)
    (h : ¬ (c.len ≥ fs.bytes_per_block ∧ remaining > 0)) :
    ext4_read_inode_extent_loop fs d remaining (fuel + 1) block c rl = some (c, rl) := by
  simp only [ext4_read_inode_extent_loop, h, if_false]

theorem extent_loop_spec (fs : Fs) (d : Disk) (remaining : Nat)
    (hb : 0 < fs.bytes_per_block) (hr : 0 < remaining) :
    ∀ (fuel block : Nat) (c : ReadCursor) (rl : Nat),
      c.len / fs.bytes_per_block < fuel → rl < U64 →
      ∃ m, ext4_read_inode_extent_loop fs d remaining fuel block c rl =
        some (⟨m, c.off + c.len / fs.bytes_per_block * fs.bytes_per_block,
               c.len % fs.bytes_per_block,
               c.list.map fun l => l ++ block_entries fs block (c.len / fs.bytes_per_block)⟩,
              (rl + c.len / fs.bytes_per_block * fs.bytes_per_block) % U64) := by
  intro fuel
  induction fuel with
  | zero => intro block c rl h; exact absurd h (Nat.not_lt_zero _)
  | succ fuel ih =>
    intro block c rl hf hrl
    by_cases hge : c.len ≥ fs.bytes_per_block
    · have hq : c.len / fs.bytes_per_block =
          (c.len - fs.bytes_per_block) / fs.bytes_per_block + 1 :=
        Nat.div_eq_sub_div hb hge
      have hm : (c.len - fs.bytes_per_block) % fs.bytes_per_block =
          c.len % fs.bytes_per_block := (Nat.mod_eq_sub_mod hge).symm
      obtain ⟨m, hm1⟩ := ih ((block + 1) % U64)
        ⟨(ext4_read_block fs d block c.buf c.off c.list).1, c.off + fs.bytes_per_block,
          c.len - fs.bytes_per_block, (ext4_read_block fs d block c.buf c.off c.list).2⟩
        ((rl + fs.bytes_per_block) % U64) (by simp only; omega)
        (Nat.mod_lt _ (by unfold U64; omega))
      refine ⟨m, ?_⟩
      have hcond : c.len ≥ fs.bytes_per_block ∧ remaining > 0 := ⟨hge, hr⟩
      simp only [ext4_read_inode_extent_loop, hcond, and_self, if_true]
      rw [hm1]
      simp only [hm, hq]
      have e1 : c.off + fs.bytes_per_block +
          (c.len - fs.bytes_per_block) / fs.bytes_per_block * fs.bytes_per_block =
          c.off + ((c.len - fs.bytes_per_block) / fs.bytes_per_block + 1) *
            fs.bytes_per_block := by
        rw [Nat.succ_mul]; omega
      have e2 : Option.map (fun l => l ++ block_entries fs ((block + 1) % U64)
            ((c.len - fs.bytes_per_block) / fs.bytes_per_block))
            (ext4_read_block fs d block c.buf c.off c.list).2 =
          Option.map (fun l => l ++ block_entries fs block
            ((c.len - fs.bytes_per_block) / fs.bytes_per_block + 1)) c.list := by
        rw [block_entries_succ_left,
          block_entries_congr fs ((block + 1) % U64) (block + 1) _ (Nat.mod_mod _ _)]
        cases c.list <;> simp [ext4_read_block]
      have e3 : ((rl + fs.bytes_per_block) % U64 +
          (c.len - fs.bytes_per_block) / fs.bytes_per_block * fs.bytes_per_block) % U64 =
          (rl + ((c.len - fs.bytes_per_block) / fs.bytes_per_block + 1) *
            fs.bytes_per_block) % U64 := by
        rw [Nat.succ_mul]
        generalize (c.len - fs.bytes_per_block) / fs.bytes_per_block * fs.bytes_per_block = x
        unfold U64
        omega
      rw [e1, e2, e3]
    · have hq : c.len / fs.bytes_per_block = 0 :=
        Nat.div_eq_of_lt (Nat.lt_of_not_le hge)
      have hm : c.len % fs.bytes_per_block = c.len := Nat.mod_eq_of_lt (Nat.lt_of_not_le hge)
      refine ⟨c.buf, ?_⟩
      rw [extent_loop_exit fs d remaining fuel block c rl (fun h => hge h.1), hq, hm]
      simp only [Nat.zero_mul, Nat.add_zero, block_entries_zero, List.append_nil,
        Nat.mod_eq_of_lt hrl]
      cases c with
      | mk b o l ls => cases ls <;> simp


theorem read_inode_extent_idle (fs : Fs) (d : Disk) (e : ext4_extent) (c : ReadCursor)
    (h : c.len < fs.bytes_per_block ∨ e.blocks_count = 0) :
    ext4_read_inode_extent fs d e c = Except.ok (c, 0) := by
  unfold ext4_read_inode_extent
  simp only
  rw [extent_loop_exit]
  rintro ⟨h1, h2⟩
  rcases h with h | h <;> omega

theorem extent_start_congr (e : ext4_extent) :
    (((e.block_start_hi <<< 32) % U64 + e.block_start_lo) % U64) % U64 =
      extent_start e % U64 := by
  unfold extent_start
  rw [Nat.shiftLeft_eq, Nat.mod_mod]
  norm_num

theorem read_inode_extent_spec (fs : Fs) (d : Disk) (e : ext4_extent) (c : ReadCursor)
    (hb : 0 < fs.bytes_per_block) (hn : 0 < e.blocks_count) (hlen : c.len < U64) :
    ∃ m, ext4_read_inode_extent fs d e c =
      Except.ok (⟨m, c.off + c.len / fs.bytes_per_block * fs.bytes_per_block,
          c.len % fs.bytes_per_block,
          c.list.map fun l =>
            l ++ block_entries fs (extent_start e) (c.len / fs.bytes_per_block)⟩,
        c.len / fs.bytes_per_block * fs.bytes_per_block) := by
  obtain ⟨m, hm⟩ := extent_loop_spec fs d e.blocks_count hb hn (c.len + 1)
    (((e.block_start_hi <<< 32) % U64 + e.block_start_lo) % U64) c 0
    (Nat.lt_succ_of_le (Nat.div_le_self _ _)) (by unfold U64; omega)
  refine ⟨m, ?_⟩
  unfold ext4_read_inode_extent
  simp only [hm]
  rw [block_entries_congr fs _ (extent_start e) _ (extent_start_congr e), Nat.zero_add,
    Nat.mod_eq_of_lt (Nat.lt_of_le_of_lt (Nat.div_mul_le_self _ _) hlen)]

theorem read_inode_data_loop_idle (fs : Fs) (d : Disk) (inode : Mem) :
    ∀ (idx : List Nat) (c : ReadCursor) (rl : Nat),
      c.len < fs.bytes_per_block → rl < U64 →
      ext4_read_inode_data_loop fs d inode idx c rl = Except.ok (c, rl) := by
  intro idx
  induction idx with
  | nil => intro c rl _ _; rfl
  | cons i rest ih =>
    intro c rl hc hrl
    simp only [ext4_read_inode_data_loop, read_inode_extent_idle fs d _ c (Or.inl hc),
      Nat.add_zero, Nat.mod_eq_of_lt hrl]
    exact ih c rl hc hrl

theorem read_inode_data_idle (fs : Fs) (d : Disk) (u : Uninit) (ino : Nat) (c : ReadCursor)
    (inode : Mem) (hinode : ext4_read_inode fs d u ino = Except.ok inode)
    (hdepth : extent_depth inode = 0) (hc : c.len < fs.bytes_per_block) :
    ext4_read_inode_data fs d u ino c = Except.ok (c, 0) := by
  unfold ext4_read_inode_data
  simp only [hinode, hdepth, if_true]
  split
  · exact read_inode_data_loop_idle fs d inode _ c 0 hc (by unfold U64; omega)
  · rfl

theorem read_inode_data_spec (fs : Fs) (d : Disk) (u : Uninit) (ino : Nat) (c : ReadCursor)
    (inode : Mem) (hinode : ext4_read_inode fs d u ino = Except.ok inode)
    (hflag : inode_flags inode &&& EXT4_INODE_FLAG_EXTENTS ≠ 0)
    (hdepth : extent_depth inode = 0) (hcount : 0 < extent_entries_count inode)
    (hb : 0 < fs.bytes_per_block) (hn : 0 < (extent_entry inode 0).blocks_count)
    (hlen : c.len < U64) :
    ∃ m, ext4_read_inode_data fs d u ino c =
      Except.ok (⟨m, c.off + c.len / fs.bytes_per_block * fs.bytes_per_block,
          c.len % fs.bytes_per_block,
          c.list.map fun l => l ++ block_entries fs (extent_start (extent_entry inode 0))
            (c.len / fs.bytes_per_block)⟩,
        c.len / fs.bytes_per_block * fs.bytes_per_block) := by
  obtain ⟨m, hm⟩ := read_inode_extent_spec fs d (extent_entry inode 0) c hb hn hlen
  refine ⟨m, ?_⟩
  obtain ⟨k, hk⟩ : ∃ k, extent_entries_count inode = k + 1 :=
    ⟨extent_entries_count inode - 1, by omega⟩
  unfold ext4_read_inode_data
  simp only [hinode, hflag, hdepth, if_true, ne_eq, not_false_eq_true, hk,
    List.range_succ_eq_map, ext4_read_inode_data_loop, hm, Nat.zero_add]
  rw [read_inode_data_loop_idle fs d inode _ _ _ (Nat.mod_lt _ hb)
    (Nat.mod_lt _ (by unfold U64; omega))]
  rw [Nat.mod_eq_of_lt (Nat.lt_of_le_of_lt (Nat.div_mul_le_self _ _) hlen)]

theorem fs_read_spec (fs : Fs) (d : Disk) (u : Uninit) (filename : List Nat) (buf : Mem)
    (len : Nat) (l0 : List sector_list_entry) (ino : Nat) (inode : Mem)
    (hlookup : ext4_get_inode_by_filename fs d u filename = Except.ok ino)
    (hinode : ext4_read_inode fs d u ino = Except.ok inode)
    (hflag : inode_flags inode &&& EXT4_INODE_FLAG_EXTENTS ≠ 0)
    (hdepth : extent_depth inode = 0) (hcount : 0 < extent_entries_count inode)
    (hb : 0 < fs.bytes_per_block) (hn : 0 < (extent_entry inode 0).blocks_count)
    (hlen : len < U64) :
    ∃ m, fs_read fs d u filename buf len (some l0) =
      Except.ok (⟨m, len / fs.bytes_per_block * fs.bytes_per_block,
          len % fs.bytes_per_block,
          some (l0 ++ block_entries fs (extent_start (extent_entry inode 0))
            (len / fs.bytes_per_block))⟩,
        len / fs.bytes_per_block * fs.bytes_per_block) := by
  obtain ⟨m, hm⟩ := read_inode_data_spec fs d u ino ⟨buf, 0, len, some l0⟩ inode hinode
    hflag hdepth hcount hb hn hlen
  refine ⟨m, ?_⟩
  unfold fs_read
  simp only [hlookup, hm, Nat.zero_add, Option.map_some']

theorem block_entries_plain (fs : Fs) (block q n : Nat) (hq : q ≤ n)
    (hspace : fs.part_lba + (block + n) * fs.sectors_per_block < U64) :
    block_entries fs block q =
      (List.range q).map fun t =>
        ⟨fs.part_lba + (block + t) * fs.sectors_per_block, fs.sectors_per_block⟩ := by
  unfold block_entries
  apply List.map_congr_left
  intro t ht
  have ht1 : t < q := List.mem_range.mp ht
  have hle : (block + t) * fs.sectors_per_block ≤ (block + n) * fs.sectors_per_block :=
    Nat.mul_le_mul_right _ (by omega)
  unfold block_lba
  rw [Nat.mod_eq_of_lt (by omega)]


/-! ### Facts about the test images -/

theorem test_lookup_16 :
    ext4_get_inode_by_filename test_fs (test_image extents_100_16) zero_uninit dump_bin =
      Except.ok 12 := by
  rfl

theorem test_inode_16 :
    ext4_read_inode test_fs (test_image extents_100_16) zero_uninit 12 =
      Except.ok (inode_mem test_fs (test_image extents_100_16) zero_uninit 12) := by
  rfl

theorem test_fields_16 :
    inode_flags (inode_mem test_fs (test_image extents_100_16) zero_uninit 12) = 0x80000 ∧
    extent_depth (inode_mem test_fs (test_image extents_100_16) zero_uninit 12) = 0 ∧
    extent_entries_count (inode_mem test_fs (test_image extents_100_16) zero_uninit 12) = 1 ∧
    extent_entry (inode_mem test_fs (test_image extents_100_16) zero_uninit 12) 0 =
      ⟨0, 16, 0, 100⟩ := by
  refine ⟨by rfl, by rfl, by rfl, by rfl⟩


theorem test_entries_16 :
    block_entries test_fs 100 16 =
      [⟨2848, 8⟩, ⟨2856, 8⟩, ⟨2864, 8⟩, ⟨2872, 8⟩, ⟨2880, 8⟩, ⟨2888, 8⟩, ⟨2896, 8⟩,
       ⟨2904, 8⟩, ⟨2912, 8⟩, ⟨2920, 8⟩, ⟨2928, 8⟩, ⟨2936, 8⟩, ⟨2944, 8⟩, ⟨2952, 8⟩,
       ⟨2960, 8⟩, ⟨2968, 8⟩] := by
  decide

theorem test_lookup_8 :
    ext4_get_inode_by_filename test_fs (test_image extents_100_8) zero_uninit dump_bin =
      Except.ok 12 := by
  rfl

theorem test_inode_8 :
    ext4_read_inode test_fs (test_image extents_100_8) zero_uninit 12 =
      Except.ok (inode_mem test_fs (test_image extents_100_8) zero_uninit 12) := by
  rfl

theorem test_fields_8 :
    inode_flags (inode_mem test_fs (test_image extents_100_8) zero_uninit 12) = 0x80000 ∧
    extent_depth (inode_mem test_fs (test_image extents_100_8) zero_uninit 12) = 0 ∧
    extent_entries_count (inode_mem test_fs (test_image extents_100_8) zero_uninit 12) = 1 ∧
    extent_entry (inode_mem test_fs (test_image extents_100_8) zero_uninit 12) 0 =
      ⟨0, 8, 0, 100⟩ := by
  refine ⟨by rfl, by rfl, by rfl, by rfl⟩

theorem test_lookup_4_4 :
    ext4_get_inode_by_filename test_fs (test_image extents_100_4_200_4) zero_uninit
      dump_bin = Except.ok 12 := by
  rfl

theorem test_inode_4_4 :
    ext4_read_inode test_fs (test_image extents_100_4_200_4) zero_uninit 12 =
      Except.ok (inode_mem test_fs (test_image extents_100_4_200_4) zero_uninit 12) := by
  rfl

theorem test_fields_4_4 :
    inode_flags (inode_mem test_fs (test_image extents_100_4_200_4) zero_uninit 12) =
      0x80000 ∧
    extent_depth (inode_mem test_fs (test_image extents_100_4_200_4) zero_uninit 12) = 0 ∧
    extent_entries_count (inode_mem test_fs (test_image extents_100_4_200_4) zero_uninit 12)
      = 2 ∧
    extent_entry (inode_mem test_fs (test_image extents_100_4_200_4) zero_uninit 12) 0 =
      ⟨0, 4, 0, 100⟩ ∧
    extent_entry (inode_mem test_fs (test_image extents_100_4_200_4) zero_uninit 12) 1 =
      ⟨4, 4, 0, 200⟩ := by
  refine ⟨by rfl, by rfl, by rfl, by rfl, by rfl⟩

/-! ### The pipeline of `main` -/

theorem main_after_init_spec (fs : Fs) (d : Disk) (u : Uninit) (staging : Mem)
    (path dump : List Nat) (dump_len ino : Nat) (inode : Mem)
    (hlookup : ext4_get_inode_by_filename fs d u path = Except.ok ino)
    (hinode : ext4_read_inode fs d u ino = Except.ok inode)
    (hflag : inode_flags inode &&& EXT4_INODE_FLAG_EXTENTS ≠ 0)
    (hdepth : extent_depth inode = 0) (hcount : 0 < extent_entries_count inode)
    (hb : 0 < fs.bytes_per_block) (hn : 0 < (extent_entry inode 0).blocks_count) :
    main_after_init fs d u staging path dump dump_len =
      Except.ok (disk_write_to_sector_list
        (block_entries fs (extent_start (extent_entry inode 0))
          (64 * 1024 / fs.bytes_per_block)) dump dump_len) := by
  obtain ⟨m, hm⟩ := fs_read_spec fs d u path staging (64 * 1024) [] ino inode hlookup
    hinode hflag hdepth hcount hb hn (by decide)
  unfold main_after_init
  simp only [hm, List.nil_append, Option.getD_some]

theorem test_main_8 (dump : List Nat) (dump_len : Nat) :
    main_after_init test_fs (test_image extents_100_8) zero_uninit (fun _ => 0) dump_bin
      dump dump_len =
      Except.ok (disk_write_to_sector_list (block_entries test_fs 100 16) dump dump_len) := by
  have h := main_after_init_spec test_fs (test_image extents_100_8) zero_uninit (fun _ => 0)
    dump_bin dump dump_len 12 _ test_lookup_8 test_inode_8 (by rw [test_fields_8.1]; decide)
    test_fields_8.2.1 (by rw [test_fields_8.2.2.1]; decide) (by decide)
    (by rw [test_fields_8.2.2.2]; decide)
  rw [test_fields_8.2.2.2] at h
  exact h

theorem test_main_16 (dump : List Nat) (dump_len : Nat) :
    main_after_init test_fs (test_image extents_100_16) zero_uninit (fun _ => 0) dump_bin
      dump dump_len =
      Except.ok (disk_write_to_sector_list (block_entries test_fs 100 16) dump dump_len) := by
  have h := main_after_init_spec test_fs (test_image extents_100_16) zero_uninit (fun _ => 0)
    dump_bin dump dump_len 12 _ test_lookup_16 test_inode_16 (by rw [test_fields_16.1]; decide)
    test_fields_16.2.1 (by rw [test_fields_16.2.2.1]; decide) (by decide)
    (by rw [test_fields_16.2.2.2]; decide)
  rw [test_fields_16.2.2.2] at h
  exact h

theorem test_main_4_4 (dump : List Nat) (dump_len : Nat) :
    main_after_init test_fs (test_image extents_100_4_200_4) zero_uninit (fun _ => 0) dump_bin
      dump dump_len =
      Except.ok (disk_write_to_sector_list (block_entries test_fs 100 16) dump dump_len) := by
  have h := main_after_init_spec test_fs (test_image extents_100_4_200_4) zero_uninit (fun _ => 0)
    dump_bin dump dump_len 12 _ test_lookup_4_4 test_inode_4_4 (by rw [test_fields_4_4.1]; decide)
    test_fields_4_4.2.1 (by rw [test_fields_4_4.2.2.1]; decide) (by decide)
    (by rw [test_fields_4_4.2.2.2.1]; decide)
  rw [test_fields_4_4.2.2.2.1] at h
  exact h

/-! ### C1: extent coverage -/

/-- C1, counterexample.  The test image holds `dump.bin` as inode 12 with the
EXTENTS flag, depth 0 and the single leaf extent `(start 100, count 16)`, and
the capacity 65536 holds the whole file.  The claim asks for the one-entry list
`[(2048 + 100 * 8, 16 * 8)]`; `fs_read` appends sixteen entries, one per block. -/
theorem fs_read_extent_coverage_counterexample :
    ext4_get_inode_by_filename test_fs (test_image extents_100_16) zero_uninit dump_bin =
      Except.ok 12 ∧
    (∃ inode, ext4_read_inode test_fs (test_image extents_100_16) zero_uninit 12 =
        Except.ok inode ∧
      inode_flags inode &&& EXT4_INODE_FLAG_EXTENTS ≠ 0 ∧ extent_depth inode = 0 ∧
      extent_entries_count inode = 1 ∧ extent_entry inode 0 = ⟨0, 16, 0, 100⟩) ∧
    16 * test_fs.bytes_per_block ≤ 65536 ∧
    ∃ c n, fs_read test_fs (test_image extents_100_16) zero_uninit dump_bin (fun _ => 0)
        65536 (some []) = Except.ok (c, n) ∧
      c.list = some [⟨2848, 8⟩, ⟨2856, 8⟩, ⟨2864, 8⟩, ⟨2872, 8⟩, ⟨2880, 8⟩, ⟨2888, 8⟩,
        ⟨2896, 8⟩, ⟨2904, 8⟩, ⟨2912, 8⟩, ⟨2920, 8⟩, ⟨2928, 8⟩, ⟨2936, 8⟩, ⟨2944, 8⟩,
        ⟨2952, 8⟩, ⟨2960, 8⟩, ⟨2968, 8⟩] ∧
      c.list ≠ some [⟨2048 + 100 * 8, 16 * 8⟩] := by
  have hf := test_fields_16
  refine ⟨test_lookup_16, ⟨_, test_inode_16, ?_, hf.2.1, hf.2.2.1, hf.2.2.2⟩, by decide, ?_⟩
  · rw [hf.1]; decide
  · obtain ⟨m, hm⟩ := fs_read_spec test_fs (test_image extents_100_16) zero_uninit dump_bin
      (fun _ => 0) 65536 [] 12 _ test_lookup_16 test_inode_16 (by rw [hf.1]; decide) hf.2.1
      (by rw [hf.2.2.1]; decide) (by decide) (by rw [hf.2.2.2]; decide) (by decide)
    refine ⟨_, _, hm, ?_, ?_⟩
    · simp only [hf.2.2.2, List.nil_append]
      exact congrArg some test_entries_16
    · simp only [hf.2.2.2, List.nil_append]
      rw [show extent_start ⟨0, 16, 0, 100⟩ = 100 from rfl,
        show 65536 / test_fs.bytes_per_block = 16 from rfl, test_entries_16]
      decide

/-- C1, amended.  When the capacity does not reach past the first extent
(`len / bytes_per_block <= blocks_count` of entry 0, as for a one-extent file
whose capacity holds exactly its blocks), `fs_read` returns
`len / bytes_per_block * bytes_per_block` and appends one entry per file-system
block, not one per extent: `(part_lba + (start + t) * sectors_per_block,
sectors_per_block)` for `t = 0 .. len / bytes_per_block - 1`, in block order. -/
theorem fs_read_one_entry_per_block (fs : Fs) (d : Disk) (u : Uninit)
    (filename : List Nat) (buf : Mem) (len : Nat) (l0 : List sector_list_entry)
    (ino : Nat) (inode : Mem)
    (hlookup : ext4_get_inode_by_filename fs d u filename = Except.ok ino)
    (hinode : ext4_read_inode fs d u ino = Except.ok inode)
    (hflag : inode_flags inode &&& EXT4_INODE_FLAG_EXTENTS ≠ 0)
    (hdepth : extent_depth inode = 0) (hcount : 0 < extent_entries_count inode)
    (hb : 0 < fs.bytes_per_block) (hlen : len < U64)
    (hcap : len / fs.bytes_per_block ≤ (extent_entry inode 0).blocks_count)
    (hspace : fs.part_lba + (extent_start (extent_entry inode 0) +
      (extent_entry inode 0).blocks_count) * fs.sectors_per_block < U64) :
    ∃ c, fs_read fs d u filename buf len (some l0) =
        Except.ok (c, len / fs.bytes_per_block * fs.bytes_per_block) ∧
      c.list = some (l0 ++ (List.range (len / fs.bytes_per_block)).map fun t =>
        ⟨fs.part_lba + (extent_start (extent_entry inode 0) + t) * fs.sectors_per_block,
         fs.sectors_per_block⟩) := by
  by_cases hc : len < fs.bytes_per_block
  · refine ⟨⟨buf, 0, len, some l0⟩, ?_, ?_⟩
    · unfold fs_read
      simp only [hlookup]
      rw [read_inode_data_idle fs d u ino _ inode hinode hdepth hc, Nat.div_eq_of_lt hc,
        Nat.zero_mul]
    · simp [Nat.div_eq_of_lt hc]
  · have hq : 0 < len / fs.bytes_per_block := Nat.div_pos (Nat.le_of_not_lt hc) hb
    obtain ⟨m, hm⟩ := fs_read_spec fs d u filename buf len l0 ino inode hlookup hinode
      hflag hdepth hcount hb (by omega) hlen
    refine ⟨_, hm, ?_⟩
    simp only
    rw [block_entries_plain fs _ _ _ hcap hspace]

/-- C1, amended: the statement applied to the test image with the single extent
`(100, 16)` and a capacity of 65536 bytes, which holds exactly its 16 blocks. -/
theorem fs_read_one_entry_per_block_witness :
    ∃ c, fs_read test_fs (test_image extents_100_16) zero_uninit dump_bin (fun _ => 0)
        65536 (some []) =
        Except.ok (c, 65536 / test_fs.bytes_per_block * test_fs.bytes_per_block) ∧
      c.list = some ([] ++ (List.range (65536 / test_fs.bytes_per_block)).map fun t =>
        ⟨test_fs.part_lba + (extent_start (extent_entry
            (inode_mem test_fs (test_image extents_100_16) zero_uninit 12) 0) + t) *
          test_fs.sectors_per_block, test_fs.sectors_per_block⟩) :=
  fs_read_one_entry_per_block test_fs (test_image extents_100_16) zero_uninit dump_bin
    (fun _ => 0) 65536 [] 12 _ test_lookup_16 test_inode_16
    (by rw [test_fields_16.1]; decide) test_fields_16.2.1
    (by rw [test_fields_16.2.2.1]; decide) (by decide) (by decide)
    (by rw [test_fields_16.2.2.2]; decide) (by rw [test_fields_16.2.2.2]; decide)


/-! ### C4: full runs of the dump writer -/

/-- C4.  While the remaining length is at least `num_sectors * 512` on reaching
a run (for the runs `pre` at the head of the list this means
`total_bytes pre <= len`), `disk_write_to_sector_list` issues exactly one
`disk_write_sectors(lba, ptr, num_sectors)` per run, in list order, with `ptr`
the dump advanced by the total size of the earlier runs (`full_run_writes`), and
carries on with the rest of the list from the dump advanced by, and the length
lowered by, the total size of those runs. -/
theorem dump_writer_full_runs (pre rest : List sector_list_entry) (buf : List Nat)
    (len : Nat) (hlen : len < U64) (hfit : total_bytes pre ≤ len) :
    disk_write_to_sector_list (pre ++ rest) buf len =
      ⟨full_run_writes pre buf ++
        (disk_write_to_sector_list rest (buf.drop (total_bytes pre))
          (len - total_bytes pre)).writes,
       (disk_write_to_sector_list rest (buf.drop (total_bytes pre))
          (len - total_bytes pre)).exit⟩ :=
  writer_full_runs pre rest buf len hlen hfit

/-- C4 applied to the runs `(10, 1), (20, 2)` followed by `(30, 4)` and a dump
of 1536 bytes. -/
theorem dump_writer_full_runs_witness :
    (1536 < U64 ∧ total_bytes [⟨10, 1⟩, ⟨20, 2⟩] ≤ 1536) ∧
    disk_write_to_sector_list ([⟨10, 1⟩, ⟨20, 2⟩] ++ [⟨30, 4⟩]) (List.replicate 1536 7)
        1536 =
      ⟨full_run_writes [⟨10, 1⟩, ⟨20, 2⟩] (List.replicate 1536 7) ++
        (disk_write_to_sector_list [⟨30, 4⟩]
          ((List.replicate 1536 7).drop (total_bytes [⟨10, 1⟩, ⟨20, 2⟩]))
          (1536 - total_bytes [⟨10, 1⟩, ⟨20, 2⟩])).writes,
       (disk_write_to_sector_list [⟨30, 4⟩]
          ((List.replicate 1536 7).drop (total_bytes [⟨10, 1⟩, ⟨20, 2⟩]))
          (1536 - total_bytes [⟨10, 1⟩, ⟨20, 2⟩])).exit⟩ :=
  ⟨⟨by decide, by decide⟩,
    dump_writer_full_runs [⟨10, 1⟩, ⟨20, 2⟩] [⟨30, 4⟩] (List.replicate 1536 7) 1536
      (by decide) (by decide)⟩

/-! ### C10: the run length of an extent -/

/-- C10, the code at the failing input.  For the extent `(start 100,
blocks_count 8)` and a capacity of 65536 bytes with 4096-byte blocks,
`ext4_read_inode_extent` reads 16 blocks, 100 to 115, and returns 65536, where
the claim promises `min 8 16 = 8` blocks and no block past block 107; on the
test image with that one extent `fs_read` returns 65536, more than
`4096 * 8`. -/
theorem read_inode_extent_ignores_blocks_count (d : Disk) (buf : Mem) :
    (∃ c, ext4_read_inode_extent test_fs d ⟨0, 8, 0, 100⟩ ⟨buf, 0, 65536, some []⟩ =
        Except.ok (c, 65536) ∧
      c.list = some
        [⟨2848, 8⟩, ⟨2856, 8⟩, ⟨2864, 8⟩, ⟨2872, 8⟩, ⟨2880, 8⟩, ⟨2888, 8⟩, ⟨2896, 8⟩,
         ⟨2904, 8⟩, ⟨2912, 8⟩, ⟨2920, 8⟩, ⟨2928, 8⟩, ⟨2936, 8⟩, ⟨2944, 8⟩, ⟨2952, 8⟩,
         ⟨2960, 8⟩, ⟨2968, 8⟩]) ∧
    block_lba test_fs 115 = 2968 ∧ min 8 (65536 / test_fs.bytes_per_block) = 8 ∧
    ∃ c, fs_read test_fs (test_image extents_100_8) zero_uninit dump_bin (fun _ => 0)
        65536 (some []) = Except.ok (c, 65536) ∧
      test_fs.bytes_per_block * 8 < 65536 := by
  have e1 : (65536 : Nat) / test_fs.bytes_per_block = 16 := by decide
  have e2 : extent_start ⟨0, 8, 0, 100⟩ = 100 := by decide
  have e3 : 16 * test_fs.bytes_per_block = 65536 := by decide
  refine ⟨?_, by decide, by decide, ?_⟩
  · obtain ⟨m, hm⟩ := read_inode_extent_spec test_fs d ⟨0, 8, 0, 100⟩
      ⟨buf, 0, 65536, some []⟩ (by decide) (by decide)
      (show 65536 < U64 by decide)
    simp only [e1, e2, e3, Option.map_some', List.nil_append] at hm
    exact ⟨_, hm, congrArg some test_entries_16⟩
  · obtain ⟨m, hm⟩ := fs_read_spec test_fs (test_image extents_100_8) zero_uninit dump_bin
      (fun _ => 0) 65536 [] 12 _ test_lookup_8 test_inode_8
      (by rw [test_fields_8.1]; decide) test_fields_8.2.1
      (by rw [test_fields_8.2.2.1]; decide) (by decide)
      (by rw [test_fields_8.2.2.2]; decide) (by decide)
    simp only [e1, e3] at hm
    exact ⟨_, hm, by decide⟩

/-! ### C2, C3, C9: a file with two extents -/

theorem test_pairs_32k :
    write_pairs (disk_write_to_sector_list (block_entries test_fs 100 16)
      (List.replicate 32768 170) 32768) =
      [(2848, 8), (2856, 8), (2864, 8), (2872, 8), (2880, 8), (2888, 8), (2896, 8),
       (2904, 8), (2912, 1)] := by
  decide

/-- C9, the code at the failing input.  The test image holds `dump.bin` with
the extents `(100, 4)` and `(200, 4)`; the dump is 32 KiB.  The claim promises
exactly `write_sectors(2848, 32)` and `write_sectors(3648, 32)`.  The pipeline
writes blocks 100 to 107 one by one (LBA 2848 to 2904, 8 sectors each) and then
one more sector at LBA 2912: the second half of the dump goes to the blocks
that follow the first extent on disk, and nothing is written to the second
extent at LBA 3648. -/
theorem multi_extent_writes_follow_first_extent :
    extent_entry (inode_mem test_fs (test_image extents_100_4_200_4) zero_uninit 12) 0 =
      ⟨0, 4, 0, 100⟩ ∧
    extent_entry (inode_mem test_fs (test_image extents_100_4_200_4) zero_uninit 12) 1 =
      ⟨4, 4, 0, 200⟩ ∧
    ∃ t, main_after_init test_fs (test_image extents_100_4_200_4) zero_uninit (fun _ => 0)
        dump_bin (List.replicate 32768 170) 32768 = Except.ok t ∧
      write_pairs t =
        [(2848, 8), (2856, 8), (2864, 8), (2872, 8), (2880, 8), (2888, 8), (2896, 8),
         (2904, 8), (2912, 1)] ∧
      write_pairs t ≠ [(2848, 32), (3648, 32)] ∧
      ∀ p ∈ write_pairs t, p.1 + p.2 ≤ 3648 := by
  refine ⟨test_fields_4_4.2.2.2.1, test_fields_4_4.2.2.2.2, _, test_main_4_4 _ _,
    test_pairs_32k, ?_, ?_⟩
  · rw [test_pairs_32k]; decide
  · rw [test_pairs_32k]; decide

/-- C3, the code at the failing input.  Same image and dump as for C9: the
file's extents are `(100, 4)` and `(200, 4)`, that is the sectors 2848 to 2879
and 3648 to 3679.  The pipeline issues a write of 8 sectors at LBA 2880 (block
104), and sector 2880 lies in neither extent. -/
theorem pipeline_writes_outside_file :
    ∃ t, main_after_init test_fs (test_image extents_100_4_200_4) zero_uninit (fun _ => 0)
        dump_bin (List.replicate 32768 170) 32768 = Except.ok t ∧
      ∃ w ∈ t.writes, w.lba = 2880 ∧ w.num_sectors = 8 ∧
        ∃ s, w.lba ≤ s ∧ s < w.lba + w.num_sectors ∧
          ¬ in_file_extents test_fs [⟨0, 4, 0, 100⟩, ⟨4, 4, 0, 200⟩] s := by
  refine ⟨_, test_main_4_4 _ _, ?_⟩
  have hmem : (2880, 8) ∈ write_pairs (disk_write_to_sector_list
      (block_entries test_fs 100 16) (List.replicate 32768 170) 32768) := by
    rw [test_pairs_32k]; decide
  obtain ⟨w, hw, hp⟩ := List.mem_map.mp hmem
  have h1 : w.lba = 2880 := congrArg Prod.fst hp
  have h2 : w.num_sectors = 8 := congrArg Prod.snd hp
  refine ⟨w, hw, h1, h2, 2880, by omega, by omega, ?_⟩
  unfold in_file_extents
  simp [extent_start, test_fs]

/-- C2, the code at the failing input.  Same image as for C9 (`K * 512 = 32768`
bytes in the extents `(100, 4)`, `(200, 4)`) and a dump of `M = 32768` bytes
`0xAA`.  The claim promises that the file's bytes, read in file order, equal
the dump.  After the pipeline, the byte at file offset 16384 (the first byte of
the second extent, sector 3648) still has its old value 0 and not `0xAA`, while
the first byte of sector 2880, which belongs to no extent of the file, has been
overwritten with `0xAA`. -/
theorem round_trip_fails_on_two_extents :
    ∃ t, main_after_init test_fs (test_image extents_100_4_200_4) zero_uninit (fun _ => 0)
        dump_bin (List.replicate 32768 170) 32768 = Except.ok t ∧
      (List.replicate 32768 170).getD 16384 0 = 170 ∧
      test_image extents_100_4_200_4 (3648 * 512) = 0 ∧
      apply_writes (test_image extents_100_4_200_4) t.writes (3648 * 512) = 0 ∧
      test_image extents_100_4_200_4 (2880 * 512) = 0 ∧
      apply_writes (test_image extents_100_4_200_4) t.writes (2880 * 512) = 170 := by
  refine ⟨_, test_main_4_4 _ _, ?_, ?_, ?_, ?_, ?_⟩
  · decide!
  · decide!
  · decide!
  · decide!
  · decide!

/-! ### C5, C6, C7: the short-write branch -/

/-- C5, the code at the failing input.  The test image holds `dump.bin` with
one extent of 16 blocks (64 KiB); the dump is 4 KiB.  The claim promises exactly
one write (LBA 2848, 8 sectors).  The pipeline issues that write and then, on
reaching the next run with a remaining length of 0, a second write: one sector
of 512 zero bytes at LBA 2856. -/
theorem dump_writer_writes_zero_sector_at_length_zero (dump : List Nat) :
    main_after_init test_fs (test_image extents_100_16) zero_uninit (fun _ => 0)
        dump_bin dump 4096 =
      Except.ok ⟨[⟨2848, dump.take 4096, 8⟩, ⟨2856, List.replicate 512 0, 1⟩],
        Exit.returned⟩ := by
  rw [test_main_16, test_entries_16]
  rfl

/-- C6, the code at the failing input.  For the sector list `[(2848, 8)]`
(capacity 4096) and a dump of `M = 1000` bytes, `M % 512 = 488`: the claim
promises a last written sector holding `D[512 .. 1000]` and 24 zero bytes.  The
short-write branch is entered with `len = 1000 > 512`, copies past its 512-byte
buffer, and no sector is written at all. -/
theorem dump_writer_short_sector_overrun (dump : List Nat) :
    1000 % 512 ≠ 0 ∧ 1000 ≤ total_bytes [⟨2848, 8⟩] ∧
    disk_write_to_sector_list [⟨2848, 8⟩] dump 1000 = ⟨[], Exit.fault⟩ :=
  ⟨by decide, by decide, rfl⟩

/-- C7, the code at the failing input.  For the sector list
`[(2848, 8), (2856, 8)]` and a dump of 5096 bytes, the second run is reached
with `0 < L = 1000 < 8 * 512` bytes remaining.  The claim promises exactly one
more write, of one sector at LBA 2856.  The code issues no further write: its
`memcpy(tmp, buf, 1000)` overruns the 512-byte buffer `tmp`. -/
theorem dump_writer_short_run_overrun (dump : List Nat) :
    disk_write_to_sector_list [⟨2848, 8⟩, ⟨2856, 8⟩] dump 5096 =
      ⟨[⟨2848, dump.take 4096, 8⟩], Exit.fault⟩ ∧
    5096 - 8 * 512 = 1000 ∧ 0 < 1000 ∧ 1000 < 8 * 512 :=
  ⟨rfl, by decide, by decide, by decide⟩


/-! ### C8: the shape of a short write -/

theorem block_entries_add (fs : Fs) (b k r : Nat) :
    block_entries fs b (k + r) = block_entries fs b k ++ block_entries fs (b + k) r := by
  induction k generalizing b with
  | zero => simp [block_entries_zero]
  | succ k ih =>
    rw [show k + 1 + r = (k + r) + 1 by omega, block_entries_succ_left,
      block_entries_succ_left, ih (b + 1), List.cons_append,
      show b + 1 + k = b + (k + 1) by omega]

theorem total_bytes_block_entries (fs : Fs) (b k : Nat) :
    total_bytes (block_entries fs b k) = k * (fs.sectors_per_block * SECTOR_SIZE) := by
  induction k generalizing b with
  | zero => simp [block_entries_zero, total_bytes_nil]
  | succ k ih =>
    rw [block_entries_succ_left, total_bytes_cons, ih, Nat.succ_mul]
    simp only
    omega

theorem block_entries_take (fs : Fs) (b k i : Nat) (h : i ≤ k) :
    (block_entries fs b k).take i = block_entries fs b i := by
  obtain ⟨r, rfl⟩ : ∃ r, k = i + r := ⟨k - i, by omega⟩
  rw [block_entries_add, List.take_left' (block_entries_length fs b i)]

theorem block_entries_getD (fs : Fs) (b k i : Nat) (h : i < k) :
    (block_entries fs b k).getD i ⟨0, 0⟩ = ⟨block_lba fs (b + i), fs.sectors_per_block⟩ := by
  simp [block_entries, List.getD_eq_getElem?_getD, List.getElem?_range h]

theorem full_run_writes_block_entries (fs : Fs) (b k : Nat) (buf : List Nat) :
    full_run_writes (block_entries fs b k) buf =
      (List.range k).map fun j =>
        ⟨block_lba fs (b + j),
         (buf.drop (j * (fs.sectors_per_block * SECTOR_SIZE))).take
           (fs.sectors_per_block * SECTOR_SIZE),
         fs.sectors_per_block⟩ := by
  unfold full_run_writes
  rw [block_entries_length]
  apply List.map_congr_left
  intro i hi
  have hi1 : i < k := List.mem_range.mp hi
  rw [block_entries_getD fs b k i hi1, block_entries_take fs b k i (Nat.le_of_lt hi1),
    total_bytes_block_entries]


theorem writer_block_entries_short (fs : Fs) (b q : Nat) (dump : List Nat)
    (hpos : 0 < fs.sectors_per_block * SECTOR_SIZE)
    (hk : dump.length / (fs.sectors_per_block * SECTOR_SIZE) < q)
    (hq : q * (fs.sectors_per_block * SECTOR_SIZE) ≤ 65536)
    (htail : dump.length % (fs.sectors_per_block * SECTOR_SIZE) ≤ SECTOR_SIZE) :
    disk_write_to_sector_list (block_entries fs b q) dump dump.length =
      ⟨(List.range (dump.length / (fs.sectors_per_block * SECTOR_SIZE))).map (fun j =>
          ⟨block_lba fs (b + j),
           (dump.drop (j * (fs.sectors_per_block * SECTOR_SIZE))).take
             (fs.sectors_per_block * SECTOR_SIZE),
           fs.sectors_per_block⟩) ++
        [⟨block_lba fs (b + dump.length / (fs.sectors_per_block * SECTOR_SIZE)),
          dump.drop (dump.length / (fs.sectors_per_block * SECTOR_SIZE) *
              (fs.sectors_per_block * SECTOR_SIZE)) ++
            List.replicate
              (SECTOR_SIZE - dump.length % (fs.sectors_per_block * SECTOR_SIZE)) 0,
          1⟩],
       Exit.returned⟩ := by
  have hdm := Nat.div_add_mod dump.length (fs.sectors_per_block * SECTOR_SIZE)
  have hml := Nat.mod_lt dump.length hpos
  rw [Nat.mul_comm] at hdm
  obtain ⟨r, hr⟩ : ∃ r, q = dump.length / (fs.sectors_per_block * SECTOR_SIZE) + (r + 1) :=
    ⟨q - dump.length / (fs.sectors_per_block * SECTOR_SIZE) - 1, by omega⟩
  have hle : (dump.length / (fs.sectors_per_block * SECTOR_SIZE) + 1) *
      (fs.sectors_per_block * SECTOR_SIZE) ≤ q * (fs.sectors_per_block * SECTOR_SIZE) :=
    Nat.mul_le_mul_right _ (by omega)
  rw [Nat.succ_mul] at hle
  have hB64 : fs.sectors_per_block * SECTOR_SIZE < U64 := by unfold U64; omega
  have hL64 : dump.length < U64 := by unfold U64; omega
  have hrest : dump.length -
      dump.length / (fs.sectors_per_block * SECTOR_SIZE) *
        (fs.sectors_per_block * SECTOR_SIZE) =
      dump.length % (fs.sectors_per_block * SECTOR_SIZE) := by omega
  rw [hr, block_entries_add, block_entries_succ_left,
    writer_full_runs _ _ dump dump.length hL64
      (by rw [total_bytes_block_entries]; omega),
    total_bytes_block_entries, hrest,
    writer_cons_short _ _ _ _ (by rw [Nat.mod_eq_of_lt hB64]; exact hml) htail,
    full_run_writes_block_entries,
    List.take_of_length_le (by rw [List.length_drop]; omega)]


theorem block_lba_plain (fs : Fs) (block j n : Nat) (hj : j ≤ n)
    (hspace : fs.part_lba + (block + n) * fs.sectors_per_block < U64) :
    block_lba fs (block + j) = fs.part_lba + (block + j) * fs.sectors_per_block := by
  have hle : (block + j) * fs.sectors_per_block ≤ (block + n) * fs.sectors_per_block :=
    Nat.mul_le_mul_right _ (by omega)
  unfold block_lba
  rw [Nat.mod_eq_of_lt (by omega)]

theorem test_dump_8492_length : test_dump_8492.length = 8492 :=
  List.length_replicate 8492 170

/-- C8, counterexample.  The test image holds `dump.bin` with the single extent
`(start 100, count 8)`, the run `(2848, 64)`; the dump has `L = 8492` bytes,
`L < 64 * 512` and `L % 512 = 300`.  The claim asks for the two writes
`write_sectors(2848, 16)` and `write_sectors(2864, 1)`; the pipeline issues
three: `(2848, 8)`, `(2856, 8)` and `(2864, 1)`. -/
theorem short_write_shape_counterexample :
    extent_entries_count (inode_mem test_fs (test_image extents_100_8) zero_uninit 12) = 1 ∧
    extent_entry (inode_mem test_fs (test_image extents_100_8) zero_uninit 12) 0 =
      ⟨0, 8, 0, 100⟩ ∧
    8492 < 64 * 512 ∧ 8492 % 512 ≠ 0 ∧
    ∃ t, main_after_init test_fs (test_image extents_100_8) zero_uninit (fun _ => 0)
        dump_bin test_dump_8492 8492 = Except.ok t ∧
      write_pairs t = [(2848, 8), (2856, 8), (2864, 1)] ∧
      write_pairs t ≠ [(2848, 8492 / 512), (2848 + 8492 / 512, 1)] := by
  have hp : write_pairs (disk_write_to_sector_list (block_entries test_fs 100 16)
      test_dump_8492 8492) = [(2848, 8), (2856, 8), (2864, 1)] := by
    decide
  refine ⟨test_fields_8.2.2.1, test_fields_8.2.2.2, by decide, by decide, _,
    test_main_8 _ _, hp, ?_⟩
  rw [hp]
  decide

/-- C8, amended.  For a one-extent file `(start, count)` and a dump of length
`L < count * bytes_per_block` inside the 64 KiB staging capacity, with
`L % 512 != 0` and a tail `L % bytes_per_block` shorter than one sector, the
pipeline issues one `write_sectors(lba + j * sectors_per_block,
sectors_per_block)` per full block `j < L / bytes_per_block`, carrying the
block's `bytes_per_block` dump bytes, followed by one write of one sector at
`lba + (L / bytes_per_block) * sectors_per_block` carrying the remaining bytes
followed by `512 - L % 512` zero bytes; `lba = part_lba + start *
sectors_per_block`.  The full sectors are written block by block, not in one
call. -/
theorem short_write_one_write_per_block (fs : Fs) (d : Disk) (u : Uninit)
    (staging : Mem) (path dump : List Nat) (ino : Nat) (inode : Mem)
    (hlookup : ext4_get_inode_by_filename fs d u path = Except.ok ino)
    (hinode : ext4_read_inode fs d u ino = Except.ok inode)
    (hflag : inode_flags inode &&& EXT4_INODE_FLAG_EXTENTS ≠ 0)
    (hdepth : extent_depth inode = 0) (hcount : extent_entries_count inode = 1)
    (hbpb : fs.bytes_per_block = fs.sectors_per_block * SECTOR_SIZE)
    (hL : dump.length < (extent_entry inode 0).blocks_count * fs.bytes_per_block)
    (hcap : dump.length / fs.bytes_per_block < 64 * 1024 / fs.bytes_per_block)
    (htail : dump.length % fs.bytes_per_block < SECTOR_SIZE)
    (_hne : dump.length % SECTOR_SIZE ≠ 0)
    (hspace : fs.part_lba + (extent_start (extent_entry inode 0) +
      (extent_entry inode 0).blocks_count) * fs.sectors_per_block < U64) :
    main_after_init fs d u staging path dump dump.length =
      Except.ok ⟨(List.range (dump.length / fs.bytes_per_block)).map (fun j =>
          ⟨fs.part_lba + (extent_start (extent_entry inode 0) + j) * fs.sectors_per_block,
           (dump.drop (j * fs.bytes_per_block)).take fs.bytes_per_block,
           fs.sectors_per_block⟩) ++
        [⟨fs.part_lba + (extent_start (extent_entry inode 0) +
            dump.length / fs.bytes_per_block) * fs.sectors_per_block,
          dump.drop (dump.length / fs.bytes_per_block * fs.bytes_per_block) ++
            List.replicate (SECTOR_SIZE - dump.length % SECTOR_SIZE) 0,
          1⟩],
        Exit.returned⟩ := by
  have hb : 0 < fs.bytes_per_block := by
    rcases Nat.eq_zero_or_pos fs.bytes_per_block with h | h
    · rw [h, Nat.div_zero, Nat.div_zero] at hcap; omega
    · exact h
  have hn : 0 < (extent_entry inode 0).blocks_count := by
    rcases Nat.eq_zero_or_pos (extent_entry inode 0).blocks_count with h | h
    · rw [h, Nat.zero_mul] at hL; omega
    · exact h
  have hk : dump.length / fs.bytes_per_block < (extent_entry inode 0).blocks_count :=
    Nat.div_lt_of_lt_mul (by rw [Nat.mul_comm]; exact hL)
  have hmod : dump.length % fs.bytes_per_block = dump.length % SECTOR_SIZE := by
    rw [← Nat.mod_mod_of_dvd dump.length (Dvd.intro_left _ hbpb.symm),
      Nat.mod_eq_of_lt htail]
  rw [main_after_init_spec fs d u staging path dump dump.length ino inode hlookup hinode
    hflag hdepth (by omega) hb hn]
  have hw := writer_block_entries_short fs (extent_start (extent_entry inode 0))
    (64 * 1024 / fs.bytes_per_block) dump (by rw [← hbpb]; exact hb)
    (by rw [← hbpb]; exact hcap) (by rw [← hbpb]; exact Nat.div_mul_le_self _ _)
    (by rw [← hbpb]; omega)
  rw [← hbpb] at hw
  rw [hw, hmod, block_lba_plain fs _ _ _ (Nat.le_of_lt hk) hspace]
  congr 3
  apply List.map_congr_left
  intro j hj
  have hj1 : j < dump.length / fs.bytes_per_block := List.mem_range.mp hj
  rw [block_lba_plain fs _ j _ (by omega) hspace]

/-- C8, amended: the statement applied to the test image with the single
extent `(100, 8)` and the 8492-byte dump. -/
theorem short_write_one_write_per_block_witness :
    main_after_init test_fs (test_image extents_100_8) zero_uninit (fun _ => 0) dump_bin
        test_dump_8492 test_dump_8492.length =
      Except.ok ⟨(List.range (test_dump_8492.length / test_fs.bytes_per_block)).map (fun j =>
          ⟨test_fs.part_lba + (extent_start (extent_entry
              (inode_mem test_fs (test_image extents_100_8) zero_uninit 12) 0) + j) *
              test_fs.sectors_per_block,
           (test_dump_8492.drop (j * test_fs.bytes_per_block)).take test_fs.bytes_per_block,
           test_fs.sectors_per_block⟩) ++
        [⟨test_fs.part_lba + (extent_start (extent_entry
              (inode_mem test_fs (test_image extents_100_8) zero_uninit 12) 0) +
            test_dump_8492.length / test_fs.bytes_per_block) * test_fs.sectors_per_block,
          test_dump_8492.drop
              (test_dump_8492.length / test_fs.bytes_per_block * test_fs.bytes_per_block) ++
            List.replicate (SECTOR_SIZE - test_dump_8492.length % SECTOR_SIZE) 0,
          1⟩],
        Exit.returned⟩ :=
  short_write_one_write_per_block test_fs (test_image extents_100_8) zero_uninit
    (fun _ => 0) dump_bin test_dump_8492 12 _ test_lookup_8 test_inode_8
    (by rw [test_fields_8.1]; decide) test_fields_8.2.1 test_fields_8.2.2.1 (by decide)
    (by rw [test_fields_8.2.2.2, test_dump_8492_length]; decide)
    (by rw [test_dump_8492_length]; decide) (by rw [test_dump_8492_length]; decide)
    (by rw [test_dump_8492_length]; decide) (by rw [test_fields_8.2.2.2]; decide)

/-! ### C11, C12: inodes the reader does not support -/

/-- C11, the code at the failing input.  On the test image whose `dump.bin`
inode has `flags = 0` (no EXTENTS flag), `fs_read` does not halt: it returns 0,
leaves the buffer alone and appends nothing to the sector list, and the
pipeline of `main` then returns normally without a single write. -/
theorem fs_read_returns_zero_without_extents_flag (buf : Mem) (dump : List Nat)
    (dump_len : Nat) :
    (∃ inode, ext4_read_inode test_fs test_image_no_extents_flag zero_uninit 12 =
        Except.ok inode ∧ inode_flags inode &&& EXT4_INODE_FLAG_EXTENTS = 0) ∧
    fs_read test_fs test_image_no_extents_flag zero_uninit dump_bin buf 65536 (some []) =
      Except.ok (⟨buf, 0, 65536, some []⟩, 0) ∧
    main_after_init test_fs test_image_no_extents_flag zero_uninit buf dump_bin dump
      dump_len = Except.ok ⟨[], Exit.returned⟩ := by
  have hl : ext4_get_inode_by_filename test_fs test_image_no_extents_flag zero_uninit
      dump_bin = Except.ok 12 := by rfl
  have hr : fs_read test_fs test_image_no_extents_flag zero_uninit dump_bin buf 65536
      (some []) = Except.ok (⟨buf, 0, 65536, some []⟩, 0) := by
    unfold fs_read
    rw [hl]
    rfl
  refine ⟨⟨_, rfl, by decide⟩, hr, ?_⟩
  unfold main_after_init
  rw [show (64 * 1024 : Nat) = 65536 from rfl, hr]
  rfl

/-- C12.  For an inode with the EXTENTS flag whose extent header has a depth
other than 0, `ext4_read_inode_data` halts on its assertion: it returns no
cursor, so no data block has been read into the buffer and no entry appended to
the sector list. -/
theorem read_inode_data_rejects_depth (fs : Fs) (d : Disk) (u : Uninit) (ino : Nat)
    (c : ReadCursor) (inode : Mem)
    (hinode : ext4_read_inode fs d u ino = Except.ok inode)
    (hflag : inode_flags inode &&& EXT4_INODE_FLAG_EXTENTS ≠ 0)
    (hdepth : extent_depth inode ≠ 0) :
    ext4_read_inode_data fs d u ino c = Except.error Halt.assertion := by
  unfold ext4_read_inode_data
  simp only [hinode, hflag, hdepth, ne_eq, not_false_eq_true, if_true, if_false]

/-- C12 applied to the test image whose `dump.bin` has an extent header of
depth 1. -/
theorem read_inode_data_rejects_depth_witness :
    extent_depth (inode_mem test_fs (test_image extents_depth_1) zero_uninit 12) = 1 ∧
    ext4_read_inode_data test_fs (test_image extents_depth_1) zero_uninit 12
      ⟨fun _ => 0, 0, 65536, some []⟩ = Except.error Halt.assertion :=
  ⟨by rfl,
   read_inode_data_rejects_depth test_fs (test_image extents_depth_1) zero_uninit 12
    ⟨fun _ => 0, 0, 65536, some []⟩
    (inode_mem test_fs (test_image extents_depth_1) zero_uninit 12) (by rfl)
    (by decide!) (by decide!)⟩

/-! ### The root-directory walk -/

theorem schar_eq_zero_iff (c : Nat) : schar c = 0 ↔ c % 256 = 0 := by
  unfold schar
  split <;> omega

theorem schar_eq_iff (a b : Nat) : schar a = schar b ↔ a % 256 = b % 256 := by
  unfold schar
  have ha := Nat.mod_lt a (show 0 < 256 by decide)
  have hb := Nat.mod_lt b (show 0 < 256 by decide)
  split <;> split <;> omega

theorem cstr_nil : cstr [] = [] := rfl

theorem cstr_cons (c : Nat) (s : List Nat) :
    cstr (c :: s) = if c % 256 ≠ 0 then c % 256 :: cstr s else [] := by
  simp [cstr, List.takeWhile_cons]

theorem strcmp_eq_zero_iff : ∀ (a b : List Nat), strcmp a b = 0 ↔ cstr a = cstr b
  | [], [] => by simp [strcmp, cstr_nil]
  | [], c2 :: s2 => by
    rw [strcmp, cstr_nil, cstr_cons]
    have := schar_eq_zero_iff c2
    split <;> simp_all
  | c1 :: s1, [] => by
    rw [strcmp, cstr_nil, cstr_cons]
    have := schar_eq_zero_iff c1
    split <;> simp_all
  | c1 :: s1, c2 :: s2 => by
    have ih := strcmp_eq_zero_iff s1 s2
    have h1 := schar_eq_zero_iff c1
    have h2 := schar_eq_zero_iff c2
    have h12 := schar_eq_iff c1 c2
    rw [strcmp, cstr_cons, cstr_cons]
    by_cases hc : schar c1 = schar c2 ∧ schar c1 ≠ 0 ∧ schar c2 ≠ 0
    · rw [if_pos hc, ih]
      have e1 : c1 % 256 ≠ 0 := fun h => hc.2.1 (h1.mpr h)
      have e2 : c2 % 256 ≠ 0 := fun h => hc.2.2 (h2.mpr h)
      rw [if_pos e1, if_pos e2, h12.mp hc.1]
      simp
    · rw [if_neg hc]
      by_cases he : schar c1 = schar c2
      · have z1 : schar c1 = 0 := by
          by_contra hz
          exact hc ⟨he, hz, he ▸ hz⟩
        have z2 : schar c2 = 0 := he ▸ z1
        simp [he, h1.mp z1, h2.mp z2]
      · have hne : c1 % 256 ≠ c2 % 256 := fun h => he (h12.mpr h)
        have hs : schar c1 - schar c2 ≠ 0 := by omega
        simp only [hs, false_iff]
        split <;> split <;> simp_all

theorem walk_off_zero (buf : Mem) (off : Nat) : walk_off buf off 0 = off := rfl

theorem walk_off_succ (buf : Mem) (off k : Nat) :
    walk_off buf off (k + 1) = walk_off buf (off + dirent_entry_len buf off) k := rfl

theorem walk_off_ge (buf : Mem) : ∀ (k off : Nat), off ≤ walk_off buf off k
  | 0, _ => Nat.le_refl _
  | k + 1, off =>
    Nat.le_trans (Nat.le_add_right _ _) (walk_off_ge buf k (off + dirent_entry_len buf off))

theorem lookup_loop_step (buf : Mem) (read_len : Nat) (filename : List Nat)
    (fuel off : Nat) (hoff : off < read_len) (hlen : dirent_entry_len buf off ≠ 0)
    (hname : cstr (dirent_name buf off) ≠ cstr filename) :
    ext4_get_inode_by_filename_loop buf read_len filename (fuel + 1) off =
      ext4_get_inode_by_filename_loop buf read_len filename fuel
        (off + dirent_entry_len buf off) := by
  have h1 : ¬ strcmp (dirent_name buf off) filename = 0 :=
    fun h => hname ((strcmp_eq_zero_iff _ _).mp h)
  unfold dirent_entry_len at hlen
  unfold dirent_name at h1
  simp only [ext4_get_inode_by_filename_loop, hoff, if_true, hlen, if_false, h1,
    dirent_entry_len]

theorem lookup_loop_found (buf : Mem) (read_len : Nat) (filename : List Nat)
    (fuel off : Nat) (hoff : off < read_len) (hlen : dirent_entry_len buf off ≠ 0)
    (hname : cstr (dirent_name buf off) = cstr filename) :
    ext4_get_inode_by_filename_loop buf read_len filename (fuel + 1) off =
      Except.ok (dirent_inode buf off) := by
  have h1 : strcmp (dirent_name buf off) filename = 0 := (strcmp_eq_zero_iff _ _).mpr hname
  unfold dirent_entry_len at hlen
  unfold dirent_name at h1
  simp only [ext4_get_inode_by_filename_loop, hoff, if_true, hlen, if_false, h1,
    dirent_inode]

theorem lookup_loop_zero_len (buf : Mem) (read_len : Nat) (filename : List Nat)
    (fuel off : Nat) (hoff : off < read_len) (hlen : dirent_entry_len buf off = 0) :
    ext4_get_inode_by_filename_loop buf read_len filename (fuel + 1) off =
      Except.error Halt.assertion := by
  unfold dirent_entry_len at hlen
  simp only [ext4_get_inode_by_filename_loop, hoff, if_true, hlen]

theorem lookup_loop_end (buf : Mem) (read_len : Nat) (filename : List Nat)
    (fuel off : Nat) (hoff : ¬ off < read_len) :
    ext4_get_inode_by_filename_loop buf read_len filename (fuel + 1) off =
      Except.error Halt.panic := by
  simp only [ext4_get_inode_by_filename_loop, hoff, if_false]

theorem first_match_shift (buf : Mem) (read_len : Nat) (filename : List Nat)
    (off k : Nat) :
    first_match buf read_len filename off (k + 1) ↔
      (off < read_len ∧ dirent_entry_len buf off ≠ 0 ∧
        cstr (dirent_name buf off) ≠ cstr filename ∧
        first_match buf read_len filename (off + dirent_entry_len buf off) k) := by
  unfold first_match
  constructor
  · rintro ⟨h1, h2, h3⟩
    refine ⟨(h1 0 (Nat.zero_le _)).1, (h1 0 (Nat.zero_le _)).2, h2 0 (Nat.succ_pos _),
      fun i hi => h1 (i + 1) (Nat.succ_le_succ hi),
      fun i hi => h2 (i + 1) (Nat.succ_lt_succ hi), h3⟩
  · rintro ⟨h0, hl, hn, h1, h2, h3⟩
    refine ⟨?_, ?_, h3⟩
    · intro i hi
      cases i with
      | zero => exact ⟨h0, hl⟩
      | succ i => exact h1 i (Nat.le_of_succ_le_succ hi)
    · intro i hi
      cases i with
      | zero => exact hn
      | succ i => exact h2 i (Nat.lt_of_succ_lt_succ hi)

theorem lookup_loop_first_match (buf : Mem) (read_len : Nat) (filename : List Nat) :
    ∀ (k fuel off : Nat), read_len < off + fuel →
      first_match buf read_len filename off k →
      ext4_get_inode_by_filename_loop buf read_len filename fuel off =
        Except.ok (dirent_inode buf (walk_off buf off k)) := by
  intro k
  induction k with
  | zero =>
    intro fuel off hf hm
    have h0 := hm.1 0 (Nat.le_refl _)
    obtain ⟨f, rfl⟩ : ∃ f, fuel = f + 1 := ⟨fuel - 1, by rw [walk_off_zero] at h0; omega⟩
    exact lookup_loop_found buf read_len filename f off h0.1 h0.2 hm.2.2
  | succ k ih =>
    intro fuel off hf hm
    obtain ⟨h0, hl, hn, hrest⟩ := (first_match_shift buf read_len filename off k).mp hm
    obtain ⟨f, rfl⟩ : ∃ f, fuel = f + 1 := ⟨fuel - 1, by omega⟩
    rw [lookup_loop_step buf read_len filename f off h0 hl hn, walk_off_succ]
    exact ih f _ (by omega) hrest

theorem lookup_loop_ok (buf : Mem) (read_len : Nat) (filename : List Nat) :
    ∀ (fuel off n : Nat),
      ext4_get_inode_by_filename_loop buf read_len filename fuel off = Except.ok n →
      ∃ k, first_match buf read_len filename off k ∧
        n = dirent_inode buf (walk_off buf off k) := by
  intro fuel
  induction fuel with
  | zero => intro off n h; simp [ext4_get_inode_by_filename_loop] at h
  | succ fuel ih =>
    intro off n h
    by_cases hoff : off < read_len
    · by_cases hl : dirent_entry_len buf off = 0
      · rw [lookup_loop_zero_len buf read_len filename fuel off hoff hl] at h
        cases h
      · by_cases hn : cstr (dirent_name buf off) = cstr filename
        · rw [lookup_loop_found buf read_len filename fuel off hoff hl hn] at h
          refine ⟨0, ⟨?_, ?_, hn⟩, ?_⟩
          · intro i hi
            have : i = 0 := by omega
            subst this
            exact ⟨hoff, hl⟩
          · intro i hi; omega
          · cases h; rfl
        · rw [lookup_loop_step buf read_len filename fuel off hoff hl hn] at h
          obtain ⟨k, hk, hnk⟩ := ih _ n h
          exact ⟨k + 1,
            (first_match_shift buf read_len filename off k).mpr ⟨hoff, hl, hn, hk⟩, hnk⟩
    · rw [lookup_loop_end buf read_len filename fuel off hoff] at h
      cases h

theorem lookup_loop_no_hang (buf : Mem) (read_len : Nat) (filename : List Nat) :
    ∀ (fuel off : Nat), 0 < fuel → read_len < off + fuel →
      ext4_get_inode_by_filename_loop buf read_len filename fuel off ≠
        Except.error Halt.hang := by
  intro fuel
  induction fuel with
  | zero => intro off h0 _; omega
  | succ fuel ih =>
    intro off _ hf
    by_cases hoff : off < read_len
    · by_cases hl : dirent_entry_len buf off = 0
      · rw [lookup_loop_zero_len buf read_len filename fuel off hoff hl]
        simp
      · by_cases hn : cstr (dirent_name buf off) = cstr filename
        · rw [lookup_loop_found buf read_len filename fuel off hoff hl hn]
          simp
        · rw [lookup_loop_step buf read_len filename fuel off hoff hl hn]
          exact ih _ (by omega) (by omega)
    · rw [lookup_loop_end buf read_len filename fuel off hoff]
      simp

theorem lookup_loop_halt_kind (buf : Mem) (read_len : Nat) (filename : List Nat) :
    ∀ (fuel off : Nat), 0 < fuel → read_len < off + fuel → ∀ h,
      ext4_get_inode_by_filename_loop buf read_len filename fuel off = Except.error h →
      h = Halt.panic ∨ h = Halt.assertion := by
  intro fuel
  induction fuel with
  | zero => intro off h0 _; omega
  | succ fuel ih =>
    intro off _ hf h hres
    by_cases hoff : off < read_len
    · by_cases hl : dirent_entry_len buf off = 0
      · rw [lookup_loop_zero_len buf read_len filename fuel off hoff hl] at hres
        cases hres
        exact Or.inr rfl
      · by_cases hn : cstr (dirent_name buf off) = cstr filename
        · rw [lookup_loop_found buf read_len filename fuel off hoff hl hn] at hres
          cases hres
        · rw [lookup_loop_step buf read_len filename fuel off hoff hl hn] at hres
          exact ih _ (by omega) (by omega) h hres
    · rw [lookup_loop_end buf read_len filename fuel off hoff] at hres
      cases hres
      exact Or.inl rfl

theorem lookup_loop_zero_reached (buf : Mem) (read_len : Nat) (filename : List Nat) :
    ∀ (k fuel off : Nat), read_len < off + fuel →
      (∀ i, i < k → walk_off buf off i < read_len ∧
        dirent_entry_len buf (walk_off buf off i) ≠ 0 ∧
        cstr (dirent_name buf (walk_off buf off i)) ≠ cstr filename) →
      walk_off buf off k < read_len →
      dirent_entry_len buf (walk_off buf off k) = 0 →
      ext4_get_inode_by_filename_loop buf read_len filename fuel off =
        Except.error Halt.assertion := by
  intro k
  induction k with
  | zero =>
    intro fuel off hf _ h0 hz
    rw [walk_off_zero] at h0 hz
    obtain ⟨f, rfl⟩ : ∃ f, fuel = f + 1 := ⟨fuel - 1, by omega⟩
    exact lookup_loop_zero_len buf read_len filename f off h0 hz
  | succ k ih =>
    intro fuel off hf hbefore h0 hz
    have hfirst := hbefore 0 (Nat.succ_pos _)
    rw [walk_off_zero] at hfirst
    obtain ⟨f, rfl⟩ : ∃ f, fuel = f + 1 := ⟨fuel - 1, by omega⟩
    rw [lookup_loop_step buf read_len filename f off hfirst.1 hfirst.2.1 hfirst.2.2]
    exact ih f _ (by omega) (fun i hi => hbefore (i + 1) (Nat.succ_lt_succ hi)) h0 hz

theorem lookup_eq_loop (fs : Fs) (d : Disk) (u : Uninit) (filename : List Nat)
    (c : ReadCursor) (read_len : Nat)
    (hroot : ext4_read_inode_data fs d u INODE_ROOT_DIR
      ⟨u.page, 0, ALIGN_UP (8 * NUM_ROOT_DIRENTS_MAX) PAGE_SIZE, none⟩ =
        Except.ok (c, read_len)) :
    ext4_get_inode_by_filename fs d u filename =
      ext4_get_inode_by_filename_loop c.buf read_len filename (read_len + 1) 0 := by
  unfold ext4_get_inode_by_filename
  simp only [hroot]

theorem lookup_ok_iff (fs : Fs) (d : Disk) (u : Uninit) (filename : List Nat)
    (c : ReadCursor) (read_len : Nat)
    (hroot : ext4_read_inode_data fs d u INODE_ROOT_DIR
      ⟨u.page, 0, ALIGN_UP (8 * NUM_ROOT_DIRENTS_MAX) PAGE_SIZE, none⟩ =
        Except.ok (c, read_len)) (n : Nat) :
    ext4_get_inode_by_filename fs d u filename = Except.ok n ↔
      ∃ k, first_match c.buf read_len filename 0 k ∧
        n = dirent_inode c.buf (walk_off c.buf 0 k) := by
  rw [lookup_eq_loop fs d u filename c read_len hroot]
  constructor
  · exact lookup_loop_ok c.buf read_len filename _ 0 n
  · rintro ⟨k, hk, rfl⟩
    exact lookup_loop_first_match c.buf read_len filename k _ 0 (by omega) hk

theorem test_root_8 :
    ext4_read_inode_data test_fs (test_image extents_100_8) zero_uninit INODE_ROOT_DIR
      ⟨zero_uninit.page, 0, ALIGN_UP (8 * NUM_ROOT_DIRENTS_MAX) PAGE_SIZE, none⟩ =
      Except.ok ((root_dir test_fs (test_image extents_100_8) zero_uninit).1,
        (root_dir test_fs (test_image extents_100_8) zero_uninit).2) := by
  rfl

theorem test_root_nul :
    ext4_read_inode_data test_fs test_image_nul_name zero_uninit INODE_ROOT_DIR
      ⟨zero_uninit.page, 0, ALIGN_UP (8 * NUM_ROOT_DIRENTS_MAX) PAGE_SIZE, none⟩ =
      Except.ok ((root_dir test_fs test_image_nul_name zero_uninit).1,
        (root_dir test_fs test_image_nul_name zero_uninit).2) := by
  rfl

theorem test_root_other :
    ext4_read_inode_data test_fs test_image_other zero_uninit INODE_ROOT_DIR
      ⟨zero_uninit.page, 0, ALIGN_UP (8 * NUM_ROOT_DIRENTS_MAX) PAGE_SIZE, none⟩ =
      Except.ok ((root_dir test_fs test_image_other zero_uninit).1,
        (root_dir test_fs test_image_other zero_uninit).2) := by
  rfl

theorem test_root_zero_len :
    ext4_read_inode_data test_fs test_image_zero_entry_len zero_uninit INODE_ROOT_DIR
      ⟨zero_uninit.page, 0, ALIGN_UP (8 * NUM_ROOT_DIRENTS_MAX) PAGE_SIZE, none⟩ =
      Except.ok ((root_dir test_fs test_image_zero_entry_len zero_uninit).1,
        (root_dir test_fs test_image_zero_entry_len zero_uninit).2) := by
  rfl

theorem test_first_match_8 :
    first_match (root_dir test_fs (test_image extents_100_8) zero_uninit).1.buf
      (root_dir test_fs (test_image extents_100_8) zero_uninit).2 dump_bin 0 2 := by
  unfold first_match
  decide!

/-! ### C13: the result of the root-directory lookup -/

/-- C13, counterexample.  On the test image whose root directory holds the
records `.`, `..` and one with inode 12 and the 8 name bytes `d u m p NUL NUL
NUL NUL`, no record has name bytes equal to the file name `dump`, so the claim
allows no match; `ext4_get_inode_by_filename` returns 12, because `strcmp`
compares C strings and the name stops at its first NUL byte. -/
theorem lookup_matches_name_with_nul_counterexample :
    walk_off (root_dir test_fs test_image_nul_name zero_uninit).1.buf 0 3 =
      (root_dir test_fs test_image_nul_name zero_uninit).2 ∧
    (∀ k, k < 3 →
      dirent_name (root_dir test_fs test_image_nul_name zero_uninit).1.buf
        (walk_off (root_dir test_fs test_image_nul_name zero_uninit).1.buf 0 k) ≠
        dump_name) ∧
    dirent_name (root_dir test_fs test_image_nul_name zero_uninit).1.buf 24 =
      [100, 117, 109, 112, 0, 0, 0, 0] ∧
    dirent_inode (root_dir test_fs test_image_nul_name zero_uninit).1.buf 24 = 12 ∧
    ext4_get_inode_by_filename test_fs test_image_nul_name zero_uninit dump_name =
      Except.ok 12 := by
  refine ⟨by decide!, by decide!, by decide!, by decide!, by rfl⟩

/-- C13, amended.  Once the root directory has been read, `ext4_get_inode_by_filename`
returns `n` exactly when `n` is the inode field of the first record, in walk
order from offset 0 advancing by `entry_len`, whose name read as a C string
(its `name_len` bytes cut at the first NUL byte) equals the target file name,
where every record up to and including that one starts below `read_len` and has
a non-zero `entry_len`.  A record whose C-string name differs from the file name
is never reported as a match. -/
theorem lookup_returns_first_cstr_match (fs : Fs) (d : Disk) (u : Uninit)
    (filename : List Nat) (c : ReadCursor) (read_len : Nat)
    (hroot : ext4_read_inode_data fs d u INODE_ROOT_DIR
      ⟨u.page, 0, ALIGN_UP (8 * NUM_ROOT_DIRENTS_MAX) PAGE_SIZE, none⟩ =
        Except.ok (c, read_len)) (n : Nat) :
    ext4_get_inode_by_filename fs d u filename = Except.ok n ↔
      ∃ k, first_match c.buf read_len filename 0 k ∧
        n = dirent_inode c.buf (walk_off c.buf 0 k) :=
  lookup_ok_iff fs d u filename c read_len hroot n

/-- C13, amended: the statement applied to the test image, whose record 2 (at
offset 24) is the first one named `dump.bin`; its inode field is 12. -/
theorem lookup_returns_first_cstr_match_witness :
    ext4_get_inode_by_filename test_fs (test_image extents_100_8) zero_uninit dump_bin =
      Except.ok 12 :=
  (lookup_returns_first_cstr_match test_fs (test_image extents_100_8) zero_uninit dump_bin
    _ _ test_root_8 12).mpr ⟨2, test_first_match_8, by decide!⟩

/-! ### C14: lookup failure -/

theorem test_no_match_other (k : Nat) :
    ¬ first_match (root_dir test_fs test_image_other zero_uninit).1.buf
      (root_dir test_fs test_image_other zero_uninit).2 dump_bin 0 k := by
  intro h
  by_cases hk : k < 3
  · have h3 := h.2.2
    have hall : ∀ j, j < 3 →
        cstr (dirent_name (root_dir test_fs test_image_other zero_uninit).1.buf
          (walk_off (root_dir test_fs test_image_other zero_uninit).1.buf 0 j)) ≠
          cstr dump_bin := by decide!
    exact hall k hk h3
  · have h3 := (h.1 3 (by omega)).1
    have hend : ¬ walk_off (root_dir test_fs test_image_other zero_uninit).1.buf 0 3 <
        (root_dir test_fs test_image_other zero_uninit).2 := by decide!
    exact hend h3

/-- C14.  Once the root directory has been read, `ext4_get_inode_by_filename`
halts fatally (`PANIC` or failed assertion, never an inode number) when no
record of the walk has the target name, and it halts on its assertion when the
walk reaches a record whose `entry_len` is 0. -/
theorem lookup_halts_without_match (fs : Fs) (d : Disk) (u : Uninit)
    (filename : List Nat) (c : ReadCursor) (read_len : Nat)
    (hroot : ext4_read_inode_data fs d u INODE_ROOT_DIR
      ⟨u.page, 0, ALIGN_UP (8 * NUM_ROOT_DIRENTS_MAX) PAGE_SIZE, none⟩ =
        Except.ok (c, read_len)) :
    ((∀ k, ¬ first_match c.buf read_len filename 0 k) →
      ext4_get_inode_by_filename fs d u filename = Except.error Halt.panic ∨
      ext4_get_inode_by_filename fs d u filename = Except.error Halt.assertion) ∧
    (∀ k, (∀ i, i < k → walk_off c.buf 0 i < read_len ∧
          dirent_entry_len c.buf (walk_off c.buf 0 i) ≠ 0 ∧
          cstr (dirent_name c.buf (walk_off c.buf 0 i)) ≠ cstr filename) →
      walk_off c.buf 0 k < read_len →
      dirent_entry_len c.buf (walk_off c.buf 0 k) = 0 →
      ext4_get_inode_by_filename fs d u filename = Except.error Halt.assertion) := by
  constructor
  · intro hno
    have hok : ∀ n, ext4_get_inode_by_filename fs d u filename ≠ Except.ok n := by
      intro n h
      obtain ⟨k, hk, _⟩ := (lookup_ok_iff fs d u filename c read_len hroot n).mp h
      exact hno k hk
    cases hres : ext4_get_inode_by_filename fs d u filename with
    | ok n => exact absurd hres (hok n)
    | error h =>
      rw [lookup_eq_loop fs d u filename c read_len hroot] at hres
      rcases lookup_loop_halt_kind c.buf read_len filename (read_len + 1) 0
        (Nat.succ_pos _) (by omega) h hres with rfl | rfl
      · exact Or.inl rfl
      · exact Or.inr rfl
  · intro k hbefore hk hz
    rw [lookup_eq_loop fs d u filename c read_len hroot]
    exact lookup_loop_zero_reached c.buf read_len filename k _ 0 (by omega) hbefore hk hz

/-- C14 applied to two test images: the root directory that holds `.`, `..`
and `other` only, looked up for `dump.bin` (the lookup ends in its `PANIC`), and
the root directory whose third record has `entry_len = 0`. -/
theorem lookup_halts_without_match_witness :
    (ext4_get_inode_by_filename test_fs test_image_other zero_uninit dump_bin =
        Except.error Halt.panic ∨
      ext4_get_inode_by_filename test_fs test_image_other zero_uninit dump_bin =
        Except.error Halt.assertion) ∧
    ext4_get_inode_by_filename test_fs test_image_other zero_uninit dump_bin =
      Except.error Halt.panic ∧
    ext4_get_inode_by_filename test_fs test_image_zero_entry_len zero_uninit dump_bin =
      Except.error Halt.assertion :=
  ⟨(lookup_halts_without_match test_fs test_image_other zero_uninit dump_bin _ _
      test_root_other).1 test_no_match_other,
   by rfl,
   (lookup_halts_without_match test_fs test_image_zero_entry_len zero_uninit dump_bin _ _
      test_root_zero_len).2 2 (by decide!) (by decide!) (by decide!)⟩

/-! ### Partition table: `strncmp`, `memcmp` and the sector reads -/

theorem strncmp_eq_zero_iff : ∀ (n : Nat) (a b : List Nat),
    n ≤ a.length → n ≤ b.length → (∀ c, c ∈ b.take n → c % 256 ≠ 0) →
    (strncmp a b n = 0 ↔ (a.take n).map (fun c => c % 256) = (b.take n).map fun c => c % 256)
  | 0, _, _, _, _, _ => by simp [strncmp]
  | n + 1, [], _, ha, _, _ => by simp at ha
  | n + 1, _ :: _, [], _, hb, _ => by simp at hb
  | n + 1, x :: a, y :: b, ha, hb, hnz => by
    have ih := strncmp_eq_zero_iff n a b (by simpa using ha) (by simpa using hb)
      (fun c hc => hnz c (by simp [List.take_succ_cons, hc]))
    have hy : y % 256 ≠ 0 := hnz y (by simp [List.take_succ_cons])
    have hxy := schar_eq_iff x y
    have hx0 := schar_eq_zero_iff x
    simp only [strncmp, List.headD_cons, List.tail_cons, List.take_succ_cons, List.map_cons,
      List.cons.injEq]
    by_cases he : schar x = schar y
    · have hx : ¬ schar x = 0 := fun h => hy (by rw [← hxy.mp he]; exact hx0.mp h)
      simp only [he, ne_eq, not_true_eq_false, if_false]
      rw [← he, if_neg hx, ih]
      simp [hxy.mp he]
    · have hne : x % 256 ≠ y % 256 := fun h => he (hxy.mpr h)
      have hs : schar x - schar y ≠ 0 := by omega
      simp [he, hs, hne]

theorem memcmp_eq_zero_iff : ∀ (n : Nat) (a b : List Nat),
    n ≤ a.length → n ≤ b.length →
    (memcmp a b n = 0 ↔ (a.take n).map (fun c => c % 256) = (b.take n).map fun c => c % 256)
  | 0, _, _, _, _ => by simp [memcmp]
  | n + 1, [], _, ha, _ => by simp at ha
  | n + 1, _ :: _, [], _, hb => by simp at hb
  | n + 1, x :: a, y :: b, ha, hb => by
    have ih := memcmp_eq_zero_iff n a b (by simpa using ha) (by simpa using hb)
    simp only [memcmp, List.headD_cons, List.tail_cons, List.take_succ_cons, List.map_cons,
      List.cons.injEq]
    by_cases he : x % 256 = y % 256
    · simp [he, ih]
    · simp only [he, if_false, false_and, iff_false]
      omega

theorem read_sector_at (d : Disk) (lba : Nat) (buf : Mem) (i : Nat) (hi : i < 512) :
    disk_read_sectors d lba buf 0 1 i = d (lba * SECTOR_SIZE + i) := by
  have h : 0 ≤ i ∧ i < 0 + 1 * SECTOR_SIZE % U32 := ⟨Nat.zero_le _, by
    rw [show 0 + 1 * SECTOR_SIZE % U32 = 512 from rfl]; exact hi⟩
  simp only [disk_read_sectors, h, and_self, if_true, Nat.sub_zero]

theorem le16_congr (m1 m2 : Mem) (o1 o2 : Nat) (h0 : m1 o1 = m2 o2)
    (h1 : m1 (o1 + 1) = m2 (o2 + 1)) : le16 m1 o1 = le16 m2 o2 := by
  simp only [le16, h0, h1]

theorem le32_congr (m1 m2 : Mem) (o1 o2 : Nat)
    (h : ∀ j, j < 4 → m1 (o1 + j) = m2 (o2 + j)) : le32 m1 o1 = le32 m2 o2 := by
  unfold le32
  rw [le16_congr m1 m2 o1 o2 (h 0 (by decide)) (h 1 (by decide)),
    le16_congr m1 m2 (o1 + 2) (o2 + 2) (h 2 (by decide)) (h 3 (by decide))]

theorem le64_congr (m1 m2 : Mem) (o1 o2 : Nat)
    (h : ∀ j, j < 8 → m1 (o1 + j) = m2 (o2 + j)) : le64 m1 o1 = le64 m2 o2 := by
  unfold le64
  rw [le32_congr m1 m2 o1 o2 (fun j hj => h j (by omega)),
    le32_congr m1 m2 (o1 + 4) (o2 + 4) (fun j hj => by
      rw [Nat.add_assoc, Nat.add_assoc]; exact h (4 + j) (by omega))]

theorem read_sector_le64 (d : Disk) (lba : Nat) (buf : Mem) (o : Nat) (ho : o + 8 ≤ 512) :
    le64 (disk_read_sectors d lba buf 0 1) o = le64 (fun k => d (lba * SECTOR_SIZE + k)) o :=
  le64_congr _ _ o o (fun j hj => read_sector_at d lba buf (o + j) (by omega))

theorem read_sector_bytes (d : Disk) (lba : Nat) (buf : Mem) (o n : Nat)
    (ho : o + n ≤ 512) :
    (mem_bytes (disk_read_sectors d lba buf 0 1) o n).map (fun c => c % 256) =
      (List.range n).map fun j => d (lba * SECTOR_SIZE + (o + j)) % 256 := by
  unfold mem_bytes
  rw [List.map_map]
  apply List.map_congr_left
  intro j hj
  have hj1 : j < n := List.mem_range.mp hj
  simp only [Function.comp_apply]
  rw [read_sector_at d lba buf (o + j) (by omega)]

theorem signature_check (d : Disk) (stack : Mem) :
    strncmp (mem_bytes (disk_read_sectors d 1 stack 0 1) 0 8) EFI_PART 8 = 0 ↔
      gpt_signature d = EFI_PART := by
  rw [strncmp_eq_zero_iff 8 _ EFI_PART (by simp [mem_bytes]) (by decide) (by decide)]
  have hb := read_sector_bytes d 1 stack 0 8 (by decide)
  have ht : (mem_bytes (disk_read_sectors d 1 stack 0 1) 0 8).take 8 =
      mem_bytes (disk_read_sectors d 1 stack 0 1) 0 8 :=
    List.take_of_length_le (by simp [mem_bytes])
  rw [ht, hb]
  simp only [gpt_signature, Nat.one_mul, Nat.zero_add]
  rfl

theorem guid_check (d : Disk) (lba : Nat) (buf : Mem) (i : Nat) (hi : i < 4) :
    memcmp (mem_bytes (disk_read_sectors d lba buf 0 1) (128 * i) 16)
        GPT_LINUX_FILESYSTEM_GUID 16 = 0 ↔
      gpt_entry_type_guid d lba i = GPT_LINUX_FILESYSTEM_GUID := by
  rw [memcmp_eq_zero_iff 16 _ GPT_LINUX_FILESYSTEM_GUID (by simp [mem_bytes]) (by decide)]
  have hb := read_sector_bytes d lba buf (128 * i) 16 (by omega)
  have ht : (mem_bytes (disk_read_sectors d lba buf 0 1) (128 * i) 16).take 16 =
      mem_bytes (disk_read_sectors d lba buf 0 1) (128 * i) 16 :=
    List.take_of_length_le (by simp [mem_bytes])
  rw [ht, hb]
  simp only [gpt_entry_type_guid]
  rfl

theorem locate_bad_signature (d : Disk) (stack : Mem) (h : gpt_signature d ≠ EFI_PART) :
    locate_linux_partition d stack = ⟨[1], Except.error Halt.panic⟩ := by
  have hs : strncmp (mem_bytes (disk_read_sectors d 1 stack 0 1) 0 8) EFI_PART 8 ≠ 0 :=
    fun h0 => h ((signature_check d stack).mp h0)
  simp only [locate_linux_partition, hs, ne_eq, not_false_eq_true, if_true]

theorem locate_good_signature (d : Disk) (stack : Mem) (h : gpt_signature d = EFI_PART) :
    locate_linux_partition d stack =
      ⟨[1, gpt_partition_table_lba d],
        locate_linux_partition_scan
          (disk_read_sectors d (gpt_partition_table_lba d) (disk_read_sectors d 1 stack 0 1)
            0 1) [0, 1, 2, 3]⟩ := by
  have hs : strncmp (mem_bytes (disk_read_sectors d 1 stack 0 1) 0 8) EFI_PART 8 = 0 :=
    (signature_check d stack).mpr h
  have hl : le64 (disk_read_sectors d 1 stack 0 1) 72 = gpt_partition_table_lba d := by
    rw [read_sector_le64 d 1 stack 72 (by decide)]
    simp only [gpt_partition_table_lba, Nat.one_mul]
  simp only [locate_linux_partition, hs, ne_eq, not_true_eq_false, if_false, hl]

theorem scan_found (d : Disk) (lba : Nat) (buf : Mem) :
    ∀ (i : Nat), i < 4 →
      gpt_entry_type_guid d lba i = GPT_LINUX_FILESYSTEM_GUID →
      (∀ j, j < i → gpt_entry_type_guid d lba j ≠ GPT_LINUX_FILESYSTEM_GUID) →
      locate_linux_partition_scan (disk_read_sectors d lba buf 0 1) [0, 1, 2, 3] =
        Except.ok (gpt_entry_first_lba d lba i) := by
  intro i hi hm hbefore
  have hno : ∀ j, j < i → ¬ memcmp (mem_bytes (disk_read_sectors d lba buf 0 1) (128 * j) 16)
      GPT_LINUX_FILESYSTEM_GUID 16 = 0 :=
    fun j hj h0 => hbefore j hj ((guid_check d lba buf j (by omega)).mp h0)
  have hyes := (guid_check d lba buf i hi).mpr hm
  have hlba : le64 (disk_read_sectors d lba buf 0 1) (128 * i + 32) =
      gpt_entry_first_lba d lba i := by
    rw [read_sector_le64 d lba buf (128 * i + 32) (by omega)]
    rfl
  rw [← hlba]
  interval_cases i
  · simp only [locate_linux_partition_scan, hyes, if_true]
  · simp only [locate_linux_partition_scan, hno 0 (by decide), hyes, if_true, if_false]
  · simp only [locate_linux_partition_scan, hno 0 (by decide), hno 1 (by decide), hyes,
      if_true, if_false]
  · simp only [locate_linux_partition_scan, hno 0 (by decide), hno 1 (by decide),
      hno 2 (by decide), hyes, if_true, if_false]

theorem scan_not_found (d : Disk) (lba : Nat) (buf : Mem)
    (h : ∀ i, i < 4 → gpt_entry_type_guid d lba i ≠ GPT_LINUX_FILESYSTEM_GUID) :
    locate_linux_partition_scan (disk_read_sectors d lba buf 0 1) [0, 1, 2, 3] =
      Except.error Halt.panic := by
  have hno : ∀ j, j < 4 → ¬ memcmp (mem_bytes (disk_read_sectors d lba buf 0 1) (128 * j) 16)
      GPT_LINUX_FILESYSTEM_GUID 16 = 0 :=
    fun j hj h0 => h j hj ((guid_check d lba buf j hj).mp h0)
  simp only [locate_linux_partition_scan, hno 0 (by decide), hno 1 (by decide),
    hno 2 (by decide), hno 3 (by decide), if_false]

theorem test_fs_init :
    (fs_init test_gpt_image (fun _ => 0)).toOption.map (fun fs =>
      [fs.part_lba, fs.bytes_per_block, fs.sectors_per_block, fs.groups_count,
       fs.inodes_per_group, fs.bytes_per_inode]) =
      some [test_fs.part_lba, test_fs.bytes_per_block, test_fs.sectors_per_block,
        test_fs.groups_count, test_fs.inodes_per_group, test_fs.bytes_per_inode] := by
  decide!

/-! ### C15: GPT signature -/

/-- C15.  When the 8 bytes at the start of sector 1 differ from `"EFI PART"`,
`locate_linux_partition` halts in its `PANIC` having read sector 1 only, and
`fs_init` halts with it; when they are exactly `"EFI PART"`, the function goes
on to read the sector of the partition entries, so the disk is not rejected for
its signature. -/
theorem gpt_signature_rejection (d : Disk) (stack : Mem) :
    (gpt_signature d ≠ EFI_PART →
      locate_linux_partition d stack = ⟨[1], Except.error Halt.panic⟩ ∧
      fs_init d stack = Except.error Halt.panic) ∧
    (gpt_signature d = EFI_PART →
      (locate_linux_partition d stack).reads = [1, gpt_partition_table_lba d]) := by
  constructor
  · intro h
    have hl := locate_bad_signature d stack h
    refine ⟨hl, ?_⟩
    unfold fs_init
    rw [hl]
  · intro h
    rw [locate_good_signature d stack h]

/-- C15 applied to a disk of zero bytes, whose signature is wrong, and to the
test disk, whose signature is right and whose partition entries are in sector
2. -/
theorem gpt_signature_rejection_witness :
    (locate_linux_partition (fun _ => 0) (fun _ => 0) = ⟨[1], Except.error Halt.panic⟩ ∧
      fs_init (fun _ => 0) (fun _ => 0) = Except.error Halt.panic) ∧
    (locate_linux_partition test_gpt_image (fun _ => 0)).reads =
      [1, gpt_partition_table_lba test_gpt_image] ∧
    gpt_partition_table_lba test_gpt_image = 2 :=
  ⟨(gpt_signature_rejection (fun _ => 0) (fun _ => 0)).1 (by decide!),
   (gpt_signature_rejection test_gpt_image (fun _ => 0)).2 (by decide!),
   by decide!⟩

/-! ### C16: partition selection -/

/-- C16.  Given the signature `"EFI PART"`, `locate_linux_partition` reads
sector 1 and then one sector at the header's `partition_table_lba`; it returns
the `first_lba` of the lowest-indexed of the first 4 entries (128 bytes each)
whose 16-byte `type_guid` is `GPT_LINUX_FILESYSTEM_GUID`, and halts in its
`PANIC` when none of the 4 matches.  The constant is the mixed-endian
serialisation of `0FC63DAF-8483-4772-8E79-3D69D8477DE4`. -/
theorem locate_returns_first_linux_entry (d : Disk) (stack : Mem)
    (hsig : gpt_signature d = EFI_PART) :
    (locate_linux_partition d stack).reads = [1, gpt_partition_table_lba d] ∧
    (∀ i, i < 4 →
      gpt_entry_type_guid d (gpt_partition_table_lba d) i = GPT_LINUX_FILESYSTEM_GUID →
      (∀ j, j < i →
        gpt_entry_type_guid d (gpt_partition_table_lba d) j ≠ GPT_LINUX_FILESYSTEM_GUID) →
      (locate_linux_partition d stack).result =
        Except.ok (gpt_entry_first_lba d (gpt_partition_table_lba d) i)) ∧
    ((∀ i, i < 4 →
        gpt_entry_type_guid d (gpt_partition_table_lba d) i ≠ GPT_LINUX_FILESYSTEM_GUID) →
      (locate_linux_partition d stack).result = Except.error Halt.panic) ∧
    GPT_LINUX_FILESYSTEM_GUID =
      [0xAF, 0x3D, 0xC6, 0x0F, 0x83, 0x84, 0x72, 0x47, 0x8E, 0x79, 0x3D, 0x69, 0xD8, 0x47,
       0x7D, 0xE4] ∧
    GPT_LINUX_FILESYSTEM_GUID =
      guid_mixed_endian 0x0FC63DAF 0x8483 0x4772
        [0x8E, 0x79, 0x3D, 0x69, 0xD8, 0x47, 0x7D, 0xE4] := by
  rw [locate_good_signature d stack hsig]
  exact ⟨rfl, fun i hi hm hb => scan_found d _ _ i hi hm hb,
    fun h => scan_not_found d _ _ h, by decide, by decide⟩

/-- C16 applied to the test disk: entry 0 is an EFI system partition, entry 1
the Linux partition, and the function returns its `first_lba`, 2048. -/
theorem locate_returns_first_linux_entry_witness :
    gpt_signature test_gpt_image = EFI_PART ∧
    (locate_linux_partition test_gpt_image (fun _ => 0)).result =
      Except.ok (gpt_entry_first_lba test_gpt_image
        (gpt_partition_table_lba test_gpt_image) 1) ∧
    gpt_entry_first_lba test_gpt_image (gpt_partition_table_lba test_gpt_image) 1 = 2048 :=
  ⟨by decide!,
   (locate_returns_first_linux_entry test_gpt_image (fun _ => 0) (by decide!)).2.1 1
    (by decide) (by decide!) (by decide!),
   by decide!⟩

/-! ### The buffer content after a read -/

theorem read_blocks_mem_zero (fs : Fs) (d : Disk) (block off : Nat) (buf : Mem) :
    read_blocks_mem fs d block 0 off buf = buf := by
  funext i
  have h : ¬ (off ≤ i ∧ i < off + 0 * fs.bytes_per_block) := by omega
  simp only [read_blocks_mem, h, if_false]

theorem read_blocks_mem_congr (fs : Fs) (d : Disk) (a b q off : Nat) (buf : Mem)
    (h : a % U64 = b % U64) :
    read_blocks_mem fs d a q off buf = read_blocks_mem fs d b q off buf := by
  funext i
  simp only [read_blocks_mem]
  rw [block_lba_congr fs (a + (i - off) / fs.bytes_per_block)
    (b + (i - off) / fs.bytes_per_block) (by rw [Nat.add_mod, h, ← Nat.add_mod])]

theorem read_blocks_mem_succ (fs : Fs) (d : Disk) (block q off : Nat) (buf : Mem)
    (hb : 0 < fs.bytes_per_block)
    (hsz : fs.sectors_per_block * SECTOR_SIZE % U32 = fs.bytes_per_block) :
    read_blocks_mem fs d (block + 1) q (off + fs.bytes_per_block)
        (disk_read_sectors d (block_lba fs block) buf off fs.sectors_per_block) =
      read_blocks_mem fs d block (q + 1) off buf := by
  funext i
  simp only [read_blocks_mem, disk_read_sectors, hsz, Nat.succ_mul]
  by_cases h1 : i < off
  · have c1 : ¬ (off + fs.bytes_per_block ≤ i ∧
        i < off + fs.bytes_per_block + q * fs.bytes_per_block) := by omega
    have c2 : ¬ (off ≤ i ∧ i < off + fs.bytes_per_block) := by omega
    have c3 : ¬ (off ≤ i ∧ i < off + (q * fs.bytes_per_block + fs.bytes_per_block)) := by
      omega
    simp only [c1, c2, c3, if_false]
  · by_cases h2 : i < off + fs.bytes_per_block
    · have c1 : ¬ (off + fs.bytes_per_block ≤ i ∧
          i < off + fs.bytes_per_block + q * fs.bytes_per_block) := by omega
      have c2 : off ≤ i ∧ i < off + fs.bytes_per_block := by omega
      have c3 : off ≤ i ∧ i < off + (q * fs.bytes_per_block + fs.bytes_per_block) := by
        omega
      have hx : i - off < fs.bytes_per_block := by omega
      simp only [c1, c2, c3, and_self, if_true, if_false, Nat.div_eq_of_lt hx,
        Nat.mod_eq_of_lt hx, Nat.add_zero]
    · by_cases h3 : i < off + fs.bytes_per_block + q * fs.bytes_per_block
      · have c1 : off + fs.bytes_per_block ≤ i ∧
            i < off + fs.bytes_per_block + q * fs.bytes_per_block := by omega
        have c3 : off ≤ i ∧ i < off + (q * fs.bytes_per_block + fs.bytes_per_block) := by
          omega
        have hx : fs.bytes_per_block ≤ i - off := by omega
        have hsub : i - (off + fs.bytes_per_block) = i - off - fs.bytes_per_block := by
          omega
        simp only [c1, c3, and_self, if_true, hsub, Nat.div_eq_sub_div hb hx,
          Nat.mod_eq_sub_mod hx]
        rw [show block + 1 + (i - off - fs.bytes_per_block) / fs.bytes_per_block =
          block + ((i - off - fs.bytes_per_block) / fs.bytes_per_block + 1) by omega]
      · have c1 : ¬ (off + fs.bytes_per_block ≤ i ∧
            i < off + fs.bytes_per_block + q * fs.bytes_per_block) := by omega
        have c2 : ¬ (off ≤ i ∧ i < off + fs.bytes_per_block) := by omega
        have c3 : ¬ (off ≤ i ∧ i < off + (q * fs.bytes_per_block + fs.bytes_per_block)) := by
          omega
        simp only [c1, c2, c3, if_false]


theorem extent_loop_mem (fs : Fs) (d : Disk) (remaining : Nat)
    (hb : 0 < fs.bytes_per_block)
    (hsz : fs.sectors_per_block * SECTOR_SIZE % U32 = fs.bytes_per_block)
    (hr : 0 < remaining) :
    ∀ (fuel block : Nat) (c : ReadCursor) (rl : Nat),
      c.len / fs.bytes_per_block < fuel → rl < U64 →
      ext4_read_inode_extent_loop fs d remaining fuel block c rl =
        some (⟨read_blocks_mem fs d block (c.len / fs.bytes_per_block) c.off c.buf,
               c.off + c.len / fs.bytes_per_block * fs.bytes_per_block,
               c.len % fs.bytes_per_block,
               c.list.map fun l => l ++ block_entries fs block (c.len / fs.bytes_per_block)⟩,
              (rl + c.len / fs.bytes_per_block * fs.bytes_per_block) % U64) := by
  intro fuel
  induction fuel with
  | zero => intro block c rl h; exact absurd h (Nat.not_lt_zero _)
  | succ fuel ih =>
    intro block c rl hf hrl
    by_cases hge : c.len ≥ fs.bytes_per_block
    · have hq : c.len / fs.bytes_per_block =
          (c.len - fs.bytes_per_block) / fs.bytes_per_block + 1 :=
        Nat.div_eq_sub_div hb hge
      have hm : (c.len - fs.bytes_per_block) % fs.bytes_per_block =
          c.len % fs.bytes_per_block := (Nat.mod_eq_sub_mod hge).symm
      have hm1 := ih ((block + 1) % U64)
        ⟨(ext4_read_block fs d block c.buf c.off c.list).1, c.off + fs.bytes_per_block,
          c.len - fs.bytes_per_block, (ext4_read_block fs d block c.buf c.off c.list).2⟩
        ((rl + fs.bytes_per_block) % U64) (by simp only; omega)
        (Nat.mod_lt _ (by unfold U64; omega))
      have hcond : c.len ≥ fs.bytes_per_block ∧ remaining > 0 := ⟨hge, hr⟩
      simp only [ext4_read_inode_extent_loop, hcond, and_self, if_true]
      rw [hm1]
      simp only [hm, hq]
      have e0 : read_blocks_mem fs d ((block + 1) % U64)
            ((c.len - fs.bytes_per_block) / fs.bytes_per_block)
            (c.off + fs.bytes_per_block) (ext4_read_block fs d block c.buf c.off c.list).1 =
          read_blocks_mem fs d block
            ((c.len - fs.bytes_per_block) / fs.bytes_per_block + 1) c.off c.buf := by
        rw [read_blocks_mem_congr fs d ((block + 1) % U64) (block + 1) _ _ _
          (Nat.mod_mod _ _)]
        exact read_blocks_mem_succ fs d block _ c.off c.buf hb hsz
      have e1 : c.off + fs.bytes_per_block +
          (c.len - fs.bytes_per_block) / fs.bytes_per_block * fs.bytes_per_block =
          c.off + ((c.len - fs.bytes_per_block) / fs.bytes_per_block + 1) *
            fs.bytes_per_block := by
        rw [Nat.succ_mul]; omega
      have e2 : Option.map (fun l => l ++ block_entries fs ((block + 1) % U64)
            ((c.len - fs.bytes_per_block) / fs.bytes_per_block))
            (ext4_read_block fs d block c.buf c.off c.list).2 =
          Option.map (fun l => l ++ block_entries fs block
            ((c.len - fs.bytes_per_block) / fs.bytes_per_block + 1)) c.list := by
        rw [block_entries_succ_left,
          block_entries_congr fs ((block + 1) % U64) (block + 1) _ (Nat.mod_mod _ _)]
        cases c.list <;> simp [ext4_read_block]
      have e3 : ((rl + fs.bytes_per_block) % U64 +
          (c.len - fs.bytes_per_block) / fs.bytes_per_block * fs.bytes_per_block) % U64 =
          (rl + ((c.len - fs.bytes_per_block) / fs.bytes_per_block + 1) *
            fs.bytes_per_block) % U64 := by
        rw [Nat.succ_mul]
        generalize (c.len - fs.bytes_per_block) / fs.bytes_per_block * fs.bytes_per_block = x
        unfold U64
        omega
      rw [e0, e1, e2, e3]
    · have hq : c.len / fs.bytes_per_block = 0 :=
        Nat.div_eq_of_lt (Nat.lt_of_not_le hge)
      have hm : c.len % fs.bytes_per_block = c.len := Nat.mod_eq_of_lt (Nat.lt_of_not_le hge)
      rw [extent_loop_exit fs d remaining fuel block c rl (fun h => hge h.1), hq, hm]
      simp only [Nat.zero_mul, Nat.add_zero, block_entries_zero, List.append_nil,
        Nat.mod_eq_of_lt hrl, read_blocks_mem_zero]
      cases c with
      | mk b o l ls => cases ls <;> simp

theorem read_inode_extent_mem (fs : Fs) (d : Disk) (e : ext4_extent) (c : ReadCursor)
    (hb : 0 < fs.bytes_per_block)
    (hsz : fs.sectors_per_block * SECTOR_SIZE % U32 = fs.bytes_per_block)
    (hn : 0 < e.blocks_count) (hlen : c.len < U64) :
    ext4_read_inode_extent fs d e c =
      Except.ok (⟨read_blocks_mem fs d (extent_start e) (c.len / fs.bytes_per_block)
            c.off c.buf,
          c.off + c.len / fs.bytes_per_block * fs.bytes_per_block,
          c.len % fs.bytes_per_block,
          c.list.map fun l =>
            l ++ block_entries fs (extent_start e) (c.len / fs.bytes_per_block)⟩,
        c.len / fs.bytes_per_block * fs.bytes_per_block) := by
  have hm := extent_loop_mem fs d e.blocks_count hb hsz hn (c.len + 1)
    (((e.block_start_hi <<< 32) % U64 + e.block_start_lo) % U64) c 0
    (Nat.lt_succ_of_le (Nat.div_le_self _ _)) (by unfold U64; omega)
  unfold ext4_read_inode_extent
  simp only [hm]
  rw [block_entries_congr fs _ (extent_start e) _ (extent_start_congr e), Nat.zero_add,
    read_blocks_mem_congr fs d _ (extent_start e) _ _ _ (extent_start_congr e),
    Nat.mod_eq_of_lt (Nat.lt_of_le_of_lt (Nat.div_mul_le_self _ _) hlen)]

theorem first_extent_nil (inode : Mem) : first_extent inode [] = none := rfl

theorem first_extent_cons_zero (inode : Mem) (i : Nat) (rest : List Nat)
    (h : (extent_entry inode i).blocks_count = 0) :
    first_extent inode (i :: rest) = first_extent inode rest := by
  simp only [first_extent, h, if_true]

theorem first_extent_cons_pos (inode : Mem) (i : Nat) (rest : List Nat)
    (h : (extent_entry inode i).blocks_count ≠ 0) :
    first_extent inode (i :: rest) = some (extent_entry inode i) := by
  simp only [first_extent, h, if_false]

theorem read_inode_data_loop_mem (fs : Fs) (d : Disk) (inode : Mem)
    (hb : 0 < fs.bytes_per_block)
    (hsz : fs.sectors_per_block * SECTOR_SIZE % U32 = fs.bytes_per_block) :
    ∀ (idx : List Nat) (c : ReadCursor) (rl : Nat),
      rl + c.len < U64 →
      ext4_read_inode_data_loop fs d inode idx c rl =
        Except.ok (⟨read_blocks_mem fs d (data_block inode idx)
              (data_blocks fs inode idx c.len) c.off c.buf,
            c.off + data_blocks fs inode idx c.len * fs.bytes_per_block,
            c.len - data_blocks fs inode idx c.len * fs.bytes_per_block,
            c.list.map fun l => l ++ block_entries fs (data_block inode idx)
              (data_blocks fs inode idx c.len)⟩,
          rl + data_blocks fs inode idx c.len * fs.bytes_per_block) := by
  intro idx
  induction idx with
  | nil =>
    intro c rl _
    simp only [ext4_read_inode_data_loop, data_blocks, data_block, first_extent_nil,
      read_blocks_mem_zero, Nat.zero_mul, Nat.add_zero, Nat.sub_zero, block_entries_zero,
      List.append_nil]
    cases c with
    | mk b o l ls => cases ls <;> simp
  | cons i rest ih =>
    intro c rl hrl
    by_cases hz : (extent_entry inode i).blocks_count = 0
    · simp only [ext4_read_inode_data_loop, read_inode_extent_idle fs d _ c (Or.inr hz),
        Nat.add_zero, Nat.mod_eq_of_lt (show rl < U64 by omega)]
      rw [ih c rl hrl]
      simp only [data_blocks, data_block, first_extent_cons_zero inode i rest hz]
    · have hle : c.len / fs.bytes_per_block * fs.bytes_per_block ≤ c.len :=
        Nat.div_mul_le_self _ _
      simp only [ext4_read_inode_data_loop,
        read_inode_extent_mem fs d _ c hb hsz (Nat.pos_of_ne_zero hz) (by omega)]
      rw [read_inode_data_loop_idle fs d inode rest _ _ (Nat.mod_lt _ hb)
        (Nat.mod_lt _ (by unfold U64; omega))]
      simp only [data_blocks, data_block, first_extent_cons_pos inode i rest hz]
      rw [Nat.mod_eq_of_lt (show rl + c.len / fs.bytes_per_block * fs.bytes_per_block < U64 by
        omega)]
      have hmod : c.len % fs.bytes_per_block =
          c.len - c.len / fs.bytes_per_block * fs.bytes_per_block := by
        have := Nat.div_add_mod c.len fs.bytes_per_block
        rw [Nat.mul_comm] at this
        omega
      rw [hmod]


theorem data_blocks_le (fs : Fs) (inode : Mem) (idx : List Nat) (len : Nat) :
    data_blocks fs inode idx len * fs.bytes_per_block ≤ len := by
  unfold data_blocks
  split
  · exact Nat.div_mul_le_self _ _
  · omega

theorem read_inode_data_char (fs : Fs) (d : Disk) (u : Uninit) (ino : Nat) (buf : Mem)
    (off len : Nat) (sl : Option (List sector_list_entry)) (c : ReadCursor) (n : Nat)
    (hb : 0 < fs.bytes_per_block)
    (hsz : fs.sectors_per_block * SECTOR_SIZE % U32 = fs.bytes_per_block)
    (hlen : len < U64)
    (hres : ext4_read_inode_data fs d u ino ⟨buf, off, len, sl⟩ = Except.ok (c, n)) :
    ∃ block q, q * fs.bytes_per_block ≤ len ∧ n = q * fs.bytes_per_block ∧
      ∀ buf2, ext4_read_inode_data fs d u ino ⟨buf2, off, len, sl⟩ =
        Except.ok (⟨read_blocks_mem fs d block q off buf2, off + q * fs.bytes_per_block,
            len - q * fs.bytes_per_block,
            sl.map fun l => l ++ block_entries fs block q⟩,
          q * fs.bytes_per_block) := by
  unfold ext4_read_inode_data at hres ⊢
  cases hi : ext4_read_inode fs d u ino with
  | error h => rw [hi] at hres; cases hres
  | ok inode =>
    rw [hi] at hres
    simp only at hres ⊢
    by_cases hf : inode_flags inode &&& EXT4_INODE_FLAG_EXTENTS ≠ 0
    · by_cases hd : extent_depth inode = 0
      · simp only [hf, hd, if_true, ne_eq, not_false_eq_true] at hres ⊢
        rw [read_inode_data_loop_mem fs d inode hb hsz _ _ 0
          (by simp only [Nat.zero_add]; exact hlen)] at hres
        refine ⟨data_block inode (List.range (extent_entries_count inode)),
          data_blocks fs inode (List.range (extent_entries_count inode)) len,
          data_blocks_le fs inode _ len, ?_, ?_⟩
        · have h2 := (Prod.mk.inj (Except.ok.inj hres)).2
          simp only [Nat.zero_add] at h2
          exact h2.symm
        · intro buf2
          rw [read_inode_data_loop_mem fs d inode hb hsz _ _ 0
            (by simp only [Nat.zero_add]; exact hlen)]
          simp only [Nat.zero_add]
      · simp only [hf, hd, if_true, if_false, ne_eq, not_false_eq_true] at hres
        cases hres
    · simp only [hf, if_false] at hres ⊢
      refine ⟨0, 0, by omega, ?_, ?_⟩
      · have h2 := (Prod.mk.inj (Except.ok.inj hres)).2
        omega
      · intro buf2
        simp only [read_blocks_mem_zero, Nat.zero_mul, Nat.add_zero, Nat.sub_zero,
          block_entries_zero, List.append_nil]
        cases sl <;> simp

theorem fs_init_block_size (d : Disk) (stack : Mem) (fs : Fs)
    (h : fs_init d stack = Except.ok fs) :
    0 < fs.bytes_per_block ∧
      fs.sectors_per_block * SECTOR_SIZE % U32 = fs.bytes_per_block := by
  unfold fs_init at h
  cases hp : (locate_linux_partition d stack).result with
  | error e => rw [hp] at h; cases h
  | ok part_lba =>
    rw [hp] at h
    simp only at h
    split at h
    · cases h
    · split at h
      · cases h
      · split at h
        · cases h
        · rename_i _ hk _
          have hfs := Except.ok.inj h
          rw [← hfs]
          simp only
          generalize le32 (disk_read_sectors d ((part_lba + SUPERBLOCK_SECTOR_BASE) % U64)
            stack 0 1) 24 = k at hk
          have hk2 : k ≤ 20 := Nat.le_of_not_lt hk
          interval_cases k <;> decide

theorem fs_init_eq_of_fields (d : Disk) (stack : Mem) (fs0 : Fs)
    (h : (fs_init d stack).toOption.map (fun fs =>
        [fs.part_lba, fs.bytes_per_block, fs.sectors_per_block, fs.groups_count,
         fs.inodes_per_group, fs.bytes_per_inode]) =
      some [fs0.part_lba, fs0.bytes_per_block, fs0.sectors_per_block, fs0.groups_count,
        fs0.inodes_per_group, fs0.bytes_per_inode]) :
    fs_init d stack = Except.ok fs0 := by
  generalize fs_init d stack = r at h
  cases r with
  | error e => simp [Except.toOption] at h
  | ok fs =>
    cases fs
    cases fs0
    simp [Except.toOption] at h
    simp [h]

theorem test_fs_init_ok : fs_init test_gpt_image (fun _ => 0) = Except.ok test_fs :=
  fs_init_eq_of_fields test_gpt_image (fun _ => 0) test_fs test_fs_init

theorem test_lookup_gpt :
    ext4_get_inode_by_filename test_fs test_gpt_image zero_uninit dump_bin =
      Except.ok 12 := by
  rfl

theorem test_inode_gpt :
    ext4_read_inode test_fs test_gpt_image zero_uninit 12 =
      Except.ok (inode_mem test_fs test_gpt_image zero_uninit 12) := by
  rfl

theorem test_fields_gpt :
    inode_flags (inode_mem test_fs test_gpt_image zero_uninit 12) = 0x80000 ∧
    extent_depth (inode_mem test_fs test_gpt_image zero_uninit 12) = 0 ∧
    extent_entries_count (inode_mem test_fs test_gpt_image zero_uninit 12) = 1 ∧
    extent_entry (inode_mem test_fs test_gpt_image zero_uninit 12) 0 =
      ⟨0, 8, 0, 100⟩ := by
  refine ⟨by rfl, by rfl, by rfl, by rfl⟩


/-! ### C17: the result of `fs_read` is bounded by the capacity -/

/-- C17: for every disk image on which `fs_init` succeeds, every file name and
every capacity `len` (a `size_t`), when `fs_read` returns `n` then `n <= len`,
the buffer pointer has advanced by `n`, no byte of the caller's buffer at an
offset `>= n` has changed, and the `n` bytes below do not depend on what the
buffer held before the call: they were all copied in, and the returned length
is the same whatever the buffer held. -/
theorem fs_read_bounded_by_capacity (d : Disk) (stack : Mem) (fs : Fs) (u : Uninit)
    (filename : List Nat) (buf : Mem) (len : Nat) (sl : Option (List sector_list_entry))
    (c : ReadCursor) (n : Nat)
    (hfs : fs_init d stack = Except.ok fs) (hlen : len < U64)
    (hres : fs_read fs d u filename buf len sl = Except.ok (c, n)) :
    n ≤ len ∧ c.off = n ∧ (∀ i, n ≤ i → c.buf i = buf i) ∧
      ∀ buf2, ∃ c2, fs_read fs d u filename buf2 len sl = Except.ok (c2, n) ∧
        ∀ i, i < n → c2.buf i = c.buf i := by
  obtain ⟨hb, hsz⟩ := fs_init_block_size d stack fs hfs
  unfold fs_read at hres ⊢
  cases hl : ext4_get_inode_by_filename fs d u filename with
  | error h => rw [hl] at hres; cases hres
  | ok ino =>
    rw [hl] at hres
    simp only at hres ⊢
    obtain ⟨block, q, hq, hn, hall⟩ :=
      read_inode_data_char fs d u ino buf 0 len sl c n hb hsz hlen hres
    have hc := hall buf
    rw [hres] at hc
    have hc1 := (Prod.mk.inj (Except.ok.inj hc)).1
    subst hn
    refine ⟨hq, ?_, ?_, ?_⟩
    · rw [hc1]; simp only [Nat.zero_add]
    · intro i hi
      rw [hc1]
      have hcond : ¬ (0 ≤ i ∧ i < 0 + q * fs.bytes_per_block) := by omega
      simp only [read_blocks_mem, hcond, if_false]
    · intro buf2
      refine ⟨_, hall buf2, ?_⟩
      intro i hi
      rw [hc1]
      have hcond : 0 ≤ i ∧ i < 0 + q * fs.bytes_per_block := by omega
      simp only [read_blocks_mem, hcond, and_self, if_true]

/-- C17: the statement applied to the test disk, the file `dump.bin` of 8
blocks and a capacity of 33000 bytes: 32768 bytes are returned. -/
theorem fs_read_bounded_by_capacity_witness :
    ∃ c, fs_read test_fs test_gpt_image zero_uninit dump_bin (fun _ => 0) 33000 (some []) =
        Except.ok (c, 32768) ∧
      (32768 ≤ 33000 ∧ c.off = 32768 ∧ (∀ i, 32768 ≤ i → c.buf i = 0) ∧
        ∀ buf2, ∃ c2, fs_read test_fs test_gpt_image zero_uninit dump_bin buf2 33000
            (some []) = Except.ok (c2, 32768) ∧
          ∀ i, i < 32768 → c2.buf i = c.buf i) := by
  obtain ⟨m, hm⟩ := fs_read_spec test_fs test_gpt_image zero_uninit dump_bin (fun _ => 0)
    33000 [] 12 _ test_lookup_gpt test_inode_gpt
    (by rw [test_fields_gpt.1]; decide) test_fields_gpt.2.1
    (by rw [test_fields_gpt.2.2.1]; decide) (by decide)
    (by rw [test_fields_gpt.2.2.2]; decide) (by decide)
  have e : 33000 / test_fs.bytes_per_block * test_fs.bytes_per_block = 32768 := by decide
  rw [e] at hm
  exact ⟨_, hm, fs_read_bounded_by_capacity test_gpt_image (fun _ => 0) test_fs zero_uninit
    dump_bin (fun _ => 0) 33000 (some []) _ 32768 test_fs_init_ok (by decide) hm⟩


/-! ### Independence of memory that is read without having been written -/

theorem le16_agree (m1 m2 : Mem) (b o : Nat) (h : ∀ i, i < b → m1 i = m2 i)
    (ho : o + 2 ≤ b) : le16 m1 o = le16 m2 o := by
  unfold le16
  rw [h o (by omega), h (o + 1) (by omega)]

theorem le32_agree (m1 m2 : Mem) (b o : Nat) (h : ∀ i, i < b → m1 i = m2 i)
    (ho : o + 4 ≤ b) : le32 m1 o = le32 m2 o := by
  unfold le32
  rw [le16_agree m1 m2 b o h (by omega), le16_agree m1 m2 b (o + 2) h (by omega)]

theorem read_block_agree (fs : Fs) (d : Disk) (block : Nat) (m1 m2 : Mem)
    (hsz : fs.sectors_per_block * SECTOR_SIZE % U32 = fs.bytes_per_block) :
    ∀ i, i < fs.bytes_per_block →
      (ext4_read_block fs d block m1 0 none).1 i = (ext4_read_block fs d block m2 0 none).1 i := by
  intro i hi
  have hc : 0 ≤ i ∧ i < 0 + fs.bytes_per_block := by omega
  simp only [ext4_read_block, disk_read_sectors, hsz, hc, and_self, if_true]

theorem group_desc_indep (fs : Fs) (d : Disk) (u1 u2 : Uninit) (ino : Nat)
    (desc : ext4_group_desc) (bb : Mem)
    (hsz : fs.sectors_per_block * SECTOR_SIZE % U32 = fs.bytes_per_block)
    (h32 : 32 ∣ fs.bytes_per_block)
    (h : ext4_read_group_desc_for_inode fs d u1 ino = Except.ok (desc, bb)) :
    ∃ bb2, ext4_read_group_desc_for_inode fs d u2 ino = Except.ok (desc, bb2) := by
  unfold ext4_read_group_desc_for_inode at h ⊢
  by_cases h1 : ino < 2
  · simp only [h1, if_true] at h; cases h
  · by_cases h2 : fs.inodes_per_group = 0
    · simp only [h1, h2, if_true, if_false] at h; cases h
    · by_cases h3 : 32 * ((ino - 1) / fs.inodes_per_group) % U64 < fs.bytes_per_block
      · simp only [h1, h2, h3, if_true, if_false] at h ⊢
        have hd := (Prod.mk.inj (Except.ok.inj h)).1
        refine ⟨(ext4_read_block fs d (if fs.bytes_per_block > 1024 then 1 else 2)
          u2.block_buf 0 none).1, ?_⟩
        rw [← hd]
        have ho : 32 * ((ino - 1) / fs.inodes_per_group) % U64 + 32 ≤
            fs.bytes_per_block := by
          obtain ⟨k, hk⟩ := h32
          have hmod : 32 * ((ino - 1) / fs.inodes_per_group) % U64 % 32 = 0 := by
            unfold U64; omega
          generalize 32 * ((ino - 1) / fs.inodes_per_group) % U64 = o at h3 hmod
          omega
        have hag := read_block_agree fs d (if fs.bytes_per_block > 1024 then 1 else 2)
          u2.block_buf u1.block_buf hsz
        generalize 32 * ((ino - 1) / fs.inodes_per_group) % U64 = o at ho
        rw [le32_agree _ _ _ o hag (by omega), le32_agree _ _ _ (o + 4) hag (by omega),
          le32_agree _ _ _ (o + 8) hag (by omega), le16_agree _ _ _ (o + 12) hag (by omega),
          le16_agree _ _ _ (o + 14) hag (by omega), le16_agree _ _ _ (o + 16) hag (by omega)]
      · simp only [h1, h2, h3, if_true, if_false] at h; cases h


theorem read_inode_indep (fs : Fs) (d : Disk) (u1 u2 : Uninit) (ino : Nat) (inode : Mem)
    (hsz : fs.sectors_per_block * SECTOR_SIZE % U32 = fs.bytes_per_block)
    (h32 : 32 ∣ fs.bytes_per_block) (h128 : 128 ≤ fs.bytes_per_inode)
    (h : ext4_read_inode fs d u1 ino = Except.ok inode) :
    ∃ inode2, ext4_read_inode fs d u2 ino = Except.ok inode2 ∧
      ∀ i, i < 128 → inode2 i = inode i := by
  unfold ext4_read_inode at h ⊢
  by_cases h1 : ino < 2
  · simp only [h1, if_true] at h; cases h
  · cases hg : ext4_read_group_desc_for_inode fs d u1 ino with
    | error e => simp only [h1, if_false, hg] at h; cases h
    | ok r =>
      obtain ⟨desc, bb⟩ := r
      obtain ⟨bb2, hg2⟩ := group_desc_indep fs d u1 u2 ino desc bb hsz h32 hg
      simp only [h1, if_false, hg] at h
      simp only [h1, if_false, hg2]
      by_cases h2 : fs.bytes_per_inode = 0
      · simp only [h2, if_true] at h; cases h
      · by_cases h3 : fs.bytes_per_block / fs.bytes_per_inode = 0
        · simp only [h2, h3, if_true, if_false] at h; cases h
        · simp only [h2, h3, if_false] at h ⊢
          have hi := Except.ok.inj h
          refine ⟨_, rfl, ?_⟩
          intro i hi128
          rw [← hi]
          simp only [hi128, if_true]
          apply read_block_agree fs d _ bb2 bb hsz
          have hlt : (ino - 1) % fs.inodes_per_group %
              (fs.bytes_per_block / fs.bytes_per_inode) <
              fs.bytes_per_block / fs.bytes_per_inode :=
            Nat.mod_lt _ (Nat.pos_of_ne_zero h3)
          generalize (ino - 1) % fs.inodes_per_group %
            (fs.bytes_per_block / fs.bytes_per_inode) = k at hlt
          have hle : (k + 1) * fs.bytes_per_inode ≤
              fs.bytes_per_block / fs.bytes_per_inode * fs.bytes_per_inode :=
            Nat.mul_le_mul_right _ hlt
          have hdm : fs.bytes_per_block / fs.bytes_per_inode * fs.bytes_per_inode ≤
              fs.bytes_per_block := Nat.div_mul_le_self _ _
          rw [Nat.succ_mul] at hle
          omega

theorem inode_fields_agree (inode inode2 : Mem) (h : ∀ i, i < 128 → inode2 i = inode i) :
    inode_flags inode2 = inode_flags inode ∧ extent_depth inode2 = extent_depth inode ∧
    extent_entries_count inode2 = extent_entries_count inode ∧
    ∀ i, i < 4 → extent_entry inode2 i = extent_entry inode i := by
  refine ⟨le32_agree _ _ 128 32 h (by omega), le16_agree _ _ 128 46 h (by omega),
    le16_agree _ _ 128 42 h (by omega), ?_⟩
  intro i hi
  unfold extent_entry
  rw [le32_agree _ _ 128 (52 + 12 * i) h (by omega),
    le16_agree _ _ 128 (52 + 12 * i + 4) h (by omega),
    le16_agree _ _ 128 (52 + 12 * i + 6) h (by omega),
    le32_agree _ _ 128 (52 + 12 * i + 8) h (by omega)]

theorem read_inode_data_loop_congr (fs : Fs) (d : Disk) (inode inode2 : Mem) :
    ∀ (idx : List Nat) (c : ReadCursor) (rl : Nat),
      (∀ i, i ∈ idx → extent_entry inode2 i = extent_entry inode i) →
      ext4_read_inode_data_loop fs d inode2 idx c rl =
        ext4_read_inode_data_loop fs d inode idx c rl := by
  intro idx
  induction idx with
  | nil => intro c rl _; rfl
  | cons i rest ih =>
    intro c rl h
    simp only [ext4_read_inode_data_loop, h i (List.mem_cons_self _ _)]
    cases ext4_read_inode_extent fs d (extent_entry inode i) c with
    | error e => rfl
    | ok r =>
      exact ih r.1 _ (fun j hj => h j (List.mem_cons_of_mem _ hj))

theorem inode_mem_eq (fs : Fs) (d : Disk) (u : Uninit) (ino : Nat) (inode : Mem)
    (h : ext4_read_inode fs d u ino = Except.ok inode) : inode_mem fs d u ino = inode := by
  unfold inode_mem
  rw [h]

theorem read_inode_data_indep (fs : Fs) (d : Disk) (u1 u2 : Uninit) (ino : Nat)
    (c : ReadCursor) (r : ReadCursor × Nat)
    (hsz : fs.sectors_per_block * SECTOR_SIZE % U32 = fs.bytes_per_block)
    (h32 : 32 ∣ fs.bytes_per_block) (h128 : 128 ≤ fs.bytes_per_inode)
    (hcount : extent_entries_count (inode_mem fs d u1 ino) ≤ 4)
    (h : ext4_read_inode_data fs d u1 ino c = Except.ok r) :
    ext4_read_inode_data fs d u2 ino c = Except.ok r := by
  unfold ext4_read_inode_data at h ⊢
  cases hi : ext4_read_inode fs d u1 ino with
  | error e => rw [hi] at h; cases h
  | ok inode =>
    obtain ⟨inode2, hi2, hag⟩ := read_inode_indep fs d u1 u2 ino inode hsz h32 h128 hi
    obtain ⟨hf, hd, hc, he⟩ := inode_fields_agree inode inode2 hag
    rw [inode_mem_eq fs d u1 ino inode hi] at hcount
    rw [hi] at h
    rw [hi2]
    simp only [hf, hd, hc] at h ⊢
    rw [read_inode_data_loop_congr fs d inode inode2 _ c 0
      (fun i hi => he i (by have := List.mem_range.mp hi; omega))]
    exact h


theorem fs_init_block_32 (d : Disk) (stack : Mem) (fs : Fs)
    (h : fs_init d stack = Except.ok fs) : 32 ∣ fs.bytes_per_block := by
  unfold fs_init at h
  cases hp : (locate_linux_partition d stack).result with
  | error e => rw [hp] at h; cases h
  | ok part_lba =>
    rw [hp] at h
    simp only at h
    split at h
    · cases h
    · split at h
      · cases h
      · split at h
        · cases h
        · rename_i _ hk _
          have hfs := Except.ok.inj h
          rw [← hfs]
          simp only
          generalize le32 (disk_read_sectors d ((part_lba + SUPERBLOCK_SECTOR_BASE) % U64)
            stack 0 1) 24 = k at hk
          have hk2 : k ≤ 20 := Nat.le_of_not_lt hk
          interval_cases k <;> decide

theorem walk_off_succ_right (buf : Mem) : ∀ (k off : Nat),
    walk_off buf off (k + 1) =
      walk_off buf off k + dirent_entry_len buf (walk_off buf off k)
  | 0, _ => rfl
  | k + 1, off => by
    rw [walk_off_succ buf off (k + 1), walk_off_succ_right buf k, walk_off_succ buf off k]

theorem walk_off_mono (buf : Mem) (off k : Nat) :
    ∀ j, walk_off buf off k ≤ walk_off buf off (k + j)
  | 0 => Nat.le_refl _
  | j + 1 => by
    rw [← Nat.add_assoc, walk_off_succ_right]
    exact Nat.le_trans (walk_off_mono buf off k j) (Nat.le_add_right _ _)

theorem records_inside_step (buf : Mem) (read_len off : Nat)
    (h : records_inside buf read_len off) :
    records_inside buf read_len (off + le16 buf (off + 4)) := by
  intro k hk
  exact h (k + 1) hk

theorem lookup_loop_congr (b1 b2 : Mem) (rl : Nat) (filename : List Nat)
    (hag : ∀ i, i < rl → b2 i = b1 i) :
    ∀ (fuel off : Nat), records_inside b1 rl off →
      ext4_get_inode_by_filename_loop b2 rl filename fuel off =
        ext4_get_inode_by_filename_loop b1 rl filename fuel off := by
  intro fuel
  induction fuel with
  | zero => intro off _; rfl
  | succ fuel ih =>
    intro off hin
    by_cases hlt : off < rl
    · have h0 : off + 8 + b1 (off + 6) % 256 ≤ rl := hin 0 hlt
      have e4 : le16 b2 (off + 4) = le16 b1 (off + 4) :=
        le16_agree _ _ rl (off + 4) hag (by omega)
      have e6 : b2 (off + 6) = b1 (off + 6) := hag _ (by omega)
      have e0 : le32 b2 off = le32 b1 off := le32_agree _ _ rl off hag (by omega)
      have ename : (List.range (b1 (off + 6) % 256)).map (fun i => b2 (off + 8 + i)) =
          (List.range (b1 (off + 6) % 256)).map (fun i => b1 (off + 8 + i)) :=
        List.map_congr_left (fun i hi => hag _ (by have := List.mem_range.mp hi; omega))
      simp only [ext4_get_inode_by_filename_loop, hlt, if_true, e4, e6, e0, ename]
      rw [ih (off + le16 b1 (off + 4)) (records_inside_step b1 rl off hin)]
    · simp only [ext4_get_inode_by_filename_loop, hlt, if_false]

theorem lookup_indep (fs : Fs) (d : Disk) (u1 u2 : Uninit) (filename : List Nat)
    (ino : Nat) (hb : 0 < fs.bytes_per_block)
    (hsz : fs.sectors_per_block * SECTOR_SIZE % U32 = fs.bytes_per_block)
    (h32 : 32 ∣ fs.bytes_per_block) (h128 : 128 ≤ fs.bytes_per_inode)
    (hroot : extent_entries_count (inode_mem fs d u1 INODE_ROOT_DIR) ≤ 4)
    (hdir : records_inside (root_dir fs d u1).1.buf (root_dir fs d u1).2 0)
    (hl : ext4_get_inode_by_filename fs d u1 filename = Except.ok ino) :
    ext4_get_inode_by_filename fs d u2 filename = Except.ok ino := by
  unfold ext4_get_inode_by_filename at hl ⊢
  cases hr : ext4_read_inode_data fs d u1 INODE_ROOT_DIR
      ⟨u1.page, 0, ALIGN_UP (8 * NUM_ROOT_DIRENTS_MAX) PAGE_SIZE, none⟩ with
  | error e => simp only [hr] at hl; cases hl
  | ok r =>
    obtain ⟨c, rl⟩ := r
    simp only [hr] at hl
    have hrd : root_dir fs d u1 = (c, rl) := by unfold root_dir; rw [hr]
    rw [hrd] at hdir
    simp only at hdir
    obtain ⟨block, q, hq, hn, hall⟩ := read_inode_data_char fs d u1 INODE_ROOT_DIR u1.page 0
      (ALIGN_UP (8 * NUM_ROOT_DIRENTS_MAX) PAGE_SIZE) none c rl hb hsz (by decide) hr
    have hc := hall u1.page
    rw [hr] at hc
    have hcb : c.buf = read_blocks_mem fs d block q 0 u1.page :=
      congrArg ReadCursor.buf (Prod.mk.inj (Except.ok.inj hc)).1
    have h2 := read_inode_data_indep fs d u1 u2 INODE_ROOT_DIR _ _ hsz h32 h128 hroot
      (hall u2.page)
    simp only [h2]
    rw [← hn]
    rw [lookup_loop_congr c.buf (read_blocks_mem fs d block q 0 u2.page) rl filename
      (fun i hi => by
        have hcond : 0 ≤ i ∧ i < 0 + q * fs.bytes_per_block := by omega
        rw [hcb]
        simp only [read_blocks_mem, hcond, and_self, if_true]) _ 0 hdir]
    exact hl


/-! ### C18: two successive reads -/

theorem test_root_gpt :
    ext4_read_inode_data test_fs test_gpt_image zero_uninit INODE_ROOT_DIR
      ⟨zero_uninit.page, 0, ALIGN_UP (8 * NUM_ROOT_DIRENTS_MAX) PAGE_SIZE, none⟩ =
      Except.ok ((root_dir test_fs test_gpt_image zero_uninit).1,
        (root_dir test_fs test_gpt_image zero_uninit).2) := by
  rfl

theorem test_records_inside_gpt :
    records_inside (root_dir test_fs test_gpt_image zero_uninit).1.buf
      (root_dir test_fs test_gpt_image zero_uninit).2 0 := by
  intro k hk
  by_cases h3 : k < 3
  · have hall : ∀ j, j < 3 →
        walk_off (root_dir test_fs test_gpt_image zero_uninit).1.buf 0 j + 8 +
          (root_dir test_fs test_gpt_image zero_uninit).1.buf
            (walk_off (root_dir test_fs test_gpt_image zero_uninit).1.buf 0 j + 6) % 256 ≤
          (root_dir test_fs test_gpt_image zero_uninit).2 := by decide!
    exact hall k h3
  · have hend : ¬ walk_off (root_dir test_fs test_gpt_image zero_uninit).1.buf 0 3 <
        (root_dir test_fs test_gpt_image zero_uninit).2 := by decide!
    have hm := walk_off_mono (root_dir test_fs test_gpt_image zero_uninit).1.buf 0 3 (k - 3)
    rw [show 3 + (k - 3) = k by omega] at hm
    omega

/-- C18: on a disk on which `fs_init` succeeded, with on-disk inodes of at
least 128 bytes, at most 4 extent entries in the inodes of the root directory
and of the file, and root-directory records that end inside the part of the
directory that was read: when one `fs_read` call, given an empty sector list,
returns `n` and the list `c1.list`, then a second call with the same file name
and capacity on the same disk, given an empty sector list again, returns the
same `n` and the same list, whatever the destination buffer, the stale
`block_buf`, the stack and the freshly allocated page hold at the second call
(`u2`, `buf2`). -/
theorem fs_read_twice_same_result (d : Disk) (stack : Mem) (fs : Fs) (u1 u2 : Uninit)
    (filename : List Nat) (buf1 buf2 : Mem) (len : Nat) (c1 : ReadCursor) (n : Nat)
    (hfs : fs_init d stack = Except.ok fs) (hlen : len < U64)
    (h128 : 128 ≤ fs.bytes_per_inode)
    (hroot : extent_entries_count (inode_mem fs d u1 INODE_ROOT_DIR) ≤ 4)
    (hfile : ∀ ino, ext4_get_inode_by_filename fs d u1 filename = Except.ok ino →
      extent_entries_count (inode_mem fs d u1 ino) ≤ 4)
    (hdir : records_inside (root_dir fs d u1).1.buf (root_dir fs d u1).2 0)
    (hres : fs_read fs d u1 filename buf1 len (some []) = Except.ok (c1, n)) :
    ∃ c2, fs_read fs d u2 filename buf2 len (some []) = Except.ok (c2, n) ∧
      c2.list = c1.list := by
  obtain ⟨hb, hsz⟩ := fs_init_block_size d stack fs hfs
  have h32 := fs_init_block_32 d stack fs hfs
  unfold fs_read at hres ⊢
  cases hl : ext4_get_inode_by_filename fs d u1 filename with
  | error e => rw [hl] at hres; cases hres
  | ok ino =>
    rw [hl] at hres
    simp only at hres
    rw [lookup_indep fs d u1 u2 filename ino hb hsz h32 h128 hroot hdir hl]
    simp only
    obtain ⟨block, q, hq, hn, hall⟩ :=
      read_inode_data_char fs d u1 ino buf1 0 len (some []) c1 n hb hsz hlen hres
    have hc := hall buf1
    rw [hres] at hc
    have h2 := read_inode_data_indep fs d u1 u2 ino _ _ hsz h32 h128 (hfile ino hl)
      (hall buf2)
    refine ⟨⟨read_blocks_mem fs d block q 0 buf2, 0 + q * fs.bytes_per_block,
      len - q * fs.bytes_per_block,
      Option.map (fun l => l ++ block_entries fs block q) (some [])⟩, ?_, ?_⟩
    · rw [h2, hn]
    · rw [(Prod.mk.inj (Except.ok.inj hc)).1]

/-- C18: the statement applied to the test disk and `dump.bin` with a capacity
of 32768 bytes: the first call runs on zeroed memory, the second on a stale
`block_buf`, a non-zero stack and page and another destination buffer; both
return 32768 and the same 8 entries. -/
theorem fs_read_twice_same_result_witness :
    ∃ c1 c2,
      fs_read test_fs test_gpt_image zero_uninit dump_bin (fun _ => 0) 32768 (some []) =
        Except.ok (c1, 32768) ∧
      fs_read test_fs test_gpt_image stale_uninit dump_bin (fun _ => 1) 32768 (some []) =
        Except.ok (c2, 32768) ∧
      c2.list = c1.list ∧ c1.list = some (block_entries test_fs 100 8) := by
  obtain ⟨m, hm⟩ := fs_read_spec test_fs test_gpt_image zero_uninit dump_bin (fun _ => 0)
    32768 [] 12 _ test_lookup_gpt test_inode_gpt
    (by rw [test_fields_gpt.1]; decide) test_fields_gpt.2.1
    (by rw [test_fields_gpt.2.2.1]; decide) (by decide)
    (by rw [test_fields_gpt.2.2.2]; decide) (by decide)
  have e : 32768 / test_fs.bytes_per_block * test_fs.bytes_per_block = 32768 := by decide
  have e2 : extent_start (extent_entry (inode_mem test_fs test_gpt_image zero_uninit 12) 0)
      = 100 := by rw [test_fields_gpt.2.2.2]; decide
  have e3 : 32768 / test_fs.bytes_per_block = 8 := by decide
  rw [e, e2, e3, List.nil_append] at hm
  obtain ⟨c2, h2, hl⟩ := fs_read_twice_same_result test_gpt_image (fun _ => 0) test_fs
    zero_uninit stale_uninit dump_bin (fun _ => 0) (fun _ => 1) 32768 _ 32768
    test_fs_init_ok (by decide) (by decide)
    (by
      have hc : extent_entries_count
          (inode_mem test_fs test_gpt_image zero_uninit INODE_ROOT_DIR) = 1 := by rfl
      rw [hc]; decide)
    (by
      intro ino hino
      rw [test_lookup_gpt] at hino
      rw [← Except.ok.inj hino, test_fields_gpt.2.2.1]
      decide)
    test_records_inside_gpt hm
  exact ⟨_, c2, hm, h2, hl, rfl⟩


/-! ### C20: the shape of a block request -/

theorem fill_three (N : Nat) (descs : Nat → virtq_desc) (e0 e1 e2 : virtio_chain_entry)
    (a b c d0 : Nat) (hB : (descs a).next = b) (hC : (descs b).next = c)
    (ha : a < N) (hb : b < N) (hc : c < N) (hab : a ≠ b) (hbc : b ≠ c) (hac : a ≠ c) :
    virtq_push_fill N [e0, e1, e2] descs a d0 =
      Except.ok
        (Function.update (Function.update (Function.update descs a
          ⟨e0.addr, e0.len,
            (if e0.device_writable then VIRTQ_DESC_F_WRITE else 0) ||| VIRTQ_DESC_F_NEXT, b⟩) b
          ⟨e1.addr, e1.len,
            (if e1.device_writable then VIRTQ_DESC_F_WRITE else 0) ||| VIRTQ_DESC_F_NEXT, c⟩) c
          ⟨e2.addr, e2.len,
            (if e2.device_writable then VIRTQ_DESC_F_WRITE else 0) ||| VIRTQ_DESC_F_NEXT,
            (descs c).next⟩, (descs c).next, c) := by
  have hba : b ≠ a := fun h => hab h.symm
  have hcb : c ≠ b := fun h => hbc h.symm
  have hca : c ≠ a := fun h => hac h.symm
  rw [virtq_push_fill, if_pos ha, hB, virtq_push_fill, if_pos hb,
    Function.update_noteq hba, hC, virtq_push_fill, if_pos hc, Function.update_noteq hcb,
    Function.update_noteq hca, virtq_push_fill]


theorem push_three (vq : virtio_virtq) (e0 e1 e2 : virtio_chain_entry) (a b c : Nat)
    (hA : vq.free_head = a) (hB : (vq.descs a).next = b) (hC : (vq.descs b).next = c)
    (hfree : 3 ≤ vq.num_free_descs)
    (ha : a < vq.num_descs) (hb : b < vq.num_descs) (hc : c < vq.num_descs)
    (hab : a ≠ b) (hbc : b ≠ c) (hac : a ≠ c) :
    ∃ vq1, virtq_push vq [e0, e1, e2] = Except.ok vq1 ∧
      vq1.descs a =
        ⟨e0.addr, e0.len,
          (if e0.device_writable then VIRTQ_DESC_F_WRITE else 0) ||| VIRTQ_DESC_F_NEXT, b⟩ ∧
      vq1.descs b =
        ⟨e1.addr, e1.len,
          (if e1.device_writable then VIRTQ_DESC_F_WRITE else 0) ||| VIRTQ_DESC_F_NEXT, c⟩ ∧
      vq1.descs c =
        ⟨e2.addr, e2.len,
          ((if e2.device_writable then VIRTQ_DESC_F_WRITE else 0) ||| VIRTQ_DESC_F_NEXT)
            &&& 65534, 0⟩ ∧
      (∀ j, j ≠ a → j ≠ b → j ≠ c → vq1.descs j = vq.descs j) ∧
      vq1.num_free_descs + 3 = vq.num_free_descs ∧
      vq1.free_head = (vq.descs c).next ∧
      vq1.avail_ring (vq.avail_index % vq.num_descs) = a % 65536 ∧
      (∀ j, j ≠ vq.avail_index % vq.num_descs → vq1.avail_ring j = vq.avail_ring j) ∧
      vq1.avail_index = (vq.avail_index + 1) % 65536 ∧
      vq1.index = vq.index ∧ vq1.num_descs = vq.num_descs ∧
      vq1.used_index = vq.used_index ∧ vq1.used_ring = vq.used_ring ∧
      vq1.last_used_index = vq.last_used_index := by
  have h1 : ¬ ([e0, e1, e2].length > vq.num_free_descs) := by
    simp only [List.length_cons, List.length_nil]; omega
  have h0 : ¬ ([e0, e1, e2].length = 0) := by simp
  have hba : b ≠ a := fun h => hab h.symm
  have hcb : c ≠ b := fun h => hbc h.symm
  have hca : c ≠ a := fun h => hac h.symm
  unfold virtq_push
  rw [if_neg h0, if_neg h1]
  simp only
  rw [if_neg h1, hA, fill_three vq.num_descs vq.descs e0 e1 e2 a b c a hB hC ha hb hc
    hab hbc hac]
  simp only
  refine ⟨_, rfl, ?_⟩
  simp only [Function.update_same, Function.update_noteq hab, Function.update_noteq hbc,
    Function.update_noteq hac, Function.update_noteq hba, Function.update_noteq hcb,
    Function.update_noteq hca, true_and]
  refine ⟨?_, ?_, ?_⟩
  · intro j ja jb jc
    simp only [Function.update_noteq jc, Function.update_noteq jb, Function.update_noteq ja]
  · simp only [List.length_cons, List.length_nil]; omega
  · refine ⟨?_, trivial⟩
    intro j hj
    simp only [Function.update_noteq hj]


theorem submit_shape (vq : virtio_virtq) (type sector reserved : Nat)
    (e0 e1 e2 : virtio_chain_entry) (data_flags : Nat)
    (he0 : e0.len = 16 ∧ e0.device_writable = false)
    (he1 : (if e1.device_writable then VIRTQ_DESC_F_WRITE else 0) ||| VIRTQ_DESC_F_NEXT =
      data_flags)
    (he2 : e2.len = 1 ∧ e2.device_writable = true)
    (hN : vq.num_descs ≤ 4096) (hfree : 3 ≤ vq.num_free_descs)
    (ha : vq.free_head < vq.num_descs)
    (hb : (vq.descs vq.free_head).next < vq.num_descs)
    (hc : (vq.descs (vq.descs vq.free_head).next).next < vq.num_descs)
    (hab : vq.free_head ≠ (vq.descs vq.free_head).next)
    (hbc : (vq.descs vq.free_head).next ≠ (vq.descs (vq.descs vq.free_head).next).next)
    (hac : vq.free_head ≠ (vq.descs (vq.descs vq.free_head).next).next) :
    ∃ s, (match virtq_push vq [e0, e1, e2] with
        | Except.error h => Except.error h
        | Except.ok vq1 =>
          Except.ok (⟨vq1, ⟨type, reserved, sector⟩, IN_PROGRESS_STATUS, [e0, e1, e2],
            vq1.index⟩ : Submission)) = Except.ok s ∧
      request_shape vq s type sector e0.addr e1.addr e1.len data_flags e2.addr := by
  obtain ⟨vq1, hp, h0, h1, h2, hj, hf, _, hr, hrj, hi, hx, _⟩ :=
    push_three vq e0 e1 e2 _ _ _ rfl rfl rfl hfree ha hb hc hab hbc hac
  rw [hp]
  refine ⟨_, rfl, ?_⟩
  unfold request_shape
  refine ⟨rfl, rfl, rfl, rfl, ?_, ?_, ?_, hj, hf, ?_, hrj, hi, hx⟩
  · show vq1.descs vq.free_head = _
    rw [h0, he0.1, he0.2]
    rfl
  · show vq1.descs (vq.descs vq.free_head).next = _
    rw [h1, he1]
  · show vq1.descs (vq.descs (vq.descs vq.free_head).next).next = _
    rw [h2, he2.1, he2.2]
    rfl
  · show vq1.avail_ring (vq.avail_index % vq.num_descs) = _
    rw [hr]
    exact Nat.mod_eq_of_lt (by omega)

/-- C20: on a virtqueue of at most 4096 descriptors whose free list holds at
least three descriptors, the first three distinct and inside the table, and for
`num_sectors * 512 < 2^32`, `disk_read_sectors` and `disk_write_sectors` each
push and notify one chain of exactly three descriptors: the 16-byte header
(device-readable, `type` 0 for a read and 1 for a write, `sector = lba`), the
data buffer of `num_sectors * 512` bytes (device-writable for a read,
device-readable for a write), and one status byte (device-writable) that holds
0xFF when the chain is pushed. -/
theorem block_request_shape (vq : virtio_virtq) (lba buf num_sectors : Nat)
    (header_ptr status_ptr reserved : Nat)
    (hn : num_sectors * SECTOR_SIZE < U32)
    (hN : vq.num_descs ≤ 4096) (hfree : 3 ≤ vq.num_free_descs)
    (ha : vq.free_head < vq.num_descs)
    (hb : (vq.descs vq.free_head).next < vq.num_descs)
    (hc : (vq.descs (vq.descs vq.free_head).next).next < vq.num_descs)
    (hab : vq.free_head ≠ (vq.descs vq.free_head).next)
    (hbc : (vq.descs vq.free_head).next ≠ (vq.descs (vq.descs vq.free_head).next).next)
    (hac : vq.free_head ≠ (vq.descs (vq.descs vq.free_head).next).next) :
    (∃ s, disk_read_sectors_submit vq lba buf num_sectors header_ptr status_ptr reserved =
        Except.ok s ∧
      request_shape vq s VIRTIO_BLK_T_IN lba (ptr2paddr header_ptr) (ptr2paddr buf)
        (num_sectors * SECTOR_SIZE) (VIRTQ_DESC_F_WRITE ||| VIRTQ_DESC_F_NEXT)
        (ptr2paddr status_ptr)) ∧
    (∃ s, disk_write_sectors_submit vq lba buf num_sectors header_ptr status_ptr reserved =
        Except.ok s ∧
      request_shape vq s VIRTIO_BLK_T_OUT lba (ptr2paddr header_ptr) (ptr2paddr buf)
        (num_sectors * SECTOR_SIZE) VIRTQ_DESC_F_NEXT (ptr2paddr status_ptr)) := by
  constructor
  · have h := submit_shape vq VIRTIO_BLK_T_IN lba reserved ⟨ptr2paddr header_ptr, 16, false⟩
      ⟨ptr2paddr buf, num_sectors * SECTOR_SIZE % U32, true⟩ ⟨ptr2paddr status_ptr, 1, true⟩
      (VIRTQ_DESC_F_WRITE ||| VIRTQ_DESC_F_NEXT) ⟨rfl, rfl⟩ (by rfl) ⟨rfl, rfl⟩ hN hfree ha
      hb hc hab hbc hac
    unfold disk_read_sectors_submit
    simp only [Nat.mod_eq_of_lt hn] at h ⊢
    exact h
  · have h := submit_shape vq VIRTIO_BLK_T_OUT lba reserved ⟨ptr2paddr header_ptr, 16, false⟩
      ⟨ptr2paddr buf, num_sectors * SECTOR_SIZE % U32, false⟩ ⟨ptr2paddr status_ptr, 1, true⟩
      VIRTQ_DESC_F_NEXT ⟨rfl, rfl⟩ (by simp [VIRTQ_DESC_F_NEXT]) ⟨rfl, rfl⟩ hN hfree ha hb
      hc hab hbc hac
    unfold disk_write_sectors_submit
    simp only [Nat.mod_eq_of_lt hn] at h ⊢
    exact h

/-- C20: the statement applied to the queue of 8 descriptors that `virtq_init`
builds and a request for the 8 sectors of a file-system block at LBA 2848. -/
theorem block_request_shape_witness :
    (∃ s, disk_read_sectors_submit (virtq_init_state 0 8) 2848 0xffff800000300000 8
        0xffff8000002ffe00 0xffff8000002ffe10 0 = Except.ok s ∧
      request_shape (virtq_init_state 0 8) s VIRTIO_BLK_T_IN 2848
        (ptr2paddr 0xffff8000002ffe00) (ptr2paddr 0xffff800000300000)
        (8 * SECTOR_SIZE) (VIRTQ_DESC_F_WRITE ||| VIRTQ_DESC_F_NEXT)
        (ptr2paddr 0xffff8000002ffe10)) ∧
    (∃ s, disk_write_sectors_submit (virtq_init_state 0 8) 2848 0xffff800000300000 8
        0xffff8000002ffe00 0xffff8000002ffe10 0 = Except.ok s ∧
      request_shape (virtq_init_state 0 8) s VIRTIO_BLK_T_OUT 2848
        (ptr2paddr 0xffff8000002ffe00) (ptr2paddr 0xffff800000300000)
        (8 * SECTOR_SIZE) VIRTQ_DESC_F_NEXT (ptr2paddr 0xffff8000002ffe10)) :=
  block_request_shape (virtq_init_state 0 8) 2848 0xffff800000300000 8
    0xffff8000002ffe00 0xffff8000002ffe10 0 (by decide) (by decide) (by decide)
    (by decide) (by decide) (by decide) (by decide) (by decide) (by decide)


/-! ### The free list and the chains of a virtqueue -/

theorem chain_linked_ne_nil (d : Nat → virtq_desc) (c : List Nat) (h : ChainLinked d c) :
    c ≠ [] := by
  intro hc
  rw [hc] at h
  exact h

theorem linked_congr (d d2 : Nat → virtq_desc) :
    ∀ (l : List Nat) (h : Nat), (∀ x, x ∈ l → d2 x = d x) → Linked d h l → Linked d2 h l
  | [], _, _, _ => trivial
  | a :: rest, h, hag, hl => by
    refine ⟨hl.1, ?_⟩
    rw [hag a (List.mem_cons_self _ _)]
    exact linked_congr d d2 rest _ (fun x hx => hag x (List.mem_cons_of_mem _ hx)) hl.2

theorem chain_linked_congr (d d2 : Nat → virtq_desc) :
    ∀ (c : List Nat), (∀ x, x ∈ c → d2 x = d x) → ChainLinked d c → ChainLinked d2 c
  | [], _, h => h
  | [a], hag, h => by
    show (d2 a).flags &&& VIRTQ_DESC_F_NEXT = 0
    rw [hag a (List.mem_cons_self _ _)]
    exact h
  | a :: b :: rest, hag, h => by
    refine ⟨?_, ?_, ?_⟩
    · rw [hag a (List.mem_cons_self _ _)]; exact h.1
    · rw [hag a (List.mem_cons_self _ _)]; exact h.2.1
    · exact chain_linked_congr d d2 (b :: rest)
        (fun x hx => hag x (List.mem_cons_of_mem _ hx)) h.2.2

theorem free_list_of_linked (d : Nat → virtq_desc) :
    ∀ (l : List Nat) (h : Nat), Linked d h l → free_list d h l.length = l
  | [], _, _ => rfl
  | a :: rest, h, hl => by
    show h :: free_list d (d h).next rest.length = a :: rest
    rw [hl.1, free_list_of_linked d rest _ hl.2]

theorem chain_nodes_of_linked (d : Nat → virtq_desc) :
    ∀ (c : List Nat) (fuel : Nat), ChainLinked d c → c.length ≤ fuel →
      chain_nodes d fuel (c.headD 0) = c
  | [], _, h, _ => absurd h (fun h => h)
  | [a], fuel, h, hf => by
    obtain ⟨k, rfl⟩ : ∃ k, fuel = k + 1 := ⟨fuel - 1, by simp at hf; omega⟩
    have h0 : (d a).flags &&& VIRTQ_DESC_F_NEXT = 0 := h
    simp only [chain_nodes, List.headD_cons, h0, if_true]
  | a :: b :: rest, fuel, h, hf => by
    obtain ⟨k, rfl⟩ : ∃ k, fuel = k + 1 := ⟨fuel - 1, by simp at hf; omega⟩
    have ih := chain_nodes_of_linked d (b :: rest) k h.2.2 (by simp at hf ⊢; omega)
    simp only [List.headD_cons] at ih
    simp only [chain_nodes, List.headD_cons, h.1, if_false, h.2.1, ih]

theorem chain_last_spec (vq : virtio_virtq) :
    ∀ (rest : List Nat) (a fuel k : Nat), ChainLinked vq.descs (a :: rest) →
      (∀ x, x ∈ a :: rest → x < vq.num_descs) → rest.length < fuel →
      virtq_chain_last vq fuel a k = Except.ok (rest.getLastD a, k + (rest.length + 1))
  | [], a, fuel, k, h, hb, hf => by
    obtain ⟨f, rfl⟩ : ∃ f, fuel = f + 1 := ⟨fuel - 1, by simp at hf; omega⟩
    have h0 : (vq.descs a).flags &&& VIRTQ_DESC_F_NEXT = 0 := h
    simp only [virtq_chain_last, hb a (List.mem_cons_self _ _), if_true, h0,
      List.getLastD_nil, List.length_nil, Nat.zero_add]
  | b :: rest, a, fuel, k, h, hb, hf => by
    obtain ⟨f, rfl⟩ : ∃ f, fuel = f + 1 := ⟨fuel - 1, by simp at hf; omega⟩
    have ih := chain_last_spec vq rest b f (k + 1) h.2.2
      (fun x hx => hb x (List.mem_cons_of_mem _ hx)) (by simp at hf ⊢; omega)
    simp only [virtq_chain_last, hb a (List.mem_cons_self _ _), if_true, h.1, if_false,
      h.2.1, ih, List.getLastD_cons, List.length_cons]
    rw [show k + 1 + (rest.length + 1) = k + (rest.length + 1 + 1) by omega]


theorem perm_range_facts (l : List Nat) (N : Nat) (h : l.Perm (List.range N)) :
    l.Nodup ∧ (∀ x, x ∈ l → x < N) ∧ l.length = N :=
  ⟨h.nodup_iff.mpr (List.nodup_range N), fun x hx => List.mem_range.mp (h.mem_iff.mp hx),
    by rw [h.length_eq, List.length_range]⟩

theorem linked_tail (d : Nat → virtq_desc) :
    ∀ (rest : List Nat) (a h : Nat) (l2 : List Nat), Linked d h (a :: rest ++ l2) →
      Linked d (d (rest.getLastD a)).next l2
  | [], _, _, _, hl => hl.2
  | b :: rest, _, _, l2, hl => by
    rw [List.getLastD_cons]
    exact linked_tail d rest b _ l2 hl.2

theorem linked_reclaim (d : Nat → virtq_desc) (fh : Nat) (fl : List Nat)
    (hfl : Linked d fh fl) (hfh : fl ≠ [] → fh < 65536) :
    ∀ (rest : List Nat) (a : Nat), ChainLinked d (a :: rest) → (a :: rest ++ fl).Nodup →
      Linked (Function.update d (rest.getLastD a)
        { d (rest.getLastD a) with next := fh % 65536 }) a (a :: rest ++ fl)
  | [], a, _, hnd => by
    refine ⟨rfl, ?_⟩
    simp only [List.getLastD_nil, Function.update_same]
    cases fl with
    | nil => trivial
    | cons x xs =>
      rw [Nat.mod_eq_of_lt (hfh (List.cons_ne_nil _ _))]
      refine linked_congr d _ _ _ (fun y hy => ?_) hfl
      have hne : y ≠ a := by
        intro h
        rw [h] at hy
        exact (List.nodup_cons.mp hnd).1 hy
      exact Function.update_noteq hne _ _
  | b :: rest, a, hc, hnd => by
    have hnd2 : (b :: rest ++ fl).Nodup := (List.nodup_cons.mp hnd).2
    have hmem : rest.getLastD b ∈ b :: rest ++ fl :=
      List.mem_append_left _ (List.getLastD_mem_cons rest b)
    have hne : a ≠ rest.getLastD b := by
      intro h
      rw [← h] at hmem
      exact (List.nodup_cons.mp hnd).1 hmem
    refine ⟨rfl, ?_⟩
    rw [List.getLastD_cons, Function.update_noteq hne, hc.2.1]
    exact linked_reclaim d fh fl hfl hfh rest b hc.2.2 hnd2


theorem linked_head (d : Nat → virtq_desc) (h x : Nat) (xs : List Nat)
    (hl : Linked d h (x :: xs)) : h = x := hl.1

theorem length_le_flatten (L : List (List Nat)) (h : ∀ c, c ∈ L → c ≠ []) :
    L.length ≤ L.flatten.length := by
  induction L with
  | nil => simp
  | cons c rest ih =>
    have hc : 0 < c.length := List.length_pos.mpr (h c (List.mem_cons_self _ _))
    have := ih (fun c2 hc2 => h c2 (List.mem_cons_of_mem _ hc2))
    simp only [List.length_cons, List.flatten_cons, List.length_append]
    omega

theorem vqinv_free_head_lt (N : Nat) (vq : virtio_virtq) (fl : List Nat)
    (done flight : List (List Nat)) (h : VqInv N vq fl done flight) (hfl : fl ≠ []) :
    vq.free_head < N := by
  obtain ⟨x, xs, rfl⟩ := List.exists_cons_of_ne_nil hfl
  rw [linked_head _ _ _ _ h.linked]
  exact (perm_range_facts _ _ h.perm).2.1 x (by simp)

theorem vqinv_done_le (N : Nat) (vq : virtio_virtq) (fl : List Nat)
    (done flight : List (List Nat)) (h : VqInv N vq fl done flight) :
    done.length ≤ N := by
  have h1 := length_le_flatten (done ++ flight)
    (fun c hc => chain_linked_ne_nil _ _ (h.chains c hc))
  have h2 := (perm_range_facts _ _ h.perm).2.2
  simp only [List.length_append, List.flatten_append] at h1 h2
  omega

theorem reclaim_one_inv (N : Nat) (vq : virtio_virtq) (fl c : List Nat)
    (done flight : List (List Nat)) (h : VqInv N vq fl (c :: done) flight)
    (hw : vq.last_used_index + (done.length + 1) < 65536) :
    ∃ vq1, virtq_reclaim_one vq = Except.ok vq1 ∧ VqInv N vq1 (c ++ fl) done flight ∧
      vq1.avail_index = vq.avail_index ∧ vq1.avail_ring = vq.avail_ring ∧
      vq1.index = vq.index := by
  have hcl : ChainLinked vq.descs c :=
    h.chains c (List.mem_append_left _ (List.mem_cons_self _ _))
  have hperm2 : ((c ++ fl) ++ (done ++ flight).flatten).Perm (List.range N) := by
    refine List.Perm.trans ?_ h.perm
    simp only [List.flatten_append, List.flatten_cons, List.cons_append]
    rw [← Multiset.coe_eq_coe]
    simp only [← Multiset.coe_add]
    abel
  obtain ⟨hnd2, hbd2, htot2⟩ := perm_range_facts _ _ hperm2
  have hfh : fl ≠ [] → vq.free_head < 65536 := fun hfl => by
    have := vqinv_free_head_lt N vq fl _ _ h hfl
    have := h.hmax
    omega
  obtain ⟨a, rest, rfl⟩ : ∃ a rest, c = a :: rest :=
    List.exists_cons_of_ne_nil (chain_linked_ne_nil _ _ hcl)
  have ha : a < N := hbd2 a (by simp)
  have hmax := h.hmax
  have hN0 : ¬ vq.num_descs = 0 := by rw [h.hN]; omega
  have hid : (vq.used_ring (vq.last_used_index % vq.num_descs)).id = a := by
    have h0 := h.ring (by simp only [List.length_cons]; omega) 0 (by simp)
    simp only [Nat.add_zero, List.getD_cons_zero, List.headD_cons] at h0
    rw [h.hN]
    exact h0
  have hlens : rest.length + 1 + fl.length ≤ N := by
    simp only [List.length_append, List.length_cons] at htot2
    omega
  have hlast := chain_last_spec vq rest a (vq.num_descs + 1) 0 hcl
    (fun x hx => by rw [h.hN]; exact hbd2 x (by simp only [List.mem_append]; exact Or.inl (Or.inl hx)))
    (by rw [h.hN]; omega)
  have hover : ¬ (vq.num_free_descs + (0 + (rest.length + 1)) > INT_MAX ∨
      vq.last_used_index + 1 > INT_MAX) := by
    have := h.len
    unfold INT_MAX
    omega
  unfold virtq_reclaim_one
  rw [if_neg hN0]
  simp only [hid, hlast]
  rw [if_neg hover]
  refine ⟨_, rfl, ?_, rfl, rfl, rfl⟩
  have hndc : (a :: rest ++ fl).Nodup := (List.nodup_append.mp hnd2).1
  have hdis := (List.nodup_append.mp hnd2).2.2
  exact
    { hN := h.hN
      hmax := h.hmax
      perm := hperm2
      len := by
        have := h.len
        simp only [List.length_append, List.length_cons] at this ⊢
        omega
      linked := linked_reclaim vq.descs vq.free_head fl h.linked hfh rest a hcl hndc
      chains := fun c2 hc2 => by
        refine chain_linked_congr vq.descs _ c2 (fun x hx => ?_)
          (h.chains c2 (by
            rcases List.mem_append.mp hc2 with h1 | h1
            · exact List.mem_append_left _ (List.mem_cons_of_mem _ h1)
            · exact List.mem_append_right _ h1))
        have hx2 : x ∈ (done ++ flight).flatten := List.mem_flatten.mpr ⟨c2, hc2, hx⟩
        have hl : rest.getLastD a ∈ a :: rest ++ fl :=
          List.mem_append_left _ (List.getLastD_mem_cons rest a)
        have hne : x ≠ rest.getLastD a := fun e => hdis hl (e ▸ hx2)
        exact Function.update_noteq hne _ _
      used := by
        have := h.used
        simp only [List.length_cons] at this
        show vq.used_index = (vq.last_used_index + 1 + done.length) % 65536
        rw [this, show vq.last_used_index + 1 + done.length =
          vq.last_used_index + (done.length + 1) by omega]
      ring := fun _ j hj => by
        have h1 := h.ring (by simp only [List.length_cons]; omega) (j + 1)
          (by simp only [List.length_cons]; omega)
        simp only [List.getD_cons_succ] at h1
        show (vq.used_ring ((vq.last_used_index + 1 + j) % N)).id = _
        rw [show vq.last_used_index + 1 + j = vq.last_used_index + (j + 1) by omega]
        exact h1 }


theorem reclaim_one_index (vq vq1 : virtio_virtq)
    (h : virtq_reclaim_one vq = Except.ok vq1) :
    vq1.last_used_index = vq.last_used_index + 1 ∧ vq1.used_index = vq.used_index := by
  unfold virtq_reclaim_one at h
  split at h
  · cases h
  · simp only at h
    split at h
    · cases h
    · split at h
      · cases h
      · have e := Except.ok.inj h
        rw [← e]
        exact ⟨rfl, rfl⟩

theorem reclaim_never_ok : ∀ (fuel : Nat) (vq : virtio_virtq),
    vq.used_index < vq.last_used_index → ∀ v, virtq_reclaim fuel vq ≠ Except.ok v
  | 0, _, _, _ => fun h => by cases h
  | fuel + 1, vq, hlt, v => by
    have hne : vq.last_used_index ≠ vq.used_index := by omega
    unfold virtq_reclaim
    rw [if_pos hne]
    cases h1 : virtq_reclaim_one vq with
    | error e => intro h; cases h
    | ok vq1 =>
      obtain ⟨e1, e2⟩ := reclaim_one_index vq vq1 h1
      exact reclaim_never_ok fuel vq1 (by omega) v

theorem reclaim_inv (N : Nat) : ∀ (fuel : Nat) (vq : virtio_virtq) (fl : List Nat)
    (done flight : List (List Nat)) (vq1 : virtio_virtq),
    VqInv N vq fl done flight → virtq_reclaim fuel vq = Except.ok vq1 →
    ∃ fl1, VqInv N vq1 fl1 [] flight ∧ vq1.avail_index = vq.avail_index ∧
      vq1.avail_ring = vq.avail_ring ∧ vq1.index = vq.index
  | 0, _, _, _, _, _, _, h => by cases h
  | fuel + 1, vq, fl, done, flight, vq1, hinv, h => by
    have hused := hinv.used
    have hdone := vqinv_done_le N vq fl done flight hinv
    have hmax := hinv.hmax
    by_cases hne : vq.last_used_index ≠ vq.used_index
    · cases done with
      | nil =>
        simp only [List.length_nil, Nat.add_zero] at hused
        exact absurd h (reclaim_never_ok (fuel + 1) vq (by omega) vq1)
      | cons c rest =>
        simp only [List.length_cons] at hused hdone
        by_cases hw : vq.last_used_index + (rest.length + 1) < 65536
        · obtain ⟨vq2, h2, hinv2, ha, hr, hi⟩ := reclaim_one_inv N vq fl c rest flight hinv hw
          unfold virtq_reclaim at h
          rw [if_pos hne, h2] at h
          obtain ⟨fl1, hinv1, ha1, hr1, hi1⟩ :=
            reclaim_inv N fuel vq2 (c ++ fl) rest flight vq1 hinv2 h
          exact ⟨fl1, hinv1, by rw [ha1, ha], by rw [hr1, hr], by rw [hi1, hi]⟩
        · exact absurd h (reclaim_never_ok (fuel + 1) vq (by omega) vq1)
    · have heq : vq.last_used_index = vq.used_index := not_not.mp hne
      unfold virtq_reclaim at h
      rw [if_neg hne] at h
      have hv := Except.ok.inj h
      have hd0 : done = [] := by
        apply List.length_eq_zero.mp
        omega
      subst hd0
      rw [← hv]
      exact ⟨fl, hinv, rfl, rfl, rfl⟩


theorem next_flag_set (w : Bool) :
    ((if w then VIRTQ_DESC_F_WRITE else 0) ||| VIRTQ_DESC_F_NEXT) &&& VIRTQ_DESC_F_NEXT ≠ 0 := by
  cases w <;> decide

theorem next_flag_cleared (f : Nat) : (f &&& 65534) &&& VIRTQ_DESC_F_NEXT = 0 := by
  rw [Nat.land_assoc, show 65534 &&& VIRTQ_DESC_F_NEXT = 0 by decide, Nat.and_zero]

theorem fill_spec (N : Nat) : ∀ (es : List virtio_chain_entry) (e : virtio_chain_entry)
    (ps : List Nat) (a : Nat) (d : Nat → virtq_desc) (d0 : Nat) (post : List Nat),
    ps.length = es.length → Linked d a (a :: ps ++ post) → (a :: ps ++ post).Nodup →
    (∀ x, x ∈ a :: ps → x < N) →
    ∃ d2, virtq_push_fill N (e :: es) d a d0 =
        Except.ok (d2, (d (ps.getLastD a)).next, ps.getLastD a) ∧
      (∀ x, x ∉ a :: ps → d2 x = d x) ∧
      (∀ x, x ∈ a :: ps → (d2 x).next = (d x).next ∧
        (d2 x).flags &&& VIRTQ_DESC_F_NEXT ≠ 0)
  | [], e, ps, a, d, d0, post, hlen, _, _, hb => by
    have hps : ps = [] := List.length_eq_zero.mp hlen
    subst hps
    refine ⟨Function.update d a
      ⟨e.addr, e.len,
        (if e.device_writable then VIRTQ_DESC_F_WRITE else 0) ||| VIRTQ_DESC_F_NEXT,
        (d a).next⟩, ?_, ?_, ?_⟩
    · rw [virtq_push_fill, if_pos (hb a (List.mem_cons_self _ _)), virtq_push_fill]
      rfl
    · intro x hx
      have hxa : x ≠ a := by
        intro h
        rw [h] at hx
        exact hx (List.mem_cons_self _ _)
      exact Function.update_noteq hxa _ _
    · intro x hx
      have hxa : x = a := by simpa using hx
      subst hxa
      rw [Function.update_same]
      exact ⟨rfl, next_flag_set _⟩
  | e2 :: es, e, ps, a, d, d0, post, hlen, hl, hnd, hb => by
    obtain ⟨b, ps2, rfl⟩ : ∃ b ps2, ps = b :: ps2 :=
      List.exists_cons_of_ne_nil (fun h => by rw [h] at hlen; cases hlen)
    have hnd2 : (b :: ps2 ++ post).Nodup := (List.nodup_cons.mp hnd).2
    have hanot : a ∉ b :: ps2 ++ post := (List.nodup_cons.mp hnd).1
    have hnext : (d a).next = b := linked_head d _ b _ hl.2
    have hlb : Linked d b (b :: ps2 ++ post) := by
      have := hl.2
      rw [hnext] at this
      exact this
    have hl2 : Linked (Function.update d a
        ⟨e.addr, e.len,
          (if e.device_writable then VIRTQ_DESC_F_WRITE else 0) ||| VIRTQ_DESC_F_NEXT,
          b⟩) b (b :: ps2 ++ post) := by
      refine linked_congr d _ _ _ (fun x hx => ?_) hlb
      have hxa : x ≠ a := by
        intro h
        rw [h] at hx
        exact hanot hx
      exact Function.update_noteq hxa _ _
    obtain ⟨d2, hfill, hout, hin⟩ := fill_spec N es e2 ps2 b _ a post
      (by simpa using hlen) hl2 hnd2 (fun x hx => hb x (List.mem_cons_of_mem _ hx))
    have hlast : ps2.getLastD b ∈ b :: ps2 ++ post :=
      List.mem_append_left _ (List.getLastD_mem_cons ps2 b)
    have hla : ps2.getLastD b ≠ a := by
      intro h
      rw [h] at hlast
      exact hanot hlast
    refine ⟨d2, ?_, ?_, ?_⟩
    · rw [virtq_push_fill, if_pos (hb a (List.mem_cons_self _ _)), hnext, hfill,
        Function.update_noteq hla, List.getLastD_cons]
    · intro x hx
      have hxa : x ≠ a := by
        intro h
        rw [h] at hx
        exact hx (List.mem_cons_self _ _)
      rw [hout x (fun h => hx (List.mem_cons_of_mem _ h)), Function.update_noteq hxa]
    · intro x hx
      rcases List.mem_cons.mp hx with hxa | hxb
      · subst hxa
        have hxn : x ∉ b :: ps2 := fun h => hanot (List.mem_append_left _ h)
        rw [hout x hxn, Function.update_same]
        exact ⟨hnext.symm, next_flag_set _⟩
      · have hxa : x ≠ a := by
          intro h
          rw [h] at hxb
          exact hanot (List.mem_append_left _ hxb)
        obtain ⟨h1, h2⟩ := hin x hxb
        rw [h1, Function.update_noteq hxa]
        exact ⟨rfl, h2⟩

theorem chain_linked_of_fill (d d2 : Nat → virtq_desc) : ∀ (ps : List Nat) (a : Nat)
    (post : List Nat), Linked d a (a :: ps ++ post) → (a :: ps).Nodup →
    (∀ x, x ∈ a :: ps → (d2 x).next = (d x).next ∧
      (d2 x).flags &&& VIRTQ_DESC_F_NEXT ≠ 0) →
    ChainLinked (Function.update d2 (ps.getLastD a)
      { d2 (ps.getLastD a) with next := 0, flags := (d2 (ps.getLastD a)).flags &&& 65534 })
      (a :: ps)
  | [], a, _, _, _, _ => by
    show (Function.update d2 a _ a).flags &&& VIRTQ_DESC_F_NEXT = 0
    rw [Function.update_same]
    exact next_flag_cleared _
  | b :: ps, a, post, hl, hnd, hin => by
    have hnext : (d a).next = b := linked_head d _ b _ hl.2
    have hlb : Linked d b (b :: ps ++ post) := by
      have := hl.2
      rw [hnext] at this
      exact this
    have hla : a ≠ ps.getLastD b := by
      intro h
      have hm := List.getLastD_mem_cons ps b
      rw [← h] at hm
      exact (List.nodup_cons.mp hnd).1 hm
    obtain ⟨h1, h2⟩ := hin a (List.mem_cons_self _ _)
    rw [List.getLastD_cons]
    refine ⟨?_, ?_, ?_⟩
    · rw [Function.update_noteq hla]; exact h2
    · rw [Function.update_noteq hla, h1, hnext]
    · exact chain_linked_of_fill d d2 ps b post hlb (List.nodup_cons.mp hnd).2
        (fun x hx => hin x (List.mem_cons_of_mem _ hx))


theorem perm_push (pre post : List Nat) (done flight : List (List Nat)) :
    (post ++ (done ++ (flight ++ [pre])).flatten).Perm
      ((pre ++ post) ++ (done ++ flight).flatten) := by
  simp only [List.flatten_append, List.flatten_cons, List.flatten_nil, List.append_nil]
  rw [← Multiset.coe_eq_coe]
  simp only [← Multiset.coe_add]
  abel

theorem perm_complete (fl c : List Nat) (done pre post : List (List Nat)) :
    (fl ++ ((done ++ [c]) ++ (pre ++ post)).flatten).Perm
      (fl ++ (done ++ (pre ++ c :: post)).flatten) := by
  simp only [List.flatten_append, List.flatten_cons, List.flatten_nil, List.append_nil]
  rw [← Multiset.coe_eq_coe]
  simp only [← Multiset.coe_add]
  abel

theorem push_free_inv (N : Nat) (vq : virtio_virtq) (fl : List Nat)
    (done flight : List (List Nat)) (chain : List virtio_chain_entry)
    (hinv : VqInv N vq fl done flight) (hn : chain.length ≤ vq.num_free_descs)
    (h0 : chain ≠ []) :
    ∃ vq1 pre post, virtq_push vq chain = Except.ok vq1 ∧ fl = pre ++ post ∧
      pre.length = chain.length ∧ VqInv N vq1 post done (flight ++ [pre]) ∧
      vq1.avail_ring (vq.avail_index % vq.num_descs) = pre.headD 0 := by
  obtain ⟨e, es, rfl⟩ := List.exists_cons_of_ne_nil h0
  have hlen := hinv.len
  simp only [List.length_cons] at hn
  obtain ⟨a, rest, rfl⟩ : ∃ a rest, fl = a :: rest :=
    List.exists_cons_of_ne_nil (fun h => by rw [h] at hlen; simp at hlen; omega)
  simp only [List.length_cons] at hlen
  have hsplit : a :: rest = a :: rest.take es.length ++ rest.drop es.length := by
    rw [List.cons_append, List.take_append_drop]
  have hpl : (rest.take es.length).length = es.length := by
    rw [List.length_take]; omega
  generalize rest.take es.length = ps at hsplit hpl
  generalize rest.drop es.length = post at hsplit
  have hperm := hinv.perm
  have hlinked := hinv.linked
  rw [hsplit] at hperm hlinked
  obtain ⟨hnd, hbd, _⟩ := perm_range_facts _ _ hperm
  have hndf : (a :: ps ++ post).Nodup := (List.nodup_append.mp hnd).1
  have hdis1 := (List.nodup_append.mp hnd).2.2
  have hdis2 := (List.nodup_append.mp hndf).2.2
  have hfh : vq.free_head = a := hlinked.1
  have hla : Linked vq.descs a (a :: ps ++ post) := by
    have := hlinked
    rw [hfh] at this
    exact this
  have hbN : ∀ x, x ∈ a :: ps → x < vq.num_descs := fun x hx => by
    rw [hinv.hN]
    exact hbd x (List.mem_append_left _ (List.mem_append_left _ hx))
  obtain ⟨d2, hfill, hout, hin⟩ :=
    fill_spec vq.num_descs es e ps a vq.descs a post hpl hla hndf hbN
  have hlastmem : ps.getLastD a ∈ a :: ps := List.getLastD_mem_cons ps a
  have hsame : ∀ (v : virtq_desc) (x : Nat), x ∉ a :: ps →
      Function.update d2 (ps.getLastD a) v x = vq.descs x := by
    intro v x hx
    have hne : x ≠ ps.getLastD a := by
      intro h
      rw [h] at hx
      exact hx hlastmem
    rw [Function.update_noteq hne, hout x hx]
  have hc0 : ¬ ((e :: es).length = 0) := by simp
  have hc1 : ¬ ((e :: es).length > vq.num_free_descs) := by
    simp only [List.length_cons]; omega
  have ha4096 : a < 4096 := by
    have := hbN a (List.mem_cons_self _ _)
    have := hinv.hmax
    have := hinv.hN
    omega
  unfold virtq_push
  rw [if_neg hc0, if_neg hc1]
  simp only
  rw [if_neg hc1, hfh, hfill]
  simp only
  refine ⟨_, a :: ps, post, rfl, hsplit, by simp only [List.length_cons, hpl], ?_, ?_⟩
  · exact
      { hN := hinv.hN
        hmax := hinv.hmax
        perm := (perm_push (a :: ps) post done flight).trans hperm
        len := by
          have h1 : (a :: ps ++ post).length = rest.length + 1 := by
            rw [← hsplit, List.length_cons]
          simp only [List.length_append, List.length_cons] at h1 ⊢
          omega
        linked := by
          show Linked _ (d2 (ps.getLastD a)).next post
          rw [(hin _ hlastmem).1]
          refine linked_congr vq.descs _ post _ (fun x hx => ?_)
            (linked_tail vq.descs ps a a post hla)
          exact hsame _ x (fun h => hdis2 h hx)
        chains := fun c hc => by
          rcases List.mem_append.mp hc with h1 | h1
          · refine chain_linked_congr vq.descs _ c (fun x hx => ?_)
              (hinv.chains c (List.mem_append_left _ h1))
            have hx2 : x ∈ (done ++ flight).flatten :=
              List.mem_flatten.mpr ⟨c, List.mem_append_left _ h1, hx⟩
            exact hsame _ x (fun h => hdis1 (List.mem_append_left _ h) hx2)
          · rcases List.mem_append.mp h1 with h2 | h2
            · refine chain_linked_congr vq.descs _ c (fun x hx => ?_)
                (hinv.chains c (List.mem_append_right _ h2))
              have hx2 : x ∈ (done ++ flight).flatten :=
                List.mem_flatten.mpr ⟨c, List.mem_append_right _ h2, hx⟩
              exact hsame _ x (fun h => hdis1 (List.mem_append_left _ h) hx2)
            · rw [List.mem_singleton.mp h2]
              exact chain_linked_of_fill vq.descs d2 ps a post hla
                (List.nodup_append.mp hndf).1 hin
        used := hinv.used
        ring := hinv.ring }
  · show Function.update vq.avail_ring (vq.avail_index % vq.num_descs) (a % 65536)
      (vq.avail_index % vq.num_descs) = a
    rw [Function.update_same]
    exact Nat.mod_eq_of_lt (by omega)


theorem push_of_reclaim (vq vq2 : virtio_virtq) (chain : List virtio_chain_entry)
    (hgt : chain.length > vq.num_free_descs)
    (hr : virtq_reclaim (INT_MAX + 2) vq = Except.ok vq2)
    (hle : chain.length ≤ vq2.num_free_descs) :
    virtq_push vq chain = virtq_push vq2 chain := by
  have hle2 : ¬ (chain.length > vq2.num_free_descs) := by omega
  have h0 : ¬ (chain.length = 0) := by omega
  unfold virtq_push
  rw [if_neg h0, if_neg h0, if_pos hgt, hr, if_neg hle2]

theorem push_reclaim_panic (vq vq2 : virtio_virtq) (chain : List virtio_chain_entry)
    (hgt : chain.length > vq.num_free_descs)
    (hr : virtq_reclaim (INT_MAX + 2) vq = Except.ok vq2)
    (hlt : chain.length > vq2.num_free_descs) :
    virtq_push vq chain = Except.error Halt.panic := by
  have h0 : ¬ (chain.length = 0) := by omega
  unfold virtq_push
  rw [if_neg h0, if_pos hgt, hr]
  simp only
  rw [if_pos hlt]

theorem push_reclaim_error (vq : virtio_virtq) (chain : List virtio_chain_entry) (e : Halt)
    (hgt : chain.length > vq.num_free_descs)
    (hr : virtq_reclaim (INT_MAX + 2) vq = Except.error e) :
    virtq_push vq chain = Except.error e := by
  have h0 : ¬ (chain.length = 0) := by omega
  unfold virtq_push
  rw [if_neg h0, if_pos hgt, hr]

theorem push_inv (N : Nat) (vq : virtio_virtq) (fl : List Nat)
    (done flight : List (List Nat)) (chain : List virtio_chain_entry) (vq1 : virtio_virtq)
    (hinv : VqInv N vq fl done flight) (hp : virtq_push vq chain = Except.ok vq1) :
    ∃ fl1 c, VqInv N vq1 fl1 (if chain.length > vq.num_free_descs then [] else done)
        (flight ++ [c]) ∧
      c.headD 0 = vq1.avail_ring (vq.avail_index % vq.num_descs) := by
  have h0 : chain ≠ [] := by
    intro h
    rw [h] at hp
    unfold virtq_push at hp
    simp at hp
  by_cases hgt : chain.length > vq.num_free_descs
  · rw [if_pos hgt]
    cases hr : virtq_reclaim (INT_MAX + 2) vq with
    | error e =>
      rw [push_reclaim_error vq chain e hgt hr] at hp
      cases hp
    | ok vq2 =>
      obtain ⟨fl2, hinv2, ha, _, _⟩ := reclaim_inv N _ vq fl done flight vq2 hinv hr
      by_cases hle : chain.length ≤ vq2.num_free_descs
      · rw [push_of_reclaim vq vq2 chain hgt hr hle] at hp
        obtain ⟨vq3, pre, post, hp3, _, _, hinv3, hav⟩ :=
          push_free_inv N vq2 fl2 [] flight chain hinv2 hle h0
        rw [hp3] at hp
        have e := Except.ok.inj hp
        subst e
        refine ⟨post, pre, hinv3, ?_⟩
        rw [← hav, ha, hinv2.hN, hinv.hN]
      · rw [push_reclaim_panic vq vq2 chain hgt hr (by omega)] at hp
        cases hp
  · rw [if_neg hgt]
    obtain ⟨vq3, pre, post, hp3, _, _, hinv3, hav⟩ :=
      push_free_inv N vq fl done flight chain hinv (by omega) h0
    rw [hp3] at hp
    have e := Except.ok.inj hp
    subst e
    exact ⟨post, pre, hinv3, hav.symm⟩

theorem mod_ne_in_window (L j m N : Nat) (hj : j < m) (hm : m < N) :
    (L + j) % N ≠ (L + m) % N := by
  intro h
  have h1 := Nat.sub_mod_eq_zero_of_mod_eq h.symm
  have h2 : L + m - (L + j) = m - j := by omega
  rw [h2, Nat.mod_eq_of_lt (by omega)] at h1
  omega

theorem complete_inv (N : Nat) (vq : virtio_virtq) (fl c : List Nat)
    (done pre post : List (List Nat)) (len : Nat)
    (hinv : VqInv N vq fl done (pre ++ c :: post)) :
    VqInv N (device_complete vq (c.headD 0) len) fl (done ++ [c]) (pre ++ post) := by
  have hdl : done.length + 1 ≤ N := by
    have h1 := length_le_flatten (done ++ (pre ++ c :: post))
      (fun c2 hc2 => chain_linked_ne_nil _ _ (hinv.chains c2 hc2))
    have h2 := (perm_range_facts _ _ hinv.perm).2.2
    simp only [List.length_append, List.flatten_append, List.length_cons] at h1 h2
    omega
  exact
    { hN := hinv.hN
      hmax := hinv.hmax
      perm := (perm_complete fl c done pre post).trans hinv.perm
      len := hinv.len
      linked := hinv.linked
      chains := fun c2 hc2 => hinv.chains c2 (by
        simp only [List.mem_append, List.mem_cons, List.mem_singleton, List.not_mem_nil,
          or_false] at hc2 ⊢
        tauto)
      used := by
        have := hinv.used
        show (vq.used_index + 1) % 65536 =
          (vq.last_used_index + (done ++ [c]).length) % 65536
        simp only [List.length_append, List.length_cons, List.length_nil]
        omega
      ring := fun hw j hj => by
        change vq.last_used_index + (done ++ [c]).length < 65536 at hw
        simp only [List.length_append, List.length_cons, List.length_nil] at hw hj
        have hu : vq.used_index = vq.last_used_index + done.length := by
          rw [hinv.used, Nat.mod_eq_of_lt (by omega)]
        show (Function.update vq.used_ring (vq.used_index % vq.num_descs)
          ⟨c.headD 0, len⟩ ((vq.last_used_index + j) % N)).id = _
        rw [hu, hinv.hN]
        by_cases hjm : j = done.length
        · subst hjm
          rw [Function.update_same, List.getD_append_right _ _ _ _ (Nat.le_refl _)]
          simp
        · have hjlt : j < done.length := by omega
          rw [Function.update_noteq (mod_ne_in_window _ j done.length N hjlt (by omega)),
            List.getD_append _ _ _ _ hjlt]
          exact hinv.ring (by omega) j hjlt }


theorem linked_init (index N : Nat) : ∀ (k a : Nat), a + k ≤ N →
    Linked (virtq_init_state index N).descs a (List.range' a k)
  | 0, _, _ => trivial
  | k + 1, a, h => by
    refine ⟨rfl, ?_⟩
    cases k with
    | zero => trivial
    | succ k =>
      have h1 : a < N := by omega
      have h2 : ¬ (a + 1 = N) := by omega
      have hn : ((virtq_init_state index N).descs a).next = a + 1 := by
        simp only [virtq_init_state, h1, h2, if_true, if_false]
      rw [hn]
      exact linked_init index N (k + 1) (a + 1) (by omega)

theorem init_inv (index N : Nat) (vq : virtio_virtq)
    (h : virtq_init index N = Except.ok vq) : VqInv N vq (List.range N) [] [] := by
  unfold virtq_init at h
  by_cases hN : N ≤ 4096
  · rw [if_pos hN] at h
    have e := Except.ok.inj h
    subst e
    exact
      { hN := rfl
        hmax := hN
        perm := by simp
        len := by simp [virtq_init_state]
        linked := by
          rw [List.range_eq_range']
          exact linked_init index N N 0 (by omega)
        chains := fun c hc => by simp at hc
        used := rfl
        ring := fun _ j hj => by simp at hj }
  · rw [if_neg hN] at h
    cases h

theorem reach_inv (N : Nat) (vq : virtio_virtq) (dh fh : List Nat)
    (h : Reach N vq dh fh) :
    ∃ fl done flight, VqInv N vq fl done flight ∧
      done.map (fun c => c.headD 0) = dh ∧ flight.map (fun c => c.headD 0) = fh := by
  induction h with
  | init index vq h => exact ⟨List.range N, [], [], init_inv index N vq h, rfl, rfl⟩
  | push vq vq1 done flight chain _ hp ih =>
    obtain ⟨fl, dn, fg, hinv, hd, hf⟩ := ih
    obtain ⟨fl1, c, hinv1, hc⟩ := push_inv N vq fl dn fg chain vq1 hinv hp
    refine ⟨fl1, _, fg ++ [c], hinv1, ?_, ?_⟩
    · split
      · rfl
      · exact hd
    · rw [List.map_append, hf, List.map_cons, List.map_nil, hc]
  | complete vq done pre post id len _ ih =>
    obtain ⟨fl, dn, fg, hinv, hd, hf⟩ := ih
    obtain ⟨fpre, frest, hfg, hpre, hrest⟩ := List.map_eq_append_iff.mp hf
    obtain ⟨c, fpost, hfr, hc, hpost⟩ := List.map_eq_cons_iff.mp hrest
    subst hfg hfr
    refine ⟨fl, dn ++ [c], fpre ++ fpost, ?_, ?_, ?_⟩
    · rw [← hc]
      exact complete_inv N vq fl c dn fpre fpost len hinv
    · rw [List.map_append, hd, List.map_cons, List.map_nil, hc]
    · rw [List.map_append, hpre, hpost]


theorem test_push_1 :
    virtq_push (virtq_init_state 0 8) test_chain =
      Except.ok (pushed (virtq_init_state 0 8) test_chain) := by
  rfl

theorem test_push_2 :
    virtq_push (device_complete (pushed (virtq_init_state 0 8) test_chain) 0 1) test_chain =
      Except.ok (pushed (device_complete (pushed (virtq_init_state 0 8) test_chain) 0 1)
        test_chain) := by
  rfl

theorem test_push_3 :
    virtq_push (pushed (device_complete (pushed (virtq_init_state 0 8) test_chain) 0 1)
        test_chain) test_chain =
      Except.ok (pushed (pushed (device_complete (pushed (virtq_init_state 0 8) test_chain)
        0 1) test_chain) test_chain) := by
  rfl

theorem test_reach :
    Reach 8 (pushed (pushed (device_complete (pushed (virtq_init_state 0 8) test_chain) 0 1)
      test_chain) test_chain) [] [3, 0] := by
  have h0 : Reach 8 (virtq_init_state 0 8) [] [] := Reach.init 0 _ rfl
  have h1 : Reach 8 (pushed (virtq_init_state 0 8) test_chain) [] ([] ++ [0]) :=
    Reach.push _ _ [] [] test_chain h0 test_push_1
  have h2 : Reach 8 (device_complete (pushed (virtq_init_state 0 8) test_chain) 0 1)
      ([] ++ [0]) ([] ++ []) := Reach.complete _ [] [] [] 0 1 h1
  have h3 : Reach 8 (pushed (device_complete (pushed (virtq_init_state 0 8) test_chain) 0 1)
      test_chain) [0] [3] := Reach.push _ _ [0] [] test_chain h2 test_push_2
  exact Reach.push _ _ [0] [3] test_chain h3 test_push_3

theorem reclaim_total (N : Nat) (flight : List (List Nat)) :
    ∀ (done : List (List Nat)) (fuel : Nat) (vq : virtio_virtq) (fl : List Nat),
    VqInv N vq fl done flight → vq.last_used_index + done.length < 65536 →
    done.length < fuel →
    ∃ vq2 fl2, virtq_reclaim fuel vq = Except.ok vq2 ∧ VqInv N vq2 fl2 [] flight
  | [], fuel, vq, fl, hinv, hw, hf => by
    obtain ⟨f, rfl⟩ : ∃ f, fuel = f + 1 := ⟨fuel - 1, by omega⟩
    have hu := hinv.used
    simp only [List.length_nil, Nat.add_zero] at hu hw
    have hne : ¬ (vq.last_used_index ≠ vq.used_index) := by
      rw [hu, Nat.mod_eq_of_lt hw]
      exact fun h => h rfl
    unfold virtq_reclaim
    rw [if_neg hne]
    exact ⟨vq, fl, rfl, hinv⟩
  | c :: rest, fuel, vq, fl, hinv, hw, hf => by
    obtain ⟨f, rfl⟩ : ∃ f, fuel = f + 1 := ⟨fuel - 1, by omega⟩
    have hu := hinv.used
    simp only [List.length_cons] at hu hw hf
    have hne : vq.last_used_index ≠ vq.used_index := by
      rw [hu, Nat.mod_eq_of_lt hw]
      omega
    obtain ⟨vq2, h2, hinv2, _, _, _⟩ := reclaim_one_inv N vq fl c rest flight hinv hw
    obtain ⟨hl, _⟩ := reclaim_one_index vq vq2 h2
    obtain ⟨vq3, fl3, h3, hinv3⟩ := reclaim_total N flight rest f vq2 (c ++ fl) hinv2
      (by rw [hl]; omega) (by omega)
    unfold virtq_reclaim
    rw [if_pos hne, h2]
    exact ⟨vq3, fl3, h3, hinv3⟩

theorem push_progress (N : Nat) (vq : virtio_virtq) (fl : List Nat)
    (done flight : List (List Nat)) (chain : List virtio_chain_entry)
    (hinv : VqInv N vq fl done flight)
    (hw : vq.last_used_index + done.length < 65536) (h0 : chain ≠ [])
    (hroom : chain.length + flight.flatten.length ≤ N) :
    ∃ vq1, virtq_push vq chain = Except.ok vq1 := by
  by_cases hgt : chain.length > vq.num_free_descs
  · have hdl := vqinv_done_le N vq fl done flight hinv
    have hmax := hinv.hmax
    obtain ⟨vq2, fl2, h2, hinv2⟩ := reclaim_total N flight done (INT_MAX + 2) vq fl hinv hw
      (by unfold INT_MAX; omega)
    have htot := (perm_range_facts _ _ hinv2.perm).2.2
    have hlen := hinv2.len
    simp only [List.length_append, List.nil_append] at htot
    have hle : chain.length ≤ vq2.num_free_descs := by omega
    obtain ⟨vq3, _, _, h3, _⟩ := push_free_inv N vq2 fl2 [] flight chain hinv2 hle h0
    exact ⟨vq3, by rw [push_of_reclaim vq vq2 chain hgt h2 hle]; exact h3⟩
  · obtain ⟨vq3, _, _, h3, _⟩ :=
      push_free_inv N vq fl done flight chain hinv (by omega) h0
    exact ⟨vq3, h3⟩

/-! ### C19: the free list and the chains in flight -/

/-- C19: in every state that a virtqueue of `N` descriptors reaches from the
state `virtq_init` builds, by calls of `virtq_push` (with chains of any length)
that return and by completions of chains in flight, the free list (the
`num_free_descs` nodes reached from `free_head` through `next`) followed by the
descriptors of the chains in flight (each chain read off its head through
`VIRTQ_DESC_F_NEXT` and `next`) is an arrangement of the indices `0 .. N-1`:
every index is in exactly one of them, and `num_free_descs` plus the sum of the
chain lengths is `N`.  A chain is in flight from its push until a later push
reclaims it (`done ++ flight`).  Moreover, as long as fewer than 65536 chains
have been completed (`last_used_index` counts the reclaimed ones, `done` holds
the others), the next `virtq_push` returns for every non-empty chain that fits
beside the chains the device has not completed. -/
theorem virtq_free_list_partition (N : Nat) (vq : virtio_virtq) (done flight : List Nat)
    (h : Reach N vq done flight) :
    (free_list vq.descs vq.free_head vq.num_free_descs ++
        ((done ++ flight).map (chain_nodes vq.descs (N + 1))).flatten).Perm (List.range N) ∧
      vq.num_free_descs +
        (((done ++ flight).map (chain_nodes vq.descs (N + 1))).map List.length).sum = N ∧
      (vq.last_used_index + done.length < 65536 →
        ∀ chain : List virtio_chain_entry, chain ≠ [] →
          chain.length + ((flight.map (chain_nodes vq.descs (N + 1))).map List.length).sum
            ≤ N →
          ∃ vq1, virtq_push vq chain = Except.ok vq1) := by
  obtain ⟨fl, dn, fg, hinv, hd, hf⟩ := reach_inv N vq done flight h
  have hfree : free_list vq.descs vq.free_head vq.num_free_descs = fl := by
    rw [← hinv.len]
    exact free_list_of_linked _ fl _ hinv.linked
  have htot := (perm_range_facts _ _ hinv.perm).2.2
  have hnodes : ∀ c, c ∈ dn ++ fg → chain_nodes vq.descs (N + 1) (c.headD 0) = c := by
    intro c hc
    have hlen : c.length ≤ N + 1 := by
      have h1 := (List.sublist_flatten_of_mem hc).length_le
      simp only [List.length_append] at htot
      omega
    exact chain_nodes_of_linked _ c (N + 1) (hinv.chains c hc) hlen
  have hchains : (done ++ flight).map (chain_nodes vq.descs (N + 1)) = dn ++ fg := by
    rw [← hd, ← hf, ← List.map_append, List.map_map]
    conv_rhs => rw [← List.map_id (dn ++ fg)]
    exact List.map_congr_left hnodes
  have hflight : flight.map (chain_nodes vq.descs (N + 1)) = fg := by
    rw [← hf, List.map_map]
    conv_rhs => rw [← List.map_id fg]
    exact List.map_congr_left (fun c hc => hnodes c (List.mem_append_right _ hc))
  rw [hfree, hchains, hflight]
  refine ⟨hinv.perm, ?_, ?_⟩
  · rw [← List.length_flatten, ← hinv.len]
    simp only [List.length_append] at htot
    exact htot
  · intro hw chain h0 hroom
    rw [← List.length_flatten] at hroom
    have hdl : dn.length = done.length := by rw [← hd, List.length_map]
    exact push_progress N vq fl dn fg chain hinv (by rw [hdl]; exact hw) h0 hroom

/-- C19: the statement applied to a queue of 8 descriptors after a push, its
completion, a second push and a third push, which has to reclaim the first
chain: the chains with the heads 3 and 0 are in flight, the free list is
`[6, 7]`. -/
theorem virtq_free_list_partition_witness :
    Reach 8 test_vq3 [] [3, 0] ∧
    free_list test_vq3.descs test_vq3.free_head test_vq3.num_free_descs = [6, 7] ∧
    ((free_list test_vq3.descs test_vq3.free_head test_vq3.num_free_descs ++
        ((([] : List Nat) ++ [3, 0]).map (chain_nodes test_vq3.descs (8 + 1))).flatten).Perm
        (List.range 8) ∧
      test_vq3.num_free_descs +
        (((([] : List Nat) ++ [3, 0]).map (chain_nodes test_vq3.descs (8 + 1))).map
          List.length).sum = 8 ∧
      (test_vq3.last_used_index + ([] : List Nat).length < 65536 →
        ∀ chain : List virtio_chain_entry, chain ≠ [] →
          chain.length +
            (([3, 0].map (chain_nodes test_vq3.descs (8 + 1))).map List.length).sum ≤ 8 →
          ∃ vq1, virtq_push test_vq3 chain = Except.ok vq1)) :=
  ⟨test_reach, by decide, virtq_free_list_partition 8 test_vq3 [] [3, 0] test_reach⟩


/-! ### C29: the values `fs_init` derives from the superblock -/

theorem read_sector_le16 (d : Disk) (lba : Nat) (buf : Mem) (o : Nat) (ho : o + 2 ≤ 512) :
    le16 (disk_read_sectors d lba buf 0 1) o = le16 (fun k => d (lba * SECTOR_SIZE + k)) o :=
  le16_congr _ _ o o (read_sector_at d lba buf o (by omega))
    (read_sector_at d lba buf (o + 1) (by omega))

theorem read_sector_le32 (d : Disk) (lba : Nat) (buf : Mem) (o : Nat) (ho : o + 4 ≤ 512) :
    le32 (disk_read_sectors d lba buf 0 1) o = le32 (fun k => d (lba * SECTOR_SIZE + k)) o :=
  le32_congr _ _ o o (fun j hj => read_sector_at d lba buf (o + j) (by omega))

theorem le32_lt (m : Mem) (o : Nat) : le32 m o < U32 := by
  unfold le32 le16 U32
  omega

theorem test_locate :
    (locate_linux_partition test_gpt_image (fun _ => 0)).result = Except.ok 2048 := by
  rw [locate_good_signature test_gpt_image (fun _ => 0) (by decide!)]
  have h := scan_found test_gpt_image (gpt_partition_table_lba test_gpt_image)
    (disk_read_sectors test_gpt_image 1 (fun _ => 0) 0 1) 1 (by decide) (by decide!)
    (by decide!)
  have e : gpt_entry_first_lba test_gpt_image (gpt_partition_table_lba test_gpt_image) 1 =
      2048 := by decide!
  rw [e] at h
  exact h

/-- C29: once `locate_linux_partition` has returned `part_lba`, for every
superblock with magic `0xEF53`, `blocks_count >= 1`, `blocks_per_group >= 1` and
`log2_block_size <= 6`, `fs_init` returns with
`bytes_per_block = 1024 << log2_block_size`,
`sectors_per_block = bytes_per_block / 512`, `inodes_per_group` as in the
superblock, `bytes_per_inode = 128` for `major_revision_level < 1` and the
superblock's `bytes_per_inode` otherwise, and
`groups_count = 1 + (blocks_count - 1) / blocks_per_group`; and
`bytes_per_block = 512 * sectors_per_block`. -/
theorem fs_init_superblock_derivation (d : Disk) (stack : Mem) (part_lba : Nat)
    (hloc : (locate_linux_partition d stack).result = Except.ok part_lba)
    (hmagic : le16 (superblock d part_lba) 56 = 0xEF53)
    (hbc : 1 ≤ le32 (superblock d part_lba) 4)
    (hbpg : 1 ≤ le32 (superblock d part_lba) 32)
    (hlog : le32 (superblock d part_lba) 24 ≤ 6) :
    ∃ fs, fs_init d stack = Except.ok fs ∧
      fs.part_lba = part_lba ∧
      fs.bytes_per_block = 1024 <<< le32 (superblock d part_lba) 24 ∧
      fs.sectors_per_block = fs.bytes_per_block / 512 ∧
      fs.inodes_per_group = le32 (superblock d part_lba) 40 ∧
      fs.bytes_per_inode =
        (if le32 (superblock d part_lba) 76 < 1 then 128
         else le16 (superblock d part_lba) 88) ∧
      fs.groups_count =
        1 + (le32 (superblock d part_lba) 4 - 1) / le32 (superblock d part_lba) 32 ∧
      fs.bytes_per_block = 512 * fs.sectors_per_block := by
  have e16 : ∀ o, o + 2 ≤ 512 →
      le16 (disk_read_sectors d ((part_lba + SUPERBLOCK_SECTOR_BASE) % U64) stack 0 1) o =
        le16 (superblock d part_lba) o := fun o ho => read_sector_le16 d _ stack o ho
  have e32 : ∀ o, o + 4 ≤ 512 →
      le32 (disk_read_sectors d ((part_lba + SUPERBLOCK_SECTOR_BASE) % U64) stack 0 1) o =
        le32 (superblock d part_lba) o := fun o ho => read_sector_le32 d _ stack o ho
  have hm : ¬ (le16 (superblock d part_lba) 56 ≠ EXT4_MAGIC) := by
    rw [hmagic]; decide
  have hl : ¬ (le32 (superblock d part_lba) 24 > 20) := by omega
  have hg : ¬ (le32 (superblock d part_lba) 32 = 0) := by omega
  unfold fs_init
  rw [hloc]
  simp only [e16 56 (by decide), e16 88 (by decide), e32 4 (by decide), e32 24 (by decide),
    e32 32 (by decide), e32 40 (by decide), e32 76 (by decide)]
  rw [if_neg hm, if_neg hl, if_neg hg]
  refine ⟨_, rfl, rfl, rfl, rfl, rfl, rfl, ?_, ?_⟩
  · show (1 + (le32 (superblock d part_lba) 4 + U32 - 1) % U32 /
      le32 (superblock d part_lba) 32) % U32 = _
    have hlt := le32_lt (superblock d part_lba) 4
    have e1 : (le32 (superblock d part_lba) 4 + U32 - 1) % U32 =
        le32 (superblock d part_lba) 4 - 1 := by
      unfold U32 at hlt ⊢
      omega
    rw [e1]
    apply Nat.mod_eq_of_lt
    have hdiv : (le32 (superblock d part_lba) 4 - 1) / le32 (superblock d part_lba) 32 ≤
        le32 (superblock d part_lba) 4 - 1 := Nat.div_le_self _ _
    unfold U32 at hlt ⊢
    omega
  · show 1024 <<< le32 (superblock d part_lba) 24 =
      512 * ((1024 <<< le32 (superblock d part_lba) 24) / SECTOR_SIZE)
    generalize le32 (superblock d part_lba) 24 = k at hlog
    interval_cases k <;> decide

/-- C29 applied to the test disk: 4096-byte blocks (`log2_block_size = 2`), 8
sectors per block, 8192 inodes per group, 256-byte inodes, one group. -/
theorem fs_init_superblock_derivation_witness :
    ∃ fs, fs_init test_gpt_image (fun _ => 0) = Except.ok fs ∧
      fs.part_lba = 2048 ∧
      fs.bytes_per_block = 1024 <<< le32 (superblock test_gpt_image 2048) 24 ∧
      fs.sectors_per_block = fs.bytes_per_block / 512 ∧
      fs.inodes_per_group = le32 (superblock test_gpt_image 2048) 40 ∧
      fs.bytes_per_inode =
        (if le32 (superblock test_gpt_image 2048) 76 < 1 then 128
         else le16 (superblock test_gpt_image 2048) 88) ∧
      fs.groups_count =
        1 + (le32 (superblock test_gpt_image 2048) 4 - 1) /
          le32 (superblock test_gpt_image 2048) 32 ∧
      fs.bytes_per_block = 512 * fs.sectors_per_block :=
  fs_init_superblock_derivation test_gpt_image (fun _ => 0) 2048
    test_locate (by decide!) (by decide!) (by decide!) (by decide!)


/-! ### C30: the block-group descriptor of an inode -/

theorem read_block_at (fs : Fs) (d : Disk) (block : Nat) (m : Mem)
    (hsz : fs.sectors_per_block * SECTOR_SIZE % U32 = fs.bytes_per_block) (i : Nat)
    (hi : i < fs.bytes_per_block) :
    (ext4_read_block fs d block m 0 none).1 i = d (block_lba fs block * SECTOR_SIZE + i) := by
  have hc : 0 ≤ i ∧ i < 0 + fs.bytes_per_block := by omega
  simp only [ext4_read_block, disk_read_sectors, hsz, hc, and_self, if_true, Nat.sub_zero]

/-- C30: with the state `fs_init` derives, for every inode number `I >= 2` (and
`inodes_per_group` not 0, `32 * group_index` not overflowing 64 bits),
`ext4_read_group_desc_for_inode` reads file-system block 1 when
`bytes_per_block > 1024` and block 2 otherwise; when
`32 * group_index < bytes_per_block`, with `group_index = (I - 1) /
inodes_per_group`, it returns the fields of the 32-byte descriptor at byte
offset `32 * group_index` of that block, and these 32 bytes end inside the
`bytes_per_block` bytes read; otherwise its assertion halts. -/
theorem group_desc_lookup (d : Disk) (stack : Mem) (fs : Fs) (u : Uninit) (inode : Nat)
    (hfs : fs_init d stack = Except.ok fs) (hi : 2 ≤ inode)
    (hipg : fs.inodes_per_group ≠ 0)
    (hno : 32 * ((inode - 1) / fs.inodes_per_group) < U64) :
    (32 * ((inode - 1) / fs.inodes_per_group) < fs.bytes_per_block →
      ∃ bb, ext4_read_group_desc_for_inode fs d u inode =
          Except.ok
            (⟨le32 (group_desc_block fs d) (32 * ((inode - 1) / fs.inodes_per_group)),
              le32 (group_desc_block fs d) (32 * ((inode - 1) / fs.inodes_per_group) + 4),
              le32 (group_desc_block fs d) (32 * ((inode - 1) / fs.inodes_per_group) + 8),
              le16 (group_desc_block fs d) (32 * ((inode - 1) / fs.inodes_per_group) + 12),
              le16 (group_desc_block fs d) (32 * ((inode - 1) / fs.inodes_per_group) + 14),
              le16 (group_desc_block fs d) (32 * ((inode - 1) / fs.inodes_per_group) + 16)⟩,
             bb) ∧
        32 * ((inode - 1) / fs.inodes_per_group) + 32 ≤ fs.bytes_per_block ∧
        ∀ i, i < fs.bytes_per_block → bb i = group_desc_block fs d i) ∧
    (¬ 32 * ((inode - 1) / fs.inodes_per_group) < fs.bytes_per_block →
      ext4_read_group_desc_for_inode fs d u inode = Except.error Halt.assertion) := by
  obtain ⟨hb, hsz⟩ := fs_init_block_size d stack fs hfs
  obtain ⟨k, hk⟩ := fs_init_block_32 d stack fs hfs
  have h1 : ¬ inode < 2 := by omega
  have hmod : 32 * ((inode - 1) / fs.inodes_per_group) % U64 =
      32 * ((inode - 1) / fs.inodes_per_group) := Nat.mod_eq_of_lt hno
  have hag : ∀ i, i < fs.bytes_per_block →
      (ext4_read_block fs d (if fs.bytes_per_block > 1024 then 1 else 2) u.block_buf 0 none).1 i
        = group_desc_block fs d i := fun i hi => read_block_at fs d _ _ hsz i hi
  constructor
  · intro hlt
    have hend : 32 * ((inode - 1) / fs.inodes_per_group) + 32 ≤ fs.bytes_per_block := by
      generalize (inode - 1) / fs.inodes_per_group = g at hlt
      omega
    refine ⟨(ext4_read_block fs d (if fs.bytes_per_block > 1024 then 1 else 2)
      u.block_buf 0 none).1, ?_, hend, hag⟩
    unfold ext4_read_group_desc_for_inode
    simp only [h1, hipg, if_false, hmod, hlt, if_true]
    generalize 32 * ((inode - 1) / fs.inodes_per_group) = o at hend
    rw [le32_agree _ _ _ o hag (by omega), le32_agree _ _ _ (o + 4) hag (by omega),
      le32_agree _ _ _ (o + 8) hag (by omega), le16_agree _ _ _ (o + 12) hag (by omega),
      le16_agree _ _ _ (o + 14) hag (by omega), le16_agree _ _ _ (o + 16) hag (by omega)]
  · intro hge
    unfold ext4_read_group_desc_for_inode
    simp only [h1, hipg, if_false, hmod, hge]

/-- C30 applied to the test disk and inode 12 (`dump.bin`): group 0, whose
descriptor is at the start of block 1 and names block 5 as the inode table. -/
theorem group_desc_lookup_witness :
    (32 * ((12 - 1) / test_fs.inodes_per_group) < test_fs.bytes_per_block →
      ∃ bb, ext4_read_group_desc_for_inode test_fs test_gpt_image zero_uninit 12 =
          Except.ok
            (⟨le32 (group_desc_block test_fs test_gpt_image)
                (32 * ((12 - 1) / test_fs.inodes_per_group)),
              le32 (group_desc_block test_fs test_gpt_image)
                (32 * ((12 - 1) / test_fs.inodes_per_group) + 4),
              le32 (group_desc_block test_fs test_gpt_image)
                (32 * ((12 - 1) / test_fs.inodes_per_group) + 8),
              le16 (group_desc_block test_fs test_gpt_image)
                (32 * ((12 - 1) / test_fs.inodes_per_group) + 12),
              le16 (group_desc_block test_fs test_gpt_image)
                (32 * ((12 - 1) / test_fs.inodes_per_group) + 14),
              le16 (group_desc_block test_fs test_gpt_image)
                (32 * ((12 - 1) / test_fs.inodes_per_group) + 16)⟩,
             bb) ∧
        32 * ((12 - 1) / test_fs.inodes_per_group) + 32 ≤ test_fs.bytes_per_block ∧
        ∀ i, i < test_fs.bytes_per_block → bb i = group_desc_block test_fs test_gpt_image i) ∧
    (¬ 32 * ((12 - 1) / test_fs.inodes_per_group) < test_fs.bytes_per_block →
      ext4_read_group_desc_for_inode test_fs test_gpt_image zero_uninit 12 =
        Except.error Halt.assertion) ∧
    le32 (group_desc_block test_fs test_gpt_image)
      (32 * ((12 - 1) / test_fs.inodes_per_group) + 8) = 5 :=
  ⟨(group_desc_lookup test_gpt_image (fun _ => 0) test_fs zero_uninit 12 test_fs_init_ok
      (by decide) (by decide) (by decide)).1,
   (group_desc_lookup test_gpt_image (fun _ => 0) test_fs zero_uninit 12 test_fs_init_ok
      (by decide) (by decide) (by decide)).2,
   by decide!⟩


/-! ### C25: the path `main` passes to `fs_read` -/

theorem takeWhile_append_stop (p : Nat → Bool) (x : Nat) (G : List Nat) (hx : p x = false) :
    ∀ A : List Nat, (A ++ x :: G).takeWhile p = A.takeWhile p
  | [] => by simp [List.takeWhile, hx]
  | a :: A => by
    simp only [List.cons_append, List.takeWhile_cons, takeWhile_append_stop p x G hx A]

theorem cstr_append_nul (A G : List Nat) : cstr (A ++ 0 :: G) = cstr A := by
  unfold cstr
  rw [List.map_append, List.map_cons]
  exact takeWhile_append_stop _ _ _ (by decide) _

theorem lookup_loop_cstr_congr (buf : Mem) (read_len : Nat) (f1 f2 : List Nat)
    (h : cstr f1 = cstr f2) :
    ∀ (fuel off : Nat), ext4_get_inode_by_filename_loop buf read_len f1 fuel off =
      ext4_get_inode_by_filename_loop buf read_len f2 fuel off
  | 0, _ => rfl
  | fuel + 1, off => by
    have hiff : ∀ name, (strcmp name f1 = 0) = (strcmp name f2 = 0) := fun name =>
      propext ⟨fun h1 => (strcmp_eq_zero_iff _ _).mpr
          (((strcmp_eq_zero_iff _ _).mp h1).trans h),
        fun h1 => (strcmp_eq_zero_iff _ _).mpr
          (((strcmp_eq_zero_iff _ _).mp h1).trans h.symm)⟩
    simp only [ext4_get_inode_by_filename_loop, hiff,
      lookup_loop_cstr_congr buf read_len f1 f2 h fuel]

theorem fs_read_cstr_congr (fs : Fs) (d : Disk) (u : Uninit) (f1 f2 : List Nat)
    (h : cstr f1 = cstr f2) (buf : Mem) (len : Nat)
    (sl : Option (List sector_list_entry)) :
    fs_read fs d u f1 buf len sl = fs_read fs d u f2 buf len sl := by
  have hl : ext4_get_inode_by_filename fs d u f1 = ext4_get_inode_by_filename fs d u f2 := by
    unfold ext4_get_inode_by_filename
    simp only [lookup_loop_cstr_congr _ _ f1 f2 h]
  unfold fs_read
  rw [hl]

theorem main_path_take (path_unterminated stack : Mem) (path_len : Nat)
    (h : path_len ≤ 255) :
    ((List.range 256).map fun i =>
        if i < path_len then path_unterminated i
        else if i = path_len then 0 else stack i).take (path_len + 1) =
      (List.range path_len).map path_unterminated ++ [0] := by
  rw [← List.map_take, List.take_range, Nat.min_eq_left (by omega), List.range_succ,
    List.map_append, List.map_cons, List.map_nil]
  congr 1
  · apply List.map_congr_left
    intro i hi
    have := List.mem_range.mp hi
    simp only [this, if_true]
  · simp

/-- C25: for every caller buffer and every `path_len <= 255`, the array `path`
that `main` passes to `fs_read` holds the first `path_len` bytes of the
caller's path followed by a NUL; what the caller's buffer holds from `path_len`
on has no influence on these bytes; as a C string `path` is the C string of the
first `path_len` bytes, so `fs_read` gives the same result as for these bytes
alone, whatever lies behind the NUL. -/
theorem main_passes_terminated_path (path_unterminated stack : Mem) (path_len : Nat)
    (h : path_len ≤ 255) :
    ∃ p, main_path path_unterminated path_len stack = Except.ok p ∧
      p.take (path_len + 1) = (List.range path_len).map path_unterminated ++ [0] ∧
      (∀ (other stack2 : Mem), (∀ i, i < path_len → other i = path_unterminated i) →
        ∃ p2, main_path other path_len stack2 = Except.ok p2 ∧
          p2.take (path_len + 1) = p.take (path_len + 1)) ∧
      cstr p = cstr ((List.range path_len).map path_unterminated) ∧
      ∀ (fs : Fs) (d : Disk) (u : Uninit) (buf : Mem) (len : Nat)
        (sl : Option (List sector_list_entry)),
        fs_read fs d u p buf len sl =
          fs_read fs d u ((List.range path_len).map path_unterminated) buf len sl := by
  have hlt : path_len < 256 := by omega
  have hc : cstr ((List.range 256).map fun i =>
        if i < path_len then path_unterminated i
        else if i = path_len then 0 else stack i) =
      cstr ((List.range path_len).map path_unterminated) := by
    rw [← List.take_append_drop (path_len + 1) ((List.range 256).map _),
      main_path_take path_unterminated stack path_len h, List.append_assoc,
      List.singleton_append]
    exact cstr_append_nul _ _
  unfold main_path
  rw [if_pos hlt]
  refine ⟨_, rfl, main_path_take path_unterminated stack path_len h, ?_, hc, ?_⟩
  · intro other stack2 hag
    rw [if_pos hlt]
    refine ⟨_, rfl, ?_⟩
    rw [main_path_take other stack2 path_len h,
      main_path_take path_unterminated stack path_len h]
    congr 1
    exact List.map_congr_left (fun i hi => hag i (List.mem_range.mp hi))
  · intro fs d u buf len sl
    exact fs_read_cstr_congr fs d u _ _ hc buf len sl

/-- C25 applied to the call of `test_main`: the path `"boot.dump!!!!!!!!"` with
`path_len = 9`; the file looked up is `boot.dump`. -/
theorem main_passes_terminated_path_witness :
    ∃ p, main_path (fun i => test_path.getD i 0) 9 (fun _ => 170) = Except.ok p ∧
      p.take (9 + 1) = (List.range 9).map (fun i => test_path.getD i 0) ++ [0] ∧
      (∀ (other stack2 : Mem), (∀ i, i < 9 → other i = test_path.getD i 0) →
        ∃ p2, main_path other 9 stack2 = Except.ok p2 ∧
          p2.take (9 + 1) = p.take (9 + 1)) ∧
      cstr p = cstr ((List.range 9).map (fun i => test_path.getD i 0)) ∧
      (∀ (fs : Fs) (d : Disk) (u : Uninit) (buf : Mem) (len : Nat)
        (sl : Option (List sector_list_entry)),
        fs_read fs d u p buf len sl =
          fs_read fs d u ((List.range 9).map (fun i => test_path.getD i 0)) buf len sl) ∧
      (List.range 9).map (fun i => test_path.getD i 0) = boot_dump := by
  obtain ⟨p, h1, h2, h3, h4, h5⟩ :=
    main_passes_terminated_path (fun i => test_path.getD i 0) (fun _ => 170) 9 (by decide)
  exact ⟨p, h1, h2, h3, h4, h5, by decide⟩


/-! ### C21: the status of a completed request -/

theorem wait_loop (t st : Nat) (hst : st < 256) (hne : st ≠ IN_PROGRESS_STATUS) :
    ∀ (fuel k : Nat), k ≤ t → t - k < fuel →
      wait_for_completion (status_reads t st) fuel k =
        if st = VIRTIO_BLK_S_OK then Except.ok () else Except.error Halt.panic
  | 0, _, _, h => absurd h (Nat.not_lt_zero _)
  | fuel + 1, k, hk, hf => by
    by_cases hkt : k < t
    · have h1 : status_reads t st k % 256 = IN_PROGRESS_STATUS := by
        simp only [status_reads, hkt, if_true]
        decide
      rw [wait_for_completion, if_pos h1]
      exact wait_loop t st hst hne fuel (k + 1) (by omega) (by omega)
    · have hk0 : ¬ (k + 1 < t) := by omega
      have h1 : ¬ (status_reads t st k % 256 = IN_PROGRESS_STATUS) := by
        simp only [status_reads, hkt, if_false, Nat.mod_eq_of_lt hst]
        exact hne
      have h2 : status_reads t st (k + 1) % 256 = st := by
        simp only [status_reads, hk0, if_false, Nat.mod_eq_of_lt hst]
      rw [wait_for_completion, if_neg h1, h2]
      by_cases h0 : st = VIRTIO_BLK_S_OK
      · rw [if_pos h0, if_pos h0]
      · rw [if_neg h0, if_neg h0]
        split
        · rfl
        · split <;> rfl

/-- C21: when the status byte leaves `IN_PROGRESS_STATUS` (0xFF) for the value
`st` after `t` polls, `wait_for_completion` returns normally if and only if
`st` is 0 and ends in `PANIC` for every other value (1, 2, 3..254); so do
`disk_read_sectors` and `disk_write_sectors` once their request is pushed. -/
theorem completion_status (t st fuel : Nat) (hst : st < 256)
    (hne : st ≠ IN_PROGRESS_STATUS) (hfuel : t < fuel) :
    (wait_for_completion (status_reads t st) fuel 0 = Except.ok () ↔ st = 0) ∧
    (st ≠ 0 → wait_for_completion (status_reads t st) fuel 0 = Except.error Halt.panic) ∧
    (∀ (vq : virtio_virtq) (lba buf num_sectors header_ptr status_ptr reserved : Nat)
      (s : Submission),
      disk_read_sectors_submit vq lba buf num_sectors header_ptr status_ptr reserved =
        Except.ok s →
      disk_read_sectors_call vq lba buf num_sectors header_ptr status_ptr reserved
        (status_reads t st) fuel =
        if st = 0 then Except.ok s.vq else Except.error Halt.panic) ∧
    (∀ (vq : virtio_virtq) (lba buf num_sectors header_ptr status_ptr reserved : Nat)
      (s : Submission),
      disk_write_sectors_submit vq lba buf num_sectors header_ptr status_ptr reserved =
        Except.ok s →
      disk_write_sectors_call vq lba buf num_sectors header_ptr status_ptr reserved
        (status_reads t st) fuel =
        if st = 0 then Except.ok s.vq else Except.error Halt.panic) := by
  have hw := wait_loop t st hst hne fuel 0 (Nat.zero_le _) (by omega)
  have hok : VIRTIO_BLK_S_OK = 0 := rfl
  rw [hok] at hw
  refine ⟨?_, ?_, ?_, ?_⟩
  · rw [hw]
    by_cases h0 : st = 0
    · simp only [h0, if_true]
    · simp only [h0, if_false]
      constructor
      · intro h
        cases h
      · intro h
        exact h.elim
  · intro h0
    rw [hw, if_neg h0]
  · intro vq lba buf n hp sp r s hs
    unfold disk_read_sectors_call
    rw [hs, hw]
    by_cases h0 : st = 0
    · simp only [h0, if_true]
    · simp only [h0, if_false]
  · intro vq lba buf n hp sp r s hs
    unfold disk_write_sectors_call
    rw [hs, hw]
    by_cases h0 : st = 0
    · simp only [h0, if_true]
    · simp only [h0, if_false]

/-- C21 applied to a device that answers after 3 polls with the status
`VIRTIO_BLK_S_IOERR`: the wait ends in `PANIC`. -/
theorem completion_status_witness :
    wait_for_completion (status_reads 3 1) 4 0 = Except.error Halt.panic :=
  (completion_status 3 1 4 (by decide) (by decide) (by decide)).2.1 (by decide)


/-! ### The descriptors a push fills -/

theorem linked_free_list (d : Nat → virtq_desc) : ∀ (k h : Nat), Linked d h (free_list d h k)
  | 0, _ => trivial
  | k + 1, h => ⟨rfl, linked_free_list d k (d h).next⟩

theorem length_free_list (d : Nat → virtq_desc) : ∀ (k h : Nat), (free_list d h k).length = k
  | 0, _ => rfl
  | k + 1, h => by
    show (free_list d (d h).next k).length + 1 = k + 1
    rw [length_free_list d k]

theorem getElem_last (l : List Nat) (a : Nat) : (a :: l)[l.length]? = some (l.getLastD a) := by
  induction l generalizing a with
  | nil => rfl
  | cons b l ih =>
    simp only [List.length_cons, List.getElem?_cons_succ, List.getLastD_cons]
    exact ih b

theorem linked_getElem (d : Nat → virtq_desc) : ∀ (l : List Nat) (h i x y : Nat),
    Linked d h l → l[i]? = some x → l[i + 1]? = some y → (d x).next = y
  | [], _, _, _, _, _, hx, _ => by simp at hx
  | a :: l, _, 0, x, y, hl, hx, hy => by
    simp only [List.getElem?_cons_zero, Option.some.injEq] at hx
    subst hx
    cases l with
    | nil => simp at hy
    | cons b l =>
      simp only [Nat.zero_add, List.getElem?_cons_succ, List.getElem?_cons_zero,
        Option.some.injEq] at hy
      subst hy
      exact hl.2.1
  | a :: l, _, i + 1, x, y, hl, hx, hy => by
    simp only [List.getElem?_cons_succ] at hx hy
    exact linked_getElem d l _ i x y hl.2 hx hy

theorem fill_entries (N : Nat) : ∀ (es : List virtio_chain_entry) (e : virtio_chain_entry)
    (ps : List Nat) (a : Nat) (d : Nat → virtq_desc) (d0 : Nat) (post : List Nat),
    ps.length = es.length → Linked d a (a :: ps ++ post) → (a :: ps ++ post).Nodup →
    (∀ x, x ∈ a :: ps → x < N) →
    ∃ d2, virtq_push_fill N (e :: es) d a d0 =
        Except.ok (d2, (d (ps.getLastD a)).next, ps.getLastD a) ∧
      (∀ x, x ∉ a :: ps → d2 x = d x) ∧
      (∀ (i x : Nat) (en : virtio_chain_entry), (a :: ps)[i]? = some x →
        (e :: es)[i]? = some en →
        d2 x = ⟨en.addr, en.len,
          (if en.device_writable then VIRTQ_DESC_F_WRITE else 0) ||| VIRTQ_DESC_F_NEXT,
          (d x).next⟩)
  | [], e, ps, a, d, d0, post, hlen, _, _, hb => by
    have hps : ps = [] := List.length_eq_zero.mp hlen
    subst hps
    refine ⟨Function.update d a
      ⟨e.addr, e.len,
        (if e.device_writable then VIRTQ_DESC_F_WRITE else 0) ||| VIRTQ_DESC_F_NEXT,
        (d a).next⟩, ?_, ?_, ?_⟩
    · rw [virtq_push_fill, if_pos (hb a (List.mem_cons_self _ _)), virtq_push_fill]
      rfl
    · intro x hx
      have hxa : x ≠ a := by
        intro h
        rw [h] at hx
        exact hx (List.mem_cons_self _ _)
      exact Function.update_noteq hxa _ _
    · intro i x en hx hen
      cases i with
      | zero =>
        simp only [List.getElem?_cons_zero, Option.some.injEq] at hx hen
        subst hx hen
        rw [Function.update_same]
      | succ i => simp at hx
  | e2 :: es, e, ps, a, d, d0, post, hlen, hl, hnd, hb => by
    obtain ⟨b, ps2, rfl⟩ : ∃ b ps2, ps = b :: ps2 :=
      List.exists_cons_of_ne_nil (fun h => by rw [h] at hlen; cases hlen)
    have hnd2 : (b :: ps2 ++ post).Nodup := (List.nodup_cons.mp hnd).2
    have hanot : a ∉ b :: ps2 ++ post := (List.nodup_cons.mp hnd).1
    have hnext : (d a).next = b := linked_head d _ b _ hl.2
    have hlb : Linked d b (b :: ps2 ++ post) := by
      have := hl.2
      rw [hnext] at this
      exact this
    have hl2 : Linked (Function.update d a
        ⟨e.addr, e.len,
          (if e.device_writable then VIRTQ_DESC_F_WRITE else 0) ||| VIRTQ_DESC_F_NEXT,
          b⟩) b (b :: ps2 ++ post) := by
      refine linked_congr d _ _ _ (fun x hx => ?_) hlb
      have hxa : x ≠ a := by
        intro h
        rw [h] at hx
        exact hanot hx
      exact Function.update_noteq hxa _ _
    obtain ⟨d2, hfill, hout, hin⟩ := fill_entries N es e2 ps2 b _ a post
      (by simpa using hlen) hl2 hnd2 (fun x hx => hb x (List.mem_cons_of_mem _ hx))
    have hlast : ps2.getLastD b ∈ b :: ps2 ++ post :=
      List.mem_append_left _ (List.getLastD_mem_cons ps2 b)
    have hla : ps2.getLastD b ≠ a := by
      intro h
      rw [h] at hlast
      exact hanot hlast
    refine ⟨d2, ?_, ?_, ?_⟩
    · rw [virtq_push_fill, if_pos (hb a (List.mem_cons_self _ _)), hnext, hfill,
        Function.update_noteq hla, List.getLastD_cons]
    · intro x hx
      have hxa : x ≠ a := by
        intro h
        rw [h] at hx
        exact hx (List.mem_cons_self _ _)
      rw [hout x (fun h => hx (List.mem_cons_of_mem _ h)), Function.update_noteq hxa]
    · intro i x en hx hen
      cases i with
      | zero =>
        simp only [List.getElem?_cons_zero, Option.some.injEq] at hx hen
        subst hx hen
        have hxn : a ∉ b :: ps2 := fun h => hanot (List.mem_append_left _ h)
        rw [hout a hxn, Function.update_same, hnext]
      | succ i =>
        simp only [List.getElem?_cons_succ] at hx hen
        have hxm : x ∈ b :: ps2 := List.getElem?_mem hx
        have hxa : x ≠ a := by
          intro h
          rw [h] at hxm
          exact hanot (List.mem_append_left _ hxm)
        rw [hin i x en hx hen, Function.update_noteq hxa]


theorem write_flag_only (w : Bool) :
    ((if w then VIRTQ_DESC_F_WRITE else 0) ||| VIRTQ_DESC_F_NEXT) &&& 65534 =
      (if w then VIRTQ_DESC_F_WRITE else 0) ||| 0 := by
  cases w <;> decide

theorem push_free_spec (vq : virtio_virtq) (e : virtio_chain_entry)
    (es : List virtio_chain_entry) (a : Nat) (ps post : List Nat)
    (hl : Linked vq.descs vq.free_head (a :: ps ++ post))
    (hnd : (a :: ps ++ post).Nodup) (hb : ∀ x, x ∈ a :: ps → x < vq.num_descs)
    (hpl : ps.length = es.length) (hn : (e :: es).length ≤ vq.num_free_descs) :
    ∃ d2, virtq_push vq (e :: es) =
        Except.ok
          { vq with
            descs := Function.update d2 (ps.getLastD a)
              { d2 (ps.getLastD a) with
                next := 0, flags := (d2 (ps.getLastD a)).flags &&& 65534 }
            free_head := (d2 (ps.getLastD a)).next
            num_free_descs := vq.num_free_descs - (e :: es).length
            avail_ring := Function.update vq.avail_ring (vq.avail_index % vq.num_descs)
              (a % 65536)
            avail_index := (vq.avail_index + 1) % 65536 } ∧
      (∀ x, x ∉ a :: ps → d2 x = vq.descs x) ∧
      (∀ (i x : Nat) (en : virtio_chain_entry), (a :: ps)[i]? = some x →
        (e :: es)[i]? = some en →
        d2 x = ⟨en.addr, en.len,
          (if en.device_writable then VIRTQ_DESC_F_WRITE else 0) ||| VIRTQ_DESC_F_NEXT,
          (vq.descs x).next⟩) := by
  have hfh : vq.free_head = a := hl.1
  have hla : Linked vq.descs a (a :: ps ++ post) := by
    have := hl
    rw [hfh] at this
    exact this
  obtain ⟨d2, hfill, hout, hin⟩ :=
    fill_entries vq.num_descs es e ps a vq.descs a post hpl hla hnd hb
  have hc0 : ¬ ((e :: es).length = 0) := by simp
  have hc1 : ¬ ((e :: es).length > vq.num_free_descs) := by omega
  refine ⟨d2, ?_, hout, hin⟩
  unfold virtq_push
  rw [if_neg hc0, if_neg hc1]
  simp only
  rw [if_neg hc1, hfh, hfill]

/-! ### C26: chain construction in `virtq_push` -/

/-- C26: for a virtqueue whose free list (the `num_free_descs` nodes from
`free_head` on) holds distinct indices inside the descriptor table, and every
chain of `n >= 1` entries with `n <= num_free_descs`: `virtq_push` returns; node
`i < n` of the free list has got `addr` and `len` of entry `i`, the flag
`VIRTQ_DESC_F_WRITE` exactly when the entry is `device_writable`, the flag
`VIRTQ_DESC_F_NEXT` exactly when it is not the last one, and then `next` still
points at node `i + 1`; no other descriptor has changed; `num_free_descs` has
decreased by `n`, and the free list is the former one without its first `n`
nodes, so `free_head` is the former node `n` when there is one. -/
theorem push_builds_chain (vq : virtio_virtq) (chain : List virtio_chain_entry)
    (h0 : chain ≠ []) (hn : chain.length ≤ vq.num_free_descs)
    (hnd : (free_list vq.descs vq.free_head vq.num_free_descs).Nodup)
    (hb : ∀ x, x ∈ free_list vq.descs vq.free_head vq.num_free_descs → x < vq.num_descs) :
    ∃ vq1, virtq_push vq chain = Except.ok vq1 ∧
      (∀ (i x : Nat) (en : virtio_chain_entry),
        (free_list vq.descs vq.free_head vq.num_free_descs)[i]? = some x →
        chain[i]? = some en →
        vq1.descs x = ⟨en.addr, en.len,
          (if en.device_writable then VIRTQ_DESC_F_WRITE else 0) |||
            (if i + 1 < chain.length then VIRTQ_DESC_F_NEXT else 0),
          if i + 1 < chain.length then (vq.descs x).next else 0⟩ ∧
        (i + 1 < chain.length →
          (free_list vq.descs vq.free_head vq.num_free_descs)[i + 1]? =
            some (vq.descs x).next)) ∧
      (∀ x, x ∉ (free_list vq.descs vq.free_head vq.num_free_descs).take chain.length →
        vq1.descs x = vq.descs x) ∧
      vq1.num_free_descs + chain.length = vq.num_free_descs ∧
      free_list vq1.descs vq1.free_head vq1.num_free_descs =
        (free_list vq.descs vq.free_head vq.num_free_descs).drop chain.length ∧
      (chain.length < vq.num_free_descs →
        (free_list vq.descs vq.free_head vq.num_free_descs)[chain.length]? =
          some vq1.free_head) := by
  obtain ⟨e, es, rfl⟩ := List.exists_cons_of_ne_nil h0
  have hlen := length_free_list vq.descs vq.num_free_descs vq.free_head
  have hlinked := linked_free_list vq.descs vq.num_free_descs vq.free_head
  generalize free_list vq.descs vq.free_head vq.num_free_descs = fl at hnd hb hlen hlinked
  simp only [List.length_cons] at hn
  obtain ⟨a, rest, rfl⟩ : ∃ a rest, fl = a :: rest :=
    List.exists_cons_of_ne_nil (fun h => by rw [h] at hlen; simp at hlen; omega)
  simp only [List.length_cons] at hlen
  have hsplit : a :: rest = a :: rest.take es.length ++ rest.drop es.length := by
    rw [List.cons_append, List.take_append_drop]
  have htake : (a :: rest).take (e :: es).length = a :: rest.take es.length := by
    simp only [List.length_cons, List.take_succ_cons]
  have hdrop : (a :: rest).drop (e :: es).length = rest.drop es.length := by
    simp only [List.length_cons, List.drop_succ_cons]
  have hpl : (rest.take es.length).length = es.length := by
    rw [List.length_take]; omega
  have hpostl : (rest.drop es.length).length = vq.num_free_descs - (es.length + 1) := by
    rw [List.length_drop]; omega
  rw [htake, hdrop]
  generalize rest.take es.length = ps at hsplit hpl
  generalize rest.drop es.length = post at hsplit hpostl
  rw [hsplit] at hnd hb hlinked ⊢
  have hdis := (List.nodup_append.mp hnd).2.2
  have hndp : (a :: ps).Nodup := (List.nodup_append.mp hnd).1
  obtain ⟨d2, hpush, hout, hin⟩ := push_free_spec vq e es a ps post hlinked hnd
    (fun x hx => hb x (List.mem_append_left _ hx)) hpl
    (by simp only [List.length_cons]; omega)
  have hfh : vq.free_head = a := hlinked.1
  have hla : Linked vq.descs a (a :: ps ++ post) := by
    have := hlinked
    rw [hfh] at this
    exact this
  have hlastmem : ps.getLastD a ∈ a :: ps := List.getLastD_mem_cons ps a
  have hlastidx := getElem_last ps a
  have hlasten : ∃ en, (e :: es)[ps.length]? = some en := by
    have : ps.length < (e :: es).length := by simp only [List.length_cons]; omega
    exact ⟨(e :: es)[ps.length], List.getElem?_eq_getElem this⟩
  obtain ⟨enl, henl⟩ := hlasten
  have hd2last := hin ps.length _ enl hlastidx henl
  refine ⟨_, hpush, ?_, ?_, ?_, ?_, ?_⟩
  · intro i x en hx hen
    have hi : i < es.length + 1 := by
      have := (List.getElem?_eq_some.mp hen).1
      simpa using this
    have hxp : (a :: ps)[i]? = some x := by
      rw [← hx]
      show (a :: ps)[i]? = ((a :: ps) ++ post)[i]?
      rw [List.getElem?_append_left (by simp only [List.length_cons]; omega)]
    have hd2 := hin i x en hxp hen
    by_cases hnl : i + 1 < (e :: es).length
    · simp only [List.length_cons] at hnl
      have hne : x ≠ ps.getLastD a := by
        intro h
        have hij := List.getElem?_inj (by simp only [List.length_cons]; omega) hndp
          (hxp.trans (h ▸ hlastidx.symm))
        omega
      have hnl2 : i + 1 < (e :: es).length := by simp only [List.length_cons]; omega
      simp only [hnl2, if_true]
      refine ⟨?_, ?_⟩
      · show Function.update d2 _ _ x = _
        rw [Function.update_noteq hne, hd2]
      · intro _
        obtain ⟨y, hy⟩ : ∃ y, (a :: ps ++ post)[i + 1]? = some y := by
          have : i + 1 < (a :: ps ++ post).length := by
            simp only [List.length_cons, List.length_append]; omega
          exact ⟨_, List.getElem?_eq_getElem this⟩
        rw [hy, linked_getElem vq.descs _ _ i x y hla hx hy]
    · simp only [List.length_cons] at hnl
      have hil : i = ps.length := by omega
      subst hil
      have hxl : x = ps.getLastD a := by
        have := hxp.symm.trans hlastidx
        exact Option.some.inj this
      have hen2 : en = enl := Option.some.inj (hen.symm.trans henl)
      subst hxl hen2
      have hnl2 : ¬ (ps.length + 1 < (e :: es).length) := by
        simp only [List.length_cons]; omega
      simp only [hnl2, if_false]
      refine ⟨?_, fun h => h.elim⟩
      show Function.update d2 _ _ (ps.getLastD a) = _
      rw [Function.update_same, hd2last]
      simp only [write_flag_only]
  · intro x hx
    have hne : x ≠ ps.getLastD a := by
      intro h
      rw [h] at hx
      exact hx hlastmem
    show Function.update d2 _ _ x = _
    rw [Function.update_noteq hne, hout x hx]
  · show vq.num_free_descs - (e :: es).length + (e :: es).length = vq.num_free_descs
    simp only [List.length_cons]
    omega
  · show free_list (Function.update d2 _ _) (d2 (ps.getLastD a)).next
      (vq.num_free_descs - (e :: es).length) = post
    have hlp : Linked (Function.update d2 (ps.getLastD a)
        { d2 (ps.getLastD a) with
          next := 0, flags := (d2 (ps.getLastD a)).flags &&& 65534 })
        (d2 (ps.getLastD a)).next post := by
      rw [hd2last]
      refine linked_congr vq.descs _ post _ (fun x hx => ?_)
        (linked_tail vq.descs ps a a post hla)
      have hxn : x ∉ a :: ps := fun h => hdis h hx
      have hne : x ≠ ps.getLastD a := by
        intro h
        rw [h] at hxn
        exact hxn hlastmem
      rw [Function.update_noteq hne, hout x hxn]
    have := free_list_of_linked _ post _ hlp
    rw [hpostl] at this
    exact this
  · intro hlt
    simp only [List.length_cons] at hlt
    show _ = some (d2 (ps.getLastD a)).next
    rw [hd2last]
    obtain ⟨y, hy⟩ : ∃ y, (a :: ps ++ post)[ps.length + 1]? = some y := by
      have : ps.length + 1 < (a :: ps ++ post).length := by
        simp only [List.length_cons, List.length_append]; omega
      exact ⟨_, List.getElem?_eq_getElem this⟩
    have hxl : (a :: ps ++ post)[ps.length]? = some (ps.getLastD a) := by
      show ((a :: ps) ++ post)[ps.length]? = some (ps.getLastD a)
      rw [List.getElem?_append_left (by simp only [List.length_cons]; omega)]
      exact hlastidx
    have hnx := linked_getElem vq.descs _ _ ps.length _ y hla hxl hy
    have hidx : (e :: es).length = ps.length + 1 := by
      simp only [List.length_cons]; omega
    rw [hidx, hy, hnx]


theorem test_free_list_init :
    free_list (virtq_init_state 0 8).descs (virtq_init_state 0 8).free_head
      (virtq_init_state 0 8).num_free_descs = [0, 1, 2, 3, 4, 5, 6, 7] := by
  rfl

theorem push_builds_chain_witness :
    test_chain ≠ [] ∧ test_chain.length ≤ (virtq_init_state 0 8).num_free_descs ∧
    ∃ vq1, virtq_push (virtq_init_state 0 8) test_chain = Except.ok vq1 ∧
      vq1.descs 0 = ⟨0x2ffe00, 16, 1, 1⟩ ∧ vq1.descs 1 = ⟨0x300000, 512, 3, 2⟩ ∧
      vq1.descs 2 = ⟨0x2ffe10, 1, 2, 0⟩ ∧
      vq1.descs 3 = (virtq_init_state 0 8).descs 3 ∧
      vq1.num_free_descs + 3 = 8 ∧
      free_list vq1.descs vq1.free_head vq1.num_free_descs = [3, 4, 5, 6, 7] ∧
      vq1.free_head = 3 := by
  refine ⟨by decide, by decide, ?_⟩
  obtain ⟨vq1, hp, hent, hout, hnum, hfl, hfh⟩ :=
    push_builds_chain (virtq_init_state 0 8) test_chain (by decide) (by decide)
      (by rw [test_free_list_init]; decide)
      (by rw [test_free_list_init]; intro x hx; simp at hx; show x < 8; omega)
  rw [test_free_list_init] at hent hout hfl hfh
  refine ⟨vq1, hp, ?_, ?_, ?_, ?_, hnum, hfl, ?_⟩
  · exact (hent 0 0 ⟨0x2ffe00, 16, false⟩ rfl rfl).1
  · exact (hent 1 1 ⟨0x300000, 512, true⟩ rfl rfl).1
  · exact (hent 2 2 ⟨0x2ffe10, 1, true⟩ rfl rfl).1
  · exact hout 3 (by decide)
  · exact (Option.some.inj (hfh (by decide))).symm


/-! ### The avail ring across a push -/

theorem reclaim_one_avail (vq vq1 : virtio_virtq)
    (h : virtq_reclaim_one vq = Except.ok vq1) :
    vq1.avail_index = vq.avail_index ∧ vq1.avail_ring = vq.avail_ring ∧
      vq1.num_descs = vq.num_descs := by
  unfold virtq_reclaim_one at h
  split at h
  · cases h
  · simp only at h
    split at h
    · cases h
    · split at h
      · cases h
      · have e := Except.ok.inj h
        rw [← e]
        exact ⟨rfl, rfl, rfl⟩

theorem reclaim_avail : ∀ (fuel : Nat) (vq vq1 : virtio_virtq),
    virtq_reclaim fuel vq = Except.ok vq1 →
    vq1.avail_index = vq.avail_index ∧ vq1.avail_ring = vq.avail_ring ∧
      vq1.num_descs = vq.num_descs
  | 0, _, _, h => by cases h
  | fuel + 1, vq, vq1, h => by
    unfold virtq_reclaim at h
    split at h
    · cases h1 : virtq_reclaim_one vq with
      | error e => rw [h1] at h; cases h
      | ok vq2 =>
        rw [h1] at h
        obtain ⟨a, b, c⟩ := reclaim_one_avail vq vq2 h1
        obtain ⟨a1, b1, c1⟩ := reclaim_avail fuel vq2 vq1 h
        exact ⟨by rw [a1, a], by rw [b1, b], by rw [c1, c]⟩
    · have e := Except.ok.inj h
      rw [← e]
      exact ⟨rfl, rfl, rfl⟩

theorem push_avail (vq vq1 : virtio_virtq) (chain : List virtio_chain_entry)
    (h : virtq_push vq chain = Except.ok vq1) :
    ∃ vq0, (if chain.length > vq.num_free_descs then virtq_reclaim (INT_MAX + 2) vq
        else Except.ok vq) = Except.ok vq0 ∧
      vq1.avail_ring = Function.update vq0.avail_ring (vq0.avail_index % vq0.num_descs)
        (vq0.free_head % 65536) ∧
      vq1.avail_index = (vq0.avail_index + 1) % 65536 := by
  unfold virtq_push at h
  split at h
  · cases h
  · split at h
    · cases h
    · rename_i vq0 hvq0
      refine ⟨vq0, hvq0, ?_⟩
      split at h
      · cases h
      · split at h
        · cases h
        · have e := Except.ok.inj h
          rw [← e]
          exact ⟨rfl, rfl⟩

/-! ### C27: publication in the avail ring -/

/-- C27, counterexample.  In the queue of 8 descriptors after a push of three
descriptors, the completion of that chain and a second push, two descriptors
are free and `free_head` is 6.  The third push of three descriptors returns; it
first reclaims the completed chain, whose head 0 becomes `free_head`, and it
stores 0, not 6, in `avail.ring[2]`. -/
theorem push_publishes_head_counterexample :
    (pushed (device_complete (pushed (virtq_init_state 0 8) test_chain) 0 1)
      test_chain).free_head = 6 ∧
    (pushed (device_complete (pushed (virtq_init_state 0 8) test_chain) 0 1)
      test_chain).num_free_descs = 2 ∧
    (pushed (device_complete (pushed (virtq_init_state 0 8) test_chain) 0 1)
      test_chain).avail_index % 8 = 2 ∧
    ∃ vq1, virtq_push (pushed (device_complete (pushed (virtq_init_state 0 8) test_chain)
        0 1) test_chain) test_chain = Except.ok vq1 ∧
      vq1.avail_ring 2 = 0 ∧ vq1.descs 0 = ⟨0x2ffe00, 16, 1, 1⟩ := by
  refine ⟨by rfl, by rfl, by rfl, test_vq3, test_push_3, by rfl, by rfl⟩

/-- C27, amended.  A `virtq_push` that returns stores the head descriptor index
of the chain at `avail.ring[avail.index % N]`, with the value of `avail.index`
before the call, then increments `avail.index` by exactly 1 modulo 2^16, and
modifies no other slot of `avail.ring`.  The head descriptor index is the value
of `free_head` on entry when the chain fits (`n <= num_free_descs`); otherwise it
is the value of `free_head` after the reclaim loop that the push runs first. -/
theorem push_publishes_head (vq vq1 : virtio_virtq) (chain : List virtio_chain_entry)
    (h : virtq_push vq chain = Except.ok vq1) :
    vq1.avail_index = (vq.avail_index + 1) % 65536 ∧
    (∀ k, k ≠ vq.avail_index % vq.num_descs → vq1.avail_ring k = vq.avail_ring k) ∧
    (chain.length ≤ vq.num_free_descs →
      vq1.avail_ring (vq.avail_index % vq.num_descs) = vq.free_head % 65536) ∧
    (chain.length > vq.num_free_descs →
      ∃ vq0, virtq_reclaim (INT_MAX + 2) vq = Except.ok vq0 ∧
        vq1.avail_ring (vq.avail_index % vq.num_descs) = vq0.free_head % 65536) := by
  obtain ⟨vq0, h0, hr, hi⟩ := push_avail vq vq1 chain h
  by_cases hgt : chain.length > vq.num_free_descs
  · rw [if_pos hgt] at h0
    obtain ⟨a, b, c⟩ := reclaim_avail _ vq vq0 h0
    rw [a, b, c] at hr
    rw [a] at hi
    refine ⟨hi, ?_, fun hle => absurd hgt (by omega), fun _ => ⟨vq0, h0, ?_⟩⟩
    · intro k hk
      rw [hr, Function.update_noteq hk]
    · rw [hr, Function.update_same]
  · rw [if_neg hgt] at h0
    have e := Except.ok.inj h0
    rw [← e] at hr hi
    refine ⟨hi, ?_, fun _ => ?_, fun hlt => absurd hlt hgt⟩
    · intro k hk
      rw [hr, Function.update_noteq hk]
    · rw [hr, Function.update_same]

theorem push_publishes_head_witness :
    ∃ vq0, virtq_reclaim (INT_MAX + 2)
        (pushed (device_complete (pushed (virtq_init_state 0 8) test_chain) 0 1)
          test_chain) = Except.ok vq0 ∧
      test_vq3.avail_ring 2 = vq0.free_head % 65536 ∧ test_vq3.avail_index = 3 := by
  have h := push_publishes_head
    (pushed (device_complete (pushed (virtq_init_state 0 8) test_chain) 0 1) test_chain)
    test_vq3 test_chain test_push_3
  obtain ⟨vq0, h0, h1⟩ := h.2.2.2 (by decide)
  exact ⟨vq0, h0, h1, h.1⟩


/-! ### The reclaim loop on the completed chains -/

theorem length_flatten_reverse (L : List (List Nat)) :
    L.reverse.flatten.length = L.flatten.length := by
  induction L with
  | nil => rfl
  | cons c rest ih =>
    simp only [List.reverse_cons, List.flatten_append, List.flatten_cons, List.flatten_nil,
      List.append_nil, List.length_append, ih]
    omega

theorem reclaim_detail (N : Nat) (flight : List (List Nat)) :
    ∀ (done : List (List Nat)) (fuel : Nat) (vq : virtio_virtq) (fl : List Nat),
    VqInv N vq fl done flight → vq.last_used_index + done.length < 65536 →
    done.length < fuel →
    ∃ vq2, virtq_reclaim fuel vq = Except.ok vq2 ∧
      VqInv N vq2 (done.reverse.flatten ++ fl) [] flight ∧
      vq2.last_used_index = vq.last_used_index + done.length ∧
      vq2.used_index = vq.used_index
  | [], fuel, vq, fl, hinv, hw, hf => by
    obtain ⟨f, rfl⟩ : ∃ f, fuel = f + 1 := ⟨fuel - 1, by omega⟩
    have hu := hinv.used
    simp only [List.length_nil, Nat.add_zero] at hu hw
    have hne : ¬ (vq.last_used_index ≠ vq.used_index) := by
      rw [hu, Nat.mod_eq_of_lt hw]
      exact fun h => h rfl
    unfold virtq_reclaim
    rw [if_neg hne]
    exact ⟨vq, rfl, hinv, rfl, rfl⟩
  | c :: rest, fuel, vq, fl, hinv, hw, hf => by
    obtain ⟨f, rfl⟩ : ∃ f, fuel = f + 1 := ⟨fuel - 1, by omega⟩
    have hu := hinv.used
    simp only [List.length_cons] at hu hw hf
    have hne : vq.last_used_index ≠ vq.used_index := by
      rw [hu, Nat.mod_eq_of_lt hw]
      omega
    obtain ⟨vq2, h2, hinv2, _, _, _⟩ := reclaim_one_inv N vq fl c rest flight hinv hw
    obtain ⟨hl, hui⟩ := reclaim_one_index vq vq2 h2
    obtain ⟨vq3, h3, hinv3, hl3, hu3⟩ := reclaim_detail N flight rest f vq2 (c ++ fl) hinv2
      (by rw [hl]; omega) (by omega)
    unfold virtq_reclaim
    rw [if_pos hne, h2]
    refine ⟨vq3, h3, ?_, ?_, ?_⟩
    · have e : (c :: rest).reverse.flatten ++ fl = rest.reverse.flatten ++ (c ++ fl) := by
        simp only [List.reverse_cons, List.flatten_append, List.flatten_cons,
          List.flatten_nil, List.append_nil, List.append_assoc]
      rw [e]
      exact hinv3
    · rw [hl3, hl]
      simp only [List.length_cons]
      omega
    · rw [hu3, hui]


theorem push_counters (vq vq1 : virtio_virtq) (chain : List virtio_chain_entry)
    (h : virtq_push vq chain = Except.ok vq1) :
    ∃ vq0, (if chain.length > vq.num_free_descs then virtq_reclaim (INT_MAX + 2) vq
        else Except.ok vq) = Except.ok vq0 ∧
      vq1.last_used_index = vq0.last_used_index ∧
      vq1.num_free_descs + chain.length = vq0.num_free_descs ∧
      vq1.used_index = vq0.used_index ∧ vq1.used_ring = vq0.used_ring := by
  unfold virtq_push at h
  split at h
  · cases h
  · split at h
    · cases h
    · rename_i vq0 hvq0
      refine ⟨vq0, hvq0, ?_⟩
      split at h
      · cases h
      · rename_i hfit
        split at h
        · cases h
        · have e := Except.ok.inj h
          rw [← e]
          refine ⟨rfl, ?_, rfl, rfl⟩
          show vq0.num_free_descs - chain.length + chain.length = vq0.num_free_descs
          omega

theorem push_fit_counters (vq vq1 : virtio_virtq) (chain : List virtio_chain_entry)
    (hle : chain.length ≤ vq.num_free_descs) (h : virtq_push vq chain = Except.ok vq1) :
    vq1.last_used_index = vq.last_used_index ∧
      vq1.num_free_descs + chain.length = vq.num_free_descs ∧
      vq1.used_index = vq.used_index ∧ vq1.used_ring = vq.used_ring := by
  obtain ⟨vq0, h0, h1⟩ := push_counters vq vq1 chain h
  rw [if_neg (by omega)] at h0
  have e := Except.ok.inj h0
  rw [← e] at h1
  exact h1

/-! ### C22: descriptor exhaustion and reclaim -/

/-- C22: in every state that a virtqueue of `N` descriptors reaches from the
state `virtq_init` builds, with `done` the heads of the chains that are
completed and not yet reclaimed, and while `last_used_index` has not passed
65535: the used ring names the chains of `done` from `last_used_index` on.  A
`virtq_push` of `n >= 1` entries with `n <= num_free_descs` returns, reclaims
nothing (`last_used_index` stays) and takes `n` descriptors.  With
`n > num_free_descs` the reclaim loop returns: `last_used_index` has advanced by
one per chain of `done` and equals `used.index`, the descriptors of every chain
of `done` are back in front of the free list (the chain reclaimed last first),
and `num_free_descs` has grown by the lengths of these chains; then the push
halts with the fatal error exactly when `n` still exceeds `num_free_descs`, and
returns otherwise. -/
theorem push_reclaims_when_exhausted (N : Nat) (vq : virtio_virtq) (done flight : List Nat)
    (chain : List virtio_chain_entry) (h : Reach N vq done flight)
    (hw : vq.last_used_index + done.length < 65536) (h0 : chain ≠ []) :
    (∀ j, j < done.length →
      (vq.used_ring ((vq.last_used_index + j) % N)).id = done.getD j 0) ∧
    (chain.length ≤ vq.num_free_descs →
      ∃ vq1, virtq_push vq chain = Except.ok vq1 ∧
        vq1.last_used_index = vq.last_used_index ∧
        vq1.num_free_descs + chain.length = vq.num_free_descs) ∧
    (chain.length > vq.num_free_descs →
      ∃ vq2, virtq_reclaim (INT_MAX + 2) vq = Except.ok vq2 ∧
        vq2.last_used_index = vq.last_used_index + done.length ∧
        vq2.last_used_index = vq.used_index ∧
        free_list vq2.descs vq2.free_head vq2.num_free_descs =
          (done.map (chain_nodes vq.descs (N + 1))).reverse.flatten ++
            free_list vq.descs vq.free_head vq.num_free_descs ∧
        vq2.num_free_descs =
          vq.num_free_descs + ((done.map (chain_nodes vq.descs (N + 1))).map List.length).sum ∧
        (virtq_push vq chain = Except.error Halt.panic ↔
          chain.length > vq2.num_free_descs) ∧
        (chain.length ≤ vq2.num_free_descs →
          ∃ vq1, virtq_push vq chain = Except.ok vq1 ∧
            vq1.last_used_index = vq2.last_used_index ∧
            vq1.num_free_descs + chain.length = vq2.num_free_descs)) := by
  obtain ⟨fl, dn, fg, hinv, hd, hf⟩ := reach_inv N vq done flight h
  have hdl : dn.length = done.length := by rw [← hd, List.length_map]
  have hfree : free_list vq.descs vq.free_head vq.num_free_descs = fl := by
    rw [← hinv.len]
    exact free_list_of_linked _ fl _ hinv.linked
  have htot := (perm_range_facts _ _ hinv.perm).2.2
  have hnodes : ∀ c, c ∈ dn → chain_nodes vq.descs (N + 1) (c.headD 0) = c := by
    intro c hc
    have hc2 : c ∈ dn ++ fg := List.mem_append_left _ hc
    have hlen : c.length ≤ N + 1 := by
      have h1 := (List.sublist_flatten_of_mem hc2).length_le
      simp only [List.length_append] at htot
      omega
    exact chain_nodes_of_linked _ c (N + 1) (hinv.chains c hc2) hlen
  have hdone : done.map (chain_nodes vq.descs (N + 1)) = dn := by
    rw [← hd, List.map_map]
    conv_rhs => rw [← List.map_id dn]
    exact List.map_congr_left hnodes
  refine ⟨?_, ?_, ?_⟩
  · intro j hj
    have hr := hinv.ring (by rw [hdl]; exact hw) j (by rw [hdl]; exact hj)
    rw [hr, ← hd]
    have hj2 : j < dn.length := by rw [hdl]; exact hj
    rw [List.getD_eq_getElem _ _ hj2,
      List.getD_eq_getElem _ _ (by rw [List.length_map]; exact hj2), List.getElem_map]
  · intro hle
    obtain ⟨vq1, _, _, hp, _⟩ := push_free_inv N vq fl dn fg chain hinv hle h0
    obtain ⟨a, b, _⟩ := push_fit_counters vq vq1 chain hle hp
    exact ⟨vq1, hp, a, b⟩
  · intro hgt
    have hmax := hinv.hmax
    have hdle := vqinv_done_le N vq fl dn fg hinv
    obtain ⟨vq2, h2, hinv2, hl2, hu2⟩ := reclaim_detail N fg dn (INT_MAX + 2) vq fl hinv
      (by rw [hdl]; exact hw) (by unfold INT_MAX; omega)
    have hused : vq.used_index = vq.last_used_index + done.length := by
      rw [hinv.used, hdl, Nat.mod_eq_of_lt hw]
    have hfree2 : free_list vq2.descs vq2.free_head vq2.num_free_descs =
        dn.reverse.flatten ++ fl := by
      rw [← hinv2.len]
      exact free_list_of_linked _ _ _ hinv2.linked
    have hnum2 : vq2.num_free_descs = vq.num_free_descs + (dn.map List.length).sum := by
      rw [← hinv2.len, ← hinv.len, List.length_append, length_flatten_reverse,
        List.length_flatten]
      omega
    refine ⟨vq2, h2, by rw [hl2, hdl], by rw [hl2, hdl, hused], ?_, ?_, ?_, ?_⟩
    · rw [hfree2, hdone, hfree]
    · rw [hnum2, hdone]
    · constructor
      · intro hp
        by_contra hle
        obtain ⟨vq1, _, _, hp1, _⟩ :=
          push_free_inv N vq2 _ [] fg chain hinv2 (by omega) h0
        rw [push_of_reclaim vq vq2 chain hgt h2 (by omega), hp1] at hp
        cases hp
      · intro hlt
        exact push_reclaim_panic vq vq2 chain hgt h2 hlt
    · intro hle
      obtain ⟨vq1, _, _, hp1, _⟩ := push_free_inv N vq2 _ [] fg chain hinv2 hle h0
      obtain ⟨a, b, _⟩ := push_fit_counters vq2 vq1 chain hle hp1
      exact ⟨vq1, by rw [push_of_reclaim vq vq2 chain hgt h2 hle]; exact hp1, a, b⟩


theorem test_reach_2 :
    Reach 8 (pushed (device_complete (pushed (virtq_init_state 0 8) test_chain) 0 1)
      test_chain) [0] [3] := by
  have h0 : Reach 8 (virtq_init_state 0 8) [] [] := Reach.init 0 _ rfl
  have h1 : Reach 8 (pushed (virtq_init_state 0 8) test_chain) [] ([] ++ [0]) :=
    Reach.push _ _ [] [] test_chain h0 test_push_1
  have h2 : Reach 8 (device_complete (pushed (virtq_init_state 0 8) test_chain) 0 1)
      ([] ++ [0]) ([] ++ []) := Reach.complete _ [] [] [] 0 1 h1
  exact Reach.push _ _ [0] [] test_chain h2 test_push_2

theorem test_reclaimed_list :
    ([0].map (chain_nodes (pushed (device_complete (pushed (virtq_init_state 0 8) test_chain)
        0 1) test_chain).descs (8 + 1))).reverse.flatten ++
      free_list
        (pushed (device_complete (pushed (virtq_init_state 0 8) test_chain) 0 1)
          test_chain).descs
        (pushed (device_complete (pushed (virtq_init_state 0 8) test_chain) 0 1)
          test_chain).free_head
        (pushed (device_complete (pushed (virtq_init_state 0 8) test_chain) 0 1)
          test_chain).num_free_descs = [0, 1, 2, 6, 7] := by
  rfl

/-- C22: the statement applied to the queue of 8 descriptors after a push, the
completion of that chain and a second push: 2 descriptors are free, the third
push of 3 descriptors reclaims the chain with head 0 and returns. -/
theorem push_reclaims_when_exhausted_witness :
    ∃ vq2, virtq_reclaim (INT_MAX + 2)
        (pushed (device_complete (pushed (virtq_init_state 0 8) test_chain) 0 1)
          test_chain) = Except.ok vq2 ∧
      vq2.last_used_index = 1 ∧
      free_list vq2.descs vq2.free_head vq2.num_free_descs = [0, 1, 2, 6, 7] ∧
      ∃ vq1, virtq_push (pushed (device_complete (pushed (virtq_init_state 0 8) test_chain)
          0 1) test_chain) test_chain = Except.ok vq1 ∧
        vq1.last_used_index = vq2.last_used_index ∧
        vq1.num_free_descs + test_chain.length = vq2.num_free_descs := by
  have h := push_reclaims_when_exhausted 8
    (pushed (device_complete (pushed (virtq_init_state 0 8) test_chain) 0 1) test_chain)
    [0] [3] test_chain test_reach_2 (by decide) (by decide)
  obtain ⟨vq2, h2, hl, _, hfl, hnum, _, hpush⟩ := h.2.2 (by decide)
  rw [test_reclaimed_list] at hfl
  have hn5 : vq2.num_free_descs = 5 := by
    rw [hnum]
    rfl
  refine ⟨vq2, h2, hl, hfl, hpush ?_⟩
  rw [hn5]
  decide


/-! ### PCI discovery -/

theorem read16_vendor (cfg : Nat → Nat) (bus slot : Nat) :
    read16 cfg bus slot PCI_CONFIG_VENDOR_ID = Except.ok (vendor_id cfg bus slot) := by
  have h : cfg (pci_addr bus slot 0) % U32 % 65536 = cfg (pci_addr bus slot 0) % 65536 := by
    unfold U32; omega
  show Except.ok ((cfg (pci_addr bus slot 0) % U32 >>> 0) &&& 65535) = _
  rw [Nat.shiftRight_zero, show (65535 : Nat) = 2 ^ 16 - 1 from rfl,
    Nat.and_pow_two_sub_one_eq_mod]
  exact congrArg Except.ok h

theorem read16_device (cfg : Nat → Nat) (bus slot : Nat) :
    read16 cfg bus slot PCI_CONFIG_DEVICE_ID = Except.ok (device_id cfg bus slot) := by
  have h : cfg (pci_addr bus slot 0) % U32 / 2 ^ 16 % 2 ^ 16 =
      cfg (pci_addr bus slot 0) / 65536 % 65536 := by
    unfold U32; omega
  have e1 : (PCI_CONFIG_DEVICE_ID % 65536) &&& 0xfffc = 0 := by decide
  have e2 : ((PCI_CONFIG_DEVICE_ID % 65536) &&& 0x03) * 8 = 16 := by decide
  have e3 : (0 % 65536) &&& (4 - 1) = 0 := by decide
  unfold read16
  rw [e1, e2]
  unfold read32
  rw [if_pos e3]
  simp only
  rw [Nat.shiftRight_eq_div_pow, show (65535 : Nat) = 2 ^ 16 - 1 from rfl,
    Nat.and_pow_two_sub_one_eq_mod]
  exact congrArg Except.ok h


theorem pci_find_iff (cfg : Nat → Nat) (bus slot : Nat) :
    (¬ vendor_id cfg bus slot = 0xffff ∧
      pci_find (vendor_id cfg bus slot) (device_id cfg bus slot) = true) ↔
      is_virtio_blk cfg bus slot := by
  unfold pci_find is_virtio_blk
  simp only [Bool.and_eq_true, beq_iff_eq]
  constructor
  · exact fun h => h.2
  · intro h
    exact ⟨by rw [h.1]; decide, h⟩

theorem find_slots_step (cfg : Nat → Nat) (bus slot : Nat) (rest : List Nat) :
    pci_find_slots pci_find cfg bus (slot :: rest) =
      if is_virtio_blk cfg bus slot then Except.ok (some slot)
      else pci_find_slots pci_find cfg bus rest := by
  have hv := read16_vendor cfg bus slot
  have hd := read16_device cfg bus slot
  have hiff := pci_find_iff cfg bus slot
  show (match read16 cfg bus slot PCI_CONFIG_VENDOR_ID with
    | Except.error h => Except.error h
    | Except.ok vendor =>
      match read16 cfg bus slot PCI_CONFIG_DEVICE_ID with
      | Except.error h => Except.error h
      | Except.ok device =>
        if vendor = 0xffff then pci_find_slots pci_find cfg bus rest
        else if pci_find vendor device then Except.ok (some slot)
        else pci_find_slots pci_find cfg bus rest) = _
  rw [hv, hd]
  simp only
  by_cases hm : is_virtio_blk cfg bus slot
  · obtain ⟨h1, h2⟩ := hiff.mpr hm
    rw [if_pos hm, if_neg h1, if_pos h2]
  · rw [if_neg hm]
    by_cases h1 : vendor_id cfg bus slot = 0xffff
    · rw [if_pos h1]
    · rw [if_neg h1]
      have h2 : ¬ (pci_find (vendor_id cfg bus slot) (device_id cfg bus slot) = true) :=
        fun h2 => hm (hiff.mp ⟨h1, h2⟩)
      rw [if_neg h2]

theorem find_slots_char (cfg : Nat → Nat) (bus : Nat) : ∀ l : List Nat,
    (∃ s pre post, l = pre ++ s :: post ∧ is_virtio_blk cfg bus s ∧
        (∀ x, x ∈ pre → ¬ is_virtio_blk cfg bus x) ∧
        pci_find_slots pci_find cfg bus l = Except.ok (some s)) ∨
      ((∀ x, x ∈ l → ¬ is_virtio_blk cfg bus x) ∧
        pci_find_slots pci_find cfg bus l = Except.ok none)
  | [] => Or.inr ⟨fun _ hx => (by cases hx), rfl⟩
  | slot :: rest => by
    rw [find_slots_step]
    by_cases hm : is_virtio_blk cfg bus slot
    · rw [if_pos hm]
      exact Or.inl ⟨slot, [], rest, rfl, hm, fun _ hx => (by cases hx), rfl⟩
    · rw [if_neg hm]
      rcases find_slots_char cfg bus rest with ⟨s, pre, post, hl, hs, hpre, hr⟩ | ⟨hnone, hr⟩
      · refine Or.inl ⟨s, slot :: pre, post, by rw [hl]; rfl, hs, ?_, hr⟩
        intro x hx
        rcases List.mem_cons.mp hx with rfl | hx
        · exact hm
        · exact hpre x hx
      · refine Or.inr ⟨?_, hr⟩
        intro x hx
        rcases List.mem_cons.mp hx with rfl | hx
        · exact hm
        · exact hnone x hx

theorem range_split (n s : Nat) (pre post : List Nat)
    (h : List.range n = pre ++ s :: post) : pre = List.range s ∧ s < n := by
  have hlen : pre.length < n := by
    have := congrArg List.length h
    simp only [List.length_range, List.length_append, List.length_cons] at this
    omega
  have hs : (List.range n)[pre.length]? = some s := by
    rw [h, List.getElem?_append_right (Nat.le_refl _), Nat.sub_self]
    exact List.getElem?_cons_zero
  rw [List.getElem?_range hlen] at hs
  have hs2 : pre.length = s := Option.some.inj hs
  refine ⟨?_, by omega⟩
  have ht := congrArg (List.take pre.length) h
  rw [List.take_range, List.take_left, Nat.min_eq_left (by omega)] at ht
  rw [← ht, hs2]

theorem find_buses_step (cfg : Nat → Nat) (bus : Nat) (rest : List Nat) :
    pci_find_buses pci_find cfg (bus :: rest) =
      match pci_find_slots pci_find cfg bus (List.range 32) with
      | Except.error h => Except.error h
      | Except.ok (some slot) => Except.ok (some ⟨bus, slot⟩)
      | Except.ok none => pci_find_buses pci_find cfg rest := by
  rfl

theorem find_buses_char (cfg : Nat → Nat) : ∀ l : List Nat,
    (∃ b s pre post, l = pre ++ b :: post ∧ s < 32 ∧ is_virtio_blk cfg b s ∧
        (∀ x, x < s → ¬ is_virtio_blk cfg b x) ∧
        (∀ y, y ∈ pre → ∀ x, x < 32 → ¬ is_virtio_blk cfg y x) ∧
        pci_find_buses pci_find cfg l = Except.ok (some ⟨b, s⟩)) ∨
      ((∀ y, y ∈ l → ∀ x, x < 32 → ¬ is_virtio_blk cfg y x) ∧
        pci_find_buses pci_find cfg l = Except.ok none)
  | [] => Or.inr ⟨fun _ hy => (by cases hy), rfl⟩
  | bus :: rest => by
    rw [find_buses_step]
    rcases find_slots_char cfg bus (List.range 32) with
      ⟨s, pre, post, hl, hs, hpre, hr⟩ | ⟨hnone, hr⟩
    · rw [hr]
      obtain ⟨hp, hlt⟩ := range_split 32 s pre post hl
      refine Or.inl ⟨bus, s, [], rest, rfl, hlt, hs, ?_, fun _ hy => (by cases hy), rfl⟩
      intro x hx
      exact hpre x (by rw [hp]; exact List.mem_range.mpr hx)
    · rw [hr]
      have hbus : ∀ x, x < 32 → ¬ is_virtio_blk cfg bus x :=
        fun x hx => hnone x (List.mem_range.mpr hx)
      rcases find_buses_char cfg rest with
        ⟨b, s, pre, post, hl, hlt, hs, hfirst, hpre, hr2⟩ | ⟨hnone2, hr2⟩
      · refine Or.inl ⟨b, s, bus :: pre, post, by rw [hl]; rfl, hlt, hs, hfirst, ?_, hr2⟩
        intro y hy
        rcases List.mem_cons.mp hy with rfl | hy
        · exact hbus
        · exact hpre y hy
      · refine Or.inr ⟨?_, hr2⟩
        intro y hy
        rcases List.mem_cons.mp hy with rfl | hy
        · exact hbus
        · exact hnone2 y hy

theorem find_device_char (cfg : Nat → Nat) (dev : pci_device) :
    (∃ bus slot, bus < 256 ∧ slot < 32 ∧ is_virtio_blk cfg bus slot ∧
        (∀ b s, b < 256 → s < 32 → (b < bus ∨ (b = bus ∧ s < slot)) →
          ¬ is_virtio_blk cfg b s) ∧
        pci_find_device pci_find cfg dev = Except.ok (OK, ⟨bus, slot⟩)) ∨
      ((∀ b s, b < 256 → s < 32 → ¬ is_virtio_blk cfg b s) ∧
        pci_find_device pci_find cfg dev = Except.ok (ERR_NOT_FOUND, dev)) := by
  rcases find_buses_char cfg (List.range 256) with
    ⟨b, s, pre, post, hl, hlt, hs, hfirst, hpre, hr⟩ | ⟨hnone, hr⟩
  · obtain ⟨hp, hb⟩ := range_split 256 b pre post hl
    refine Or.inl ⟨b, s, hb, hlt, hs, ?_, ?_⟩
    · intro b2 s2 _ hs2 hlex
      rcases hlex with h | ⟨h, h2⟩
      · exact hpre b2 (by rw [hp]; exact List.mem_range.mpr h) s2 hs2
      · rw [h]
        exact hfirst s2 h2
    · unfold pci_find_device
      rw [hr]
  · refine Or.inr ⟨fun b s hb hs => hnone b (List.mem_range.mpr hb) s hs, ?_⟩
    unfold pci_find_device
    rw [hr]


theorem pci_addr_eq (bus slot : Nat) (hb : bus < 256) (hs : slot < 32) :
    pci_addr bus slot 0 = 0x80000000 + bus * 65536 + slot * 2048 := by
  unfold pci_addr
  rw [Nat.mod_eq_of_lt hb, Nat.mod_eq_of_lt (by omega : slot < 256), Nat.zero_mod,
    Nat.or_zero, Nat.shiftLeft_eq, Nat.shiftLeft_eq]
  have h1 : 2 ^ 31 * 1 + bus * 2 ^ 16 = 2 ^ 31 * 1 ||| bus * 2 ^ 16 :=
    Nat.mul_add_lt_is_or (by omega) 1
  have h2 : 2 ^ 16 * (2 ^ 15 + bus) + slot * 2 ^ 11 =
      2 ^ 16 * (2 ^ 15 + bus) ||| slot * 2 ^ 11 :=
    Nat.mul_add_lt_is_or (by omega) (2 ^ 15 + bus)
  have h3 : 2 ^ 16 * (2 ^ 15 + bus) = 2 ^ 31 * 1 + bus * 2 ^ 16 := by omega
  rw [Nat.mul_one] at h1 h3
  rw [← h1, ← h3, ← h2]
  unfold U32
  omega

/-! ### C24: PCI discovery -/

/-- C24: `pci_find_device` with the predicate `pci_find` of the virtio block
driver always returns.  For `bus < 256` and `slot < 32` the configuration
address is `0x80000000 + bus * 65536 + slot * 2048`, and the two `read16` calls
yield the low and the high half of the dword read there, the vendor ID and the
device ID.  Either there is a pair `(bus, slot)` with vendor ID `0x1af4` and
device ID `0x1001` such that no pair before it in lexicographic order (buses
`0..255`, slots `0..31`) matches, and the result is `OK` with that pair in
`*dev`; or no pair matches, the result is `ERR_NOT_FOUND` with `*dev` untouched,
and `disk_init` halts with the fatal error.  `ERR_NOT_FOUND` is returned if and
only if no pair matches. -/
theorem pci_discovery_first_match (hw : Hardware) (s : DriverState) (dev : pci_device) :
    (∀ bus slot, bus < 256 → slot < 32 →
      pci_addr bus slot 0 = 0x80000000 + bus * 65536 + slot * 2048) ∧
    (∀ bus slot,
      read16 hw.cfg bus slot PCI_CONFIG_VENDOR_ID = Except.ok (vendor_id hw.cfg bus slot) ∧
      read16 hw.cfg bus slot PCI_CONFIG_DEVICE_ID = Except.ok (device_id hw.cfg bus slot)) ∧
    ((∃ bus slot, bus < 256 ∧ slot < 32 ∧ is_virtio_blk hw.cfg bus slot ∧
        (∀ b sl, b < 256 → sl < 32 → (b < bus ∨ (b = bus ∧ sl < slot)) →
          ¬ is_virtio_blk hw.cfg b sl) ∧
        pci_find_device pci_find hw.cfg dev = Except.ok (OK, ⟨bus, slot⟩)) ∨
      ((∀ b sl, b < 256 → sl < 32 → ¬ is_virtio_blk hw.cfg b sl) ∧
        pci_find_device pci_find hw.cfg dev = Except.ok (ERR_NOT_FOUND, dev) ∧
        disk_init hw s = Except.error Halt.panic)) ∧
    ((∃ d, pci_find_device pci_find hw.cfg dev = Except.ok (ERR_NOT_FOUND, d)) ↔
      ∀ b sl, b < 256 → sl < 32 → ¬ is_virtio_blk hw.cfg b sl) := by
  have hpanic : (∀ b sl, b < 256 → sl < 32 → ¬ is_virtio_blk hw.cfg b sl) →
      disk_init hw s = Except.error Halt.panic := by
    intro hnone
    rcases find_device_char hw.cfg ⟨0, 0⟩ with ⟨b, sl, hb, hsl, hm, _⟩ | ⟨_, hr⟩
    · exact absurd hm (hnone b sl hb hsl)
    · have hne : ERR_NOT_FOUND ≠ OK := by decide
      unfold disk_init virtio_legacy_find_device
      rw [hr]
      simp only [if_pos hne]
  refine ⟨pci_addr_eq, fun bus slot => ⟨read16_vendor _ bus slot, read16_device _ bus slot⟩,
    ?_, ?_⟩
  · rcases find_device_char hw.cfg dev with h | ⟨hnone, hr⟩
    · exact Or.inl h
    · exact Or.inr ⟨hnone, hr, hpanic hnone⟩
  · constructor
    · rintro ⟨d, hd⟩
      rcases find_device_char hw.cfg dev with ⟨b, sl, _, _, _, _, hr⟩ | ⟨hnone, _⟩
      · rw [hr] at hd
        have h1 : OK = ERR_NOT_FOUND := congrArg Prod.fst (Except.ok.inj hd)
        exact absurd h1 (by decide)
      · exact hnone
    · intro hnone
      rcases find_device_char hw.cfg dev with ⟨b, sl, hb, hsl, hm, _⟩ | ⟨_, hr⟩
      · exact absurd hm (hnone b sl hb hsl)
      · exact ⟨dev, hr⟩

theorem test_find_device :
    pci_find_device pci_find test_hw.cfg ⟨0, 0⟩ = Except.ok (OK, ⟨0, 4⟩) := by
  rfl

/-- C24: the statement applied to a machine with one virtio block device, at
bus 0, slot 4: `pci_find_device` returns `OK` with that pair. -/
theorem pci_discovery_first_match_witness :
    is_virtio_blk test_hw.cfg 0 4 ∧
    pci_find_device pci_find test_hw.cfg ⟨7, 7⟩ = Except.ok (OK, ⟨0, 4⟩) ∧
    ¬ (∃ d, pci_find_device pci_find test_hw.cfg ⟨7, 7⟩ = Except.ok (ERR_NOT_FOUND, d)) := by
  have h := pci_discovery_first_match test_hw test_driver ⟨7, 7⟩
  have hm : is_virtio_blk test_hw.cfg 0 4 := by decide
  refine ⟨hm, by rfl, ?_⟩
  intro hd
  exact h.2.2.2.mp hd 0 4 (by decide) (by decide) hm


/-! ### The device status during the setup -/

set_option maxRecDepth 100000 in
theorem feat_ok_check_passes : ∀ x, x < 256 → (x ||| 82) % 256 % 256 &&& 82 ≠ 0 := by
  decide

theorem negotiate_zero (hw : Hardware) (s : DriverState) :
    negotiate_feature hw s 0 =
      Except.ok
        { s with
          status := (s.status % 256 ||| VIRTIO_STATUS_FEAT_OK) % 256
          writes := s.writes ++ [IoWrite.reg VIRTIO_REG_DRIVER_FEATS 0] ++
            [IoWrite.reg VIRTIO_REG_DEVICE_STATUS
              ((s.status % 256 ||| VIRTIO_STATUS_FEAT_OK) % 256)] } := by
  have h1 : read_device_features hw &&& (0 % U64) = 0 % U64 := by
    rw [Nat.zero_mod, Nat.and_zero]
  have h2 : (s.status % 256 ||| 82) % 256 % 256 &&& 82 ≠ 0 :=
    feat_ok_check_passes (s.status % 256) (Nat.mod_lt _ (by decide))
  unfold negotiate_feature
  rw [if_pos h1]
  simp only
  split
  · rfl
  · rename_i hc
    exact absurd h2 hc

theorem page_alloc_keeps (hw : Hardware) (s s1 : DriverState) (n p : Nat)
    (h : page_alloc hw s n = Except.ok (p, s1)) :
    s1.writes = s.writes ∧ s1.status = s.status := by
  unfold page_alloc at h
  split at h
  · cases h
  · split at h
    · cases h
    · split at h
      · cases h
      · have e := congrArg Prod.snd (Except.ok.inj h)
        simp only at e
        rw [← e]
        exact ⟨rfl, rfl⟩

theorem virtq_init_ports_writes (hw : Hardware) (s s1 : DriverState) (index : Nat)
    (vq : virtio_virtq) (h : virtq_init_ports hw s index = Except.ok (vq, s1)) :
    ∃ pfn, s1.writes = s.writes ++ [IoWrite.reg VIRTIO_REG_QUEUE_SELECT (index % 65536)] ++
        [IoWrite.reg VIRTIO_REG_QUEUE_ADDR_PFN pfn] ∧ s1.status = s.status := by
  unfold virtq_init_ports at h
  simp only at h
  split at h
  · split at h
    · cases h
    · rename_i base s2 hpa
      obtain ⟨hw2, hs2⟩ := page_alloc_keeps _ _ _ _ _ hpa
      split at h
      · have e := congrArg Prod.snd (Except.ok.inj h)
        simp only at e
        rw [← e]
        exact ⟨_, by show s2.writes ++ _ = _; rw [hw2], hs2⟩
      · cases h
  · cases h

theorem write32_writes (s s1 : DriverState) (bus slot offset value : Nat)
    (h : write32 s bus slot offset value = Except.ok s1) :
    s1 = { s with
      writes := s.writes ++ [IoWrite.config (pci_addr bus slot offset) (value % U32)] } := by
  unfold write32 at h
  split at h
  · exact (Except.ok.inj h).symm
  · cases h

theorem find_device_writes (hw : Hardware) (s s1 : DriverState) (err : Int)
    (h : virtio_legacy_find_device pci_find hw s = Except.ok (err, s1)) (hok : err = OK) :
    ∃ bus slot cmd, s1.writes = s.writes ++
        [IoWrite.config (pci_addr bus slot PCI_CONFIG_COMMAND) cmd,
          IoWrite.reg VIRTIO_REG_DEVICE_STATUS 0, IoWrite.reg VIRTIO_REG_DEVICE_STATUS 1,
          IoWrite.reg VIRTIO_REG_DEVICE_STATUS 3] ∧ s1.status = 3 := by
  unfold virtio_legacy_find_device at h
  split at h
  · cases h
  · rename_i e dev _
    split at h
    · rename_i hne
      have e1 := congrArg Prod.fst (Except.ok.inj h)
      simp only at e1
      exact absurd (e1.trans hok) hne
    · split at h
      · cases h
      · split at h
        · unfold pci_enable_bus_master at h
          split at h
          · cases h
          · rename_i s2 hbm
            split at hbm
            · cases hbm
            · rename_i _ v _
              have e2 := write32_writes _ _ _ _ _ _ hbm
              have e3 := congrArg Prod.snd (Except.ok.inj h)
              simp only at e3
              rw [← e3, e2]
              refine ⟨dev.bus, dev.slot, (v ||| 1 <<< 2) % U32, ?_, ?_⟩
              · simp [write_device_status, read_device_status, VIRTIO_STATUS_ACK,
                  VIRTIO_STATUS_DRIVER]
              · simp [write_device_status, read_device_status, VIRTIO_STATUS_ACK,
                  VIRTIO_STATUS_DRIVER]
        · cases h


set_option maxRecDepth 100000 in
theorem feat_ok_keeps_bit_8 : ∀ x, x < 256 →
    (x ||| 82) % 256 &&& DEVICE_STATUS_FEATURES_OK = x &&& DEVICE_STATUS_FEATURES_OK := by
  decide

/-! ### C28: the status bits that `negotiate_feature` sets -/

/-- C28, the behaviour of the code: `VIRTIO_STATUS_FEAT_OK` is 82, not 8.  With
the status `ACK | DRIVER` (3) before the call, `negotiate_feature(0)` returns
after writing 0 to the driver-features register and 83 = 3 | 82 to the status
register; 83 is not 3 | 8, the bit `DEVICE_STATUS_FEATURES_OK` (8) is clear in
it and the bit `DEVICE_STATUS_DEVICE_NEEDS_RESET` (64) is set.  For every status
before the call, `negotiate_feature(0)` returns (the check `(status & 82) != 0`
holds of every value the call writes) and leaves the bit 8 of the status as it
was. -/
theorem negotiate_feature_writes_82 (hw : Hardware) (s : DriverState) :
    negotiate_feature hw { s with status := VIRTIO_STATUS_ACK ||| VIRTIO_STATUS_DRIVER } 0 =
      Except.ok
        { s with
          status := 83
          writes := s.writes ++
            [IoWrite.reg VIRTIO_REG_DRIVER_FEATS 0, IoWrite.reg VIRTIO_REG_DEVICE_STATUS 83] } ∧
    (83 : Nat) ≠ 3 ||| DEVICE_STATUS_FEATURES_OK ∧
    83 &&& DEVICE_STATUS_FEATURES_OK = 0 ∧
    83 &&& DEVICE_STATUS_DEVICE_NEEDS_RESET = DEVICE_STATUS_DEVICE_NEEDS_RESET ∧
    (∃ s2, negotiate_feature hw s 0 = Except.ok s2 ∧
      s2.status = (s.status % 256 ||| VIRTIO_STATUS_FEAT_OK) % 256 ∧
      s2.status &&& DEVICE_STATUS_FEATURES_OK =
        s.status % 256 &&& DEVICE_STATUS_FEATURES_OK) := by
  refine ⟨?_, by decide, by decide, by decide, ?_⟩
  · rw [negotiate_zero]
    simp only [List.append_assoc, List.singleton_append]
    rfl
  · refine ⟨_, negotiate_zero hw s, rfl, ?_⟩
    exact feat_ok_keeps_bit_8 (s.status % 256) (Nat.mod_lt _ (by decide))

/-! ### C23: the device status when `disk_init` returns -/

/-- C23, the behaviour of the code: whenever `disk_init` returns, the writes it
has made are, in this order, the PCI command register (bus master), the status
values 0, 1 and 3, the driver features 0, the status 83, the queue selection 0
and the page frame number of the request queue.  The status written last is 83,
in which the bit `VIRTIO_STATUS_DRIVER_OK` (4) is clear, and no status write
follows the write of the page frame number: `disk_init` never calls
`activate`. -/
theorem disk_init_never_sets_driver_ok (hw : Hardware) (s s1 : DriverState)
    (vq : virtio_virtq) (h : disk_init hw s = Except.ok (vq, s1)) :
    ∃ bus slot cmd pfn, s1.writes = s.writes ++
        [IoWrite.config (pci_addr bus slot PCI_CONFIG_COMMAND) cmd,
          IoWrite.reg VIRTIO_REG_DEVICE_STATUS 0, IoWrite.reg VIRTIO_REG_DEVICE_STATUS 1,
          IoWrite.reg VIRTIO_REG_DEVICE_STATUS 3, IoWrite.reg VIRTIO_REG_DRIVER_FEATS 0,
          IoWrite.reg VIRTIO_REG_DEVICE_STATUS 83, IoWrite.reg VIRTIO_REG_QUEUE_SELECT 0,
          IoWrite.reg VIRTIO_REG_QUEUE_ADDR_PFN pfn] ∧
      s1.status = 83 ∧ s1.status &&& VIRTIO_STATUS_DRIVER_OK = 0 := by
  unfold disk_init at h
  split at h
  · cases h
  · rename_i err sa hfind
    split at h
    · cases h
    · rename_i hok
      have hok2 : err = OK := Classical.not_not.mp hok
      obtain ⟨bus, slot, cmd, hwa, hsa⟩ := find_device_writes hw s sa err hfind hok2
      rw [negotiate_zero] at h
      simp only at h
      split at h
      · cases h
      · rename_i vq3 s3 hvi
        obtain ⟨pfn, hw3, hs3⟩ := virtq_init_ports_writes _ _ _ _ _ hvi
        split at h
        · cases h
        · rename_i p4 s4 h4
          obtain ⟨hw4, hs4⟩ := page_alloc_keeps _ _ _ _ _ h4
          split at h
          · cases h
          · rename_i p5 s5 h5
            obtain ⟨hw5, hs5⟩ := page_alloc_keeps _ _ _ _ _ h5
            split at h
            · cases h
            · rename_i p6 s6 h6
              obtain ⟨hw6, hs6⟩ := page_alloc_keeps _ _ _ _ _ h6
              have e := congrArg Prod.snd (Except.ok.inj h)
              simp only at e
              rw [← e]
              have hst : s6.status = 83 := by
                rw [hs6, hs5, hs4, hs3]
                show (sa.status % 256 ||| VIRTIO_STATUS_FEAT_OK) % 256 = 83
                rw [hsa]
                rfl
              refine ⟨bus, slot, cmd, pfn, ?_, hst, by rw [hst]; rfl⟩
              rw [hw6, hw5, hw4, hw3]
              show sa.writes ++ [IoWrite.reg VIRTIO_REG_DRIVER_FEATS 0] ++
                [IoWrite.reg VIRTIO_REG_DEVICE_STATUS
                  ((sa.status % 256 ||| VIRTIO_STATUS_FEAT_OK) % 256)] ++
                [IoWrite.reg VIRTIO_REG_QUEUE_SELECT (VIRTIO_BLK_REQUEST_QUEUE % 65536)] ++
                [IoWrite.reg VIRTIO_REG_QUEUE_ADDR_PFN pfn] = _
              rw [hwa, hsa]
              simp only [List.append_assoc, List.cons_append, List.nil_append]
              rfl

theorem test_disk_init :
    disk_init test_hw test_driver =
      Except.ok (virtq_init_state 0 128,
        { port_base := 0xc000, status := 83, queue_select := 0,
          current := 0xffff800000305000,
          writes := [IoWrite.config (pci_addr 0 4 PCI_CONFIG_COMMAND) 0x00100007,
            IoWrite.reg VIRTIO_REG_DEVICE_STATUS 0, IoWrite.reg VIRTIO_REG_DEVICE_STATUS 1,
            IoWrite.reg VIRTIO_REG_DEVICE_STATUS 3, IoWrite.reg VIRTIO_REG_DRIVER_FEATS 0,
            IoWrite.reg VIRTIO_REG_DEVICE_STATUS 83, IoWrite.reg VIRTIO_REG_QUEUE_SELECT 0,
            IoWrite.reg VIRTIO_REG_QUEUE_ADDR_PFN 0x300] }) := by
  rfl

/-- C23: the statement applied to a machine with one virtio block device and a
request queue of 128 descriptors, on which `disk_init` returns. -/
theorem disk_init_never_sets_driver_ok_witness :
    ∃ s1, disk_init test_hw test_driver = Except.ok (virtq_init_state 0 128, s1) ∧
      s1.status = 83 ∧ s1.status &&& VIRTIO_STATUS_DRIVER_OK = 0 ∧
      IoWrite.reg VIRTIO_REG_DEVICE_STATUS (83 ||| VIRTIO_STATUS_DRIVER_OK) ∉ s1.writes := by
  refine ⟨_, test_disk_init, ?_⟩
  obtain ⟨_, _, _, _, _, h1, h2⟩ :=
    disk_init_never_sets_driver_ok test_hw test_driver _ _ test_disk_init
  exact ⟨h1, h2, by decide⟩


/-! ### C39: the root-directory walk terminates -/

theorem lookup_visits_le (buf : Mem) (read_len : Nat) (filename : List Nat) :
    ∀ (fuel off : Nat),
      ext4_get_inode_by_filename_visits buf read_len filename fuel off ≤ read_len - off := by
  intro fuel
  induction fuel with
  | zero => intro off; exact Nat.zero_le _
  | succ fuel ih =>
    intro off
    unfold ext4_get_inode_by_filename_visits
    by_cases hoff : off < read_len
    · rw [if_pos hoff]
      by_cases h0 : le16 buf (off + 4) = 0
      · rw [if_pos h0]; omega
      · rw [if_neg h0]
        simp only
        split
        · omega
        · have := ih (off + le16 buf (off + 4))
          omega
    · rw [if_neg hoff]; exact Nat.zero_le _

theorem lookup_loop_fuel (buf : Mem) (read_len : Nat) (filename : List Nat) :
    ∀ (fuel fuel2 off : Nat), read_len < off + fuel → read_len < off + fuel2 →
      0 < fuel → 0 < fuel2 →
      ext4_get_inode_by_filename_loop buf read_len filename fuel off =
        ext4_get_inode_by_filename_loop buf read_len filename fuel2 off := by
  intro fuel
  induction fuel with
  | zero => intro _ _ _ _ h; omega
  | succ fuel ih =>
    intro fuel2 off h1 h2 _ hp2
    obtain ⟨f2, rfl⟩ : ∃ f2, fuel2 = f2 + 1 := ⟨fuel2 - 1, by omega⟩
    by_cases hoff : off < read_len
    · by_cases h0 : dirent_entry_len buf off = 0
      · rw [lookup_loop_zero_len _ _ _ _ _ hoff h0, lookup_loop_zero_len _ _ _ _ _ hoff h0]
      · by_cases hn : cstr (dirent_name buf off) = cstr filename
        · rw [lookup_loop_found _ _ _ _ _ hoff h0 hn, lookup_loop_found _ _ _ _ _ hoff h0 hn]
        · rw [lookup_loop_step _ _ _ _ _ hoff h0 hn, lookup_loop_step _ _ _ _ _ hoff h0 hn]
          exact ih f2 _ (by omega) (by omega) (by omega) (by omega)
    · rw [lookup_loop_end _ _ _ _ _ hoff, lookup_loop_end _ _ _ _ _ hoff]

/-- C39: for every content `buf` of the directory buffer, every `read_len` and
every file name, the walk of `ext4_get_inode_by_filename` ends.  At an offset
`off < read_len` a step halts on the assertion (`entry_len = 0`), or returns the
inode of a match, or goes on at `off + entry_len` with `entry_len >= 1`, which
is larger than `off`; at `off >= read_len` the loop is left (and the function
halts with "not found").  So the walk from offset 0 never runs out of its
`read_len + 1` steps, more steps change nothing, and it visits at most
`read_len` records. -/
theorem root_walk_terminates (buf : Mem) (read_len : Nat) (filename : List Nat) :
    (∀ fuel off, off < read_len →
      (dirent_entry_len buf off = 0 ∧
        ext4_get_inode_by_filename_loop buf read_len filename (fuel + 1) off =
          Except.error Halt.assertion) ∨
      (dirent_entry_len buf off ≠ 0 ∧ cstr (dirent_name buf off) = cstr filename ∧
        ext4_get_inode_by_filename_loop buf read_len filename (fuel + 1) off =
          Except.ok (dirent_inode buf off)) ∨
      (1 ≤ dirent_entry_len buf off ∧ off < off + dirent_entry_len buf off ∧
        ext4_get_inode_by_filename_loop buf read_len filename (fuel + 1) off =
          ext4_get_inode_by_filename_loop buf read_len filename fuel
            (off + dirent_entry_len buf off))) ∧
    (∀ fuel off, ¬ off < read_len →
      ext4_get_inode_by_filename_loop buf read_len filename (fuel + 1) off =
        Except.error Halt.panic) ∧
    ext4_get_inode_by_filename_loop buf read_len filename (read_len + 1) 0 ≠
      Except.error Halt.hang ∧
    (∀ fuel, read_len < fuel →
      ext4_get_inode_by_filename_loop buf read_len filename fuel 0 =
        ext4_get_inode_by_filename_loop buf read_len filename (read_len + 1) 0) ∧
    (∀ fuel, ext4_get_inode_by_filename_visits buf read_len filename fuel 0 ≤ read_len) := by
  refine ⟨?_, fun fuel off hoff => lookup_loop_end _ _ _ _ _ hoff,
    lookup_loop_no_hang buf read_len filename _ 0 (by omega) (by omega), ?_, ?_⟩
  · intro fuel off hoff
    by_cases h0 : dirent_entry_len buf off = 0
    · exact Or.inl ⟨h0, lookup_loop_zero_len _ _ _ _ _ hoff h0⟩
    · by_cases hn : cstr (dirent_name buf off) = cstr filename
      · exact Or.inr (Or.inl ⟨h0, hn, lookup_loop_found _ _ _ _ _ hoff h0 hn⟩)
      · exact Or.inr (Or.inr ⟨by omega, by omega, lookup_loop_step _ _ _ _ _ hoff h0 hn⟩)
  · intro fuel hf
    exact lookup_loop_fuel buf read_len filename fuel (read_len + 1) 0 (by omega) (by omega)
      (by omega) (by omega)
  · intro fuel
    exact lookup_visits_le buf read_len filename fuel 0

/-- C39: the statement applied to the root directory of the test image, whose
4096 bytes hold the three records `.`, `..` and `dump.bin`: the walk for
`dump.bin` visits 3 records and returns inode 12. -/
theorem root_walk_terminates_witness :
    ext4_get_inode_by_filename_visits
        (root_dir test_fs (test_image extents_100_8) zero_uninit).1.buf 4096 dump_bin 4097 0
        = 3 ∧
    ext4_get_inode_by_filename_loop
        (root_dir test_fs (test_image extents_100_8) zero_uninit).1.buf 4096 dump_bin 5000 0
        = Except.ok 12 ∧
    ext4_get_inode_by_filename_loop
        (root_dir test_fs (test_image extents_100_8) zero_uninit).1.buf 4096 dump_bin
        (4096 + 1) 0 ≠ Except.error Halt.hang := by
  have h := root_walk_terminates
    (root_dir test_fs (test_image extents_100_8) zero_uninit).1.buf 4096 dump_bin
  refine ⟨by decide!, ?_, h.2.2.1⟩
  rw [h.2.2.2.1 5000 (by decide)]
  rfl


/-! ### C35: the returned length and the sector list -/

theorem fs_init_sectors (d : Disk) (stack : Mem) (fs : Fs)
    (h : fs_init d stack = Except.ok fs) :
    fs.sectors_per_block * SECTOR_SIZE = fs.bytes_per_block ∧ fs.bytes_per_block < U32 ∧
      1024 ≤ fs.bytes_per_block := by
  unfold fs_init at h
  cases hp : (locate_linux_partition d stack).result with
  | error e => rw [hp] at h; cases h
  | ok part_lba =>
    rw [hp] at h
    simp only at h
    split at h
    · cases h
    · split at h
      · cases h
      · split at h
        · cases h
        · rename_i _ hk _
          have hfs := Except.ok.inj h
          rw [← hfs]
          simp only
          generalize le32 (disk_read_sectors d ((part_lba + SUPERBLOCK_SECTOR_BASE) % U64)
            stack 0 1) 24 = k at hk
          have hk2 : k ≤ 20 := Nat.le_of_not_lt hk
          interval_cases k <;> decide

theorem total_bytes_eq_sum (l : List sector_list_entry) :
    total_bytes l = SECTOR_SIZE * (l.map fun e => e.num_sectors).sum := by
  induction l with
  | nil => rfl
  | cons e rest ih =>
    rw [total_bytes_cons, ih]
    simp only [List.map_cons, List.sum_cons]
    rw [Nat.mul_add, Nat.mul_comm]

theorem block_entries_getElem (fs : Fs) (b k i : Nat) (en : sector_list_entry)
    (h : (block_entries fs b k)[i]? = some en) :
    i < k ∧ en = ⟨block_lba fs (b + i), fs.sectors_per_block⟩ := by
  have hi : i < k := by
    have := (List.getElem?_eq_some.mp h).1
    rw [block_entries_length] at this
    exact this
  refine ⟨hi, ?_⟩
  have h2 := block_entries_getD fs b k i hi
  rw [List.getD_eq_getElem?_getD, h] at h2
  exact h2

/-- C35: after `fs_init`, for every call `fs_read(filename, buf, len,
sector_list)` that returns, with the entries `app` the call has appended to the
list: the returned byte count is 512 times the sum of their `num_sectors`, it
is `bytes_per_block` times their number, every entry covers `bytes_per_block`
bytes, and the sectors of entry `k` are those whose content is in `buf` from
offset `k * bytes_per_block` on. -/
theorem fs_read_length_matches_list (d : Disk) (stack : Mem) (fs : Fs) (u : Uninit)
    (filename : List Nat) (buf : Mem) (len : Nat) (l0 : List sector_list_entry)
    (c : ReadCursor) (n : Nat)
    (hfs : fs_init d stack = Except.ok fs) (hlen : len < U64)
    (hres : fs_read fs d u filename buf len (some l0) = Except.ok (c, n)) :
    ∃ app, c.list = some (l0 ++ app) ∧
      n = SECTOR_SIZE * (app.map fun e => e.num_sectors).sum ∧
      n = app.length * fs.bytes_per_block ∧
      ∀ k en, app[k]? = some en →
        en.num_sectors * SECTOR_SIZE = fs.bytes_per_block ∧
        ∀ j, j < en.num_sectors * SECTOR_SIZE →
          c.buf (k * fs.bytes_per_block + j) = d (en.lba * SECTOR_SIZE + j) := by
  obtain ⟨hb, hsz⟩ := fs_init_block_size d stack fs hfs
  obtain ⟨hsec, _, _⟩ := fs_init_sectors d stack fs hfs
  unfold fs_read at hres
  cases hl : ext4_get_inode_by_filename fs d u filename with
  | error e => rw [hl] at hres; cases hres
  | ok ino =>
    rw [hl] at hres
    simp only at hres
    obtain ⟨block, q, _, hn, hall⟩ :=
      read_inode_data_char fs d u ino buf 0 len (some l0) c n hb hsz hlen hres
    have hc := hall buf
    rw [hres] at hc
    have hc1 := congrArg Prod.fst (Except.ok.inj hc)
    simp only at hc1
    refine ⟨block_entries fs block q, by rw [hc1]; rfl, ?_, ?_, ?_⟩
    · rw [← total_bytes_eq_sum, total_bytes_block_entries, hsec, hn]
    · rw [block_entries_length, hn]
    · intro k en hk
      obtain ⟨hkq, rfl⟩ := block_entries_getElem fs block q k en hk
      refine ⟨hsec, ?_⟩
      intro j hj
      rw [hsec] at hj
      rw [hc1]
      have hlt : k * fs.bytes_per_block + j < q * fs.bytes_per_block := by
        have : (k + 1) * fs.bytes_per_block ≤ q * fs.bytes_per_block :=
          Nat.mul_le_mul_right _ hkq
        rw [Nat.add_mul, Nat.one_mul] at this
        omega
      have hcond : 0 ≤ k * fs.bytes_per_block + j ∧
          k * fs.bytes_per_block + j < 0 + q * fs.bytes_per_block := by omega
      have hdiv : (k * fs.bytes_per_block + j - 0) / fs.bytes_per_block = k := by
        rw [Nat.sub_zero, Nat.add_comm, Nat.add_mul_div_right _ _ hb,
          Nat.div_eq_of_lt hj, Nat.zero_add]
      have hmod : (k * fs.bytes_per_block + j - 0) % fs.bytes_per_block = j := by
        rw [Nat.sub_zero, Nat.add_comm, Nat.add_mul_mod_self_right, Nat.mod_eq_of_lt hj]
      show read_blocks_mem fs d block q 0 buf (k * fs.bytes_per_block + j) = _
      simp only [read_blocks_mem, hcond, and_self, if_true, hdiv, hmod]

theorem test_fs_read_64k :
    ∃ m, fs_read test_fs test_gpt_image zero_uninit dump_bin (fun _ => 0) (64 * 1024)
        (some []) =
      Except.ok (⟨m, 65536, 0, some (block_entries test_fs 100 16)⟩, 65536) := by
  obtain ⟨m, hm⟩ := fs_read_spec test_fs test_gpt_image zero_uninit dump_bin (fun _ => 0)
    (64 * 1024) [] 12 _ test_lookup_gpt test_inode_gpt
    (by rw [test_fields_gpt.1]; decide) test_fields_gpt.2.1
    (by rw [test_fields_gpt.2.2.1]; decide) (by decide)
    (by rw [test_fields_gpt.2.2.2]; decide) (by decide)
  refine ⟨m, ?_⟩
  rw [hm]
  rfl

/-- C35: the statement applied to the test disk and the 64 KiB capacity of
`main`: the call appends 16 entries of 8 sectors and returns 65536. -/
theorem fs_read_length_matches_list_witness :
    ∃ c app, fs_read test_fs test_gpt_image zero_uninit dump_bin (fun _ => 0) (64 * 1024)
        (some []) = Except.ok (c, 65536) ∧
      c.list = some ([] ++ app) ∧
      65536 = SECTOR_SIZE * (app.map fun e => e.num_sectors).sum ∧
      65536 = app.length * test_fs.bytes_per_block := by
  obtain ⟨m, hm⟩ := test_fs_read_64k
  obtain ⟨app, h1, h2, h3, _⟩ := fs_read_length_matches_list test_gpt_image (fun _ => 0)
    test_fs zero_uninit dump_bin (fun _ => 0) (64 * 1024) [] _ 65536 test_fs_init_ok
    (by decide) hm
  exact ⟨_, app, hm, h1, h2, h3⟩


/-! ### C34: the staging capacity caps the dump -/

theorem flatten_block_data (buf : List Nat) (S : Nat) : ∀ q : Nat,
    ((List.range q).map fun j => (buf.drop (j * S)).take S).flatten = buf.take (q * S)
  | 0 => by simp
  | q + 1 => by
    rw [List.range_succ, List.map_append, List.flatten_append, flatten_block_data buf S q,
      Nat.add_mul, Nat.one_mul, List.take_add]
    simp

theorem writer_block_entries_all (fs : Fs) (b q : Nat) (dump : List Nat) (dump_len : Nat)
    (hlen : dump_len < U64)
    (hfit : q * (fs.sectors_per_block * SECTOR_SIZE) ≤ dump_len) :
    disk_write_to_sector_list (block_entries fs b q) dump dump_len =
      ⟨(List.range q).map fun j =>
          ⟨block_lba fs (b + j),
           (dump.drop (j * (fs.sectors_per_block * SECTOR_SIZE))).take
             (fs.sectors_per_block * SECTOR_SIZE),
           fs.sectors_per_block⟩,
        Exit.returned⟩ := by
  have h := writer_full_runs (block_entries fs b q) [] dump dump_len hlen
    (by rw [total_bytes_block_entries]; exact hfit)
  rw [List.append_nil, writer_nil, full_run_writes_block_entries] at h
  simp only [List.append_nil] at h
  exact h

/-- C34: after `fs_init`, whenever the call `fs_read(path, staging, 64 KiB,
list)` of `main` returns, the sector list covers at most 65536 bytes, and for
every dump with `dump_len > 65536` the writer returns normally: it writes every
entry of the list once, at its `lba` with its `num_sectors`, and the bytes it
writes are, in order, the first `total_bytes list <= 65536` bytes of the dump.
No dump byte at an offset from 65536 on is written. -/
theorem staging_capacity_caps_dump (d : Disk) (stack : Mem) (fs : Fs) (u : Uninit)
    (staging : Mem) (path dump : List Nat) (dump_len : Nat) (c : ReadCursor) (n : Nat)
    (hfs : fs_init d stack = Except.ok fs)
    (hres : fs_read fs d u path staging (64 * 1024) (some []) = Except.ok (c, n))
    (hbig : 65536 < dump_len) (hlen : dump_len < U64) :
    total_bytes (c.list.getD []) ≤ 65536 ∧
    ∃ t, main_after_init fs d u staging path dump dump_len = Except.ok t ∧
      t.exit = Exit.returned ∧
      write_pairs t = list_pairs (c.list.getD []) ∧
      (t.writes.map fun w => w.data).flatten = dump.take (total_bytes (c.list.getD [])) := by
  obtain ⟨hb, hsz⟩ := fs_init_block_size d stack fs hfs
  obtain ⟨hsec, _, _⟩ := fs_init_sectors d stack fs hfs
  have hres0 := hres
  unfold fs_read at hres
  cases hl : ext4_get_inode_by_filename fs d u path with
  | error e => rw [hl] at hres; cases hres
  | ok ino =>
    rw [hl] at hres
    simp only at hres
    obtain ⟨block, q, hq, _, hall⟩ :=
      read_inode_data_char fs d u ino staging 0 (64 * 1024) (some []) c n hb hsz
        (by decide) hres
    have hc := hall staging
    rw [hres] at hc
    have hc1 := congrArg Prod.fst (Except.ok.inj hc)
    simp only at hc1
    have hlist : c.list.getD [] = block_entries fs block q := by
      rw [hc1]
      rfl
    have htot : total_bytes (block_entries fs block q) = q * fs.bytes_per_block := by
      rw [total_bytes_block_entries, hsec]
    rw [hlist, htot]
    refine ⟨by omega, ?_⟩
    have hw := writer_block_entries_all fs block q dump dump_len hlen
      (by rw [hsec]; omega)
    refine ⟨⟨(List.range q).map fun j =>
        ⟨block_lba fs (block + j),
         (dump.drop (j * (fs.sectors_per_block * SECTOR_SIZE))).take
           (fs.sectors_per_block * SECTOR_SIZE),
         fs.sectors_per_block⟩, Exit.returned⟩, ?_, rfl, ?_, ?_⟩
    · unfold main_after_init
      rw [hres0]
      simp only
      rw [hlist, hw]
    · simp only [write_pairs, list_pairs, block_entries, List.map_map]
      rfl
    · simp only [List.map_map]
      have := flatten_block_data dump (fs.sectors_per_block * SECTOR_SIZE) q
      rw [hsec] at this ⊢
      exact this

/-- C34: the statement applied to the test disk, whose file `dump.bin` takes
the whole capacity, and a dump of 70000 bytes: 16 blocks are written. -/
theorem staging_capacity_caps_dump_witness :
    ∃ t, main_after_init test_fs test_gpt_image zero_uninit (fun _ => 0) dump_bin
        (List.replicate 70000 170) 70000 = Except.ok t ∧
      t.exit = Exit.returned ∧
      (t.writes.map fun w => w.data).flatten =
        (List.replicate 70000 170).take (total_bytes (block_entries test_fs 100 16)) := by
  obtain ⟨m, hm⟩ := test_fs_read_64k
  obtain ⟨_, t, h1, h2, _, h4⟩ := staging_capacity_caps_dump test_gpt_image (fun _ => 0)
    test_fs zero_uninit (fun _ => 0) dump_bin (List.replicate 70000 170) 70000 _ 65536
    test_fs_init_ok hm (by decide) (by decide)
  exact ⟨t, h1, h2, h4⟩


/-! ### C31: the location of an inode -/

/-- C31: with the state `fs_init` derives, for every inode number `I >= 2` whose
group descriptor `desc` has been read, and `0 < bytes_per_inode <=
bytes_per_block`: with `index_in_group = (I - 1) % inodes_per_group` and
`inodes_per_block = bytes_per_block / bytes_per_inode`, `ext4_read_inode`
returns, and byte `i < 128` of the inode record it copies is the byte at offset
`(index_in_group % inodes_per_block) * bytes_per_inode + i` of file-system block
`desc.inode_table + index_in_group / inodes_per_block`, as far as that offset
lies in the block; the record starts inside the block, and with
`128 <= bytes_per_inode` all of its 128 bytes lie inside the block. -/
theorem inode_location (d : Disk) (stack : Mem) (fs : Fs) (u : Uninit) (I : Nat)
    (desc : ext4_group_desc) (bb : Mem)
    (hfs : fs_init d stack = Except.ok fs) (hI : 2 ≤ I)
    (hg : ext4_read_group_desc_for_inode fs d u I = Except.ok (desc, bb))
    (h0 : 0 < fs.bytes_per_inode) (hle : fs.bytes_per_inode ≤ fs.bytes_per_block) :
    ∃ inode, ext4_read_inode fs d u I = Except.ok inode ∧
      (∀ i, i < 128 →
        (I - 1) % fs.inodes_per_group % (fs.bytes_per_block / fs.bytes_per_inode) *
            fs.bytes_per_inode + i < fs.bytes_per_block →
        inode i =
          d (block_lba fs (desc.inode_table +
                (I - 1) % fs.inodes_per_group / (fs.bytes_per_block / fs.bytes_per_inode)) *
              SECTOR_SIZE +
            ((I - 1) % fs.inodes_per_group % (fs.bytes_per_block / fs.bytes_per_inode) *
              fs.bytes_per_inode + i))) ∧
      (I - 1) % fs.inodes_per_group % (fs.bytes_per_block / fs.bytes_per_inode) *
          fs.bytes_per_inode + fs.bytes_per_inode ≤ fs.bytes_per_block ∧
      (128 ≤ fs.bytes_per_inode →
        (I - 1) % fs.inodes_per_group % (fs.bytes_per_block / fs.bytes_per_inode) *
          fs.bytes_per_inode + 128 ≤ fs.bytes_per_block) := by
  obtain ⟨_, hsz⟩ := fs_init_block_size d stack fs hfs
  have h1 : ¬ I < 2 := by omega
  have h2 : ¬ fs.bytes_per_inode = 0 := by omega
  have h3 : ¬ fs.bytes_per_block / fs.bytes_per_inode = 0 := by
    have := Nat.div_pos hle h0
    omega
  have hlt : (I - 1) % fs.inodes_per_group % (fs.bytes_per_block / fs.bytes_per_inode) <
      fs.bytes_per_block / fs.bytes_per_inode := Nat.mod_lt _ (Nat.pos_of_ne_zero h3)
  have hend : (I - 1) % fs.inodes_per_group % (fs.bytes_per_block / fs.bytes_per_inode) *
      fs.bytes_per_inode + fs.bytes_per_inode ≤ fs.bytes_per_block := by
    generalize (I - 1) % fs.inodes_per_group % (fs.bytes_per_block / fs.bytes_per_inode) = k
      at hlt
    have hle2 : (k + 1) * fs.bytes_per_inode ≤
        fs.bytes_per_block / fs.bytes_per_inode * fs.bytes_per_inode :=
      Nat.mul_le_mul_right _ hlt
    have := Nat.div_mul_le_self fs.bytes_per_block fs.bytes_per_inode
    rw [Nat.add_mul, Nat.one_mul] at hle2
    omega
  refine ⟨_, by unfold ext4_read_inode; simp only [h1, if_false, hg, h2, h3]; rfl, ?_, hend,
    fun h128 => by omega⟩
  intro i hi hin
  simp only [hi, if_true]
  exact read_block_at fs d _ bb hsz _ hin

theorem test_group_desc_12 :
    ∃ bb, ext4_read_group_desc_for_inode test_fs test_gpt_image zero_uninit 12 =
      Except.ok (⟨0, 0, 5, 0, 0, 0⟩, bb) :=
  ⟨_, rfl⟩

/-- C31: the statement applied to the test disk and inode 12 (`dump.bin`): the
record is at offset `11 * 256` of block 5, the inode table of group 0. -/
theorem inode_location_witness :
    ∃ inode, ext4_read_inode test_fs test_gpt_image zero_uninit 12 = Except.ok inode ∧
      (∀ i, i < 128 → inode i = test_gpt_image (2088 * 512 + (11 * 256 + i))) := by
  obtain ⟨bb, hbb⟩ := test_group_desc_12
  obtain ⟨inode, h1, h2, _, _⟩ := inode_location test_gpt_image (fun _ => 0) test_fs
    zero_uninit 12 _ bb test_fs_init_ok (by decide) hbb (by decide) (by decide)
  refine ⟨inode, h1, ?_⟩
  intro i hi
  have e1 : (12 - 1) % test_fs.inodes_per_group %
      (test_fs.bytes_per_block / test_fs.bytes_per_inode) * test_fs.bytes_per_inode
      = 11 * 256 := by decide
  have e2 : block_lba test_fs ((⟨0, 0, 5, 0, 0, 0⟩ : ext4_group_desc).inode_table +
      (12 - 1) % test_fs.inodes_per_group /
        (test_fs.bytes_per_block / test_fs.bytes_per_inode)) * SECTOR_SIZE = 2088 * 512 := by
    decide
  have h6 := h2 i hi (by rw [e1]; show 11 * 256 + i < 4096; omega)
  rw [e2, e1] at h6
  exact h6


/-! ### C33: the scratch buffer of the dump writer -/

theorem short_write_lengths_full_runs (pre rest : List sector_list_entry) (len : Nat)
    (hlen : len < U64) (hfit : total_bytes pre ≤ len) :
    short_write_lengths (pre ++ rest) len =
      short_write_lengths rest (len - total_bytes pre) := by
  induction pre generalizing len with
  | nil => simp [total_bytes_nil]
  | cons e pre ih =>
    rw [total_bytes_cons] at hfit
    have hmod : e.num_sectors * SECTOR_SIZE % U64 = e.num_sectors * SECTOR_SIZE :=
      Nat.mod_eq_of_lt (by omega)
    have hnot : ¬ len < e.num_sectors * SECTOR_SIZE % U64 := by omega
    rw [List.cons_append]
    show (if len < e.num_sectors * SECTOR_SIZE % U64 then _ else _) = _
    rw [if_neg hnot, hmod, ih _ (by omega) (by omega), total_bytes_cons]
    congr 1
    omega

/-- C33, the behaviour of the code: for the sector lists that `fs_read`
produces (one entry of `sectors_per_block` sectors per block, `q` entries within
the 64 KiB capacity) and every dump length that ends inside entry
`dump_len / S`, with `S = sectors_per_block * 512`, more than 512 bytes into it:
the run writes the blocks before that entry and takes the short-write branch
with `len = dump_len % S > 512`.  `memcpy(tmp, buf, len)` then copies more than
the 512 bytes of `tmp`, and the length `512 - len` of the `memset` wraps around
to `2^64 - (len - 512)`. -/
theorem scratch_buffer_overrun (fs : Fs) (b q : Nat) (dump : List Nat) (dump_len : Nat)
    (hpos : 0 < fs.sectors_per_block * SECTOR_SIZE)
    (hq : q * (fs.sectors_per_block * SECTOR_SIZE) ≤ 65536)
    (hk : dump_len / (fs.sectors_per_block * SECTOR_SIZE) < q)
    (htail : SECTOR_SIZE < dump_len % (fs.sectors_per_block * SECTOR_SIZE)) :
    short_write_lengths (block_entries fs b q) dump_len =
      some (dump_len % (fs.sectors_per_block * SECTOR_SIZE),
        U64 - (dump_len % (fs.sectors_per_block * SECTOR_SIZE) - SECTOR_SIZE)) ∧
    disk_write_to_sector_list (block_entries fs b q) dump dump_len =
      ⟨(List.range (dump_len / (fs.sectors_per_block * SECTOR_SIZE))).map (fun j =>
          ⟨block_lba fs (b + j),
           (dump.drop (j * (fs.sectors_per_block * SECTOR_SIZE))).take
             (fs.sectors_per_block * SECTOR_SIZE),
           fs.sectors_per_block⟩),
       Exit.fault⟩ := by
  have hdm := Nat.div_add_mod dump_len (fs.sectors_per_block * SECTOR_SIZE)
  have hml := Nat.mod_lt dump_len hpos
  rw [Nat.mul_comm] at hdm
  obtain ⟨r, hr⟩ : ∃ r, q = dump_len / (fs.sectors_per_block * SECTOR_SIZE) + (r + 1) :=
    ⟨q - dump_len / (fs.sectors_per_block * SECTOR_SIZE) - 1, by omega⟩
  have hle : (dump_len / (fs.sectors_per_block * SECTOR_SIZE) + 1) *
      (fs.sectors_per_block * SECTOR_SIZE) ≤ q * (fs.sectors_per_block * SECTOR_SIZE) :=
    Nat.mul_le_mul_right _ (by omega)
  rw [Nat.succ_mul] at hle
  have hB64 : fs.sectors_per_block * SECTOR_SIZE < U64 := by unfold U64; omega
  have hL64 : dump_len < U64 := by unfold U64; omega
  have hrest : dump_len -
      dump_len / (fs.sectors_per_block * SECTOR_SIZE) *
        (fs.sectors_per_block * SECTOR_SIZE) =
      dump_len % (fs.sectors_per_block * SECTOR_SIZE) := by omega
  have hshort : dump_len % (fs.sectors_per_block * SECTOR_SIZE) <
      fs.sectors_per_block * SECTOR_SIZE % U64 := by
    rw [Nat.mod_eq_of_lt hB64]; exact hml
  have hwrap : (SECTOR_SIZE + U64 - dump_len % (fs.sectors_per_block * SECTOR_SIZE)) % U64 =
      U64 - (dump_len % (fs.sectors_per_block * SECTOR_SIZE) - SECTOR_SIZE) := by
    have ht : dump_len % (fs.sectors_per_block * SECTOR_SIZE) < U64 := by omega
    generalize dump_len % (fs.sectors_per_block * SECTOR_SIZE) = t at htail ht
    generalize SECTOR_SIZE = s at htail
    unfold U64 at ht ⊢
    omega
  constructor
  · rw [hr, block_entries_add, block_entries_succ_left,
      short_write_lengths_full_runs _ _ dump_len hL64
        (by rw [total_bytes_block_entries]; omega),
      total_bytes_block_entries, hrest]
    show (if dump_len % (fs.sectors_per_block * SECTOR_SIZE) <
        fs.sectors_per_block * SECTOR_SIZE % U64 then _ else _) = _
    rw [if_pos hshort, hwrap]
  · rw [hr, block_entries_add, block_entries_succ_left,
      writer_full_runs _ _ dump dump_len hL64
        (by rw [total_bytes_block_entries]; omega),
      total_bytes_block_entries, hrest,
      writer_cons_fault _ _ _ _ (by exact hshort) (by exact htail),
      full_run_writes_block_entries]
    simp only [List.append_nil]

/-- C33 applied to the sector list of the test file (16 entries of 8 sectors
from block 100 on) and a dump of 5096 bytes: after the first block 1000 bytes
are left, and the short-write branch copies 1000 bytes into the 512-byte
buffer. -/
theorem scratch_buffer_overrun_witness :
    short_write_lengths (block_entries test_fs 100 16) 5096 =
      some (1000, 18446744073709551616 - 488) ∧
    disk_write_to_sector_list (block_entries test_fs 100 16) (List.replicate 5096 170) 5096 =
      ⟨[⟨2848, List.replicate 4096 170, 8⟩], Exit.fault⟩ := by
  have h := scratch_buffer_overrun test_fs 100 16 (List.replicate 5096 170) 5096
    (by decide!) (by decide!) (by decide!) (by decide!)
  refine ⟨h.1, ?_⟩
  rw [h.2]
  decide!


/-! ### C37: the divisors of the decoding -/

theorem test_fs_init_no_inodes_per_group :
    fs_init test_image_no_inodes_per_group (fun _ => 0) =
      Except.ok { test_fs with inodes_per_group := 0 } :=
  fs_init_eq_of_fields _ _ _ (by decide!)

theorem test_fs_init_no_bytes_per_inode :
    fs_init test_image_no_bytes_per_inode (fun _ => 0) =
      Except.ok { test_fs with bytes_per_inode := 0 } :=
  fs_init_eq_of_fields _ _ _ (by decide!)

theorem test_fs_init_large_inode :
    fs_init test_image_large_inode (fun _ => 0) =
      Except.ok { test_fs with bytes_per_inode := 8192 } :=
  fs_init_eq_of_fields _ _ _ (by decide!)

/-- C37, the behaviour of the code on four superblocks that pass the magic
check.  With `blocks_per_group = 0`, `fs_init` divides by zero in
`(blocks_count - 1) / blocks_per_group`.  With `inodes_per_group = 0`, `fs_init`
returns and `ext4_read_group_desc_for_inode` divides by zero for inode 2, the
root directory.  With `bytes_per_inode = 0` (revision 1), and with
`bytes_per_inode = 8192 > bytes_per_block`, which makes `inodes_per_block` 0,
`fs_init` returns and `ext4_read_inode` divides by zero for inode 2. -/
theorem decoding_divides_by_zero :
    (le16 (superblock test_image_no_blocks_per_group 2048) 56 = EXT4_MAGIC ∧
      le32 (superblock test_image_no_blocks_per_group 2048) 32 = 0 ∧
      fs_init test_image_no_blocks_per_group (fun _ => 0) = Except.error Halt.fault) ∧
    (le16 (superblock test_image_no_inodes_per_group 2048) 56 = EXT4_MAGIC ∧
      fs_init test_image_no_inodes_per_group (fun _ => 0) =
        Except.ok { test_fs with inodes_per_group := 0 } ∧
      ext4_read_group_desc_for_inode { test_fs with inodes_per_group := 0 }
        test_image_no_inodes_per_group zero_uninit INODE_ROOT_DIR =
          Except.error Halt.fault ∧
      ext4_read_inode { test_fs with inodes_per_group := 0 }
        test_image_no_inodes_per_group zero_uninit INODE_ROOT_DIR =
          Except.error Halt.fault) ∧
    (le16 (superblock test_image_no_bytes_per_inode 2048) 56 = EXT4_MAGIC ∧
      fs_init test_image_no_bytes_per_inode (fun _ => 0) =
        Except.ok { test_fs with bytes_per_inode := 0 } ∧
      ext4_read_inode { test_fs with bytes_per_inode := 0 }
        test_image_no_bytes_per_inode zero_uninit INODE_ROOT_DIR =
          Except.error Halt.fault) ∧
    (le16 (superblock test_image_large_inode 2048) 56 = EXT4_MAGIC ∧
      fs_init test_image_large_inode (fun _ => 0) =
        Except.ok { test_fs with bytes_per_inode := 8192 } ∧
      test_fs.bytes_per_block / 8192 = 0 ∧
      ext4_read_inode { test_fs with bytes_per_inode := 8192 }
        test_image_large_inode zero_uninit INODE_ROOT_DIR =
          Except.error Halt.fault) := by
  refine ⟨⟨by decide!, by decide!, by rfl⟩,
    ⟨by decide!, test_fs_init_no_inodes_per_group, by rfl, by rfl⟩,
    ⟨by decide!, test_fs_init_no_bytes_per_inode, by rfl⟩,
    ⟨by decide!, test_fs_init_large_inode, by decide, by rfl⟩⟩


/-! ### C38: the extent entries that are decoded -/

theorem test_lookup_five :
    ext4_get_inode_by_filename test_fs (test_image extents_five) zero_uninit dump_bin =
      Except.ok 12 := by
  rfl

theorem test_read_five :
    ∃ m, fs_read test_fs (test_image extents_five) zero_uninit dump_bin (fun _ => 0)
        (64 * 1024) (some []) =
      Except.ok (⟨m, 65536, 0, some (block_entries test_fs 300 16)⟩, 65536) :=
  ⟨_, rfl⟩


theorem test_read_seven_zero :
    ∃ m, fs_read test_fs (test_image extents_seven) zero_uninit dump_bin (fun _ => 0)
        (64 * 1024) (some []) =
      Except.ok (⟨m, 0, 65536, some []⟩, 0) :=
  ⟨_, rfl⟩

theorem test_read_seven_stale :
    ∃ m, fs_read test_fs (test_image extents_seven) stale_uninit dump_bin (fun _ => 0)
        (64 * 1024) (some []) =
      Except.ok (⟨m, 65536, 0,
        some (block_entries test_fs (2313 * 4294967296 + 0x09090909) 16)⟩, 65536) :=
  ⟨_, rfl⟩

/-- C38, the behaviour of the code.  The loop of `ext4_read_inode_data` runs
over `i < entries_count` with no bound: entry `i` is read at byte offset
`52 + 12 * i` of the inode, and the 60-byte `i_block` area ends at offset 100,
where entry 4 starts.  For the test file whose extent header says
`entries_count = 5` and whose entries 0 to 3 are empty, the code decodes entry
4 from the inode fields behind `i_block` as the extent `(start 300, count 1)`
and `fs_read` lists the blocks from 300 on.  With `entries_count = 7`, entry 6
lies across the end of the 128-byte `struct ext4_inode`: what `fs_read` returns
then depends on the stack behind the local variable `inode`. -/
theorem extent_entries_beyond_i_block :
    (extent_entries_count (inode_mem test_fs (test_image extents_five) zero_uninit 12) = 5 ∧
      (∀ i, i < 4 →
        (extent_entry (inode_mem test_fs (test_image extents_five) zero_uninit 12)
          i).blocks_count = 0) ∧
      40 + 60 ≤ 52 + 12 * 4 ∧
      extent_entry (inode_mem test_fs (test_image extents_five) zero_uninit 12) 4 =
        ⟨0, 1, 0, 300⟩ ∧
      ∃ m, fs_read test_fs (test_image extents_five) zero_uninit dump_bin (fun _ => 0)
          (64 * 1024) (some []) =
        Except.ok (⟨m, 65536, 0, some (block_entries test_fs 300 16)⟩, 65536)) ∧
    (extent_entries_count (inode_mem test_fs (test_image extents_seven) zero_uninit 12) = 7 ∧
      128 < 52 + 12 * 6 + 12 ∧
      (∃ m, fs_read test_fs (test_image extents_seven) zero_uninit dump_bin (fun _ => 0)
          (64 * 1024) (some []) =
        Except.ok (⟨m, 0, 65536, some []⟩, 0)) ∧
      ∃ m, fs_read test_fs (test_image extents_seven) stale_uninit dump_bin (fun _ => 0)
          (64 * 1024) (some []) =
        Except.ok (⟨m, 65536, 0,
          some (block_entries test_fs (2313 * 4294967296 + 0x09090909) 16)⟩, 65536)) := by
  refine ⟨⟨by decide!, by decide!, by decide, by decide!, test_read_five⟩,
    ⟨by decide!, by decide, test_read_seven_zero, test_read_seven_stale⟩⟩


/-! ### C36: the used index after 65536 completions -/

theorem pushed_of_ok (vq vq1 : virtio_virtq) (chain : List virtio_chain_entry)
    (h : virtq_push vq chain = Except.ok vq1) : pushed vq chain = vq1 := by
  unfold pushed
  rw [h]

theorem cycle_first :
    ∃ vq1 fl1 c1, virtq_push (cycled 0) test_chain = Except.ok vq1 ∧
      VqInv 4 vq1 fl1 [] [c1] ∧ c1.length = 3 ∧
      c1.headD 0 = vq1.avail_ring ((cycled 0).avail_index % (cycled 0).num_descs) ∧
      vq1.last_used_index = 0 ∧ vq1.used_index = 0 := by
  have hinv : VqInv 4 (cycled 0) (List.range 4) [] [] := init_inv 0 4 _ rfl
  obtain ⟨vq1, pre, post, hp, _, hpl, hinv1, hhead⟩ :=
    push_free_inv 4 (cycled 0) _ [] [] test_chain hinv (by decide) (by decide)
  obtain ⟨hl, _, hu, _⟩ := push_fit_counters (cycled 0) vq1 test_chain (by decide) hp
  exact ⟨vq1, post, pre, hp, hinv1, hpl, hhead.symm, hl, hu⟩

theorem cycle_step (vq : virtio_virtq) (fl c : List Nat) (k : Nat)
    (hinv : VqInv 4 vq fl [c] []) (hc : c.length = 3)
    (hl : vq.last_used_index + 1 = k) (hk : k < 65536) :
    ∃ vq1 fl1 c1, virtq_push vq test_chain = Except.ok vq1 ∧
      VqInv 4 vq1 fl1 [] [c1] ∧ c1.length = 3 ∧
      c1.headD 0 = vq1.avail_ring (vq.avail_index % vq.num_descs) ∧
      vq1.last_used_index = k ∧ vq1.used_index = vq.used_index := by
  have htot := (perm_range_facts _ _ hinv.perm).2.2
  simp only [List.append_nil, List.flatten_cons, List.flatten_nil, List.length_append,
    hc] at htot
  have hfree : vq.num_free_descs = 1 := by rw [← hinv.len]; omega
  have hgt : test_chain.length > vq.num_free_descs := by rw [hfree]; decide
  obtain ⟨vq2, h2, hinv2, hl2, hu2⟩ := reclaim_detail 4 [] [c] (INT_MAX + 2) vq fl hinv
    (by simp only [List.length_singleton]; omega) (by unfold INT_MAX; simp)
  have hfree2 : vq2.num_free_descs = 4 := by
    rw [← hinv2.len]
    simp only [List.reverse_cons, List.reverse_nil, List.nil_append, List.flatten_cons,
      List.flatten_nil, List.append_nil, List.length_append, hc]
    omega
  have hle : test_chain.length ≤ vq2.num_free_descs := by rw [hfree2]; decide
  obtain ⟨vq1, pre, post, hp, _, hpl, hinv1, hhead⟩ :=
    push_free_inv 4 vq2 _ [] [] test_chain hinv2 hle (by decide)
  obtain ⟨hl1, _, hu1, _⟩ := push_fit_counters vq2 vq1 test_chain hle hp
  obtain ⟨ha, _, hn⟩ := reclaim_avail _ vq vq2 h2
  refine ⟨vq1, post, pre, ?_, hinv1, hpl, ?_, ?_, ?_⟩
  · rw [push_of_reclaim vq vq2 test_chain hgt h2 hle]
    exact hp
  · rw [← ha, ← hn]
    exact hhead.symm
  · rw [hl1, hl2]
    simp only [List.length_singleton]
    exact hl
  · rw [hu1, hu2]

theorem cycle_complete (vq vq1 : virtio_virtq) (fl1 c1 : List Nat)
    (hp : virtq_push vq test_chain = Except.ok vq1) (hinv : VqInv 4 vq1 fl1 [] [c1])
    (hhead : c1.headD 0 = vq1.avail_ring (vq.avail_index % vq.num_descs)) :
    VqInv 4 (device_complete (pushed vq test_chain)
        ((pushed vq test_chain).avail_ring (vq.avail_index % vq.num_descs)) 0)
      fl1 [c1] [] := by
  rw [pushed_of_ok vq vq1 test_chain hp, ← hhead]
  exact complete_inv 4 vq1 fl1 c1 [] [] [] 0 hinv

theorem cycled_inv : ∀ k, k < 65536 →
    ∃ fl c, VqInv 4 (cycled (k + 1)) fl [c] [] ∧ c.length = 3 ∧
      (cycled (k + 1)).last_used_index = k ∧
      (cycled (k + 1)).used_index = (k + 1) % 65536
  | 0, _ => by
    obtain ⟨vq1, fl1, c1, hp, hinv, hc, hhead, hl, hu⟩ := cycle_first
    refine ⟨fl1, c1, cycle_complete _ vq1 fl1 c1 hp hinv hhead, hc, ?_, ?_⟩
    · show (pushed (cycled 0) test_chain).last_used_index = 0
      rw [pushed_of_ok _ vq1 _ hp, hl]
    · show ((pushed (cycled 0) test_chain).used_index + 1) % 65536 = _
      rw [pushed_of_ok _ vq1 _ hp, hu]
  | k + 1, hk => by
    obtain ⟨fl, c, hinv, hc, hl, hu⟩ := cycled_inv k (by omega)
    obtain ⟨vq1, fl1, c1, hp, hinv1, hc1, hhead, hl1, hu1⟩ :=
      cycle_step (cycled (k + 1)) fl c (k + 1) hinv hc (by rw [hl]) (by omega)
    refine ⟨fl1, c1, cycle_complete _ vq1 fl1 c1 hp hinv1 hhead, hc1, ?_, ?_⟩
    · show (pushed (cycled (k + 1)) test_chain).last_used_index = k + 1
      rw [pushed_of_ok _ vq1 _ hp, hl1]
    · show ((pushed (cycled (k + 1)) test_chain).used_index + 1) % 65536 = _
      rw [pushed_of_ok _ vq1 _ hp, hu1, hu]
      omega

/-- C36, the behaviour of the code.  On a queue of 4 descriptors the driver
pushes a three-descriptor chain and the device completes it, 65536 times; each
of these pushes returns.  Then `last_used_index` is 65535 and the 16-bit
`used.index` has wrapped to 0, with one completed chain to reclaim.  The next
push has to reclaim (one descriptor is free); its loop
`while (last_used_index != used->index)` reclaims that chain, gets to
`last_used_index = 65536`, which is not 0, and goes on: the reclaim loop never
returns, whatever the number of steps it is given, and neither does the
push. -/
theorem reclaim_loop_stuck_after_wrap :
    (∀ k, k < 65536 → ∃ v, virtq_push (cycled k) test_chain = Except.ok v) ∧
    (cycled 65536).last_used_index = 65535 ∧ (cycled 65536).used_index = 0 ∧
    (cycled 65536).num_free_descs = 1 ∧ test_chain.length = 3 ∧
    (∀ fuel v, virtq_reclaim fuel (cycled 65536) ≠ Except.ok v) ∧
    (∀ v, virtq_push (cycled 65536) test_chain ≠ Except.ok v) := by
  obtain ⟨fl, c, hinv, hc, hl, hu⟩ := cycled_inv 65535 (by decide)
  have htot := (perm_range_facts _ _ hinv.perm).2.2
  simp only [List.append_nil, List.flatten_cons, List.flatten_nil, List.length_append,
    hc] at htot
  have hfree : (cycled 65536).num_free_descs = 1 := by rw [← hinv.len]; omega
  have hstuck : ∀ fuel v, virtq_reclaim fuel (cycled 65536) ≠ Except.ok v :=
    fun fuel v => reclaim_never_ok fuel (cycled 65536) (by rw [hl, hu]; decide) v
  refine ⟨?_, hl, hu, hfree, by decide, hstuck, ?_⟩
  · intro k hk
    cases k with
    | zero =>
      obtain ⟨vq1, _, _, hp, _⟩ := cycle_first
      exact ⟨vq1, hp⟩
    | succ k =>
      obtain ⟨fl2, c2, hinv2, hc2, hl2, _⟩ := cycled_inv k (by omega)
      obtain ⟨vq1, _, _, hp, _⟩ :=
        cycle_step (cycled (k + 1)) fl2 c2 (k + 1) hinv2 hc2 (by rw [hl2]) hk
      exact ⟨vq1, hp⟩
  · intro v hv
    have hgt : test_chain.length > (cycled 65536).num_free_descs := by rw [hfree]; decide
    cases hr : virtq_reclaim (INT_MAX + 2) (cycled 65536) with
    | error e =>
      rw [push_reclaim_error _ _ e hgt hr] at hv
      cases hv
    | ok vq2 => exact hstuck _ vq2 hr


/-! ### C40: the capacity of the chunk that `malloc` returns -/

/-- C40, the behaviour of the code.  After `malloc_init()` the heap is one free
chunk of capacity 65472.  `malloc(65216)` splits it and leaves the capacity
192.  `p = malloc(128)` finds bin 7 empty and takes that chunk whole, since
192 is not more than `128 + MALLOC_FRAME_LEN`: its capacity 192 is not a power
of two.  `free(p)` files the chunk by `get_bin_idx_from_size(192) = 8`, the bin
of the requests of 129 to 256 bytes.  `malloc(256)` then takes the head of bin
8 without looking at its capacity and returns `p` again: the chunk has the
capacity 192 for the size 256, so the bytes 192 to 255 written through the
pointer lie in the overflow redzone and behind it. -/
theorem malloc_returns_small_chunk :
    (malloc_init (fun _ => ⟨0, 0, 0, 0⟩) 0x100000).toOption.map
        (fun h => (h.bins 15, (h.chunks 0x100000).capacity)) = some (0x100000, 65472) ∧
    malloc_result (malloc 16 test_heap_0 65216) = some (0x100000 + 256 + 48, 65216, 65216) ∧
    malloc_result (malloc 16 test_heap_1 128) = some (0x100000 + 48, 192, 128) ∧
    get_bin_idx_from_size 192 = some 8 ∧
    (free test_heap_2 (0x100000 + 48)).toOption.map (fun h => h.bins 8) = some 0x100000 ∧
    get_bin_idx_from_size 256 = some 8 ∧
    malloc_result (malloc 16 test_heap_3 256) = some (0x100000 + 48, 192, 256) ∧
    192 < ALIGN_UP (max 256 1) 16 := by
  refine ⟨by decide!, by decide!, by decide!, by decide!, by decide!, by decide!, by decide!,
    by decide!⟩


/-! ### C32: the order of the stores of a submission -/

theorem replay_append (vq : virtio_virtq) (a b : List SubmitEvent) :
    replay vq (a ++ b) = replay (replay vq a) b := by
  unfold replay
  rw [List.foldl_append]

theorem replay_cons (vq : virtio_virtq) (e : SubmitEvent) (l : List SubmitEvent) :
    replay vq (e :: l) = replay (SubmitEvent.apply vq e) l := rfl

theorem replay_nil (vq : virtio_virtq) : replay vq [] = vq := rfl

theorem replay_shared : ∀ (l : List SubmitEvent) (a b : virtio_virtq),
    a.descs = b.descs → a.avail_ring = b.avail_ring → a.avail_index = b.avail_index →
    (replay a l).descs = (replay b l).descs ∧
      (replay a l).avail_ring = (replay b l).avail_ring ∧
      (replay a l).avail_index = (replay b l).avail_index
  | [], _, _, h1, h2, h3 => ⟨h1, h2, h3⟩
  | e :: l, a, b, h1, h2, h3 => by
    rw [replay_cons, replay_cons]
    apply replay_shared l
    · cases e <;> simp only [SubmitEvent.apply, h1]
    · cases e <;> simp only [SubmitEvent.apply, h2]
    · cases e <;> simp only [SubmitEvent.apply, h3]

theorem replay_desc_only : ∀ (l : List SubmitEvent) (vq : virtio_virtq),
    (∀ e, e ∈ l → e.is_desc = true) →
    (replay vq l).avail_ring = vq.avail_ring ∧ (replay vq l).avail_index = vq.avail_index
  | [], _, _ => ⟨rfl, rfl⟩
  | e :: l, vq, h => by
    rw [replay_cons]
    obtain ⟨h1, h2⟩ := replay_desc_only l (SubmitEvent.apply vq e)
      (fun x hx => h x (List.mem_cons_of_mem _ hx))
    have he := h e (List.mem_cons_self _ _)
    cases e with
    | store_desc i d => exact ⟨h1, h2⟩
    | store_avail_ring s v => cases he
    | store_avail_index v => cases he
    | mb => cases he
    | port_write r v => cases he

theorem reclaim_one_events_spec (vq vq1 : virtio_virtq)
    (h : virtq_reclaim_one vq = Except.ok vq1) :
    (replay vq (virtq_reclaim_one_events vq)).descs = vq1.descs ∧
      (∀ e, e ∈ virtq_reclaim_one_events vq → e.is_desc = true) := by
  unfold virtq_reclaim_one at h
  unfold virtq_reclaim_one_events
  split at h
  · cases h
  · simp only at h
    split at h
    · cases h
    · rename_i last nf hcl
      split at h
      · cases h
      · have e := Except.ok.inj h
        rw [← e]
        refine ⟨rfl, ?_⟩
        intro x hx
        rw [List.mem_singleton.mp hx]
        rfl

theorem reclaim_events_spec : ∀ (fuel : Nat) (vq vq1 : virtio_virtq),
    virtq_reclaim fuel vq = Except.ok vq1 →
    (replay vq (virtq_reclaim_events fuel vq)).descs = vq1.descs ∧
      (∀ e, e ∈ virtq_reclaim_events fuel vq → e.is_desc = true)
  | 0, _, _, h => by cases h
  | fuel + 1, vq, vq1, h => by
    unfold virtq_reclaim at h
    unfold virtq_reclaim_events
    split at h
    · rename_i hne
      rw [if_pos hne]
      cases h1 : virtq_reclaim_one vq with
      | error e => rw [h1] at h; cases h
      | ok vq2 =>
        rw [h1] at h
        simp only at h ⊢
        obtain ⟨hd1, ha1⟩ := reclaim_one_events_spec vq vq2 h1
        obtain ⟨hd2, ha2⟩ := reclaim_events_spec fuel vq2 vq1 h
        obtain ⟨hr1, hi1⟩ := replay_desc_only _ vq ha1
        obtain ⟨hr0, hx0, hi0⟩ := reclaim_one_avail vq vq2 h1
        constructor
        · rw [replay_append, ← hd2]
          exact (replay_shared _ _ _ hd1 (by rw [hr1, hx0]) (by rw [hi1, hr0])).1
        · intro e he
          rcases List.mem_append.mp he with he | he
          · exact ha1 e he
          · exact ha2 e he
    · rename_i heq
      rw [if_neg heq]
      have e := Except.ok.inj h
      rw [← e]
      exact ⟨rfl, fun _ hx => by cases hx⟩

theorem fill_events_spec (N : Nat) : ∀ (chain : List virtio_chain_entry)
    (descs : Nat → virtq_desc) (di d0 : Nat) (descs2 : Nat → virtq_desc) (x y : Nat)
    (s : virtio_virtq),
    virtq_push_fill N chain descs di d0 = Except.ok (descs2, x, y) → s.descs = descs →
    (replay s (virtq_push_fill_events N chain descs di)).descs = descs2 ∧
      (∀ e, e ∈ virtq_push_fill_events N chain descs di → e.is_desc = true)
  | [], descs, di, d0, descs2, x, y, s, h, hs => by
    have e := congrArg Prod.fst (Except.ok.inj h)
    simp only at e
    rw [← e]
    exact ⟨hs, fun _ hx => by cases hx⟩
  | en :: rest, descs, di, d0, descs2, x, y, s, h, hs => by
    unfold virtq_push_fill at h
    unfold virtq_push_fill_events
    split at h
    · rename_i hlt
      rw [if_pos hlt]
      obtain ⟨h1, h2⟩ := fill_events_spec N rest _ _ _ descs2 x y
        (SubmitEvent.apply s (SubmitEvent.store_desc di
          ⟨en.addr, en.len,
            (if en.device_writable then VIRTQ_DESC_F_WRITE else 0) ||| VIRTQ_DESC_F_NEXT,
            (descs di).next⟩)) h (by simp only [SubmitEvent.apply, hs])
      refine ⟨by rw [replay_cons]; exact h1, ?_⟩
      intro e he
      rcases List.mem_cons.mp he with rfl | he
      · rfl
      · exact h2 e he
    · cases h


theorem push_unfold (vq vq1 : virtio_virtq) (chain : List virtio_chain_entry)
    (h : virtq_push vq chain = Except.ok vq1) :
    ∃ vq0 descs x desc, chain.length ≠ 0 ∧
      (if chain.length > vq.num_free_descs then virtq_reclaim (INT_MAX + 2) vq
        else Except.ok vq) = Except.ok vq0 ∧
      ¬ chain.length > vq0.num_free_descs ∧
      virtq_push_fill vq0.num_descs chain vq0.descs vq0.free_head vq0.free_head =
        Except.ok (descs, x, desc) ∧
      vq1.descs = Function.update descs desc
        { descs desc with next := 0, flags := (descs desc).flags &&& 65534 } ∧
      vq1.avail_ring = Function.update vq0.avail_ring (vq0.avail_index % vq0.num_descs)
        (vq0.free_head % 65536) ∧
      vq1.avail_index = (vq0.avail_index + 1) % 65536 := by
  unfold virtq_push at h
  split at h
  · cases h
  · rename_i h0
    split at h
    · cases h
    · rename_i vq0 hvq0
      split at h
      · cases h
      · rename_i hfit
        split at h
        · cases h
        · rename_i descs x desc hf
          have e := Except.ok.inj h
          rw [← e]
          exact ⟨vq0, descs, x, desc, h0, hvq0, hfit, hf, rfl, rfl, rfl⟩

theorem reclaim_keeps_index : ∀ (fuel : Nat) (vq vq1 : virtio_virtq),
    virtq_reclaim fuel vq = Except.ok vq1 → vq1.index = vq.index
  | 0, _, _, h => by cases h
  | fuel + 1, vq, vq1, h => by
    unfold virtq_reclaim at h
    split at h
    · cases h1 : virtq_reclaim_one vq with
      | error e => rw [h1] at h; cases h
      | ok vq2 =>
        rw [h1] at h
        have h2 := reclaim_keeps_index fuel vq2 vq1 h
        rw [h2]
        unfold virtq_reclaim_one at h1
        split at h1
        · cases h1
        · simp only at h1
          split at h1
          · cases h1
          · split at h1
            · cases h1
            · have e := Except.ok.inj h1
              rw [← e]
    · have e := Except.ok.inj h
      rw [← e]

theorem push_events_spec (vq vq1 : virtio_virtq) (chain : List virtio_chain_entry)
    (h : virtq_push vq chain = Except.ok vq1) :
    ∃ pre, (∀ e, e ∈ pre → e.is_desc = true) ∧
      virtq_push_events vq chain =
        Except.ok (pre ++
          [SubmitEvent.store_avail_ring (vq.avail_index % vq.num_descs)
              (vq1.avail_ring (vq.avail_index % vq.num_descs)),
            SubmitEvent.mb, SubmitEvent.store_avail_index vq1.avail_index]) ∧
      (replay vq pre).descs = vq1.descs ∧
      vq1.avail_ring = Function.update vq.avail_ring (vq.avail_index % vq.num_descs)
        (vq1.avail_ring (vq.avail_index % vq.num_descs)) := by
  obtain ⟨vq0, descs, x, desc, h0, hvq0, hfit, hf, hd, hr, hi⟩ := push_unfold vq vq1 chain h
  have hshared : vq0.avail_index = vq.avail_index ∧ vq0.avail_ring = vq.avail_ring ∧
      vq0.num_descs = vq.num_descs ∧
      (replay vq (if chain.length > vq.num_free_descs then
          virtq_reclaim_events (INT_MAX + 2) vq else [])).descs = vq0.descs ∧
      (∀ e, e ∈ (if chain.length > vq.num_free_descs then
          virtq_reclaim_events (INT_MAX + 2) vq else []) → e.is_desc = true) := by
    by_cases hgt : chain.length > vq.num_free_descs
    · rw [if_pos hgt] at hvq0
      rw [if_pos hgt]
      obtain ⟨a, b, c⟩ := reclaim_avail _ vq vq0 hvq0
      obtain ⟨d1, d2⟩ := reclaim_events_spec _ vq vq0 hvq0
      exact ⟨a, b, c, d1, d2⟩
    · rw [if_neg hgt] at hvq0
      rw [if_neg hgt]
      have e := Except.ok.inj hvq0
      rw [← e]
      exact ⟨rfl, rfl, rfl, rfl, fun _ hx => by cases hx⟩
  obtain ⟨ha, hb, hc, hrd, hra⟩ := hshared
  have hslot : vq1.avail_ring (vq.avail_index % vq.num_descs) = vq0.free_head % 65536 := by
    rw [hr, ha, hc, Function.update_same]
  obtain ⟨hfd, hfa⟩ := fill_events_spec vq0.num_descs chain vq0.descs vq0.free_head
    vq0.free_head descs x desc
    (replay vq (if chain.length > vq.num_free_descs then
      virtq_reclaim_events (INT_MAX + 2) vq else [])) hf hrd
  refine ⟨(if chain.length > vq.num_free_descs then virtq_reclaim_events (INT_MAX + 2) vq
      else []) ++ virtq_push_fill_events vq0.num_descs chain vq0.descs vq0.free_head ++
      [SubmitEvent.store_desc desc
        { descs desc with next := 0, flags := (descs desc).flags &&& 65534 }], ?_, ?_, ?_, ?_⟩
  · intro e he
    rcases List.mem_append.mp he with he | he
    · rcases List.mem_append.mp he with he | he
      · exact hra e he
      · exact hfa e he
    · rw [List.mem_singleton.mp he]
      rfl
  · unfold virtq_push_events
    rw [if_neg h0, hvq0]
    simp only
    rw [if_neg hfit, hf]
    simp only
    rw [hslot, hi, ha, hc]
    simp only [List.append_assoc, List.singleton_append]
  · rw [replay_append, replay_append, hd]
    show Function.update (replay (replay vq _) _).descs desc _ = _
    rw [hfd]
  · rw [hslot, hr, ha, hb, hc]

/-- C32: for every `virtq_push` that returns, the events of the submission
`virtq_push(virtq, chain, n); virtq_notify(virtq);` are, in the order of the
source statements: stores to the descriptor table (`pre`), the store of the
head index to `avail.ring[avail.index % num_descs]`, the fence `mb()`, the
store of the incremented `avail.index`, the fence `mb()`, and the write of the
queue index to the `QUEUE_NOTIFY` port.  The stores replayed on the shared
memory give the memory `virtq_push` leaves.  A device that looks at the shared
memory after any number `k` of these events sees either the old `avail.index`,
or the new one together with the ring slot and the whole descriptor table as
`virtq_push` leaves them. -/
theorem ring_published_before_index (vq vq1 : virtio_virtq)
    (chain : List virtio_chain_entry) (h : virtq_push vq chain = Except.ok vq1) :
    ∃ pre, (∀ e, e ∈ pre → e.is_desc = true) ∧
      submit_events vq chain =
        Except.ok (pre ++
          [SubmitEvent.store_avail_ring (vq.avail_index % vq.num_descs)
              (vq1.avail_ring (vq.avail_index % vq.num_descs)),
            SubmitEvent.mb, SubmitEvent.store_avail_index vq1.avail_index,
            SubmitEvent.mb,
            SubmitEvent.port_write VIRTIO_REG_QUEUE_NOTIFY (vq.index % 65536)]) ∧
      (∀ events, submit_events vq chain = Except.ok events →
        (replay vq events).descs = vq1.descs ∧
        (replay vq events).avail_ring = vq1.avail_ring ∧
        (replay vq events).avail_index = vq1.avail_index ∧
        ∀ k, (replay vq (events.take k)).avail_index = vq.avail_index ∨
          ((replay vq (events.take k)).avail_index = vq1.avail_index ∧
            (replay vq (events.take k)).avail_ring (vq.avail_index % vq.num_descs) =
              vq1.avail_ring (vq.avail_index % vq.num_descs) ∧
            (replay vq (events.take k)).avail_ring = vq1.avail_ring ∧
            (replay vq (events.take k)).descs = vq1.descs)) := by
  obtain ⟨pre, hpre, hev, hd, hring⟩ := push_events_spec vq vq1 chain h
  have hsub : submit_events vq chain =
      Except.ok (pre ++
        [SubmitEvent.store_avail_ring (vq.avail_index % vq.num_descs)
            (vq1.avail_ring (vq.avail_index % vq.num_descs)),
          SubmitEvent.mb, SubmitEvent.store_avail_index vq1.avail_index,
          SubmitEvent.mb,
          SubmitEvent.port_write VIRTIO_REG_QUEUE_NOTIFY (vq.index % 65536)]) := by
    unfold submit_events
    rw [hev]
    simp only [virtq_notify_events, List.append_assoc, List.cons_append, List.nil_append]
  obtain ⟨hpr, hpi⟩ := replay_desc_only pre vq hpre
  have hfull : ∀ t : List SubmitEvent, (∀ e, e ∈ t → e = SubmitEvent.mb ∨
        e = SubmitEvent.port_write VIRTIO_REG_QUEUE_NOTIFY (vq.index % 65536)) →
      (replay vq (pre ++
        ([SubmitEvent.store_avail_ring (vq.avail_index % vq.num_descs)
            (vq1.avail_ring (vq.avail_index % vq.num_descs)),
          SubmitEvent.mb, SubmitEvent.store_avail_index vq1.avail_index] ++ t))).descs
          = vq1.descs ∧
      (replay vq (pre ++
        ([SubmitEvent.store_avail_ring (vq.avail_index % vq.num_descs)
            (vq1.avail_ring (vq.avail_index % vq.num_descs)),
          SubmitEvent.mb, SubmitEvent.store_avail_index vq1.avail_index] ++ t))).avail_ring
          = vq1.avail_ring ∧
      (replay vq (pre ++
        ([SubmitEvent.store_avail_ring (vq.avail_index % vq.num_descs)
            (vq1.avail_ring (vq.avail_index % vq.num_descs)),
          SubmitEvent.mb, SubmitEvent.store_avail_index vq1.avail_index] ++ t))).avail_index
          = vq1.avail_index := by
    intro t ht
    rw [replay_append, replay_append]
    have hstep : ∀ (t : List SubmitEvent) (s : virtio_virtq),
        (∀ e, e ∈ t → e = SubmitEvent.mb ∨
          e = SubmitEvent.port_write VIRTIO_REG_QUEUE_NOTIFY (vq.index % 65536)) →
        replay s t = s := by
      intro t
      induction t with
      | nil => intro s _; rfl
      | cons e t ih =>
        intro s hs
        rw [replay_cons]
        rcases hs e (List.mem_cons_self _ _) with rfl | rfl
        · exact ih s (fun x hx => hs x (List.mem_cons_of_mem _ hx))
        · exact ih s (fun x hx => hs x (List.mem_cons_of_mem _ hx))
    rw [hstep t _ ht]
    refine ⟨hd, ?_, rfl⟩
    show Function.update (replay vq pre).avail_ring _ _ = _
    rw [hpr, ← hring]
  refine ⟨pre, hpre, hsub, ?_⟩
  intro events hevents
  rw [hsub] at hevents
  have e := Except.ok.inj hevents
  rw [← e]
  have hall := hfull [SubmitEvent.mb,
    SubmitEvent.port_write VIRTIO_REG_QUEUE_NOTIFY (vq.index % 65536)]
    (fun x hx => by
      rcases List.mem_cons.mp hx with rfl | hx
      · exact Or.inl rfl
      · exact Or.inr (List.mem_singleton.mp hx))
  refine ⟨hall.1, hall.2.1, hall.2.2, ?_⟩
  intro k
  rw [List.take_append_eq_append_take]
  by_cases hk : k ≤ pre.length
  · left
    have hz : k - pre.length = 0 := by omega
    rw [hz, List.take_zero, List.append_nil]
    exact (replay_desc_only _ vq
      (fun x hx => hpre x (List.mem_of_mem_take hx))).2
  · have htake : pre.take k = pre := List.take_of_length_le (by omega)
    rw [htake]
    obtain ⟨j, hj⟩ : ∃ j, k - pre.length = j + 1 := ⟨k - pre.length - 1, by omega⟩
    rw [hj]
    rcases j with _ | _ | _ | _ | j
    · left
      rw [replay_append]
      exact hpi
    · left
      rw [replay_append]
      exact hpi
    · right
      have := hfull [] (fun _ hx => by cases hx)
      exact ⟨this.2.2, congrFun this.2.1 _, this.2.1, this.1⟩
    · right
      have := hfull [SubmitEvent.mb] (fun x hx => Or.inl (List.mem_singleton.mp hx))
      exact ⟨this.2.2, congrFun this.2.1 _, this.2.1, this.1⟩
    · right
      rw [List.take_of_length_le (by simp only [List.length_cons, List.length_nil]; omega)]
      exact ⟨hall.2.2, congrFun hall.2.1 _, hall.2.1, hall.1⟩


theorem test_submit_events :
    submit_events (virtq_init_state 0 8) test_chain =
      Except.ok
        [SubmitEvent.store_desc 0 ⟨0x2ffe00, 16, 1, 1⟩,
          SubmitEvent.store_desc 1 ⟨0x300000, 512, 3, 2⟩,
          SubmitEvent.store_desc 2 ⟨0x2ffe10, 1, 3, 3⟩,
          SubmitEvent.store_desc 2 ⟨0x2ffe10, 1, 2, 0⟩,
          SubmitEvent.store_avail_ring 0 0, SubmitEvent.mb, SubmitEvent.store_avail_index 1,
          SubmitEvent.mb, SubmitEvent.port_write VIRTIO_REG_QUEUE_NOTIFY 0] := by
  rfl

/-- C32: the statement applied to the first request on a queue of 8
descriptors: nine events, of which the fifth stores the head 0 in
`avail.ring[0]` and the seventh stores `avail.index = 1`.  After six events the
device still sees `avail.index = 0`; after seven it sees `avail.index = 1` with
the descriptor table complete. -/
theorem ring_published_before_index_witness :
    ((replay (virtq_init_state 0 8)
        (([SubmitEvent.store_desc 0 ⟨0x2ffe00, 16, 1, 1⟩,
          SubmitEvent.store_desc 1 ⟨0x300000, 512, 3, 2⟩,
          SubmitEvent.store_desc 2 ⟨0x2ffe10, 1, 3, 3⟩,
          SubmitEvent.store_desc 2 ⟨0x2ffe10, 1, 2, 0⟩,
          SubmitEvent.store_avail_ring 0 0, SubmitEvent.mb, SubmitEvent.store_avail_index 1,
          SubmitEvent.mb, SubmitEvent.port_write VIRTIO_REG_QUEUE_NOTIFY 0]).take 6)).avail_index
          = 0) ∧
      ((replay (virtq_init_state 0 8)
        (([SubmitEvent.store_desc 0 ⟨0x2ffe00, 16, 1, 1⟩,
          SubmitEvent.store_desc 1 ⟨0x300000, 512, 3, 2⟩,
          SubmitEvent.store_desc 2 ⟨0x2ffe10, 1, 3, 3⟩,
          SubmitEvent.store_desc 2 ⟨0x2ffe10, 1, 2, 0⟩,
          SubmitEvent.store_avail_ring 0 0, SubmitEvent.mb, SubmitEvent.store_avail_index 1,
          SubmitEvent.mb, SubmitEvent.port_write VIRTIO_REG_QUEUE_NOTIFY 0]).take 7)).descs
          = (pushed (virtq_init_state 0 8) test_chain).descs) := by
  obtain ⟨_, _, _, hobs⟩ := ring_published_before_index (virtq_init_state 0 8)
    (pushed (virtq_init_state 0 8) test_chain) test_chain test_push_1
  refine ⟨by rfl, ?_⟩
  rcases (hobs _ test_submit_events).2.2.2 7 with h | h
  · exact absurd h (by decide)
  · exact h.2.2.2

end Boot2dump
